import Mathlib

/-!
# The atom-mask parser of `ptrajmask.c`

A shallow embedding of the selection-expression engine
(`tokenize`, `torpn`, `eval`, `selectElemMask` and the primitive selectors)
together with theorems about it.

Conventions of the embedding.

* A C string is the `List Char` of its characters before the terminating NUL;
  "`*(p+1) == 0`" becomes "the rest of the list is empty".
* A mask is the `List Char` of its `atoms` entries, each `'T'` or `'F'`; a
  pointer that may be NULL is an `Option`.
* Routines that return a pointer and can go wrong return an `Outcome`:
  `ok` for a result, `fail` for the NULL that reports an error, `ub` when the C
  code dereferences NULL or reads outside an array.
* The fixed work buffers (`MAXSELE` characters, declared in a header) are
  unbounded lists: expressions are taken to fit the buffers.
* The numbers of a list are read by `sscanf` with `%d` into an `int` of 32 bits:
  the value stored is an `Int`, computed as the C library does (see `storeInt`); the
  numbers of atoms and residues of the universe are natural numbers.
* `ipres` holds the 1-based first-atom number of every residue and one final
  entry `atoms + 1`, as in an AMBER topology; the residue boundary
  offsets of the specification are `ipres[i] - 1`.
-/

namespace Ptrajmask

/-! ## Outcomes -/

/-- Result of a routine that returns a pointer: a value, the NULL that
reports an error, or undefined behaviour. -/
inductive Outcome (α : Type) where
  | ok (a : α)
  | fail
  | ub
  deriving DecidableEq, Repr

/-! ## Character classes (`ctype.h`, C locale) -/

/-- The terminating NUL character. -/
def NUL : Char := Char.ofNat 0

/-- The apostrophe character. -/
def APOS : Char := Char.ofNat 39

/-- C `isspace`: space, tab, newline, vertical tab, form feed, carriage return. -/
def isspace (c : Char) : Bool :=
  c == ' ' || c == Char.ofNat 9 || c == Char.ofNat 10 || c == Char.ofNat 11
    || c == Char.ofNat 12 || c == Char.ofNat 13

/-- C `isdigit`. -/
def isdigit (c : Char) : Bool := c.isDigit

/-- C `isalpha`. -/
def isalpha (c : Char) : Bool := c.isAlpha

/-- C `isalnum`. -/
def isalnum (c : Char) : Bool := c.isAlphanum

/-- C `strchr(s, c) != NULL` for a character `c` other than NUL. -/
def strchr (s : List Char) (c : Char) : Bool := s.contains c

/-- `isOperator`: one of `! & | < >`. -/
def isOperator (c : Char) : Bool := strchr ['!', '&', '|', '<', '>'] c

/-- `isOperand`: a character allowed inside an elementary selection. -/
def isOperand (c : Char) : Bool :=
  strchr ['*', '/', '%', '-', '?', ',', APOS, '.', '=', '+'] c || isalnum c

/-- `priority`: the operator priorities; `0` reports an unknown operator. -/
def priority (op : Char) : Nat :=
  if op = '>' then 6
  else if op = '<' then 6
  else if op = '!' then 5
  else if op = '&' then 4
  else if op = '|' then 3
  else if op = '(' then 2
  else if op = '_' then 1
  else 0

/-! ## The particle universe -/

/-- The arguments `atoms, residues, atomName, residueName, ipres` that every
routine receives from the caller. -/
structure Universe where
  atoms : Nat
  residues : Nat
  atomName : List (List Char)
  residueName : List (List Char)
  ipres : List Nat
  deriving Repr

/-- Well-formed universe: one name per atom and per residue, `residues + 1`
boundaries that start at atom 1, end at `atoms + 1` and never decrease. -/
def Universe.WF (U : Universe) : Prop :=
  U.atomName.length = U.atoms ∧ U.residueName.length = U.residues ∧
  U.ipres.length = U.residues + 1 ∧ U.ipres.getD 0 0 = 1 ∧
  U.ipres.getD U.residues 0 = U.atoms + 1 ∧
  ∀ i, i < U.residues → U.ipres.getD i 0 ≤ U.ipres.getD (i + 1) 0

/-! ## Name matching -/

/-- The main loop of `isNameMatch` while the pattern character is the literal
`d`: spaces of the candidate are skipped, the first other character must be
`d`, and `k` continues on the rest of the candidate with the rest of the
pattern. An exhausted candidate does not match. -/
def litLoop (d : Char) (k : List Char → Bool) : List Char → Bool
  | [] => false
  | c :: p => if c = ' ' then litLoop d k p else if c ≠ d then false else k p

/-- `isNameMatch` with the pattern as first argument (the recursion is on the
pattern). Pattern exhausted: the rest of the candidate must be spaces.
`'*'`: some suffix of the candidate, the empty one included, matches the rest
of the pattern. `'?'`: one candidate character, whatever it is, is consumed.
Any other character: `litLoop`. -/
def nameMatch : List Char → List Char → Bool
  | [], s1 => s1.all (fun c => c = ' ')
  | d :: r, s1 =>
    if d = '*' then s1.tails.any (nameMatch r)
    else if d = '?' then
      match s1 with
      | [] => false
      | _ :: p => nameMatch r p
    else litLoop d (nameMatch r) s1

/-- `isNameMatch(s1, s2)`: `s1` is the stored name, `s2` the pattern. -/
def isNameMatch (s1 s2 : List Char) : Bool := nameMatch s2 s1

/-- `isElemMatch(s1, s2)`: `1` match, `0` no match, `-1` symbol of length 0
or above 2. A stored name is a fixed-width field; positions past the
characters of the list read as NUL. -/
def isElemMatch (s1 s2 : List Char) : Int :=
  match s2.length with
  | 0 => -1
  | 2 =>
    if s1.getD 1 NUL ≠ s2.getD 1 NUL then 0
    else if s1.getD 0 NUL ≠ s2.getD 0 NUL then 0
    else if s1.getD 0 NUL ≠ s2.getD 0 NUL then 0
    else 1
  | 1 => if s1.getD 0 NUL ≠ s2.getD 0 NUL then 0 else 1
  | _ => -1

/-! ## Primitive selections -/

/-- The loop `for (j = lo; j < hi; j++) mask[j-1] = 'T';`. -/
def setRange (mask : List Char) (lo hi : Nat) : List Char :=
  (List.range' lo (hi - lo)).foldl (fun m j => m.set (j - 1) 'T') mask

/-- `resnum_select`; `res1` and `res2` are `int`s read from the text. -/
def resnum_select (res1 res2 : Int) (mask : List Char) (residues : Nat)
    (ipres : List Nat) : List Char :=
  (List.range residues).foldl
    (fun m (i : Nat) =>
      if (i : Int) + 1 ≥ res1 ∧ (i : Int) + 1 ≤ res2 then
        setRange m (ipres.getD i 0) (ipres.getD (i + 1) 0)
      else m)
    mask

/-- The text written by `sprintf(str, "%d", n)`. -/
def sprintf_d (n : Nat) : List Char := Nat.toDigits 10 n

/-- `resname_select`: a residue is taken when its stored name or its decimal
number matches the pattern. -/
def resname_select (p : List Char) (mask : List Char) (residues : Nat)
    (residueName : List (List Char)) (ipres : List Nat) : List Char :=
  (List.range residues).foldl
    (fun m i =>
      if isNameMatch (residueName.getD i []) p || isNameMatch (sprintf_d (i + 1)) p then
        setRange m (ipres.getD i 0) (ipres.getD (i + 1) 0)
      else m)
    mask

/-- `all_select`. -/
def all_select (mask : List Char) (atoms : Nat) : List Char :=
  (List.range atoms).foldl (fun m j => m.set j 'T') mask

/-- `atnum_select`; `at1` and `at2` are `int`s read from the text. -/
def atnum_select (at1 at2 : Int) (mask : List Char) (atoms : Nat) : List Char :=
  (List.range atoms).foldl
    (fun m (j : Nat) =>
      if (j : Int) + 1 ≥ at1 ∧ (j : Int) + 1 ≤ at2 then m.set j 'T' else m) mask

/-- `atname_select`: an atom is taken when its stored name or its decimal
number matches the pattern. -/
def atname_select (p : List Char) (mask : List Char) (atoms : Nat)
    (atomName : List (List Char)) : List Char :=
  (List.range atoms).foldl
    (fun m j =>
      if isNameMatch (atomName.getD j []) p || isNameMatch (sprintf_d (j + 1)) p then
        m.set j 'T'
      else m)
    mask

/-- `atelem_select`: the loop stops at the first atom for which `isElemMatch`
reports `-1`. -/
def atelem_selectLoop (p : List Char) (atomName : List (List Char)) :
    List Nat → List Char → List Char
  | [], mask => mask
  | j :: js, mask =>
    let isMatch := isElemMatch (atomName.getD j []) p
    if isMatch = 1 then atelem_selectLoop p atomName js (mask.set j 'T')
    else if isMatch = -1 then mask
    else atelem_selectLoop p atomName js mask

/-- `atelem_select`. -/
def atelem_select (p : List Char) (mask : List Char) (atoms : Nat)
    (atomName : List (List Char)) : List Char :=
  atelem_selectLoop p atomName (List.range atoms) mask

/-! ## Lists inside an elementary selection -/

/-- The `int` that `sscanf` with `%d` stores for decimal digits of the value `v`: the C
library converts the digits to a `long` of 64 bits, stopping at `LONG_MAX = 2^63 - 1`
(`strtol`), and the assignment to the `int` keeps the low 32 bits in two's complement.
A value below `2^31` is stored as it is; `2^31` is stored as `-2^31`, `2^32 + 1` as `1`,
and every value from `2^63 - 1` on as `-1`. -/
def storeInt (v : Nat) : Int :=
  Int.ofNat ((min v 9223372036854775807 + 2147483648) % 4294967296) - 2147483648

/-- `sscanf(buffer, "%d", &n) == 1` with the `int` stored in `n`, on a buffer that
holds digits only (the callers copy nothing else into it): the conversion
fails exactly on the empty buffer. -/
def sscanf_d (buffer : List Char) : Option Int :=
  match buffer.takeWhile isdigit with
  | [] => none
  | ds => some (storeInt (ds.foldl (fun n c => 10 * n + (c.toNat - 48)) 0))

/-- The loop of `residue_numlist` (with `sel = resnum_select`) and of
`atom_numlist` (with `sel = atnum_select`); the arguments are the unread
text, `buffer[0..i)`, `res1`, `dash` and the mask. Every `return` after an
error message gives back the mask as it stands. -/
def numlistLoop (sel : Int → Int → List Char → List Char) :
    List Char → List Char → Int → Bool → List Char → List Char
  | [], _, _, _, mask => mask
  | c :: rest, buffer, res1, dash, mask =>
    let buffer := if isdigit c then buffer ++ [c] else buffer
    if c = ',' ∨ rest = [] then
      if dash = false then
        match sscanf_d buffer with
        | none => mask
        | some r1 =>
          let mask := sel r1 r1 mask
          if ¬ (isdigit c ∨ c = ',' ∨ c = '-') then mask
          else numlistLoop sel rest [] r1 false mask
      else
        match sscanf_d buffer with
        | none => mask
        | some r2 =>
          let mask := sel res1 r2 mask
          if ¬ (isdigit c ∨ c = ',' ∨ c = '-') then mask
          else numlistLoop sel rest [] res1 false mask
    else if c = '-' then
      match sscanf_d buffer with
      | none => mask
      | some r1 => numlistLoop sel rest [] r1 true mask
    else if ¬ (isdigit c ∨ c = ',' ∨ c = '-') then mask
    else numlistLoop sel rest buffer res1 dash mask

/-- `residue_numlist`. -/
def residue_numlist (pp : List Char) (mask : List Char) (residues : Nat)
    (ipres : List Nat) : List Char :=
  numlistLoop (fun r1 r2 m => resnum_select r1 r2 m residues ipres) pp [] 0 false mask

/-- `atom_numlist`. -/
def atom_numlist (pp : List Char) (mask : List Char) (atoms : Nat) : List Char :=
  numlistLoop (fun a1 a2 m => atnum_select a1 a2 m atoms) pp [] 0 false mask

/-- The loop of `residue_namelist`. -/
def residue_namelistLoop (residues : Nat) (residueName : List (List Char))
    (ipres : List Nat) : List Char → List Char → List Char → List Char
  | [], _, mask => mask
  | c :: rest, buffer, mask =>
    let buffer :=
      if isalnum c ∨ c = '*' ∨ c = '?' ∨ c = '+' then buffer ++ [c] else buffer
    let buffer := if c = '-' then buffer ++ [c] else buffer
    if c = ',' ∨ rest = [] then
      let mask :=
        if strchr buffer '-' ∧ isdigit (buffer.headD NUL) then
          residue_numlist buffer mask residues ipres
        else resname_select buffer mask residues residueName ipres
      residue_namelistLoop residues residueName ipres rest [] mask
    else if ¬ (isalnum c ∨ c = ',' ∨ c = '*' ∨ c = '?' ∨ c = '+' ∨ c = '-') then mask
    else residue_namelistLoop residues residueName ipres rest buffer mask

/-- `residue_namelist`. -/
def residue_namelist (pp : List Char) (mask : List Char) (residues : Nat)
    (residueName : List (List Char)) (ipres : List Nat) : List Char :=
  residue_namelistLoop residues residueName ipres pp [] mask

/-- The loop of `atom_namelist`. -/
def atom_namelistLoop (atoms : Nat) (atomName : List (List Char)) :
    List Char → List Char → List Char → List Char
  | [], _, mask => mask
  | c :: rest, buffer, mask =>
    let buffer :=
      if isalnum c ∨ c = '*' ∨ c = '?' ∨ c = '+' ∨ c = APOS then buffer ++ [c]
      else buffer
    let buffer := if c = '-' then buffer ++ [c] else buffer
    if c = ',' ∨ rest = [] then
      let mask :=
        if strchr buffer '-' ∧ isdigit (buffer.headD NUL) then
          atom_numlist buffer mask atoms
        else atname_select buffer mask atoms atomName
      atom_namelistLoop atoms atomName rest [] mask
    else if ¬ (isalnum c ∨ c = ',' ∨ c = '?' ∨ c = '*' ∨ c = APOS ∨ c = '+' ∨ c = '-')
    then mask
    else atom_namelistLoop atoms atomName rest buffer mask

/-- `atom_namelist`. -/
def atom_namelist (pp : List Char) (mask : List Char) (atoms : Nat)
    (atomName : List (List Char)) : List Char :=
  atom_namelistLoop atoms atomName pp [] mask

/-- The loop of `atom_elemlist`. -/
def atom_elemlistLoop (atoms : Nat) (atomName : List (List Char)) :
    List Char → List Char → List Char → List Char
  | [], _, mask => mask
  | c :: rest, buffer, mask =>
    let buffer := if isalpha c then buffer ++ [c] else buffer
    if c = ',' ∨ rest = [] then
      let mask := atelem_select buffer mask atoms atomName
      if ¬ (isalpha c ∨ c = ',') then mask
      else atom_elemlistLoop atoms atomName rest [] mask
    else if ¬ (isalpha c ∨ c = ',') then mask
    else atom_elemlistLoop atoms atomName rest buffer mask

/-- `atom_elemlist`. -/
def atom_elemlist (pp : List Char) (mask : List Char) (atoms : Nat)
    (atomName : List (List Char)) : List Char :=
  atom_elemlistLoop atoms atomName pp [] mask

/-! ## Elementary selections -/

/-- The list kinds `ALL`, `NUMLIST`, `NAMELIST`, `TYPELIST`, `ELEMLIST`
(distinct constants of the header). -/
inductive ListKind where
  | ALL
  | NUMLIST
  | NAMELIST
  | TYPELIST
  | ELEMLIST
  deriving DecidableEq, Repr

/-- The loop of the residue branch of `selectElemMask`. `buffer` holds the
`buffer_p` characters copied so far; `buffer_p` returns to `0` only at the last
character, where the list is handed to the routine chosen by `reslist`. -/
def resMaskLoop (U : Universe) :
    List Char → List Char → ListKind → List Char → List Char
  | [], _, _, mask => mask
  | c :: rest, buffer, reslist, mask =>
    let buffer := buffer ++ [c]
    let reslist :=
      if c = '*' then
        if buffer.length = 0 ∧ (rest.headD NUL = ',' ∨ rest = []) then ListKind.ALL
        else if reslist = ListKind.NUMLIST then ListKind.NAMELIST
        else reslist
      else if isalpha c ∨ c = '?' then ListKind.NAMELIST
      else reslist
    if rest = [] then
      match reslist with
      | ListKind.ALL => all_select mask U.atoms
      | ListKind.NUMLIST => residue_numlist buffer mask U.residues U.ipres
      | ListKind.NAMELIST => residue_namelist buffer mask U.residues U.residueName U.ipres
      | _ => mask
    else resMaskLoop U rest buffer reslist mask

/-- The loop of the atom branch of `selectElemMask`. The type list is
disabled: it prints a message and leaves the mask as it is. The element list
skips the first character of the buffer. -/
def atomMaskLoop (U : Universe) :
    List Char → List Char → ListKind → List Char → List Char
  | [], _, _, mask => mask
  | c :: rest, buffer, atomlist, mask =>
    let buffer := buffer ++ [c]
    let atomlist :=
      if c = '*' then
        if buffer.length = 0 ∧ (rest.headD NUL = ',' ∨ rest = []) then ListKind.ALL
        else if atomlist = ListKind.NUMLIST then ListKind.NAMELIST
        else atomlist
      else if isalpha c ∨ c = '?' then
        if atomlist = ListKind.NUMLIST then ListKind.NAMELIST else atomlist
      else if c = '%' then ListKind.TYPELIST
      else if c = '/' then ListKind.ELEMLIST
      else atomlist
    if rest = [] then
      match atomlist with
      | ListKind.ALL => all_select mask U.atoms
      | ListKind.NUMLIST => atom_numlist buffer mask U.atoms
      | ListKind.NAMELIST => atom_namelist buffer mask U.atoms U.atomName
      | ListKind.TYPELIST => mask
      | ListKind.ELEMLIST => atom_elemlist buffer.tail mask U.atoms U.atomName
    else atomMaskLoop U rest buffer atomlist mask

/-- `selectElemMask`: the mask of one elementary selection, the copied text of
a distance criterion (first character `<` or `>`), or NULL when the text
starts with none of `: @ * < >`. The empty text is copied like a criterion,
because `strchr("<>", 0)` finds the terminator of its first argument. (The
copy is allocated one byte short of its terminating NUL; that overrun is not
modelled.) -/
def selectElemMask (U : Universe) (elmaskstr : List Char) : Option (List Char) :=
  let pElemMask := List.replicate U.atoms 'F'
  match elmaskstr with
  | [] => some []
  | c :: rest =>
    if c = ':' then some (resMaskLoop U rest [] ListKind.NUMLIST pElemMask)
    else if c = '@' then some (atomMaskLoop U rest [] ListKind.NUMLIST pElemMask)
    else if c = '*' then some (all_select pElemMask U.atoms)
    else if strchr ['<', '>'] c then some elmaskstr
    else none

/-! ## Step 1: `tokenize` -/

/-- The scanning loop of `tokenize`; the arguments are the unread input,
`flag`, `buffer[0..n)` and the characters written to the output so far.
`none` is the return value `1` (syntax error). The terminating NUL is scanned
like an operator and copied to the output. After `<` or `>` the next
character is consumed as well; when that is the terminating NUL the loop
ends there. -/
def tokenizeLoop : List Char → Nat → List Char → List Char → Option (List Char)
  | [], flag, buffer, out =>
    let out := if flag > 0 then out ++ (buffer ++ [']', ')']) else out
    some (out ++ [NUL])
  | c :: rest, flag, buffer, out =>
    if isspace c then tokenizeLoop rest flag buffer out
    else if isOperator c ∨ c = '(' ∨ c = ')' then
      let out := (if flag > 0 then out ++ (buffer ++ [']', ')']) else out) ++ [c]
      if c = '>' ∨ c = '<' then
        match rest with
        | [] => some out
        | d :: rest2 =>
          if d = ':' ∨ d = '@' then tokenizeLoop rest2 3 ['(', '[', c, d] out
          else none
      else tokenizeLoop rest 0 buffer out
    else if isOperand c then
      if flag = 0 ∧ c ≠ '*' then none
      else
        let buffer := if flag = 0 then ['(', '['] else buffer
        let flag := if flag = 0 then 1 else flag
        if c = '=' then
          if flag > 0 then tokenizeLoop rest flag (buffer ++ ['*']) out
          else none
        else tokenizeLoop rest flag (buffer ++ [c]) out
    else if c = ':' then
      if flag = 0 then tokenizeLoop rest 1 ['(', '[', ':'] out
      else tokenizeLoop rest 1 (buffer ++ [']', ')', '|', '(', '[', ':']) out
    else if c = '@' then
      if flag = 0 then tokenizeLoop rest 2 ['(', '[', '@'] out
      else if flag = 1 then tokenizeLoop rest 2 (buffer ++ [']', '&', '[', '@']) out
      else if flag = 2 then
        tokenizeLoop rest 2 (buffer ++ [']', ')', '|', '(', '[', '@']) out
      else tokenizeLoop rest flag buffer out
    else none

/-- `tokenize`: the normalized stream, whose last written character is
replaced by the terminal symbol `_`; `none` on a syntax error. (The scan for
empty tokens only prints warnings.) -/
def tokenize (input : List Char) : Option (List Char) :=
  match tokenizeLoop input 0 [] [] with
  | none => none
  | some out => some (out.dropLast ++ ['_'])

/-! ## Step 2: `torpn` -/

/-- The loop run at `)`: pop and emit until `(`; `_` on the way is the
unbalanced-parenthesis error, an exhausted stack is a NULL dereference. -/
def popToParen : List Char → List Char → Outcome (List Char × List Char)
  | [], _ => Outcome.ub
  | pp :: stack, out =>
    if pp = '(' then Outcome.ok (stack, out)
    else if pp = '_' then Outcome.fail
    else popToParen stack (out ++ [pp])

/-- The loop run at the terminal symbol: pop and emit until `_`; `(` on the
way is the unbalanced-parenthesis error. -/
def popToTerm : List Char → List Char → Outcome (List Char × List Char)
  | [], _ => Outcome.ub
  | pp :: stack, out =>
    if pp = '_' then Outcome.ok (stack, out)
    else if pp = '(' then Outcome.fail
    else popToTerm stack (out ++ [pp])

/-- The operator branch: compare the priority of the scanned operator `c`
with that of the top of the stack, pop and emit while it is not higher, then
push `c`. A priority `0` is the priority error; an empty stack is a NULL
dereference. -/
def pushOperator (c : Char) : List Char → List Char → Outcome (List Char × List Char)
  | [], _ => Outcome.ub
  | top :: stack, out =>
    if priority c = 0 ∨ priority top = 0 then Outcome.fail
    else if priority c > priority top then Outcome.ok (c :: top :: stack, out)
    else pushOperator c stack (out ++ [top])

/-- The scanning loop of `torpn`; the arguments are the unread stream, the
operator stack (top first), `flag` and the output written so far. -/
def torpnLoop : List Char → List Char → Bool → List Char → Outcome (List Char)
  | [], _, _, out => Outcome.ok out
  | c :: rest, stack, flag, out =>
    if c = '[' then torpnLoop rest stack true (out ++ [c])
    else if c = ']' then torpnLoop rest stack false (out ++ [c])
    else if flag then torpnLoop rest stack flag (out ++ [c])
    else if c = '(' then torpnLoop rest (c :: stack) flag out
    else if c = ')' then
      match popToParen stack out with
      | Outcome.ok (stack2, out2) => torpnLoop rest stack2 flag out2
      | Outcome.fail => Outcome.fail
      | Outcome.ub => Outcome.ub
    else if c = '_' then
      match popToTerm stack out with
      | Outcome.ok (stack2, out2) => torpnLoop rest stack2 flag out2
      | Outcome.fail => Outcome.fail
      | Outcome.ub => Outcome.ub
    else if isOperator c then
      match pushOperator c stack out with
      | Outcome.ok (stack2, out2) => torpnLoop rest stack2 flag out2
      | Outcome.fail => Outcome.fail
      | Outcome.ub => Outcome.ub
    else Outcome.fail

/-- `torpn`: the stack starts with the terminal symbol. -/
def torpn (tokenized : List Char) : Outcome (List Char) :=
  torpnLoop tokenized ['_'] false []

/-! ## Step 3: `eval` -/

/-- `popStack`: the entry on top (NULL when the stack is empty) and the rest. -/
def popStack (stack : List (Option (List Char))) :
    Option (List Char) × List (Option (List Char)) :=
  match stack with
  | [] => (none, [])
  | e :: s => (e, s)

/-- A fresh array of `n` entries, entry `i` computed by `f i`; undefined
behaviour or failure of any entry is that of the whole. -/
def buildMask (f : Nat → Outcome Char) : Nat → Outcome (List Char)
  | 0 => Outcome.ok []
  | n + 1 =>
    match buildMask f n, f n with
    | Outcome.ok l, Outcome.ok c => Outcome.ok (l ++ [c])
    | Outcome.ub, _ => Outcome.ub
    | _, Outcome.ub => Outcome.ub
    | _, _ => Outcome.fail

/-- `binop(op, m2, m1, atoms)`: entry `i` is `'T'` when `m2[i]` and/or `m1[i]`
are `'T'`, and `'F'` otherwise; the second array is read only when the first
does not decide (`&&` and `||` of C). An unknown operator gives NULL. -/
def binop (op : Char) (m2 m1 : List Char) (atoms : Nat) : Outcome (List Char) :=
  if op = '&' then
    buildMask (fun i =>
      match m2.get? i with
      | none => Outcome.ub
      | some a =>
        if a = 'T' then
          match m1.get? i with
          | none => Outcome.ub
          | some b => Outcome.ok (if b = 'T' then 'T' else 'F')
        else Outcome.ok 'F') atoms
  else if op = '|' then
    buildMask (fun i =>
      match m2.get? i with
      | none => Outcome.ub
      | some a =>
        if a = 'T' then Outcome.ok 'T'
        else
          match m1.get? i with
          | none => Outcome.ub
          | some b => Outcome.ok (if b = 'T' then 'T' else 'F')) atoms
  else Outcome.fail

/-- `neg(m1, atoms)`: the first `atoms` entries are inverted in place. -/
def neg (m1 : List Char) (atoms : Nat) : Outcome (List Char) :=
  if atoms ≤ m1.length then
    Outcome.ok
      ((List.range atoms).foldl
        (fun m i => m.set i (if m.getD i NUL = 'T' then 'F' else 'T')) m1)
  else Outcome.ub

/-- `selectDist(criteria, center, ..., X, type)`: without coordinates the
result is NULL; the `float` variant always returns NULL; the `double` variant
`selectDistd`, which works in floating point, is the parameter `distd` and
returns the mask together with the coordinate array as it leaves it. -/
def selectDist {Coords : Type}
    (distd : Option (List Char) → Option (List Char) → Coords →
      Outcome (List Char × Coords))
    (criteria center : Option (List Char)) (X : Option Coords) (type : Char) :
    Outcome (List Char × Coords) :=
  match X with
  | none => Outcome.fail
  | some x =>
    if type = 'f' then Outcome.fail
    else if type = 'd' then distd criteria center x
    else Outcome.fail

/-- The scanning loop of `eval`; the arguments are the unread postfix text,
`buffer[0..i)`, the stack of masks (top first) and the coordinates. -/
def evalLoop {Coords : Type} (U : Universe) (type : Char)
    (distd : Option (List Char) → Option (List Char) → Coords →
      Outcome (List Char × Coords)) :
    List Char → List Char → List (Option (List Char)) → Option Coords →
      Outcome (List (Option (List Char)) × Option Coords)
  | [], _, stack, X => Outcome.ok (stack, X)
  | c :: rest, buffer, stack, X =>
    if c = '[' then evalLoop U type distd rest [] stack X
    else if c = ']' then
      evalLoop U type distd rest buffer (selectElemMask U buffer :: stack) X
    else if isOperand c ∨ strchr [':', '@'] c then
      evalLoop U type distd rest (buffer ++ [c]) stack X
    else if c = '&' ∨ c = '|' then
      match (popStack stack).1, (popStack (popStack stack).2).1 with
      | some pMask1, some pMask2 =>
        match binop c pMask2 pMask1 U.atoms with
        | Outcome.ok pMask =>
          evalLoop U type distd rest buffer
            (some pMask :: (popStack (popStack stack).2).2) X
        | Outcome.fail => Outcome.fail
        | Outcome.ub => Outcome.ub
      | _, _ => Outcome.fail
    else if strchr ['<', '>'] c then
      if rest.head? = some ':' ∨ rest.head? = some '@' then
        evalLoop U type distd rest (buffer ++ [c]) stack X
      else
        match selectDist distd (popStack stack).1 (popStack (popStack stack).2).1 X type with
        | Outcome.ok (pMask, X2) =>
          evalLoop U type distd rest buffer
            (some pMask :: (popStack (popStack stack).2).2) (some X2)
        | Outcome.fail => Outcome.fail
        | Outcome.ub => Outcome.ub
    else if c = '!' then
      match (popStack stack).1 with
      | some pMask1 =>
        match neg pMask1 U.atoms with
        | Outcome.ok pMask => evalLoop U type distd rest buffer (some pMask :: (popStack stack).2) X
        | Outcome.fail => Outcome.fail
        | Outcome.ub => Outcome.ub
      | none => Outcome.fail
    else Outcome.fail

/-- `eval`: after the scan exactly one entry must be on the stack. The
closing count of selected atoms reads `atoms` entries of the result, through
NULL when the stack was empty. -/
def eval {Coords : Type} (U : Universe) (X : Option Coords) (type : Char)
    (distd : Option (List Char) → Option (List Char) → Coords →
      Outcome (List Char × Coords))
    (rpn : List Char) : Outcome (List Char) :=
  match evalLoop U type distd rpn [] [] X with
  | Outcome.ok (stack, _) =>
    if (popStack stack).2 ≠ [] then Outcome.fail
    else
      match (popStack stack).1 with
      | none => if U.atoms = 0 then Outcome.fail else Outcome.ub
      | some pMask => if U.atoms ≤ pMask.length then Outcome.ok pMask else Outcome.ub
  | Outcome.fail => Outcome.fail
  | Outcome.ub => Outcome.ub

/-- `parseMaskString`: tokenize, convert to postfix, evaluate. -/
def parseMaskString {Coords : Type} (U : Universe) (X : Option Coords) (type : Char)
    (distd : Option (List Char) → Option (List Char) → Coords →
      Outcome (List Char × Coords))
    (maskstr : List Char) : Outcome (List Char) :=
  match tokenize maskstr with
  | none => Outcome.fail
  | some tokenized =>
    match torpn tokenized with
    | Outcome.ok rpn => eval U X type distd rpn
    | Outcome.fail => Outcome.fail
    | Outcome.ub => Outcome.ub

/-! ## Notions used in the statements -/

/-- The rewriting of the wildcard `=` to `*` done by `tokenize`. -/
def eqStar (c : Char) : Char := if c = '=' then '*' else c

/-- The output of the tokenizer after a pending term, if any, is closed. -/
def flushed (flag : Nat) (buffer out : List Char) : List Char :=
  if flag > 0 then out ++ (buffer ++ [']', ')']) else out

/-- The characters `! & | ( )`, after which the scanner is between terms. -/
def isPlainOp (c : Char) : Bool := c = '!' ∨ c = '&' ∨ c = '|' ∨ c = '(' ∨ c = ')'

/-- In the language of `eval`, a character of an elementary term. -/
def isTermChar (c : Char) : Bool := isOperand c || c = ':' || c = '@'

/-- The text of a term as `tokenize` passes it on: `=` is rewritten to `*`. -/
def termText (c0 : Char) (spec : List Char) : List Char := c0 :: spec.map eqStar

/-- The routine `f` sets to `'T'` exactly the entries `k` with `Q k` and leaves every
other entry, and the length, as they are. -/
def Marks (f : List Char → List Char) (Q : Nat → Prop) : Prop :=
  ∀ m, (f m).length = m.length ∧ ∀ k, k < m.length →
    (Q k → (f m)[k]? = some 'T') ∧ (¬ Q k → (f m)[k]? = m[k]?)

/-- In residue `i` of the universe: atom index `k` (0-based) lies between the
boundaries `ipres[i]` and `ipres[i+1]` (1-based atom numbers). -/
def inResidue (ipres : List Nat) (i k : Nat) : Prop :=
  ipres.getD i 0 ≤ k + 1 ∧ k + 1 < ipres.getD (i + 1) 0

/-- The inversion of one mask entry done by `neg`. -/
def flipTF (c : Char) : Char := if c = 'T' then 'F' else 'T'

/-- The number written by a string of decimal digits. -/
def decimal (ds : List Char) : Nat := ds.foldl (fun n c => 10 * n + (c.toNat - 48)) 0

/-- A non-empty string of decimal digits. -/
def IsNumber (ds : List Char) : Prop := ds ≠ [] ∧ ∀ c ∈ ds, isdigit c = true

/-- A sub-term of a numeric list: a number `n` or a range `a-b`, each number
given by its digits. -/
inductive NumItem where
  | num (n : List Char)
  | range (a b : List Char)

/-- The text of a sub-term. -/
def NumItem.text : NumItem → List Char
  | NumItem.num n => n
  | NumItem.range a b => a ++ '-' :: b

/-- Every number of the sub-term is a non-empty string of digits. -/
def NumItem.Valid : NumItem → Prop
  | NumItem.num n => IsNumber n
  | NumItem.range a b => IsNumber a ∧ IsNumber b

/-- The lower end of a sub-term. -/
def NumItem.lo : NumItem → Nat
  | NumItem.num n => decimal n
  | NumItem.range a _ => decimal a

/-- The upper end of a sub-term. -/
def NumItem.hi : NumItem → Nat
  | NumItem.num n => decimal n
  | NumItem.range _ b => decimal b

/-- Every number of the sub-term fits the `int` into which it is read: it is below
`2^31`. -/
def NumItem.Fits : NumItem → Prop
  | NumItem.num n => decimal n < 2147483648
  | NumItem.range a b => decimal a < 2147483648 ∧ decimal b < 2147483648

/-- The sub-terms written one after the other, separated by commas. -/
def numListText : List NumItem → List Char
  | [] => []
  | [it] => it.text
  | it :: it2 :: its => it.text ++ ',' :: numListText (it2 :: its)

/-- A character of a numeric list: a digit, a comma or a dash. -/
def isNumChar (c : Char) : Bool := isdigit c || c = ',' || c = '-'

/-- A stored name without its padding spaces. -/
def stripSpaces (s : List Char) : List Char := s.filter (fun c => c ≠ ' ')

/-- A pattern character that `isNameMatch` compares literally. -/
def isLiteral (c : Char) : Bool := c ≠ '*' && c ≠ '?' && c ≠ ' '

/-- A character of a name pattern: a letter, a digit or one of the wildcards
`*` and `?`. -/
def isNameChar (c : Char) : Bool := isalnum c || c = '*' || c = '?'

/-- The choice made by `residue_namelist` for one sub-term held in `buffer`. -/
def resDispatch (residues : Nat) (residueName : List (List Char)) (ipres : List Nat)
    (buffer mask : List Char) : List Char :=
  if strchr buffer '-' ∧ isdigit (buffer.headD NUL) then
    residue_numlist buffer mask residues ipres
  else resname_select buffer mask residues residueName ipres

/-- The choice made by `atom_namelist` for one sub-term held in `buffer`. -/
def atomDispatch (atoms : Nat) (atomName : List (List Char)) (buffer mask : List Char) :
    List Char :=
  if strchr buffer '-' ∧ isdigit (buffer.headD NUL) then atom_numlist buffer mask atoms
  else atname_select buffer mask atoms atomName

/-- A name pattern: letters, digits and wildcards, not all of them digits. -/
def IsName (p : List Char) : Prop :=
  (∀ c ∈ p, isNameChar c = true) ∧ ∃ c ∈ p, isdigit c = false

/-- A sub-term of a residue or atom list: a number or range, or a name pattern. -/
inductive SubTerm where
  | numeric (it : NumItem)
  | name (p : List Char)

/-- The text of a sub-term. -/
def SubTerm.text : SubTerm → List Char
  | SubTerm.numeric it => it.text
  | SubTerm.name p => p

/-- Well-formed sub-term. -/
def SubTerm.Valid : SubTerm → Prop
  | SubTerm.numeric it => it.Valid
  | SubTerm.name p => IsName p

/-- The sub-terms written one after the other, separated by commas. -/
def subListText : List SubTerm → List Char
  | [] => []
  | [it] => it.text
  | it :: it2 :: its => it.text ++ ',' :: subListText (it2 :: its)

/-- The atoms of the residues whose stored name or decimal number matches `p`. -/
def resNameSel (U : Universe) (p : List Char) (k : Nat) : Prop :=
  ∃ i, i < U.residues ∧
    (isNameMatch (U.residueName.getD i []) p || isNameMatch (sprintf_d (i + 1)) p) = true ∧
    inResidue U.ipres i k

/-- The atoms of the residues whose number lies between the `int`s `lo` and `hi`. -/
def resNumSel (U : Universe) (lo hi : Int) (k : Nat) : Prop :=
  ∃ i : Nat, i < U.residues ∧ lo ≤ (i : Int) + 1 ∧ (i : Int) + 1 ≤ hi ∧
    inResidue U.ipres i k

/-- The atoms whose stored name or decimal number matches `p`. -/
def atomNameSel (U : Universe) (p : List Char) (k : Nat) : Prop :=
  k < U.atoms ∧
    (isNameMatch (U.atomName.getD k []) p || isNameMatch (sprintf_d (k + 1)) p) = true

/-- The atoms whose number lies between the `int`s `lo` and `hi`. -/
def atomNumSel (U : Universe) (lo hi : Int) (k : Nat) : Prop :=
  k < U.atoms ∧ lo ≤ (k : Int) + 1 ∧ (k : Int) + 1 ≤ hi

/-- What the residue term of one sub-term selects when it stands alone; the ends of a
numeric sub-term count as `sscanf` stores them. -/
def SubTerm.resAlone (U : Universe) : SubTerm → Nat → Prop
  | SubTerm.numeric it => resNumSel U (storeInt it.lo) (storeInt it.hi)
  | SubTerm.name p => resNameSel U p

/-- What a sub-term selects inside a residue list that is read as a name list:
a plain number is then matched as a name. -/
def SubTerm.resInNames (U : Universe) : SubTerm → Nat → Prop
  | SubTerm.numeric (NumItem.num n) => resNameSel U n
  | SubTerm.numeric (NumItem.range a b) =>
    resNumSel U (storeInt (decimal a)) (storeInt (decimal b))
  | SubTerm.name p => resNameSel U p

/-- What the atom term of one sub-term selects when it stands alone; the ends of a
numeric sub-term count as `sscanf` stores them. -/
def SubTerm.atomAlone (U : Universe) : SubTerm → Nat → Prop
  | SubTerm.numeric it => atomNumSel U (storeInt it.lo) (storeInt it.hi)
  | SubTerm.name p => atomNameSel U p

/-- What a sub-term selects inside an atom list that is read as a name list. -/
def SubTerm.atomInNames (U : Universe) : SubTerm → Nat → Prop
  | SubTerm.numeric (NumItem.num n) => atomNameSel U n
  | SubTerm.numeric (NumItem.range a b) =>
    atomNumSel U (storeInt (decimal a)) (storeInt (decimal b))
  | SubTerm.name p => atomNameSel U p

/-- A character that turns a list into a name list: a letter or a wildcard. -/
def isTrigger (c : Char) : Bool := c = '*' || isalpha c || c = '?'

/-- A character of a comma-separated list of sub-terms. -/
def isListChar (c : Char) : Bool := isNameChar c || c = '-' || c = ','

/-- The scenario of the specification: three residues that each hold the atoms
`CA`, `CB`, `N`, with names padded to four characters. -/
def scenario : Universe :=
  ⟨9, 3,
    [['C', 'A', ' ', ' '], ['C', 'B', ' ', ' '], ['N', ' ', ' ', ' '],
     ['C', 'A', ' ', ' '], ['C', 'B', ' ', ' '], ['N', ' ', ' ', ' '],
     ['C', 'A', ' ', ' '], ['C', 'B', ' ', ' '], ['N', ' ', ' ', ' ']],
    [['A', 'L', 'A', ' '], ['G', 'L', 'Y', ' '], ['S', 'E', 'R', ' ']],
    [1, 4, 7, 10]⟩

/-- A plain number that means the same in a name list as on its own: it is
written as `%d` prints it (no leading zero), it fits an `int` (it is below `2^31`) and
it is not itself a stored name. -/
def PlainNumberOK (names : List (List Char)) (n : List Char) : Prop :=
  sprintf_d (decimal n) = n ∧ decimal n < 2147483648 ∧ ∀ s ∈ names, stripSpaces s ≠ n

/-- The scenario with its third residue named `1`. -/
def scenarioNumericName : Universe :=
  ⟨9, 3, scenario.atomName,
    [['A', 'L', 'A', ' '], ['G', 'L', 'Y', ' '], ['1', ' ', ' ', ' ']], [1, 4, 7, 10]⟩

/-- Whether the scanner of `tokenize`, after reading the text, is inside a distance
criterion: it enters one at `<` or `>` (which takes the next character with it) and
leaves it at `:` or at one of `! & | ( )`. The second argument is the state before the
text. -/
def inCriterion : List Char → Bool → Bool
  | [], s => s
  | c :: rest, s =>
    if c = '<' ∨ c = '>' then
      match rest with
      | [] => true
      | _ :: rest2 => inCriterion rest2 true
    else if c = ':' ∨ isPlainOp c = true then inCriterion rest false
    else inCriterion rest s

/-- The text of a block as the scanner keeps it: spaces dropped, `=` rewritten to `*`. -/
def blockText (a : List Char) : List Char := (a.filter (fun c => !isspace c)).map eqStar

/-- The postfix stream of an expression: `tokenize` followed by `torpn`. -/
def rpnOf (maskstr : List Char) : Outcome (List Char) :=
  match tokenize maskstr with
  | none => Outcome.fail
  | some tokenized => torpn tokenized

/-- The last step of `tokenize`: the terminal symbol replaces the last character. -/
def finish (r : List Char) : List Char := r.dropLast ++ ['_']

/-- The postfix stream `[:r][@a]&` of a residue term and a particle term joined by AND,
with the texts as `tokenize` passes them on. -/
def compoundRpn (r a : List Char) : List Char :=
  '[' :: (termText ':' r ++ ']' :: '[' :: (termText '@' a ++ [']', '&']))

/-- Whether `torpn`, after reading the text, is inside a bracketed term; the second
argument is the state before the text. -/
def bracketOpen : List Char → Bool → Bool
  | [], fl => fl
  | c :: rest, fl => bracketOpen rest (if c = '[' then true else if c = ']' then false else fl)

/-- The normalized stream `([:r]&[@a])` of the compound block `:r@a`. -/
def compoundStream (r a : List Char) : List Char :=
  '(' :: '[' :: (termText ':' r ++ ']' :: '&' :: '[' :: (termText '@' a ++ [']', ')']))

/-- The normalized stream `(([:r])&([@a]))` of the parenthesised form `(:r&@a)`. -/
def explicitStream (r a : List Char) : List Char :=
  '(' :: '(' :: '[' :: (termText ':' r ++ ']' :: ')' :: '&' :: '(' :: '[' ::
    (termText '@' a ++ [']', ')', ')']))

/-- A residue or particle term: its first character `:` or `@` and its specification. -/
structure Term where
  c0 : Char
  spec : List Char
  deriving DecidableEq

/-- Well-formed term: `:` or `@` followed by operand characters. -/
def Term.Valid (t : Term) : Prop :=
  (t.c0 = ':' ∨ t.c0 = '@') ∧ ∀ c ∈ t.spec, isOperand c = true

instance (t : Term) : Decidable t.Valid := by
  unfold Term.Valid; infer_instance

/-- The term as typed. -/
def Term.raw (t : Term) : List Char := t.c0 :: t.spec

/-- The text of the term as `tokenize` passes it on. -/
def Term.text (t : Term) : List Char := termText t.c0 t.spec

/-- Terms joined by `&`, as typed. -/
def groupRaw : List Term → List Char
  | [] => []
  | [t] => t.raw
  | t :: t2 :: ts => t.raw ++ '&' :: groupRaw (t2 :: ts)

/-- Groups of terms joined by `|`, as typed. -/
def exprRaw : List (List Term) → List Char
  | [] => []
  | [g] => groupRaw g
  | g :: g2 :: gs => groupRaw g ++ '|' :: exprRaw (g2 :: gs)

/-- The normalized stream of a group. -/
def groupStream : List Term → List Char
  | [] => []
  | [t] => '(' :: '[' :: (t.text ++ [']', ')'])
  | t :: t2 :: ts => '(' :: '[' :: (t.text ++ ']' :: ')' :: '&' :: groupStream (t2 :: ts))

/-- The normalized stream of an expression, without the terminal symbol. -/
def exprStream : List (List Term) → List Char
  | [] => []
  | [g] => groupStream g
  | g :: g2 :: gs => groupStream g ++ '|' :: exprStream (g2 :: gs)

/-- Postfix text of terms each followed by `&`. -/
def rpnAnds : List Term → List Char
  | [] => []
  | t :: ts => '[' :: (t.text ++ ']' :: '&' :: rpnAnds ts)

/-- Postfix text of a group: its terms, `&` after each but the first. -/
def rpnGroup : List Term → List Char
  | [] => []
  | t :: ts => '[' :: (t.text ++ ']' :: rpnAnds ts)

/-- Postfix text of groups each followed by `|`. -/
def rpnOrs : List (List Term) → List Char
  | [] => []
  | g :: gs => rpnGroup g ++ '|' :: rpnOrs gs

/-- Postfix text of an expression: its groups, `|` after each but the first. -/
def rpnExpr : List (List Term) → List Char
  | [] => []
  | g :: gs => rpnGroup g ++ rpnOrs gs

/-- The term selects particle `k`: the mask of its text has `'T'` at index `k`. -/
def Term.selects (U : Universe) (t : Term) (k : Nat) : Prop :=
  ∃ mt, selectElemMask U t.text = some mt ∧ mt[k]? = some 'T'

/-- The text without its whitespace. -/
def dropSpaces (s : List Char) : List Char := s.filter (fun c => !isspace c)

/-- Depth of parentheses after the text, starting at depth `d`; `none` when a
`)` has no `(` before it. -/
def parenDepth : List Char → Nat → Option Nat
  | [], d => some d
  | c :: r, d =>
    if c = '(' then parenDepth r (d + 1)
    else if c = ')' then (if d = 0 then none else parenDepth r (d - 1))
    else parenDepth r d

/-- Scan of a piece of the normalized stream as `torpn` reads it, from the state
"inside brackets" `fl` and the depth `d` of open parentheses: the depth and state after
the piece, or `none` when a `)` has no `(` before it or a character outside brackets is
neither a parenthesis nor an operator. -/
def streamScan : List Char → Bool → Nat → Option (Nat × Bool)
  | [], fl, d => some (d, fl)
  | c :: r, fl, d =>
    if c = '[' then streamScan r true d
    else if c = ']' then streamScan r false d
    else if fl then streamScan r true d
    else if c = '(' then streamScan r false (d + 1)
    else if c = ')' then (if d = 0 then none else streamScan r false (d - 1))
    else if isOperator c then streamScan r false d
    else none

/-- An element symbol: one or two letters. -/
def IsSymbol (s : List Char) : Prop :=
  (s.length = 1 ∨ s.length = 2) ∧ ∀ c ∈ s, isalpha c = true

instance (s : List Char) : Decidable (IsSymbol s) := by
  unfold IsSymbol; infer_instance

/-- Element symbols separated by commas. -/
def elemListText : List (List Char) → List Char
  | [] => []
  | [s] => s
  | s :: s2 :: ss => s ++ ',' :: elemListText (s2 :: ss)

/-- What one step of the scanner of `tokenize` does on a character other than `<` and `>`
when the pending term is counted with the output: the new `flag` and the characters
added, or `none` for a syntax error. -/
def stepPiece (c : Char) (f : Nat) : Option (Nat × List Char) :=
  if isspace c then some (f, [])
  else if isPlainOp c then some (0, (if f > 0 then [']', ')'] else []) ++ [c])
  else if isOperand c then
    if f = 0 ∧ c ≠ '*' then none
    else some (if f = 0 then 1 else f, (if f = 0 then ['(', '['] else []) ++ [eqStar c])
  else if c = ':' then
    some (1, if f = 0 then ['(', '[', ':'] else [']', ')', '|', '(', '[', ':'])
  else if c = '@' then
    if f = 0 then some (2, ['(', '[', '@'])
    else if f = 1 then some (2, [']', '&', '[', '@'])
    else if f = 2 then some (2, [']', ')', '|', '(', '[', '@'])
    else some (f, [])
  else none

/-- The steps of `stepPiece` along a text. -/
def runPiece : List Char → Nat → Option (Nat × List Char)
  | [], f => some (f, [])
  | c :: s, f =>
    match stepPiece c f with
    | none => none
    | some (f2, A) =>
      match runPiece s f2 with
      | none => none
      | some (f3, A2) => some (f3, A ++ A2)

/-- The text holds no distance operator. -/
def noDist (s : List Char) : Prop := ∀ c ∈ s, c ≠ '<' ∧ c ≠ '>'

instance (s : List Char) : Decidable (noDist s) := by
  unfold noDist; infer_instance

/-- Where a term may end: at the end of the text or before an operator or parenthesis. -/
def closes (rest : List Char) : Prop :=
  rest = [] ∨ ∃ c, rest.head? = some c ∧ (isOperator c = true ∨ c = '(' ∨ c = ')')

/-- An elementary term (`:` or `@` followed by operand characters, or `*`) or a
parenthesised expression without `<` and `>` whose inner parentheses are balanced. -/
def Enclosed (E : List Char) : Prop :=
  (∃ t : Term, t.Valid ∧ E = t.raw) ∨ E = ['*'] ∨
    ∃ inner, E = '(' :: (inner ++ [')']) ∧ noDist inner ∧ parenDepth inner 0 = some 0

/-- Scan of a piece of the normalized stream like `streamScan`, which in addition
refuses a `]` outside brackets. -/
def strictScan : List Char → Bool → Nat → Option (Nat × Bool)
  | [], fl, d => some (d, fl)
  | c :: r, fl, d =>
    if c = '[' then strictScan r true d
    else if c = ']' then (if fl then strictScan r false d else none)
    else if fl then strictScan r true d
    else if c = '(' then strictScan r false (d + 1)
    else if c = ')' then (if d = 0 then none else strictScan r false (d - 1))
    else if isOperator c then strictScan r false d
    else none

/-- Scan of a piece of postfix text without distance operators, from the state "inside
brackets" `fl`: no character is `<` or `>` and outside brackets only `[` and the operators
`!`, `&`, `|` occur (no `]`); the result is the state after the piece. -/
def plainScan : List Char → Bool → Option Bool
  | [], fl => some fl
  | c :: r, fl =>
    if c = '<' ∨ c = '>' then none
    else if c = '[' then plainScan r true
    else if c = ']' then (if fl then plainScan r false else none)
    else if fl then plainScan r true
    else if c = '!' ∨ c = '&' ∨ c = '|' then plainScan r false
    else none

/-- An entry of the operator stack above an open parenthesis while a text without
distance operators is converted: `!`, `&`, `|` or `(`. -/
def isStackChar (c : Char) : Bool := c = '!' ∨ c = '&' ∨ c = '|' ∨ c = '('

/-- Every entry of the mask is `'T'` or `'F'`. -/
def IsTF (m : List Char) : Prop := ∀ c ∈ m, c = 'T' ∨ c = 'F'

/-! ## The distance selection `selectDistd` -/

/-- The operations on `double` that `selectDistd` uses, taken as parameters: subtraction,
multiplication, addition, `sqrt`, the comparisons `<` and `>`, and the conversion
`sscanf(s, "%lf", &d) == 1` with the value read (`none` when it does not return `1`). -/
structure FloatOps (F : Type) where
  sub : F → F → F
  mul : F → F → F
  add : F → F → F
  sqrt : F → F
  lt : F → F → Bool
  gt : F → F → Bool
  scan : List Char → Option F

/-- The inner loop `for (j = 0; j < atoms; j++)` of `selectDistd` for the particle `i` in
residue `curres`; the arguments are the values of `j` still to come, the mask and the
coordinates. The result tells whether the loop was left by `break`. Note the assignment
`dz = X[i3+2] = X[j3+2]` of the source: it stores `X[j3+2]` in `X[i3+2]` and in `dz`.
A read of `center` or `X` outside the array is undefined behaviour. -/
def distdInner {F : Type} (ops : FloatOps F) (comp type : Char) (dist : F)
    (center : List Char) (ipres : List Nat) (curres i : Nat) :
    List Nat → List Char → List F → Outcome (Bool × List Char × List F)
  | [], pMask, X => Outcome.ok (false, pMask, X)
  | j :: js, pMask, X =>
    match center.get? j with
    | none => Outcome.ub
    | some cj =>
      if cj = 'F' then distdInner ops comp type dist center ipres curres i js pMask X
      else
        match X.get? (i * 3), X.get? (j * 3), X.get? (i * 3 + 1), X.get? (j * 3 + 1),
            X.get? (j * 3 + 2) with
        | some xi, some xj, some yi, some yj, some zj =>
          if X.length ≤ i * 3 + 2 then Outcome.ub
          else
            let X1 := X.set (i * 3 + 2) zj
            let x2 := ops.mul (ops.sub xi xj) (ops.sub xi xj)
            let y2 := ops.mul (ops.sub yi yj) (ops.sub yi yj)
            let z2 := ops.mul zj zj
            let distance := ops.sqrt (ops.add (ops.add x2 y2) z2)
            if type = ':' then
              if comp = '<' then
                if ops.lt distance dist then
                  Outcome.ok (true,
                    setRange pMask (ipres.getD curres 0) (ipres.getD (curres + 1) 0), X1)
                else distdInner ops comp type dist center ipres curres i js pMask X1
              else if comp = '>' then
                if ops.gt distance dist then
                  Outcome.ok (true,
                    setRange pMask (ipres.getD curres 0) (ipres.getD (curres + 1) 0), X1)
                else distdInner ops comp type dist center ipres curres i js pMask X1
              else Outcome.fail
            else if type = '@' then
              if comp = '<' ∧ ops.lt distance dist = true then
                Outcome.ok (true, pMask.set i 'T', X1)
              else if comp = '>' ∧ ops.gt distance dist = true then
                Outcome.ok (true, pMask.set i 'T', X1)
              else distdInner ops comp type dist center ipres curres i js pMask X1
            else Outcome.fail
        | _, _, _, _, _ => Outcome.ub

/-- The outer loop `for (i = 0; i < atoms; i++)` of `selectDistd`. At residue granularity
a `break` of the inner loop sets `i` to `ipres[curres+1]-2`, so that the next value is
`ipres[curres+1]-1` (the entries of `ipres` are atom numbers, at least 1); the loop
variable can therefore move backwards, and the loop runs on `fuel`: `none` means that the
fuel did not suffice. An entry of `ipres` past the end of the list reads as `0`, as in the
other routines. -/
def distdOuter {F : Type} (ops : FloatOps F) (comp type : Char) (dist : F)
    (center : List Char) (atoms : Nat) (ipres : List Nat) :
    Nat → Nat → Nat → List Char → List F → Option (Outcome (List Char × List F))
  | 0, _, _, _, _ => none
  | fuel + 1, i, curres, pMask, X =>
    if atoms ≤ i then some (Outcome.ok (pMask, X))
    else
      let curres := if ipres.getD (curres + 1) 0 ≤ i + 1 then curres + 1 else curres
      if pMask.getD i 'F' = 'T' then
        distdOuter ops comp type dist center atoms ipres fuel (i + 1) curres pMask X
      else
        match distdInner ops comp type dist center ipres curres i (List.range atoms) pMask X with
        | Outcome.ok (brk, pMask2, X2) =>
          distdOuter ops comp type dist center atoms ipres fuel
            (if brk = true ∧ type = ':' then ipres.getD (curres + 1) 0 - 1 else i + 1)
            curres pMask2 X2
        | Outcome.fail => some Outcome.fail
        | Outcome.ub => some Outcome.ub

/-- `selectDistd(criteria, center, atoms, residues, ipres, X)`: the comparator is
`criteria[0]`, the granularity `criteria[1]`, the threshold the number read from
`criteria+2`. The result is the mask together with the coordinates as the routine leaves
them. A NULL `criteria`, or one of fewer than two characters (`criteria+2` is then past
its terminator), is undefined behaviour; a NULL `center` is read like an empty array. -/
def selectDistd {F : Type} (ops : FloatOps F) (fuel : Nat)
    (criteria center : Option (List Char)) (atoms _residues : Nat) (ipres : List Nat)
    (X : List F) : Option (Outcome (List Char × List F)) :=
  match criteria with
  | none => some Outcome.ub
  | some crit =>
    if crit.length < 2 then some Outcome.ub
    else
      match ops.scan (crit.drop 2) with
      | none => some Outcome.fail
      | some dist =>
        distdOuter ops (crit.getD 0 NUL) (crit.getD 1 NUL) dist (center.getD []) atoms ipres
          fuel 0 0 (List.replicate atoms 'F') X

/-- `selectDistd` as the argument `distd` of `eval`, for the universe `U` and a given
fuel; running out of fuel is reported as `ub`. -/
def distdOf {F : Type} (ops : FloatOps F) (fuel : Nat) (U : Universe) :
    Option (List Char) → Option (List Char) → List F → Outcome (List Char × List F) :=
  fun criteria center X =>
    match selectDistd ops fuel criteria center U.atoms U.residues U.ipres X with
    | some r => r
    | none => Outcome.ub

/-- The natural number written by the leading decimal digits of a text, if there are any. -/
def scanDigits (s : List Char) : Option Nat :=
  match s.takeWhile isdigit with
  | [] => none
  | ds => some (ds.foldl (fun n c => 10 * n + (c.toNat - 48)) 0)

/-- Exact integer arithmetic as an interpretation of the floating-point operations (the
square root rounded down, the threshold read from an optional minus sign and the leading
decimal digits): it agrees with `double` arithmetic as long as the coordinates and the
threshold are integers of moderate size and every distance met is an integer. -/
def intOps : FloatOps Int :=
  ⟨fun a b => a - b, fun a b => a * b, fun a b => a + b,
    fun a => Int.ofNat (Nat.findGreatest (fun k => k * k ≤ a.toNat) a.toNat),
    fun a b => decide (a < b), fun a b => decide (a > b),
    fun s =>
      match s with
      | '-' :: r => (scanDigits r).map (fun n => - Int.ofNat n)
      | _ => (scanDigits s).map Int.ofNat⟩

/-- The mask is a union of whole residues: in every residue of the universe either every
particle is selected or none is. -/
def WholeResidues (U : Universe) (m : List Char) : Prop :=
  ∀ r, r < U.residues →
    (∀ k, inResidue U.ipres r k → m[k]? = some 'T') ∨
      (∀ k, inResidue U.ipres r k → m[k]? = some 'F')

/-- A character that the scanner of `tokenize` does not know: it is no whitespace, no
operator, no parenthesis, neither `:` nor `@`, and no operand character. -/
def isUnknown (c : Char) : Bool :=
  !(isspace c || isOperator c || c = '(' || c = ')' || c = ':' || c = '@' || isOperand c)

/-- The range selection to which a numeric list hands its sub-terms: `resnum_select` in a
residue term, `atnum_select` in an atom term. -/
def numSel (U : Universe) (c0 : Char) : Int → Int → List Char → List Char :=
  if c0 = ':' then fun r1 r2 m => resnum_select r1 r2 m U.residues U.ipres
  else fun a1 a2 m => atnum_select a1 a2 m U.atoms

/-! ## `isNameMatch` as written in the source -/

/-- The inner loop of `isNameMatch` at a `*` of the pattern,
`for (; *p; p++) if (isNameMatch(p, &s2[i+1])) return 1;` followed by
`return isNameMatch(p, &s2[i+1])` at the end of the candidate; `call` is the recursive
call and `r` the pattern after the `*`. `none` means that a call did not return. -/
def starLoop (call : List Char → List Char → Option Bool) (r : List Char) :
    List Char → Option Bool
  | [] => call [] r
  | c :: p =>
    match call (c :: p) r with
    | none => none
    | some true => some true
    | some false => starLoop call r p

/-- The body of `isNameMatch(s1, s2)` as written in the source: the loop over the
candidate from `p`, with the pattern from `s2[i]` on, and the tests after the loop;
`call` is the recursive call. -/
def nameLoop (call : List Char → List Char → Option Bool) :
    List Char → List Char → Option Bool
  | [], pat =>
    match pat with
    | [] => some true
    | d :: r => if d = '*' then call [] r else some false
  | c :: p, pat =>
    match pat with
    | [] => if c = ' ' then nameLoop call p [] else some false
    | d :: r =>
      if d = '*' then starLoop call r (c :: p)
      else if d = '?' then nameLoop call p r
      else if c = ' ' then nameLoop call p (d :: r)
      else if c ≠ d then some false
      else nameLoop call p r

/-- `isNameMatch` run with a bound on the depth of its recursion: `none` when the bound
is reached before the call returns. -/
def isNameMatchRun : Nat → List Char → List Char → Option Bool
  | 0 => fun _ _ => none
  | fuel + 1 => nameLoop (isNameMatchRun fuel)

/-! ## Further notions used in the statements -/

/-- Whether some `<` or `>` of the text is directly followed by a whitespace character. -/
def spaceAfterDist : List Char → Bool
  | [] => false
  | c :: rest =>
    (decide (c = '<' ∨ c = '>') &&
      (match rest with
       | [] => false
       | d :: _ => isspace d)) || spaceAfterDist rest

/-- Whether every `=` of the text stands inside an elementary term opened by `:` or `@`:
a term is opened at `:` or `@`, goes on over operand characters (and the whitespace the
scanner skips) and ends at any other character. The second argument tells whether such a
term is open before the text. -/
def eqInTerm : List Char → Bool → Bool
  | [], _ => true
  | c :: rest, inTerm =>
    if c = '=' then inTerm && eqInTerm rest inTerm
    else if c = ':' ∨ c = '@' then eqInTerm rest true
    else if isOperand c = true ∨ isspace c = true then eqInTerm rest inTerm
    else eqInTerm rest false

/-- The text before a position is one after which a new term must start: whitespace
aside, it is empty or ends with an operator or a parenthesis. -/
def termStart (A : List Char) : Prop :=
  ∀ x, (dropSpaces A).getLast? = some x → isOperator x = true ∨ x = '(' ∨ x = ')'

instance (A : List Char) : Decidable (termStart A) := by
  unfold termStart
  cases h : (dropSpaces A).getLast? with
  | none => exact isTrue (fun x hx => by simp at hx)
  | some y =>
    exact decidable_of_iff (isOperator y = true ∨ y = '(' ∨ y = ')')
      ⟨fun hy x hx => by simp at hx; subst hx; exact hy, fun hy => hy y rfl⟩

/-! ## `torpn` with the reason of a stop kept -/

/-- The ways in which `torpn` can stop before the end of the stream: the three error
returns of the source (`unbalanced parentheses in expression`, `Error in priority.`,
`unknown symbol`) and the read of the top of an empty stack, which dereferences NULL. -/
inductive TorpnError where
  | unbalanced
  | priorityLookup
  | unknownSymbol
  | nullStack
  deriving DecidableEq, Repr

/-- Result of a step of `torpn` with the reason kept when it stops. -/
inductive Traced (α : Type) where
  | done (a : α)
  | stopped (why : TorpnError)
  deriving DecidableEq, Repr

/-- The outcome seen by the caller: every error return is the failure, the read of an
empty stack is undefined behaviour. -/
def Traced.erase {α : Type} : Traced α → Outcome α
  | Traced.done a => Outcome.ok a
  | Traced.stopped TorpnError.nullStack => Outcome.ub
  | Traced.stopped _ => Outcome.fail

/-- The loop of `torpn` at `)`, with the reason kept when it stops. -/
def popToParenTraced : List Char → List Char → Traced (List Char × List Char)
  | [], _ => Traced.stopped TorpnError.nullStack
  | pp :: stack, out =>
    if pp = '(' then Traced.done (stack, out)
    else if pp = '_' then Traced.stopped TorpnError.unbalanced
    else popToParenTraced stack (out ++ [pp])

/-- The loop of `torpn` at the terminal symbol, with the reason kept when it stops. -/
def popToTermTraced : List Char → List Char → Traced (List Char × List Char)
  | [], _ => Traced.stopped TorpnError.nullStack
  | pp :: stack, out =>
    if pp = '_' then Traced.done (stack, out)
    else if pp = '(' then Traced.stopped TorpnError.unbalanced
    else popToTermTraced stack (out ++ [pp])

/-- The operator branch of `torpn`, with the reason kept when it stops. -/
def pushOperatorTraced (c : Char) : List Char → List Char → Traced (List Char × List Char)
  | [], _ => Traced.stopped TorpnError.nullStack
  | top :: stack, out =>
    if priority c = 0 ∨ priority top = 0 then Traced.stopped TorpnError.priorityLookup
    else if priority c > priority top then Traced.done (c :: top :: stack, out)
    else pushOperatorTraced c stack (out ++ [top])

/-- The scanning loop of `torpn`, with the reason kept when it stops. -/
def torpnLoopTraced : List Char → List Char → Bool → List Char → Traced (List Char)
  | [], _, _, out => Traced.done out
  | c :: rest, stack, flag, out =>
    if c = '[' then torpnLoopTraced rest stack true (out ++ [c])
    else if c = ']' then torpnLoopTraced rest stack false (out ++ [c])
    else if flag then torpnLoopTraced rest stack flag (out ++ [c])
    else if c = '(' then torpnLoopTraced rest (c :: stack) flag out
    else if c = ')' then
      match popToParenTraced stack out with
      | Traced.done (stack2, out2) => torpnLoopTraced rest stack2 flag out2
      | Traced.stopped why => Traced.stopped why
    else if c = '_' then
      match popToTermTraced stack out with
      | Traced.done (stack2, out2) => torpnLoopTraced rest stack2 flag out2
      | Traced.stopped why => Traced.stopped why
    else if isOperator c then
      match pushOperatorTraced c stack out with
      | Traced.done (stack2, out2) => torpnLoopTraced rest stack2 flag out2
      | Traced.stopped why => Traced.stopped why
    else Traced.stopped TorpnError.unknownSymbol

/-- `torpn` with the reason kept when it stops. -/
def torpnTraced (tokenized : List Char) : Traced (List Char) :=
  torpnLoopTraced tokenized ['_'] false []

/-! ## Bracketed terms and operators of a stream -/

/-- The characters of a stream or postfix text that stand outside the brackets `[...]`
(the brackets themselves not counted); the second argument tells whether the text starts
inside a bracket. -/
def outsideOf : List Char → Bool → List Char
  | [], _ => []
  | c :: r, fl =>
    if c = '[' then outsideOf r true
    else if c = ']' then outsideOf r false
    else if fl then outsideOf r true
    else c :: outsideOf r false

/-- The bracketed terms of a stream or postfix text written one after the other, each
with its brackets. -/
def insideOf : List Char → Bool → List Char
  | [], _ => []
  | c :: r, fl =>
    if c = '[' then c :: insideOf r true
    else if c = ']' then c :: insideOf r false
    else if fl then c :: insideOf r true
    else insideOf r false

/-- The sequence of the bracketed terms of a stream or postfix text, each without its
brackets; the arguments are the text, whether it starts inside a bracket, and the part of
the current term already read. -/
def termsOf : List Char → Bool → List Char → List (List Char)
  | [], _, _ => []
  | c :: r, fl, cur =>
    if c = '[' then termsOf r true []
    else if c = ']' then cur :: termsOf r false []
    else if fl then termsOf r true (cur ++ [c])
    else termsOf r false cur

/-- The operators `! & | < >` among the characters of a text, in their order. -/
def operatorsOf (l : List Char) : List Char := l.filter (fun c => isOperator c)

/-- Scan of a piece of the normalized stream for its shape, from the state "inside
brackets" `fl`; `sd` tells whether a distance operator has been met outside brackets. The
scan fails when a character outside brackets is neither a parenthesis nor an operator,
when a parenthesis or the terminal symbol stands inside brackets, or when a `<` or `>`
stands inside brackets before any distance operator outside. -/
def shapeScan : List Char → Bool → Bool → Option (Bool × Bool)
  | [], fl, sd => some (fl, sd)
  | c :: r, fl, sd =>
    if c = '[' then shapeScan r true sd
    else if c = ']' then shapeScan r false sd
    else if fl then
      if c = '(' ∨ c = ')' ∨ c = '_' then none
      else if (c = '<' ∨ c = '>') ∧ sd = false then none
      else shapeScan r true sd
    else if c = '(' ∨ c = ')' then shapeScan r false sd
    else if isOperator c then shapeScan r false (sd || decide (c = '<' ∨ c = '>'))
    else none

/-- A stack entry that, when it is long enough to be read as a mask of the universe, is
one: exactly `atoms` entries, each `'T'` or `'F'`. -/
def Readable (U : Universe) (e : Option (List Char)) : Prop :=
  ∀ m, e = some m → U.atoms ≤ m.length → m.length = U.atoms ∧ IsTF m

/-- A stack that is not empty and whose single entry, when there is only one, is a mask
of the universe if it can be read as one. -/
def Settled (U : Universe) (S : List (Option (List Char))) : Prop :=
  S ≠ [] ∧ ∀ e, S = [e] → Readable U e

/-! # Theorems -/

/-! ## Character-class facts -/

theorem isspace_cases {c : Char} (h : isspace c = true) :
    c = ' ' ∨ c = Char.ofNat 9 ∨ c = Char.ofNat 10 ∨ c = Char.ofNat 11 ∨
      c = Char.ofNat 12 ∨ c = Char.ofNat 13 := by
  simpa [isspace, or_assoc] using h

theorem isOperand_not_space {c : Char} (h : isOperand c = true) : isspace c = false := by
  cases hs : isspace c with
  | false => rfl
  | true =>
    exfalso
    rcases isspace_cases hs with h1 | h1 | h1 | h1 | h1 | h1 <;> subst h1 <;> revert h <;> decide

theorem isOperator_cases {c : Char} (h : isOperator c = true) :
    c = '!' ∨ c = '&' ∨ c = '|' ∨ c = '<' ∨ c = '>' := by
  simpa [isOperator, strchr] using h

theorem isOperand_not_special {c : Char} (h : isOperand c = true) :
    isOperator c = false ∧ c ≠ '(' ∧ c ≠ ')' ∧ c ≠ '[' ∧ c ≠ ']' ∧ c ≠ ':' ∧ c ≠ '@' ∧
      c ≠ '_' := by
  refine ⟨?_, ?_, ?_, ?_, ?_, ?_, ?_, ?_⟩
  · cases ho : isOperator c with
    | false => rfl
    | true =>
      exfalso
      rcases isOperator_cases ho with h1 | h1 | h1 | h1 | h1 <;> subst h1 <;> revert h <;> decide
  all_goals (intro hc; subst hc; revert h; decide)

/-! ## Unfolding of the tokenizer loop -/

theorem tokenizeLoop_nil (flag : Nat) (buffer out : List Char) :
    tokenizeLoop [] flag buffer out =
      some ((if flag > 0 then out ++ (buffer ++ [']', ')']) else out) ++ [NUL]) := rfl

theorem tokenizeLoop_cons (c : Char) (rest : List Char) (flag : Nat) (buffer out : List Char) :
    tokenizeLoop (c :: rest) flag buffer out =
    if isspace c then tokenizeLoop rest flag buffer out
    else if isOperator c ∨ c = '(' ∨ c = ')' then
      if c = '>' ∨ c = '<' then
        match rest with
        | [] => some ((if flag > 0 then out ++ (buffer ++ [']', ')']) else out) ++ [c])
        | d :: rest2 =>
          if d = ':' ∨ d = '@' then tokenizeLoop rest2 3 ['(', '[', c, d] ((if flag > 0 then out ++ (buffer ++ [']', ')']) else out) ++ [c])
          else none
      else tokenizeLoop rest 0 buffer ((if flag > 0 then out ++ (buffer ++ [']', ')']) else out) ++ [c])
    else if isOperand c then
      if flag = 0 ∧ c ≠ '*' then none
      else
        if c = '=' then
          if (if flag = 0 then 1 else flag) > 0 then tokenizeLoop rest (if flag = 0 then 1 else flag) ((if flag = 0 then ['(', '['] else buffer) ++ ['*']) out
          else none
        else tokenizeLoop rest (if flag = 0 then 1 else flag) ((if flag = 0 then ['(', '['] else buffer) ++ [c]) out
    else if c = ':' then
      if flag = 0 then tokenizeLoop rest 1 ['(', '[', ':'] out
      else tokenizeLoop rest 1 (buffer ++ [']', ')', '|', '(', '[', ':']) out
    else if c = '@' then
      if flag = 0 then tokenizeLoop rest 2 ['(', '[', '@'] out
      else if flag = 1 then tokenizeLoop rest 2 (buffer ++ [']', '&', '[', '@']) out
      else if flag = 2 then
        tokenizeLoop rest 2 (buffer ++ [']', ')', '|', '(', '[', '@']) out
      else tokenizeLoop rest flag buffer out
    else none := by
  cases rest <;> rfl

theorem tokenizeLoop_space {c : Char} (h : isspace c = true) (rest : List Char) (flag : Nat)
    (buffer out : List Char) :
    tokenizeLoop (c :: rest) flag buffer out = tokenizeLoop rest flag buffer out := by
  rw [tokenizeLoop_cons]; simp [h]

theorem tokenizeLoop_operand {c : Char} (h : isOperand c = true) (rest : List Char)
    (flag : Nat) (hf : 0 < flag) (buffer out : List Char) :
    tokenizeLoop (c :: rest) flag buffer out =
      tokenizeLoop rest flag (buffer ++ [eqStar c]) out := by
  have hs := isOperand_not_space h
  obtain ⟨ho, h1, h2, -, -, -, -, -⟩ := isOperand_not_special h
  have hf0 : flag ≠ 0 := by omega
  rw [tokenizeLoop_cons]
  by_cases he : c = '='
  · subst he
    simp [hs, ho, h, hf0, hf, eqStar]
  · simp [hs, ho, h1, h2, h, hf0, he, eqStar]

theorem tokenizeLoop_operands (spec rest : List Char) (flag : Nat) (hf : 0 < flag)
    (h : ∀ c ∈ spec, isOperand c = true) (buffer out : List Char) :
    tokenizeLoop (spec ++ rest) flag buffer out =
      tokenizeLoop rest flag (buffer ++ spec.map eqStar) out := by
  induction spec generalizing buffer with
  | nil => simp
  | cons c spec ih =>
    have hc : isOperand c = true := h c (List.mem_cons_self _ _)
    rw [List.cons_append, tokenizeLoop_operand hc _ _ hf,
      ih (fun c hc => h c (List.mem_cons_of_mem _ hc))]
    simp

theorem tokenizeLoop_colon (rest : List Char) (flag : Nat) (buffer out : List Char) :
    tokenizeLoop (':' :: rest) flag buffer out =
      if flag = 0 then tokenizeLoop rest 1 ['(', '[', ':'] out
      else tokenizeLoop rest 1 (buffer ++ [']', ')', '|', '(', '[', ':']) out := by
  rw [tokenizeLoop_cons]
  have h1 : isspace ':' = false := by decide
  have h2 : isOperator ':' = false := by decide
  have h3 : isOperand ':' = false := by decide
  simp [h1, h2, h3]

theorem tokenizeLoop_at (rest : List Char) (flag : Nat) (buffer out : List Char) :
    tokenizeLoop ('@' :: rest) flag buffer out =
      if flag = 0 then tokenizeLoop rest 2 ['(', '[', '@'] out
      else if flag = 1 then tokenizeLoop rest 2 (buffer ++ [']', '&', '[', '@']) out
      else if flag = 2 then
        tokenizeLoop rest 2 (buffer ++ [']', ')', '|', '(', '[', '@']) out
      else tokenizeLoop rest flag buffer out := by
  rw [tokenizeLoop_cons]
  have h1 : isspace '@' = false := by decide
  have h2 : isOperator '@' = false := by decide
  have h3 : isOperand '@' = false := by decide
  simp [h1, h2, h3]

theorem tokenizeLoop_plainOp {c : Char} (h : isPlainOp c = true) (rest : List Char)
    (flag : Nat) (buffer out : List Char) :
    tokenizeLoop (c :: rest) flag buffer out =
      tokenizeLoop rest 0 buffer (flushed flag buffer out ++ [c]) := by
  rw [tokenizeLoop_cons]
  have h5 : c = '!' ∨ c = '&' ∨ c = '|' ∨ c = '(' ∨ c = ')' := by simpa [isPlainOp] using h
  rcases h5 with h5 | h5 | h5 | h5 | h5 <;> subst h5 <;> simp [flushed, isspace, isOperator, strchr]

/-! ## Every primitive selection keeps the length of the mask -/

theorem foldl_length {α : Type} (f : List Char → α → List Char)
    (hf : ∀ m x, (f m x).length = m.length) (xs : List α) (m : List Char) :
    (xs.foldl f m).length = m.length := by
  induction xs generalizing m with
  | nil => rfl
  | cons x xs ih => rw [List.foldl_cons, ih, hf]

theorem setRange_length (m : List Char) (lo hi : Nat) : (setRange m lo hi).length = m.length :=
  foldl_length _ (fun m j => by simp) _ _

theorem resnum_select_length (r1 r2 : Int) (m : List Char) (residues : Nat) (ipres : List Nat) :
    (resnum_select r1 r2 m residues ipres).length = m.length :=
  foldl_length _ (fun m i => by split <;> simp [setRange_length]) _ _

theorem resname_select_length (p m : List Char) (residues : Nat) (rn : List (List Char))
    (ipres : List Nat) : (resname_select p m residues rn ipres).length = m.length :=
  foldl_length _ (fun m i => by split <;> simp [setRange_length]) _ _

theorem all_select_length (m : List Char) (atoms : Nat) : (all_select m atoms).length = m.length :=
  foldl_length _ (fun m i => by simp) _ _

theorem atnum_select_length (a1 a2 : Int) (m : List Char) (atoms : Nat) :
    (atnum_select a1 a2 m atoms).length = m.length :=
  foldl_length _ (fun m i => by split <;> simp) _ _

theorem atname_select_length (p m : List Char) (atoms : Nat) (an : List (List Char)) :
    (atname_select p m atoms an).length = m.length :=
  foldl_length _ (fun m i => by split <;> simp) _ _

theorem atelem_selectLoop_length (p : List Char) (an : List (List Char)) (js : List Nat)
    (m : List Char) : (atelem_selectLoop p an js m).length = m.length := by
  induction js generalizing m with
  | nil => rfl
  | cons j js ih =>
    simp only [atelem_selectLoop]
    split
    · rw [ih]; simp
    · split
      · rfl
      · rw [ih]

theorem atelem_select_length (p m : List Char) (atoms : Nat) (an : List (List Char)) :
    (atelem_select p m atoms an).length = m.length :=
  atelem_selectLoop_length _ _ _ _

theorem numlistLoop_length (sel : Int → Int → List Char → List Char)
    (hsel : ∀ a b m, (sel a b m).length = m.length) (pp buffer : List Char) (r1 : Int)
    (dash : Bool) (m : List Char) : (numlistLoop sel pp buffer r1 dash m).length = m.length := by
  induction pp generalizing buffer r1 dash m with
  | nil => rfl
  | cons c rest ih =>
    rw [numlistLoop]
    split_ifs <;> (try split) <;> simp [ih, hsel]

theorem residue_numlist_length (pp m : List Char) (residues : Nat) (ipres : List Nat) :
    (residue_numlist pp m residues ipres).length = m.length :=
  numlistLoop_length _ (fun _ _ _ => resnum_select_length _ _ _ _ _) _ _ _ _ _

theorem atom_numlist_length (pp m : List Char) (atoms : Nat) :
    (atom_numlist pp m atoms).length = m.length :=
  numlistLoop_length _ (fun _ _ _ => atnum_select_length _ _ _ _) _ _ _ _ _

theorem residue_namelistLoop_length (residues : Nat) (rn : List (List Char)) (ipres : List Nat)
    (pp buffer m : List Char) :
    (residue_namelistLoop residues rn ipres pp buffer m).length = m.length := by
  induction pp generalizing buffer m with
  | nil => rfl
  | cons c rest ih =>
    rw [residue_namelistLoop]
    split_ifs <;> simp [ih, residue_numlist_length, resname_select_length]

theorem atom_namelistLoop_length (atoms : Nat) (an : List (List Char))
    (pp buffer m : List Char) :
    (atom_namelistLoop atoms an pp buffer m).length = m.length := by
  induction pp generalizing buffer m with
  | nil => rfl
  | cons c rest ih =>
    rw [atom_namelistLoop]
    split_ifs <;> simp [ih, atom_numlist_length, atname_select_length]

theorem atom_elemlistLoop_length (atoms : Nat) (an : List (List Char))
    (pp buffer m : List Char) :
    (atom_elemlistLoop atoms an pp buffer m).length = m.length := by
  induction pp generalizing buffer m with
  | nil => rfl
  | cons c rest ih =>
    rw [atom_elemlistLoop]
    split_ifs <;> simp [ih, atelem_select_length]

theorem resMaskLoop_length (U : Universe) (pp buffer : List Char) (k : ListKind)
    (m : List Char) : (resMaskLoop U pp buffer k m).length = m.length := by
  induction pp generalizing buffer k m with
  | nil => rfl
  | cons c rest ih =>
    rw [resMaskLoop]
    split_ifs <;> (try split) <;>
      simp [ih, all_select_length, residue_numlist_length, residue_namelist,
        residue_namelistLoop_length]

theorem atomMaskLoop_length (U : Universe) (pp buffer : List Char) (k : ListKind)
    (m : List Char) : (atomMaskLoop U pp buffer k m).length = m.length := by
  induction pp generalizing buffer k m with
  | nil => rfl
  | cons c rest ih =>
    rw [atomMaskLoop]
    split_ifs <;> (try split) <;>
      simp [ih, all_select_length, atom_numlist_length, atom_namelist, atom_elemlist,
        atom_namelistLoop_length, atom_elemlistLoop_length]

/-- An elementary term that starts with `:`, `@` or `*` yields a mask of
`atoms` entries. -/
theorem selectElemMask_length (U : Universe) (c : Char) (s : List Char)
    (hc : c = ':' ∨ c = '@' ∨ c = '*') :
    ∃ m, selectElemMask U (c :: s) = some m ∧ m.length = U.atoms := by
  rcases hc with h | h | h <;> subst h
  · exact ⟨_, rfl, by simp [resMaskLoop_length]⟩
  · exact ⟨_, rfl, by simp [atomMaskLoop_length]⟩
  · exact ⟨_, rfl, by simp [all_select_length]⟩

/-! ## One bracketed term through `torpn` and `eval` -/

theorem torpnLoop_body (body rest stack out : List Char) (h : ∀ c ∈ body, c ≠ ']') :
    torpnLoop (body ++ ']' :: rest) stack true out =
      torpnLoop rest stack false (out ++ body ++ [']']) := by
  induction body generalizing out with
  | nil => rw [List.nil_append, torpnLoop]; simp
  | cons c body ih =>
    have hc : c ≠ ']' := h c (List.mem_cons_self _ _)
    rw [List.cons_append, torpnLoop]
    by_cases h1 : c = '['
    · simp [h1, ih _ (fun c hc => h c (List.mem_cons_of_mem _ hc))]
    · simp [h1, hc, ih _ (fun c hc => h c (List.mem_cons_of_mem _ hc))]

theorem torpnLoop_term (body rest stack out : List Char) (h : ∀ c ∈ body, c ≠ ']') :
    torpnLoop ('(' :: '[' :: (body ++ ']' :: ')' :: rest)) stack false out =
      torpnLoop rest stack false (out ++ '[' :: (body ++ [']'])) := by
  rw [torpnLoop]
  simp only [Char.reduceEq, if_false, Bool.false_eq_true, if_true]
  rw [torpnLoop]
  simp only [if_true]
  rw [torpnLoop_body _ _ _ _ h, torpnLoop]
  simp [popToParen]

theorem evalLoop_body {Coords : Type} (U : Universe) (type : Char)
    (distd : Option (List Char) → Option (List Char) → Coords → Outcome (List Char × Coords))
    (body rest buffer : List Char) (stack : List (Option (List Char))) (X : Option Coords)
    (h : ∀ c ∈ body, isTermChar c = true) :
    evalLoop U type distd (body ++ rest) buffer stack X =
      evalLoop U type distd rest (buffer ++ body) stack X := by
  induction body generalizing buffer with
  | nil => simp
  | cons c body ih =>
    have hc : isTermChar c = true := h c (List.mem_cons_self _ _)
    have h1 : c ≠ '[' := by intro e; subst e; revert hc; decide
    have h2 : c ≠ ']' := by intro e; subst e; revert hc; decide
    have h3 : isOperand c = true ∨ strchr [':', '@'] c = true := by
      simpa [isTermChar, strchr, or_assoc] using hc
    rw [List.cons_append, evalLoop]
    simp only [h1, h2, if_false, h3, if_true]
    rw [ih _ (fun c hc => h c (List.mem_cons_of_mem _ hc))]
    simp

theorem evalLoop_term {Coords : Type} (U : Universe) (type : Char)
    (distd : Option (List Char) → Option (List Char) → Coords → Outcome (List Char × Coords))
    (body rest buffer : List Char) (stack : List (Option (List Char))) (X : Option Coords)
    (h : ∀ c ∈ body, isTermChar c = true) :
    evalLoop U type distd ('[' :: (body ++ ']' :: rest)) buffer stack X =
      evalLoop U type distd rest body (selectElemMask U body :: stack) X := by
  rw [evalLoop]
  simp only [if_true]
  rw [evalLoop_body U type distd body _ _ _ _ h, evalLoop]
  simp

theorem isTermChar_ne_close {c : Char} (h : isTermChar c = true) : c ≠ ']' := by
  intro e; subst e; revert h; decide

theorem isTermChar_eqStar {c : Char} (h : isOperand c = true) : isTermChar (eqStar c) = true := by
  unfold eqStar
  split
  · decide
  · simp [isTermChar, h]

/-! ## One elementary term through the whole pipeline -/

theorem termText_isTermChar (c0 : Char) (spec : List Char) (hc : c0 = ':' ∨ c0 = '@')
    (h : ∀ c ∈ spec, isOperand c = true) : ∀ c ∈ termText c0 spec, isTermChar c = true := by
  intro c hmem
  simp only [termText, List.mem_cons, List.mem_map] at hmem
  rcases hmem with e | ⟨d, hd, e⟩
  · rcases hc with h1 | h1 <;> subst h1 <;> subst e <;> decide
  · subst e; exact isTermChar_eqStar (h d hd)

theorem tokenize_term (c0 : Char) (spec : List Char) (hc : c0 = ':' ∨ c0 = '@')
    (h : ∀ c ∈ spec, isOperand c = true) :
    tokenize (c0 :: spec) = some ('(' :: '[' :: (termText c0 spec ++ [']', ')', '_'])) := by
  have key : ∀ fl, 0 < fl →
      tokenizeLoop spec fl ['(', '[', c0] [] =
        some ('(' :: '[' :: (termText c0 spec ++ [']', ')', NUL])) := by
    intro fl hfl
    have := tokenizeLoop_operands spec [] fl hfl h ['(', '[', c0] []
    rw [List.append_nil] at this
    rw [this, tokenizeLoop_nil]
    simp [hfl, termText]
  have fin : ∀ t : List Char,
      ('(' :: '[' :: (t ++ [']', ')', NUL])).dropLast ++ ['_'] =
        '(' :: '[' :: (t ++ [']', ')', '_']) := by
    intro t
    have e : '(' :: '[' :: (t ++ [']', ')', NUL]) = ('(' :: '[' :: (t ++ [']', ')'])) ++ [NUL] := by
      simp
    rw [e, List.dropLast_concat]; simp
  unfold tokenize
  rcases hc with h1 | h1 <;> subst h1
  · rw [tokenizeLoop_colon]
    simp only [if_true]
    rw [key 1 (by decide)]
    simp only [fin]
  · rw [tokenizeLoop_at]
    simp only [if_true]
    rw [key 2 (by decide)]
    simp only [fin]

theorem torpn_term (body : List Char) (h : ∀ c ∈ body, c ≠ ']') :
    torpn ('(' :: '[' :: (body ++ [']', ')', '_'])) = Outcome.ok ('[' :: (body ++ [']'])) := by
  unfold torpn
  rw [torpnLoop_term _ _ _ _ h, torpnLoop]
  simp [popToTerm, torpnLoop]

theorem eval_term {Coords : Type} (U : Universe) (X : Option Coords) (type : Char)
    (distd : Option (List Char) → Option (List Char) → Coords → Outcome (List Char × Coords))
    (body : List Char) (h : ∀ c ∈ body, isTermChar c = true) (m : List Char)
    (hm : selectElemMask U body = some m) (hl : m.length = U.atoms) :
    eval U X type distd ('[' :: (body ++ [']'])) = Outcome.ok m := by
  unfold eval
  rw [evalLoop_term U type distd body [] [] [] X h, evalLoop]
  simp [popStack, hm, hl]

/-- A single residue or atom term: `parseMaskString` returns the mask that
`selectElemMask` computes for its text. -/
theorem parseMaskString_term {Coords : Type} (U : Universe) (X : Option Coords) (type : Char)
    (distd : Option (List Char) → Option (List Char) → Coords → Outcome (List Char × Coords))
    (c0 : Char) (spec : List Char) (hc : c0 = ':' ∨ c0 = '@')
    (h : ∀ c ∈ spec, isOperand c = true) :
    ∃ m, selectElemMask U (termText c0 spec) = some m ∧ m.length = U.atoms ∧
      parseMaskString U X type distd (c0 :: spec) = Outcome.ok m := by
  obtain ⟨m, hm, hl⟩ := selectElemMask_length U c0 (spec.map eqStar)
    (by rcases hc with h1 | h1 <;> simp [h1])
  refine ⟨m, hm, hl, ?_⟩
  have ht := termText_isTermChar c0 spec hc h
  unfold parseMaskString
  rw [tokenize_term c0 spec hc h]
  simp only
  rw [torpn_term _ (fun c hc => isTermChar_ne_close (ht c hc))]
  simp only
  exact eval_term U X type distd _ ht m hm hl

/-- The value of a single residue or atom term, from the value of `selectElemMask` on its
text. -/
theorem parseMaskString_term_value {Coords : Type} (U : Universe) (X : Option Coords)
    (type : Char)
    (distd : Option (List Char) → Option (List Char) → Coords → Outcome (List Char × Coords))
    (c0 : Char) (spec : List Char) (hc : c0 = ':' ∨ c0 = '@')
    (h : ∀ c ∈ spec, isOperand c = true) (m : List Char)
    (hm : selectElemMask U (termText c0 spec) = some m) :
    parseMaskString U X type distd (c0 :: spec) = Outcome.ok m := by
  obtain ⟨m2, h1, -, h2⟩ := parseMaskString_term U X type distd c0 spec hc h
  rw [hm] at h1
  rw [h2, ← Option.some.inj h1]

/-! ## Marking loops -/

theorem Marks.id_false : Marks (fun m => m) (fun _ => False) := by
  intro m; exact ⟨rfl, fun k _ => ⟨fun h => h.elim, fun _ => rfl⟩⟩

theorem Marks.comp {f g : List Char → List Char} {Q R : Nat → Prop} (hf : Marks f Q)
    (hg : Marks g R) : Marks (fun m => g (f m)) (fun k => Q k ∨ R k) := by
  intro m
  obtain ⟨lf, hf⟩ := hf m
  obtain ⟨lg, hg⟩ := hg (f m)
  refine ⟨by rw [lg, lf], fun k hk => ?_⟩
  have hk2 : k < (f m).length := by rw [lf]; exact hk
  by_cases hR : R k
  · exact ⟨fun _ => (hg k hk2).1 hR, fun h => (h (Or.inr hR)).elim⟩
  · refine ⟨fun h => ?_, fun h => ?_⟩
    · rw [(hg k hk2).2 hR]
      exact (hf k hk).1 (h.resolve_right hR)
    · rw [(hg k hk2).2 hR]
      exact (hf k hk).2 (fun hq => h (Or.inl hq))

theorem Marks.congr {f : List Char → List Char} {Q R : Nat → Prop} (hf : Marks f Q)
    (h : ∀ k, Q k ↔ R k) : Marks f R := by
  intro m
  obtain ⟨lf, hf⟩ := hf m
  exact ⟨lf, fun k hk => ⟨fun hr => (hf k hk).1 ((h k).2 hr),
    fun hr => (hf k hk).2 (fun hq => hr ((h k).1 hq))⟩⟩

theorem Marks.set (j : Nat) : Marks (fun m => m.set j 'T') (fun k => k = j) := by
  intro m
  refine ⟨by simp, fun k hk => ⟨fun h => ?_, fun h => ?_⟩⟩
  · subst h; simp [List.getElem?_set, hk]
  · simp only [List.getElem?_set]
    rw [if_neg (fun e => h e.symm)]

theorem Marks.ite {f : List Char → List Char} {Q : Nat → Prop} (c : Prop) [Decidable c]
    (hf : Marks f Q) : Marks (fun m => if c then f m else m) (fun k => c ∧ Q k) := by
  by_cases hc : c
  · simp only [hc, if_true, true_and]; exact hf
  · simp only [hc, if_false, false_and]; exact Marks.id_false

theorem Marks.foldl {α : Type} (f : List Char → α → List Char) (Q : α → Nat → Prop)
    (xs : List α) (h : ∀ x ∈ xs, Marks (fun m => f m x) (Q x)) :
    Marks (fun m => xs.foldl f m) (fun k => ∃ x ∈ xs, Q x k) := by
  induction xs with
  | nil => exact Marks.id_false.congr (by simp)
  | cons x xs ih =>
    have h1 := h x (List.mem_cons_self _ _)
    have h2 := ih (fun y hy => h y (List.mem_cons_of_mem _ hy))
    have := Marks.comp h1 h2
    simp only [List.foldl_cons]
    exact this.congr (by simp)

/-- Two routines that mark the same entries give the same mask. -/
theorem Marks.ext {f g : List Char → List Char} {Q : Nat → Prop} (hf : Marks f Q)
    (hg : Marks g Q) (m : List Char) : f m = g m := by
  obtain ⟨lf, hf⟩ := hf m
  obtain ⟨lg, hg⟩ := hg m
  apply List.ext_getElem?
  intro k
  by_cases hk : k < m.length
  · by_cases hq : Q k
    · rw [(hf k hk).1 hq, (hg k hk).1 hq]
    · rw [(hf k hk).2 hq, (hg k hk).2 hq]
  · rw [List.getElem?_eq_none (by omega), List.getElem?_eq_none (by omega)]

/-- On the all-`'F'` mask a marking routine selects exactly the marked entries. -/
theorem Marks.on_fresh {f : List Char → List Char} {Q : Nat → Prop} (hf : Marks f Q)
    (n : Nat) :
    (f (List.replicate n 'F')).length = n ∧
      ∀ k, k < n → ((f (List.replicate n 'F')).getD k 'F' = 'T' ↔ Q k) ∧
        ((f (List.replicate n 'F')).getD k 'F' = 'F' ↔ ¬ Q k) := by
  obtain ⟨lf, hf⟩ := hf (List.replicate n 'F')
  simp only [List.length_replicate] at lf hf
  refine ⟨lf, fun k hk => ?_⟩
  rw [List.getD_eq_getElem?_getD]
  by_cases hq : Q k
  · rw [(hf k hk).1 hq]; simp [hq]
  · rw [(hf k hk).2 hq]; simp [hq, hk]

/-! ## What the primitive selections mark -/

theorem setRange_marks (lo hi : Nat) (hlo : 1 ≤ lo) :
    Marks (fun m => setRange m lo hi) (fun k => lo ≤ k + 1 ∧ k + 1 < hi) := by
  unfold setRange
  refine (Marks.foldl (fun m j => m.set (j - 1) 'T') (fun j k => k = j - 1) _
    (fun j _ => Marks.set (j - 1))).congr (fun k => ?_)
  simp only [List.mem_range'_1]
  constructor
  · rintro ⟨j, ⟨h1, h2⟩, rfl⟩; omega
  · rintro ⟨h1, h2⟩; exact ⟨k + 1, ⟨h1, by omega⟩, by omega⟩

theorem all_select_marks (atoms : Nat) :
    Marks (fun m => all_select m atoms) (fun k => k < atoms) := by
  unfold all_select
  refine (Marks.foldl (fun m j => m.set j 'T') (fun j k => k = j) _
    (fun j _ => Marks.set j)).congr (fun k => ?_)
  simp

theorem atnum_select_marks (a1 a2 : Int) (atoms : Nat) :
    Marks (fun m => atnum_select a1 a2 m atoms)
      (fun k => k < atoms ∧ a1 ≤ (k : Int) + 1 ∧ (k : Int) + 1 ≤ a2) := by
  unfold atnum_select
  refine (Marks.foldl
    (fun m (j : Nat) => if (j : Int) + 1 ≥ a1 ∧ (j : Int) + 1 ≤ a2 then m.set j 'T' else m)
    (fun (j : Nat) k => ((j : Int) + 1 ≥ a1 ∧ (j : Int) + 1 ≤ a2) ∧ k = j) _
    (fun j _ => Marks.ite _ (Marks.set j))).congr (fun k => ?_)
  simp only [List.mem_range]
  constructor
  · rintro ⟨j, h1, ⟨h2, h3⟩, rfl⟩; exact ⟨h1, h2, h3⟩
  · rintro ⟨h1, h2, h3⟩; exact ⟨k, h1, ⟨h2, h3⟩, rfl⟩

theorem atname_select_marks (p : List Char) (atoms : Nat) (an : List (List Char)) :
    Marks (fun m => atname_select p m atoms an)
      (fun k => k < atoms ∧
        (isNameMatch (an.getD k []) p || isNameMatch (sprintf_d (k + 1)) p) = true) := by
  unfold atname_select
  refine (Marks.foldl
    (fun m j => if (isNameMatch (an.getD j []) p || isNameMatch (sprintf_d (j + 1)) p) = true
      then m.set j 'T' else m)
    (fun j k => (isNameMatch (an.getD j []) p || isNameMatch (sprintf_d (j + 1)) p) = true
      ∧ k = j) _
    (fun j _ => Marks.ite _ (Marks.set j))).congr (fun k => ?_)
  simp only [List.mem_range]
  constructor
  · rintro ⟨j, h1, h2, rfl⟩; exact ⟨h1, h2⟩
  · rintro ⟨h1, h2⟩; exact ⟨k, h1, h2, rfl⟩

theorem resnum_select_marks (r1 r2 : Int) (residues : Nat) (ipres : List Nat)
    (hip : ∀ i, i < residues → 1 ≤ ipres.getD i 0) :
    Marks (fun m => resnum_select r1 r2 m residues ipres)
      (fun k => ∃ i : Nat, i < residues ∧ r1 ≤ (i : Int) + 1 ∧ (i : Int) + 1 ≤ r2 ∧
        inResidue ipres i k) := by
  unfold resnum_select
  refine (Marks.foldl
    (fun m (i : Nat) => if (i : Int) + 1 ≥ r1 ∧ (i : Int) + 1 ≤ r2 then
      setRange m (ipres.getD i 0) (ipres.getD (i + 1) 0) else m)
    (fun (i : Nat) k => ((i : Int) + 1 ≥ r1 ∧ (i : Int) + 1 ≤ r2) ∧ inResidue ipres i k) _
    (fun i hi => Marks.ite _ (setRange_marks _ _ (hip i (List.mem_range.1 hi))))).congr
    (fun k => ?_)
  simp only [List.mem_range]
  constructor
  · rintro ⟨i, h1, ⟨h2, h3⟩, h4⟩; exact ⟨i, h1, h2, h3, h4⟩
  · rintro ⟨i, h1, h2, h3, h4⟩; exact ⟨i, h1, ⟨h2, h3⟩, h4⟩

theorem resname_select_marks (p : List Char) (residues : Nat) (rn : List (List Char))
    (ipres : List Nat) (hip : ∀ i, i < residues → 1 ≤ ipres.getD i 0) :
    Marks (fun m => resname_select p m residues rn ipres)
      (fun k => ∃ i, i < residues ∧
        (isNameMatch (rn.getD i []) p || isNameMatch (sprintf_d (i + 1)) p) = true ∧
        inResidue ipres i k) := by
  unfold resname_select
  refine (Marks.foldl
    (fun m i => if (isNameMatch (rn.getD i []) p || isNameMatch (sprintf_d (i + 1)) p) = true
      then setRange m (ipres.getD i 0) (ipres.getD (i + 1) 0) else m)
    (fun i k => (isNameMatch (rn.getD i []) p || isNameMatch (sprintf_d (i + 1)) p) = true
      ∧ inResidue ipres i k) _
    (fun i hi => Marks.ite _ (setRange_marks _ _ (hip i (List.mem_range.1 hi))))).congr
    (fun k => ?_)
  simp only [List.mem_range]

/-- In a well-formed universe every boundary is an atom number, at least 1. -/
theorem Universe.WF.ipres_pos {U : Universe} (h : U.WF) :
    ∀ i, i < U.residues → 1 ≤ U.ipres.getD i 0 := by
  obtain ⟨-, -, -, h0, -, hmono⟩ := h
  intro i
  induction i with
  | zero => intro _; omega
  | succ i ih =>
    intro hi
    have := hmono i (by omega)
    have := ih (by omega)
    omega

/-! ## Negation -/

theorem negFold_getElem? (n : Nat) (m : List Char) (k : Nat) :
    ((List.range n).foldl (fun m i => m.set i (if m.getD i NUL = 'T' then 'F' else 'T')) m)[k]? =
      if k < n then (m[k]?).map flipTF else m[k]? := by
  induction n with
  | zero => simp
  | succ n ih =>
    rw [List.range_succ, List.foldl_append]
    simp only [List.foldl_cons, List.foldl_nil, List.getElem?_set]
    by_cases hkn : n = k
    · subst hkn
      simp only [if_true, Nat.lt_succ_self]
      have hlen : ((List.range n).foldl
          (fun m i => m.set i (if m.getD i NUL = 'T' then 'F' else 'T')) m).length = m.length :=
        foldl_length _ (fun m i => by simp) _ _
      rw [hlen]
      by_cases hk : n < m.length
      · have e := ih
        simp only [Nat.lt_irrefl, if_false] at e
        simp only [hk, if_true]
        rw [List.getD_eq_getElem?_getD, e, List.getElem?_eq_getElem hk]
        simp [flipTF]
      · simp [hk, List.getElem?_eq_none (Nat.le_of_not_lt hk)]
    · simp only [hkn, if_false, ih]
      by_cases h1 : k < n
      · simp [h1, Nat.lt_succ_of_lt h1]
      · have : ¬ k < n + 1 := by omega
        simp [h1, this]

theorem neg_full (m : List Char) (atoms : Nat) (h : m.length = atoms) :
    neg m atoms = Outcome.ok (m.map flipTF) := by
  unfold neg
  rw [if_pos (by omega)]
  congr 1
  apply List.ext_getElem?
  intro k
  rw [negFold_getElem?]
  by_cases hk : k < atoms
  · simp [hk]
  · simp [hk, List.getElem?_eq_none (by omega : m.length ≤ k)]

theorem all_select_fresh (atoms : Nat) :
    all_select (List.replicate atoms 'F') atoms = List.replicate atoms 'T' := by
  have h := (all_select_marks atoms) (List.replicate atoms 'F')
  simp only [List.length_replicate] at h
  apply List.ext_getElem?
  intro k
  by_cases hk : k < atoms
  · rw [(h.2 k hk).1 hk]; simp [hk]
  · rw [List.getElem?_eq_none (by rw [h.1]; omega), List.getElem?_eq_none (by simp; omega)]

theorem evalLoop_nil {Coords : Type} (U : Universe) (type : Char)
    (distd : Option (List Char) → Option (List Char) → Coords → Outcome (List Char × Coords))
    (buffer : List Char) (stack : List (Option (List Char))) (X : Option Coords) :
    evalLoop U type distd [] buffer stack X = Outcome.ok (stack, X) := by
  rw [evalLoop]

theorem evalLoop_neg {Coords : Type} (U : Universe) (type : Char)
    (distd : Option (List Char) → Option (List Char) → Coords → Outcome (List Char × Coords))
    (rest buffer : List Char) (stack : List (Option (List Char))) (X : Option Coords)
    (m1 m : List Char) (hn : neg m1 U.atoms = Outcome.ok m) :
    evalLoop U type distd ('!' :: rest) buffer (some m1 :: stack) X =
      evalLoop U type distd rest buffer (some m :: stack) X := by
  rw [evalLoop]
  have h1 : isOperand '!' = false := by decide
  have h2 : strchr [':', '@'] '!' = false := by decide
  have h3 : strchr ['<', '>'] '!' = false := by decide
  simp [h1, h2, h3, popStack, hn]

theorem evalLoop_binop {Coords : Type} (U : Universe) (type : Char)
    (distd : Option (List Char) → Option (List Char) → Coords → Outcome (List Char × Coords))
    (c : Char) (hc : c = '&' ∨ c = '|')
    (rest buffer : List Char) (stack : List (Option (List Char))) (X : Option Coords)
    (m1 m2 m : List Char) (hb : binop c m2 m1 U.atoms = Outcome.ok m) :
    evalLoop U type distd (c :: rest) buffer (some m1 :: some m2 :: stack) X =
      evalLoop U type distd rest buffer (some m :: stack) X := by
  rw [evalLoop]
  rcases hc with h | h <;> subst h
  · have h1 : isOperand '&' = false := by decide
    have h2 : strchr [':', '@'] '&' = false := by decide
    simp [h1, h2, popStack, hb]
  · have h1 : isOperand '|' = false := by decide
    have h2 : strchr [':', '@'] '|' = false := by decide
    simp [h1, h2, popStack, hb]

/-- C3. The expression `*` evaluates to the mask with all `atoms` entries selected, and
`!(*)` evaluates to the mask with no entry selected. -/
theorem C3_star_selects_all {Coords : Type} (U : Universe) (X : Option Coords) (type : Char)
    (distd : Option (List Char) → Option (List Char) → Coords → Outcome (List Char × Coords)) :
    parseMaskString U X type distd ['*'] = Outcome.ok (List.replicate U.atoms 'T') ∧
    parseMaskString U X type distd ['!', '(', '*', ')'] =
      Outcome.ok (List.replicate U.atoms 'F') := by
  have hsel : selectElemMask U ['*'] = some (List.replicate U.atoms 'T') := by
    simp [selectElemMask, all_select_fresh]
  have hterm : ∀ c ∈ ['*'], isTermChar c = true := by decide
  have ht1 : tokenize ['*'] = some ['(', '[', '*', ']', ')', '_'] := by decide
  have hr1 : torpn ['(', '[', '*', ']', ')', '_'] = Outcome.ok ['[', '*', ']'] := by decide
  have ht2 : tokenize ['!', '(', '*', ')'] =
      some ['!', '(', '(', '[', '*', ']', ')', ')', '_'] := by decide
  have hr2 : torpn ['!', '(', '(', '[', '*', ']', ')', ')', '_'] =
      Outcome.ok ['[', '*', ']', '!'] := by decide
  constructor
  · unfold parseMaskString
    rw [ht1]; simp only; rw [hr1]; simp only
    exact eval_term U X type distd ['*'] hterm _ hsel (by simp)
  · unfold parseMaskString
    rw [ht2]; simp only; rw [hr2]; simp only
    unfold eval
    have e := evalLoop_term U type distd ['*'] ['!'] [] [] X hterm
    simp only [List.cons_append, List.nil_append] at e
    have hn : neg (List.replicate U.atoms 'T') U.atoms =
        Outcome.ok (List.replicate U.atoms 'F') := by
      rw [neg_full _ _ (by simp)]; simp [flipTF]
    rw [e, hsel, evalLoop_neg U type distd _ _ _ _ _ _ hn]
    simp [popStack, evalLoop_nil]

theorem isdigit_iff (c : Char) : isdigit c = true ↔ 48 ≤ c.toNat ∧ c.toNat ≤ 57 := by
  simp only [isdigit, Char.isDigit, Bool.and_eq_true, decide_eq_true_eq, Char.toNat, ge_iff_le]
  exact Iff.rfl

theorem isalpha_iff (c : Char) : isalpha c = true ↔
    (65 ≤ c.toNat ∧ c.toNat ≤ 90) ∨ (97 ≤ c.toNat ∧ c.toNat ≤ 122) := by
  simp only [isalpha, Char.isAlpha, Char.isUpper, Char.isLower, Bool.or_eq_true,
    Bool.and_eq_true, decide_eq_true_eq, Char.toNat, ge_iff_le]
  exact Iff.rfl

theorem isalnum_iff (c : Char) : isalnum c = true ↔ (isalpha c = true ∨ isdigit c = true) := by
  simp [isalnum, Char.isAlphanum, isalpha, isdigit]

theorem char_toNat_ne {c d : Char} (h : c.toNat ≠ d.toNat) : c ≠ d := fun e => h (by rw [e])

/-! ## Numeric lists -/

theorem isdigit_facts {c : Char} (h : isdigit c = true) :
    c ≠ ',' ∧ c ≠ '-' ∧ c ≠ '*' ∧ c ≠ '?' ∧ c ≠ '%' ∧ c ≠ '/' ∧ isalpha c = false ∧
      isOperand c = true := by
  refine ⟨?_, ?_, ?_, ?_, ?_, ?_, ?_, ?_⟩
  any_goals (intro e; subst e; revert h; decide)
  · cases ha : isalpha c with
    | false => rfl
    | true =>
      rw [isdigit_iff] at h
      rw [isalpha_iff] at ha
      omega
  · simp [isOperand, isalnum_iff, h]

/-- A number below `2^31` is stored as it is. -/
theorem storeInt_of_lt {v : Nat} (h : v < 2147483648) : storeInt v = (v : Int) := by
  unfold storeInt
  have h1 : min v 9223372036854775807 = v := by omega
  rw [h1]
  have h2 : (v + 2147483648) % 4294967296 = v + 2147483648 := Nat.mod_eq_of_lt (by omega)
  rw [h2]
  simp

/-- The ends of a sub-term whose numbers fit an `int` are stored as they are. -/
theorem NumItem.Fits.stored {it : NumItem} (h : it.Fits) :
    storeInt it.lo = (it.lo : Int) ∧ storeInt it.hi = (it.hi : Int) := by
  cases it with
  | num n => exact ⟨storeInt_of_lt h, storeInt_of_lt h⟩
  | range a b => exact ⟨storeInt_of_lt h.1, storeInt_of_lt h.2⟩

theorem sscanf_d_number {ds : List Char} (h : IsNumber ds) : sscanf_d ds = some (storeInt (decimal ds)) := by
  obtain ⟨hne, hd⟩ := h
  have ht : ds.takeWhile isdigit = ds := List.takeWhile_eq_self_iff.2 hd
  unfold sscanf_d
  rw [ht]
  cases ds with
  | nil => exact (hne rfl).elim
  | cons c cs => rfl

theorem IsNumber.append_digit {buffer : List Char} {c : Char}
    (hb : ∀ d ∈ buffer, isdigit d = true) (hc : isdigit c = true) : IsNumber (buffer ++ [c]) :=
  ⟨by simp, by
    intro d hd
    rcases List.mem_append.1 hd with h | h
    · exact hb d h
    · rw [List.mem_singleton.1 h]; exact hc⟩

theorem numlistLoop_digit (sel : Int → Int → List Char → List Char) {c : Char}
    (hc : isdigit c = true) (rest : List Char) (hr : rest ≠ []) (buffer : List Char)
    (r1 : Int) (dash : Bool) (m : List Char) :
    numlistLoop sel (c :: rest) buffer r1 dash m =
      numlistLoop sel rest (buffer ++ [c]) r1 dash m := by
  obtain ⟨h1, h2, -⟩ := isdigit_facts hc
  rw [numlistLoop]
  simp [hc, h1, h2, hr]

theorem numlistLoop_digits (sel : Int → Int → List Char → List Char) (ds : List Char)
    (hd : ∀ c ∈ ds, isdigit c = true) (rest : List Char) (hr : rest ≠ []) (buffer : List Char)
    (r1 : Int) (dash : Bool) (m : List Char) :
    numlistLoop sel (ds ++ rest) buffer r1 dash m =
      numlistLoop sel rest (buffer ++ ds) r1 dash m := by
  induction ds generalizing buffer with
  | nil => simp
  | cons c ds ih =>
    rw [List.cons_append, numlistLoop_digit sel (hd c (List.mem_cons_self _ _)) _ (by simp [hr]),
      ih (fun c hc => hd c (List.mem_cons_of_mem _ hc))]
    simp

theorem numlistLoop_comma (sel : Int → Int → List Char → List Char) (rest buffer : List Char)
    (hb : IsNumber buffer) (r1 : Int) (dash : Bool) (m : List Char) :
    numlistLoop sel (',' :: rest) buffer r1 dash m =
      numlistLoop sel rest [] (if dash then r1 else storeInt (decimal buffer)) false
        (sel (if dash then r1 else storeInt (decimal buffer)) (storeInt (decimal buffer)) m) := by
  have h0 : isdigit ',' = false := by decide
  rw [numlistLoop]
  cases dash <;> simp [h0, sscanf_d_number hb]

theorem numlistLoop_dash (sel : Int → Int → List Char → List Char) (rest buffer : List Char)
    (hr : rest ≠ []) (hb : IsNumber buffer) (r1 : Int) (dash : Bool) (m : List Char) :
    numlistLoop sel ('-' :: rest) buffer r1 dash m =
      numlistLoop sel rest [] (storeInt (decimal buffer)) true m := by
  have h0 : isdigit '-' = false := by decide
  rw [numlistLoop]
  simp [h0, hr, sscanf_d_number hb]

theorem numlistLoop_last (sel : Int → Int → List Char → List Char) {c : Char}
    (hc : isdigit c = true) (buffer : List Char) (hb : ∀ d ∈ buffer, isdigit d = true)
    (r1 : Int) (dash : Bool) (m : List Char) :
    numlistLoop sel [c] buffer r1 dash m =
      sel (if dash then r1 else storeInt (decimal (buffer ++ [c])))
        (storeInt (decimal (buffer ++ [c]))) m := by
  rw [numlistLoop]
  cases dash <;>
    simp [hc, sscanf_d_number (IsNumber.append_digit hb hc), numlistLoop]

/-- A complete number at the end of the text. -/
theorem numlistLoop_number_end (sel : Int → Int → List Char → List Char) (n : List Char)
    (hn : IsNumber n) (r1 : Int) (dash : Bool) (m : List Char) :
    numlistLoop sel n [] r1 dash m =
      sel (if dash then r1 else storeInt (decimal n)) (storeInt (decimal n)) m := by
  obtain ⟨hne, hd⟩ := hn
  have e : n = n.dropLast ++ [n.getLast hne] := (List.dropLast_append_getLast hne).symm
  have hd1 : ∀ c ∈ n.dropLast, isdigit c = true := fun c hc => hd c (List.mem_of_mem_dropLast hc)
  have hd2 : isdigit (n.getLast hne) = true := hd _ (List.getLast_mem hne)
  conv_lhs => rw [e]
  rw [numlistLoop_digits sel _ hd1 _ (by simp), List.nil_append,
    numlistLoop_last sel hd2 _ hd1, ← e]

/-- A complete number followed by more text. -/
theorem numlistLoop_number (sel : Int → Int → List Char → List Char) (n : List Char)
    (hn : IsNumber n) (rest : List Char) (hr : rest ≠ []) (r1 : Int) (dash : Bool)
    (m : List Char) :
    numlistLoop sel (n ++ rest) [] r1 dash m = numlistLoop sel rest n r1 dash m := by
  rw [numlistLoop_digits sel n hn.2 rest hr, List.nil_append]

/-- The loop of a numeric list marks, for every sub-term, what the range
selection marks between its two ends. -/
theorem numlistLoop_marks (sel : Int → Int → List Char → List Char) (Q : Int → Int → Nat → Prop)
    (hsel : ∀ a b, Marks (sel a b) (Q a b)) (items : List NumItem) (hne : items ≠ [])
    (hv : ∀ it ∈ items, it.Valid) (r1 : Int) :
    Marks (fun m => numlistLoop sel (numListText items) [] r1 false m)
      (fun k => ∃ it ∈ items, Q (storeInt it.lo) (storeInt it.hi) k) := by
  induction items generalizing r1 with
  | nil => exact (hne rfl).elim
  | cons it its ih =>
    have hit : it.Valid := hv it (List.mem_cons_self _ _)
    cases its with
    | nil =>
      cases it with
      | num n =>
        have e : ∀ m, numlistLoop sel (numListText [NumItem.num n]) [] r1 false m =
            sel (storeInt (decimal n)) (storeInt (decimal n)) m := fun m => by
          simp [numListText, NumItem.text, numlistLoop_number_end sel n hit]
        simp only [e]
        exact (hsel _ _).congr (by simp [NumItem.lo, NumItem.hi])
      | range a b =>
        obtain ⟨ha, hb⟩ := hit
        have e : ∀ m, numlistLoop sel (numListText [NumItem.range a b]) [] r1 false m =
            sel (storeInt (decimal a)) (storeInt (decimal b)) m := fun m => by
          simp only [numListText, NumItem.text]
          rw [numlistLoop_number sel a ha _ (by simp),
            numlistLoop_dash sel _ _ hb.1 ha, numlistLoop_number_end sel b hb]
          simp
        simp only [e]
        exact (hsel _ _).congr (by simp [NumItem.lo, NumItem.hi])
    | cons it2 its =>
      have ih2 := fun r => ih (by simp) (fun x hx => hv x (List.mem_cons_of_mem _ hx)) r
      cases it with
      | num n =>
        have e : ∀ m, numlistLoop sel (numListText (NumItem.num n :: it2 :: its)) [] r1 false m =
            numlistLoop sel (numListText (it2 :: its)) [] (storeInt (decimal n)) false
              (sel (storeInt (decimal n)) (storeInt (decimal n)) m) := fun m => by
          simp only [numListText, NumItem.text]
          rw [numlistLoop_number sel n hit _ (by simp), numlistLoop_comma sel _ _ hit]
          simp
        simp only [e]
        exact (Marks.comp (hsel (storeInt (decimal n)) (storeInt (decimal n))) (ih2 (storeInt (decimal n)))).congr
          (by simp [NumItem.lo, NumItem.hi])
      | range a b =>
        obtain ⟨ha, hb⟩ := hit
        have e : ∀ m, numlistLoop sel (numListText (NumItem.range a b :: it2 :: its)) [] r1 false m =
            numlistLoop sel (numListText (it2 :: its)) [] (storeInt (decimal a)) false
              (sel (storeInt (decimal a)) (storeInt (decimal b)) m) := fun m => by
          simp only [numListText, NumItem.text, List.append_assoc, List.cons_append]
          rw [numlistLoop_number sel a ha _ (by simp),
            numlistLoop_dash sel _ _ (by simp) ha, numlistLoop_number sel b hb _ (by simp),
            numlistLoop_comma sel _ _ hb]
          simp
        simp only [e]
        exact (Marks.comp (hsel (storeInt (decimal a)) (storeInt (decimal b))) (ih2 (storeInt (decimal a)))).congr
          (by simp [NumItem.lo, NumItem.hi])

theorem isNumChar_facts {c : Char} (h : isNumChar c = true) :
    c ≠ '*' ∧ c ≠ '?' ∧ c ≠ '%' ∧ c ≠ '/' ∧ isalpha c = false ∧ isOperand c = true := by
  simp only [isNumChar, Bool.or_eq_true, decide_eq_true_eq] at h
  rcases h with (h | h) | h
  · obtain ⟨-, -, h1, h2, h3, h4, h5, h6⟩ := isdigit_facts h
    exact ⟨h1, h2, h3, h4, h5, h6⟩
  · subst h; decide
  · subst h; decide

theorem NumItem.text_isNumChar {it : NumItem} (h : it.Valid) :
    it.text ≠ [] ∧ ∀ c ∈ it.text, isNumChar c = true := by
  cases it with
  | num n =>
    exact ⟨h.1, fun c hc => by simp [isNumChar, h.2 c hc]⟩
  | range a b =>
    refine ⟨by simp [NumItem.text], fun c hc => ?_⟩
    simp only [NumItem.text, List.mem_append, List.mem_cons] at hc
    rcases hc with hc | hc | hc
    · simp [isNumChar, h.1.2 c hc]
    · subst hc; decide
    · simp [isNumChar, h.2.2 c hc]

theorem numListText_isNumChar (items : List NumItem) (hne : items ≠ [])
    (hv : ∀ it ∈ items, it.Valid) :
    numListText items ≠ [] ∧ ∀ c ∈ numListText items, isNumChar c = true := by
  induction items with
  | nil => exact (hne rfl).elim
  | cons it its ih =>
    have hit := NumItem.text_isNumChar (hv it (List.mem_cons_self _ _))
    cases its with
    | nil => simpa [numListText] using hit
    | cons it2 its =>
      have ih2 := ih (by simp) (fun x hx => hv x (List.mem_cons_of_mem _ hx))
      refine ⟨by simp [numListText], fun c hc => ?_⟩
      simp only [numListText, List.mem_append, List.mem_cons] at hc
      rcases hc with hc | hc | hc
      · exact hit.2 c hc
      · subst hc; decide
      · exact ih2.2 c hc

theorem resMaskLoop_numlist (U : Universe) (s : List Char) (hne : s ≠ [])
    (hs : ∀ c ∈ s, isNumChar c = true) (buffer m : List Char) :
    resMaskLoop U s buffer ListKind.NUMLIST m =
      residue_numlist (buffer ++ s) m U.residues U.ipres := by
  induction s generalizing buffer with
  | nil => exact (hne rfl).elim
  | cons c s ih =>
    obtain ⟨h1, h2, -, -, h5, -⟩ := isNumChar_facts (hs c (List.mem_cons_self _ _))
    rw [resMaskLoop]
    simp only [h1, h2, h5, if_false, Bool.false_eq_true, false_or]
    by_cases hnil : s = []
    · subst hnil; simp
    · rw [if_neg hnil, ih hnil (fun c hc => hs c (List.mem_cons_of_mem _ hc))]
      simp

theorem atomMaskLoop_numlist (U : Universe) (s : List Char) (hne : s ≠ [])
    (hs : ∀ c ∈ s, isNumChar c = true) (buffer m : List Char) :
    atomMaskLoop U s buffer ListKind.NUMLIST m = atom_numlist (buffer ++ s) m U.atoms := by
  induction s generalizing buffer with
  | nil => exact (hne rfl).elim
  | cons c s ih =>
    obtain ⟨h1, h2, h3, h4, h5, -⟩ := isNumChar_facts (hs c (List.mem_cons_self _ _))
    rw [atomMaskLoop]
    simp only [h1, h2, h3, h4, h5, if_false, Bool.false_eq_true, false_or]
    by_cases hnil : s = []
    · subst hnil; simp
    · rw [if_neg hnil, ih hnil (fun c hc => hs c (List.mem_cons_of_mem _ hc))]
      simp

theorem map_eqStar_of_numChars (s : List Char) (hs : ∀ c ∈ s, isNumChar c = true) :
    s.map eqStar = s := by
  have : ∀ c ∈ s, eqStar c = c := by
    intro c hc
    have : c ≠ '=' := by
      intro e; subst e; have := hs _ hc; revert this; decide
    simp [eqStar, this]
  calc s.map eqStar = s.map id := List.map_congr_left this
    _ = s := List.map_id s

/-- C10 (amended). An atom term `@` followed by a comma-separated list of numbers and
ranges evaluates successfully, and atom `k` (0-based) is selected exactly when `k + 1` lies
between the two ends of a sub-term as `sscanf` stores them in an `int`; every other entry
is `'F'`. When every number is below `2^31` the stored ends are the numbers themselves:
atom `k` is selected exactly when `k + 1` is one of the numbers or lies in one of the
ranges, both ends included, so that numbers outside `1..atoms` and reversed ranges select
nothing. -/
theorem C10_atom_number_list {Coords : Type} (U : Universe) (X : Option Coords) (type : Char)
    (distd : Option (List Char) → Option (List Char) → Coords → Outcome (List Char × Coords))
    (items : List NumItem) (hne : items ≠ []) (hv : ∀ it ∈ items, it.Valid) :
    ∃ m, parseMaskString U X type distd ('@' :: numListText items) = Outcome.ok m ∧
      m.length = U.atoms ∧
      (∀ k, k < U.atoms →
        (m.getD k 'F' = 'T' ↔
          ∃ it ∈ items, storeInt it.lo ≤ (k : Int) + 1 ∧ (k : Int) + 1 ≤ storeInt it.hi) ∧
        (m.getD k 'F' = 'F' ↔
          ¬ ∃ it ∈ items, storeInt it.lo ≤ (k : Int) + 1 ∧ (k : Int) + 1 ≤ storeInt it.hi)) ∧
      ((∀ it ∈ items, it.Fits) → ∀ k, k < U.atoms →
        (m.getD k 'F' = 'T' ↔ ∃ it ∈ items, it.lo ≤ k + 1 ∧ k + 1 ≤ it.hi) ∧
        (m.getD k 'F' = 'F' ↔ ¬ ∃ it ∈ items, it.lo ≤ k + 1 ∧ k + 1 ≤ it.hi)) := by
  obtain ⟨htne, htc⟩ := numListText_isNumChar items hne hv
  obtain ⟨m, hm, hl, hp⟩ := parseMaskString_term U X type distd '@' (numListText items)
    (Or.inr rfl) (fun c hc => (isNumChar_facts (htc c hc)).2.2.2.2.2)
  have hmk := numlistLoop_marks (fun a1 a2 m => atnum_select a1 a2 m U.atoms)
    (fun a1 a2 k => k < U.atoms ∧ a1 ≤ (k : Int) + 1 ∧ (k : Int) + 1 ≤ a2)
    (fun a b => atnum_select_marks a b U.atoms) items hne hv 0
  have hm2 : m = numlistLoop (fun a1 a2 m => atnum_select a1 a2 m U.atoms)
      (numListText items) [] 0 false (List.replicate U.atoms 'F') := by
    have : selectElemMask U (termText '@' (numListText items)) =
        some (atom_numlist (numListText items) (List.replicate U.atoms 'F') U.atoms) := by
      simp only [termText, map_eqStar_of_numChars _ htc, selectElemMask]
      simp [atomMaskLoop_numlist U _ htne htc]
    rw [this] at hm
    exact (Option.some.inj hm).symm
  have hf := hmk.on_fresh U.atoms
  rw [← hm2] at hf
  have stored : ∀ k, k < U.atoms →
      (m.getD k 'F' = 'T' ↔
        ∃ it ∈ items, storeInt it.lo ≤ (k : Int) + 1 ∧ (k : Int) + 1 ≤ storeInt it.hi) ∧
      (m.getD k 'F' = 'F' ↔
        ¬ ∃ it ∈ items, storeInt it.lo ≤ (k : Int) + 1 ∧ (k : Int) + 1 ≤ storeInt it.hi) := by
    intro k hk
    have := hf.2 k hk
    constructor
    · rw [this.1]
      constructor
      · rintro ⟨it, hit, -, h1, h2⟩; exact ⟨it, hit, h1, h2⟩
      · rintro ⟨it, hit, h1, h2⟩; exact ⟨it, hit, hk, h1, h2⟩
    · rw [this.2, not_iff_not]
      constructor
      · rintro ⟨it, hit, -, h1, h2⟩; exact ⟨it, hit, h1, h2⟩
      · rintro ⟨it, hit, h1, h2⟩; exact ⟨it, hit, hk, h1, h2⟩
  refine ⟨m, hp, hl, stored, fun hfit k hk => ?_⟩
  have key : (∃ it ∈ items, storeInt it.lo ≤ (k : Int) + 1 ∧ (k : Int) + 1 ≤ storeInt it.hi) ↔
      ∃ it ∈ items, it.lo ≤ k + 1 ∧ k + 1 ≤ it.hi := by
    constructor
    · rintro ⟨it, hit, h1, h2⟩
      obtain ⟨e1, e2⟩ := NumItem.Fits.stored (hfit it hit)
      rw [e1] at h1
      rw [e2] at h2
      exact ⟨it, hit, by omega, by omega⟩
    · rintro ⟨it, hit, h1, h2⟩
      obtain ⟨e1, e2⟩ := NumItem.Fits.stored (hfit it hit)
      refine ⟨it, hit, ?_, ?_⟩
      · rw [e1]; omega
      · rw [e2]; omega
  rw [← key]
  exact stored k hk

/-- The module comment's example `@12,54-85,90` on a universe of 100 atoms. -/
theorem C10_atom_number_list_witness :
    ∃ m, parseMaskString (⟨100, 0, List.replicate 100 ['C'], [], [101]⟩ : Universe)
        (none : Option Unit) 'd' (fun _ _ _ => Outcome.fail)
        ['@', '1', '2', ',', '5', '4', '-', '8', '5', ',', '9', '0'] = Outcome.ok m ∧
      m.length = 100 ∧
      (∀ k, k < 100 →
        (m.getD k 'F' = 'T' ↔
          ∃ it ∈ [NumItem.num ['1', '2'], NumItem.range ['5', '4'] ['8', '5'],
            NumItem.num ['9', '0']],
            storeInt it.lo ≤ (k : Int) + 1 ∧ (k : Int) + 1 ≤ storeInt it.hi) ∧
        (m.getD k 'F' = 'F' ↔
          ¬ ∃ it ∈ [NumItem.num ['1', '2'], NumItem.range ['5', '4'] ['8', '5'],
            NumItem.num ['9', '0']],
            storeInt it.lo ≤ (k : Int) + 1 ∧ (k : Int) + 1 ≤ storeInt it.hi)) ∧
      ((∀ it ∈ [NumItem.num ['1', '2'], NumItem.range ['5', '4'] ['8', '5'],
          NumItem.num ['9', '0']], it.Fits) → ∀ k, k < 100 →
        (m.getD k 'F' = 'T' ↔
          ∃ it ∈ [NumItem.num ['1', '2'], NumItem.range ['5', '4'] ['8', '5'],
            NumItem.num ['9', '0']], it.lo ≤ k + 1 ∧ k + 1 ≤ it.hi) ∧
        (m.getD k 'F' = 'F' ↔
          ¬ ∃ it ∈ [NumItem.num ['1', '2'], NumItem.range ['5', '4'] ['8', '5'],
            NumItem.num ['9', '0']], it.lo ≤ k + 1 ∧ k + 1 ≤ it.hi)) :=
  C10_atom_number_list _ _ _ _
    [NumItem.num ['1', '2'], NumItem.range ['5', '4'] ['8', '5'], NumItem.num ['9', '0']]
    (by simp)
    (by
      intro it hit
      simp only [List.mem_cons, List.mem_singleton, List.not_mem_nil, or_false] at hit
      rcases hit with h | h | h <;> subst h <;>
        simp [NumItem.Valid, IsNumber, isdigit, Char.isDigit])

/-- C10 as stated fails for a number that does not fit an `int`. On the scenario of nine
atoms `@4294967298` is read as `2` and selects atom 1, although `4294967298` is the number
of no atom; and `@1-2147483648` is read as the reversed range from `1` to `-2147483648`
and selects nothing, although every atom number lies between `1` and `2147483648`. -/
theorem C10_atom_number_list_counterexample :
    parseMaskString scenario (none : Option Unit) 'd' (fun _ _ _ => Outcome.fail)
        ['@', '4', '2', '9', '4', '9', '6', '7', '2', '9', '8'] =
      Outcome.ok ['F', 'T', 'F', 'F', 'F', 'F', 'F', 'F', 'F'] ∧
    decimal ['4', '2', '9', '4', '9', '6', '7', '2', '9', '8'] = 4294967298 ∧
    ¬ (4294967298 ≤ 1 + 1 ∧ 1 + 1 ≤ 4294967298) ∧
    parseMaskString scenario (none : Option Unit) 'd' (fun _ _ _ => Outcome.fail)
        ['@', '1', '-', '2', '1', '4', '7', '4', '8', '3', '6', '4', '8'] =
      Outcome.ok ['F', 'F', 'F', 'F', 'F', 'F', 'F', 'F', 'F'] ∧
    decimal ['1'] = 1 ∧ decimal ['2', '1', '4', '7', '4', '8', '3', '6', '4', '8'] = 2147483648 ∧
    ∀ k, k < 9 → 1 ≤ k + 1 ∧ k + 1 ≤ 2147483648 := by
  refine ⟨?_, by decide, by omega, ?_, by decide, by decide, fun k hk => by omega⟩
  · exact parseMaskString_term_value _ _ _ _ _ _ (Or.inr rfl) (by decide) _ (by decide)
  · exact parseMaskString_term_value _ _ _ _ _ _ (Or.inr rfl) (by decide) _ (by decide)

/-- A residue term made of numbers and ranges evaluates to what the loop of
`residue_numlist` marks on the fresh mask. -/
theorem parseMaskString_residue_numlist {Coords : Type} (U : Universe) (X : Option Coords)
    (type : Char)
    (distd : Option (List Char) → Option (List Char) → Coords → Outcome (List Char × Coords))
    (items : List NumItem) (hne : items ≠ []) (hv : ∀ it ∈ items, it.Valid) :
    parseMaskString U X type distd (':' :: numListText items) =
      Outcome.ok (numlistLoop (fun r1 r2 m => resnum_select r1 r2 m U.residues U.ipres)
        (numListText items) [] 0 false (List.replicate U.atoms 'F')) := by
  obtain ⟨htne, htc⟩ := numListText_isNumChar items hne hv
  obtain ⟨m, hm, -, hp⟩ := parseMaskString_term U X type distd ':' (numListText items)
    (Or.inl rfl) (fun c hc => (isNumChar_facts (htc c hc)).2.2.2.2.2)
  have : selectElemMask U (termText ':' (numListText items)) =
      some (residue_numlist (numListText items) (List.replicate U.atoms 'F')
        U.residues U.ipres) := by
    simp only [termText, map_eqStar_of_numChars _ htc, selectElemMask]
    simp [resMaskLoop_numlist U _ htne htc]
  rw [this] at hm
  rw [hp, ← Option.some.inj hm]
  rfl

/-- C1 (amended). In a well-formed universe a residue term `:` followed by a
comma-separated list of numbers and ranges evaluates successfully, and atom `k` is selected
exactly when the 1-based number `i + 1` of a residue containing `k` lies between the two
ends of a sub-term as `sscanf` stores them in an `int`. When every number is below `2^31`
the stored ends are the numbers themselves: atom `k` is selected exactly when `i + 1` is
one of the numbers or lies in one of the ranges, both ends included. In particular `:n-n`
gives the same result as `:n`, and `:n` with `1 ≤ n ≤ residues` and `n` below `2^31`
selects exactly the atoms between the boundaries of residue `n`. -/
theorem C1_residue_number_list {Coords : Type} (U : Universe) (hU : U.WF)
    (X : Option Coords) (type : Char)
    (distd : Option (List Char) → Option (List Char) → Coords → Outcome (List Char × Coords)) :
    (∀ items : List NumItem, items ≠ [] → (∀ it ∈ items, it.Valid) →
      ∃ m, parseMaskString U X type distd (':' :: numListText items) = Outcome.ok m ∧
        m.length = U.atoms ∧
        (∀ k, k < U.atoms →
          (m.getD k 'F' = 'T' ↔ ∃ it ∈ items, ∃ i : Nat, i < U.residues ∧
            storeInt it.lo ≤ (i : Int) + 1 ∧ (i : Int) + 1 ≤ storeInt it.hi ∧
            inResidue U.ipres i k) ∧
          (m.getD k 'F' = 'F' ↔ ¬ ∃ it ∈ items, ∃ i : Nat, i < U.residues ∧
            storeInt it.lo ≤ (i : Int) + 1 ∧ (i : Int) + 1 ≤ storeInt it.hi ∧
            inResidue U.ipres i k)) ∧
        ((∀ it ∈ items, it.Fits) → ∀ k, k < U.atoms →
          (m.getD k 'F' = 'T' ↔ ∃ it ∈ items, ∃ i, i < U.residues ∧
            it.lo ≤ i + 1 ∧ i + 1 ≤ it.hi ∧ inResidue U.ipres i k) ∧
          (m.getD k 'F' = 'F' ↔ ¬ ∃ it ∈ items, ∃ i, i < U.residues ∧
            it.lo ≤ i + 1 ∧ i + 1 ≤ it.hi ∧ inResidue U.ipres i k))) ∧
    (∀ n : List Char, IsNumber n →
      parseMaskString U X type distd (':' :: (n ++ '-' :: n)) =
        parseMaskString U X type distd (':' :: n)) ∧
    (∀ n : List Char, IsNumber n → 1 ≤ decimal n → decimal n ≤ U.residues →
      decimal n < 2147483648 →
      ∃ m, parseMaskString U X type distd (':' :: n) = Outcome.ok m ∧ m.length = U.atoms ∧
        ∀ k, k < U.atoms →
          (m.getD k 'F' = 'T' ↔
            U.ipres.getD (decimal n - 1) 0 ≤ k + 1 ∧ k + 1 < U.ipres.getD (decimal n) 0) ∧
          (m.getD k 'F' = 'F' ↔
            ¬ (U.ipres.getD (decimal n - 1) 0 ≤ k + 1 ∧ k + 1 < U.ipres.getD (decimal n) 0))) := by
  have general : ∀ items : List NumItem, items ≠ [] → (∀ it ∈ items, it.Valid) →
      ∃ m, parseMaskString U X type distd (':' :: numListText items) = Outcome.ok m ∧
        m.length = U.atoms ∧
        (∀ k, k < U.atoms →
          (m.getD k 'F' = 'T' ↔ ∃ it ∈ items, ∃ i : Nat, i < U.residues ∧
            storeInt it.lo ≤ (i : Int) + 1 ∧ (i : Int) + 1 ≤ storeInt it.hi ∧
            inResidue U.ipres i k) ∧
          (m.getD k 'F' = 'F' ↔ ¬ ∃ it ∈ items, ∃ i : Nat, i < U.residues ∧
            storeInt it.lo ≤ (i : Int) + 1 ∧ (i : Int) + 1 ≤ storeInt it.hi ∧
            inResidue U.ipres i k)) ∧
        ((∀ it ∈ items, it.Fits) → ∀ k, k < U.atoms →
          (m.getD k 'F' = 'T' ↔ ∃ it ∈ items, ∃ i, i < U.residues ∧
            it.lo ≤ i + 1 ∧ i + 1 ≤ it.hi ∧ inResidue U.ipres i k) ∧
          (m.getD k 'F' = 'F' ↔ ¬ ∃ it ∈ items, ∃ i, i < U.residues ∧
            it.lo ≤ i + 1 ∧ i + 1 ≤ it.hi ∧ inResidue U.ipres i k)) := by
    intro items hne hv
    have hmk := numlistLoop_marks (fun r1 r2 m => resnum_select r1 r2 m U.residues U.ipres)
      (fun r1 r2 k => ∃ i : Nat, i < U.residues ∧ r1 ≤ (i : Int) + 1 ∧ (i : Int) + 1 ≤ r2 ∧
        inResidue U.ipres i k)
      (fun a b => resnum_select_marks a b U.residues U.ipres hU.ipres_pos) items hne hv 0
    have hf := hmk.on_fresh U.atoms
    refine ⟨_, parseMaskString_residue_numlist U X type distd items hne hv, hf.1, hf.2,
      fun hfit k hk => ?_⟩
    have key : (∃ it ∈ items, ∃ i : Nat, i < U.residues ∧
        storeInt it.lo ≤ (i : Int) + 1 ∧ (i : Int) + 1 ≤ storeInt it.hi ∧
        inResidue U.ipres i k) ↔
        ∃ it ∈ items, ∃ i, i < U.residues ∧
          it.lo ≤ i + 1 ∧ i + 1 ≤ it.hi ∧ inResidue U.ipres i k := by
      constructor
      · rintro ⟨it, hit, i, hi, h1, h2, h3⟩
        obtain ⟨e1, e2⟩ := NumItem.Fits.stored (hfit it hit)
        rw [e1] at h1
        rw [e2] at h2
        exact ⟨it, hit, i, hi, by omega, by omega, h3⟩
      · rintro ⟨it, hit, i, hi, h1, h2, h3⟩
        obtain ⟨e1, e2⟩ := NumItem.Fits.stored (hfit it hit)
        refine ⟨it, hit, i, hi, ?_, ?_, h3⟩
        · rw [e1]; omega
        · rw [e2]; omega
    rw [← key]
    exact hf.2 k hk
  refine ⟨general, ?_, ?_⟩
  · intro n hn
    have h1 := parseMaskString_residue_numlist U X type distd [NumItem.range n n] (by simp)
      (by intro it hit; rw [List.mem_singleton.1 hit]; exact ⟨hn, hn⟩)
    have h2 := parseMaskString_residue_numlist U X type distd [NumItem.num n] (by simp)
      (by intro it hit; rw [List.mem_singleton.1 hit]; exact hn)
    simp only [numListText, NumItem.text] at h1 h2
    rw [h1, h2, numlistLoop_number _ n hn _ (by simp), numlistLoop_dash _ _ _ hn.1 hn,
      numlistLoop_number_end _ n hn, numlistLoop_number_end _ n hn]
    simp
  · intro n hn h1 h2 hfit
    obtain ⟨m, hp, hl, -, hk⟩ := general [NumItem.num n] (by simp)
      (by intro it hit; rw [List.mem_singleton.1 hit]; exact hn)
    refine ⟨m, hp, hl, fun k hklt => ?_⟩
    have key : (∃ it ∈ [NumItem.num n], ∃ i, i < U.residues ∧
        it.lo ≤ i + 1 ∧ i + 1 ≤ it.hi ∧ inResidue U.ipres i k) ↔
        (U.ipres.getD (decimal n - 1) 0 ≤ k + 1 ∧ k + 1 < U.ipres.getD (decimal n) 0) := by
      simp only [List.mem_singleton, exists_eq_left, NumItem.lo, NumItem.hi, inResidue]
      constructor
      · rintro ⟨i, -, h3, h4, h5, h6⟩
        have e : decimal n = i + 1 := by omega
        rw [e]; exact ⟨by simpa using h5, h6⟩
      · rintro ⟨h5, h6⟩
        refine ⟨decimal n - 1, by omega, by omega, by omega, h5, ?_⟩
        have e : decimal n - 1 + 1 = decimal n := by omega
        rw [e]; exact h6
    rw [← key]
    exact hk (by intro it hit; rw [List.mem_singleton.1 hit]; exact hfit) k hklt

/-- C1 on the scenario of three residues of three atoms each: `:2` selects
atoms 3, 4, 5 (0-based), and `:2-2` gives the same result. -/
theorem C1_residue_number_list_witness :
    (∀ items : List NumItem, items ≠ [] → (∀ it ∈ items, it.Valid) →
      ∃ m, parseMaskString (⟨9, 3, List.replicate 9 ['C', 'A'], List.replicate 3 ['A'],
          [1, 4, 7, 10]⟩ : Universe) (none : Option Unit) 'd' (fun _ _ _ => Outcome.fail)
          (':' :: numListText items) = Outcome.ok m ∧
        m.length = 9 ∧
        (∀ k, k < 9 →
          (m.getD k 'F' = 'T' ↔ ∃ it ∈ items, ∃ i : Nat, i < 3 ∧
            storeInt it.lo ≤ (i : Int) + 1 ∧ (i : Int) + 1 ≤ storeInt it.hi ∧
            inResidue [1, 4, 7, 10] i k) ∧
          (m.getD k 'F' = 'F' ↔ ¬ ∃ it ∈ items, ∃ i : Nat, i < 3 ∧
            storeInt it.lo ≤ (i : Int) + 1 ∧ (i : Int) + 1 ≤ storeInt it.hi ∧
            inResidue [1, 4, 7, 10] i k)) ∧
        ((∀ it ∈ items, it.Fits) → ∀ k, k < 9 →
          (m.getD k 'F' = 'T' ↔ ∃ it ∈ items, ∃ i, i < 3 ∧
            it.lo ≤ i + 1 ∧ i + 1 ≤ it.hi ∧ inResidue [1, 4, 7, 10] i k) ∧
          (m.getD k 'F' = 'F' ↔ ¬ ∃ it ∈ items, ∃ i, i < 3 ∧
            it.lo ≤ i + 1 ∧ i + 1 ≤ it.hi ∧ inResidue [1, 4, 7, 10] i k))) ∧
    parseMaskString (⟨9, 3, List.replicate 9 ['C', 'A'], List.replicate 3 ['A'],
        [1, 4, 7, 10]⟩ : Universe) (none : Option Unit) 'd' (fun _ _ _ => Outcome.fail)
        [':', '2'] = Outcome.ok ['F', 'F', 'F', 'T', 'T', 'T', 'F', 'F', 'F'] :=
  ⟨(C1_residue_number_list (⟨9, 3, List.replicate 9 ['C', 'A'], List.replicate 3 ['A'],
      [1, 4, 7, 10]⟩ : Universe)
      ⟨by decide, by decide, by decide, by decide, by decide, by decide⟩
      (none : Option Unit) 'd' (fun _ _ _ => Outcome.fail)).1, by decide⟩

/-- C1 as stated fails for a number that does not fit an `int`. On the scenario of three
residues `:4294967297` is read as `1` and selects the three atoms of residue 1, although
`4294967297` is the number of no residue. -/
theorem C1_residue_number_list_counterexample :
    parseMaskString scenario (none : Option Unit) 'd' (fun _ _ _ => Outcome.fail)
        [':', '4', '2', '9', '4', '9', '6', '7', '2', '9', '7'] =
      Outcome.ok ['T', 'T', 'T', 'F', 'F', 'F', 'F', 'F', 'F'] ∧
    decimal ['4', '2', '9', '4', '9', '6', '7', '2', '9', '7'] = 4294967297 ∧
    ¬ ∃ i, i < scenario.residues ∧ 4294967297 ≤ i + 1 ∧ i + 1 ≤ 4294967297 := by
  refine ⟨parseMaskString_term_value _ _ _ _ _ _ (Or.inl rfl) (by decide) _ (by decide),
    by decide, ?_⟩
  rintro ⟨i, h1, h2, -⟩
  have : scenario.residues = 3 := rfl
  omega

/-! ## Patterns without wildcards -/

theorem nameMatch_nil (s1 : List Char) :
    nameMatch [] s1 = s1.all (fun c => c = ' ') := by
  cases s1 <;> rfl

theorem nameMatch_cons (d : Char) (r s1 : List Char) :
    nameMatch (d :: r) s1 =
      if d = '*' then s1.tails.any (nameMatch r)
      else if d = '?' then
        match s1 with
        | [] => false
        | _ :: p => nameMatch r p
      else litLoop d (nameMatch r) s1 := by
  cases s1 <;> rfl

theorem litLoop_iff (d : Char) (hd : d ≠ ' ') (k : List Char → Bool) (r : List Char)
    (hk : ∀ p, k p = true ↔ stripSpaces p = r) (s1 : List Char) :
    litLoop d k s1 = true ↔ stripSpaces s1 = d :: r := by
  induction s1 with
  | nil => simp [litLoop, stripSpaces]
  | cons c p ih =>
    rw [litLoop]
    by_cases hc : c = ' '
    · subst hc
      simp only [if_true, ih]
      simp [stripSpaces]
    · simp only [hc, if_false]
      by_cases hcd : c = d
      · subst hcd
        simp [hk, stripSpaces, hc]
      · simp [hcd, stripSpaces, hc]

/-- A pattern without wildcard and without space matches exactly the stored names
that, without their padding spaces, are equal to it. -/
theorem nameMatch_literal (w : List Char) (hw : ∀ c ∈ w, isLiteral c = true) (s1 : List Char) :
    isNameMatch s1 w = true ↔ stripSpaces s1 = w := by
  unfold isNameMatch
  induction w generalizing s1 with
  | nil =>
    rw [nameMatch_nil]
    simp [stripSpaces, List.filter_eq_nil_iff]
  | cons d r ih =>
    have hd : isLiteral d = true := hw d (List.mem_cons_self _ _)
    simp only [isLiteral, Bool.and_eq_true, decide_eq_true_eq, ne_eq, decide_not,
      Bool.not_eq_true', decide_eq_false_iff_not] at hd
    rw [nameMatch_cons]
    simp only [hd.1.1, hd.1.2, if_false]
    exact litLoop_iff d hd.2 _ r (fun p => ih (fun c hc => hw c (List.mem_cons_of_mem _ hc)) p) s1

/-! ## The decimal text of a number -/

theorem digitChar_isdigit (n : Nat) (h : n < 10) :
    isdigit (Nat.digitChar n) = true ∧ (Nat.digitChar n).toNat - 48 = n := by
  interval_cases n <;> decide

theorem toDigitsCore_isdigit (fuel n : Nat) (acc : List Char)
    (hacc : ∀ c ∈ acc, isdigit c = true) :
    ∀ c ∈ Nat.toDigitsCore 10 fuel n acc, isdigit c = true := by
  induction fuel generalizing n acc with
  | zero => simpa [Nat.toDigitsCore] using hacc
  | succ fuel ih =>
    have hd := (digitChar_isdigit (n % 10) (Nat.mod_lt _ (by decide))).1
    have hacc2 : ∀ c ∈ Nat.digitChar (n % 10) :: acc, isdigit c = true := by
      intro c hc
      rcases List.mem_cons.1 hc with h | h
      · rw [h]; exact hd
      · exact hacc c h
    simp only [Nat.toDigitsCore]
    split
    · exact hacc2
    · exact ih _ _ hacc2

theorem sprintf_d_isdigit (n : Nat) : ∀ c ∈ sprintf_d n, isdigit c = true :=
  toDigitsCore_isdigit _ _ _ (by simp)

theorem decimal_foldl (a : Nat) (l : List Char) :
    l.foldl (fun n c => 10 * n + (c.toNat - 48)) a = a * 10 ^ l.length + decimal l := by
  unfold decimal
  induction l generalizing a with
  | nil => simp
  | cons c l ih =>
    simp only [List.foldl_cons, List.length_cons]
    rw [ih, ih (10 * 0 + (c.toNat - 48))]
    ring

theorem decimal_cons (c : Char) (l : List Char) :
    decimal (c :: l) = (c.toNat - 48) * 10 ^ l.length + decimal l := by
  have := decimal_foldl (c.toNat - 48) l
  simpa [decimal] using this

theorem decimal_toDigitsCore (fuel n : Nat) (acc : List Char) (h : n < fuel) :
    decimal (Nat.toDigitsCore 10 fuel n acc) = n * 10 ^ acc.length + decimal acc := by
  induction fuel generalizing n acc with
  | zero => omega
  | succ fuel ih =>
    have hd := (digitChar_isdigit (n % 10) (Nat.mod_lt _ (by decide))).2
    simp only [Nat.toDigitsCore]
    split
    · next h0 =>
      rw [decimal_cons, hd]
      have : n % 10 = n := by
        have := Nat.div_add_mod n 10
        omega
      rw [this]
    · next h0 =>
      have hlt : n / 10 < fuel := by
        have : n / 10 < n := Nat.div_lt_self (by omega) (by decide)
        omega
      rw [ih _ _ hlt, decimal_cons, hd, List.length_cons, pow_succ]
      have := Nat.div_add_mod n 10
      generalize n / 10 = q at this ⊢
      generalize n % 10 = r at this ⊢
      rw [← this]
      ring

/-- Reading back the text printed for `n` gives `n`. -/
theorem decimal_sprintf_d (n : Nat) : decimal (sprintf_d n) = n := by
  unfold sprintf_d Nat.toDigits
  rw [decimal_toDigitsCore _ _ _ (Nat.lt_succ_self n)]
  simp [decimal]

theorem stripSpaces_digits (s : List Char) (h : ∀ c ∈ s, isdigit c = true) :
    stripSpaces s = s := by
  unfold stripSpaces
  rw [List.filter_eq_self]
  intro c hc
  have : c ≠ ' ' := by
    intro e; subst e; have := h _ hc; revert this; decide
  simpa using this

/-! ## Name lists -/

theorem isNameChar_facts {c : Char} (h : isNameChar c = true) :
    c ≠ ',' ∧ c ≠ '-' ∧ c ≠ '%' ∧ c ≠ '/' ∧ c ≠ '=' ∧ isOperand c = true := by
  refine ⟨?_, ?_, ?_, ?_, ?_, ?_⟩
  any_goals (intro e; subst e; revert h; decide)
  simp only [isNameChar, Bool.or_eq_true, decide_eq_true_eq] at h
  rcases h with (h | h) | h
  · simp [isOperand, h]
  · subst h; decide
  · subst h; decide

theorem residue_namelistLoop_char (residues : Nat) (rn : List (List Char)) (ipres : List Nat)
    {c : Char} (hc : isNameChar c = true ∨ c = '-') (rest : List Char) (hr : rest ≠ [])
    (buffer m : List Char) :
    residue_namelistLoop residues rn ipres (c :: rest) buffer m =
      residue_namelistLoop residues rn ipres rest (buffer ++ [c]) m := by
  rw [residue_namelistLoop]
  rcases hc with hc | hc
  · obtain ⟨h1, h2, -⟩ := isNameChar_facts hc
    have h3 : isalnum c = true ∨ c = '*' ∨ c = '?' ∨ c = '+' := by
      simp only [isNameChar, Bool.or_eq_true, decide_eq_true_eq] at hc
      tauto
    have h4 : isalnum c = true ∨ c = ',' ∨ c = '*' ∨ c = '?' ∨ c = '+' ∨ c = '-' := by tauto
    simp [h1, h2, hr, h3, h4]
  · subst hc
    have h0 : isalnum '-' = false := by decide
    simp [h0, hr]

theorem residue_namelistLoop_chars (residues : Nat) (rn : List (List Char)) (ipres : List Nat)
    (t : List Char) (ht : ∀ c ∈ t, isNameChar c = true ∨ c = '-') (rest : List Char)
    (hr : rest ≠ []) (buffer m : List Char) :
    residue_namelistLoop residues rn ipres (t ++ rest) buffer m =
      residue_namelistLoop residues rn ipres rest (buffer ++ t) m := by
  induction t generalizing buffer with
  | nil => simp
  | cons c t ih =>
    rw [List.cons_append, residue_namelistLoop_char residues rn ipres
      (ht c (List.mem_cons_self _ _)) _ (by simp [hr]),
      ih (fun c hc => ht c (List.mem_cons_of_mem _ hc))]
    simp

theorem residue_namelistLoop_comma (residues : Nat) (rn : List (List Char)) (ipres : List Nat)
    (rest buffer m : List Char) :
    residue_namelistLoop residues rn ipres (',' :: rest) buffer m =
      residue_namelistLoop residues rn ipres rest []
        (resDispatch residues rn ipres buffer m) := by
  have h0 : isalnum ',' = false := by decide
  rw [residue_namelistLoop]
  simp [h0, resDispatch]

theorem residue_namelistLoop_last (residues : Nat) (rn : List (List Char)) (ipres : List Nat)
    {c : Char} (hc : isNameChar c = true ∨ c = '-') (buffer m : List Char) :
    residue_namelistLoop residues rn ipres [c] buffer m =
      resDispatch residues rn ipres (buffer ++ [c]) m := by
  rw [residue_namelistLoop]
  rcases hc with hc | hc
  · obtain ⟨h1, h2, -⟩ := isNameChar_facts hc
    have h3 : isalnum c = true ∨ c = '*' ∨ c = '?' ∨ c = '+' := by
      simp only [isNameChar, Bool.or_eq_true, decide_eq_true_eq] at hc
      tauto
    simp [h2, h3, resDispatch, residue_namelistLoop]
  · subst hc
    have h0 : isalnum '-' = false := by decide
    simp [h0, resDispatch, residue_namelistLoop]

/-- One sub-term followed by a comma. -/
theorem residue_namelistLoop_item (residues : Nat) (rn : List (List Char)) (ipres : List Nat)
    (t : List Char) (ht : ∀ c ∈ t, isNameChar c = true ∨ c = '-') (rest m : List Char) :
    residue_namelistLoop residues rn ipres (t ++ ',' :: rest) [] m =
      residue_namelistLoop residues rn ipres rest [] (resDispatch residues rn ipres t m) := by
  rw [residue_namelistLoop_chars residues rn ipres t ht _ (by simp), List.nil_append,
    residue_namelistLoop_comma]

/-- The last sub-term. -/
theorem residue_namelistLoop_item_end (residues : Nat) (rn : List (List Char))
    (ipres : List Nat) (t : List Char) (hne : t ≠ [])
    (ht : ∀ c ∈ t, isNameChar c = true ∨ c = '-') (m : List Char) :
    residue_namelistLoop residues rn ipres t [] m = resDispatch residues rn ipres t m := by
  have e : t = t.dropLast ++ [t.getLast hne] := (List.dropLast_append_getLast hne).symm
  conv_lhs => rw [e]
  rw [residue_namelistLoop_chars residues rn ipres _
    (fun c hc => ht c (List.mem_of_mem_dropLast hc)) _ (by simp), List.nil_append,
    residue_namelistLoop_last residues rn ipres (ht _ (List.getLast_mem hne)), ← e]

theorem atom_namelistLoop_char (atoms : Nat) (an : List (List Char))
    {c : Char} (hc : isNameChar c = true ∨ c = '-') (rest : List Char) (hr : rest ≠ [])
    (buffer m : List Char) :
    atom_namelistLoop atoms an (c :: rest) buffer m =
      atom_namelistLoop atoms an rest (buffer ++ [c]) m := by
  rw [atom_namelistLoop]
  rcases hc with hc | hc
  · obtain ⟨h1, h2, -⟩ := isNameChar_facts hc
    simp only [isNameChar, Bool.or_eq_true, decide_eq_true_eq] at hc
    rcases hc with (hc | hc) | hc
    · simp [h1, h2, hr, hc]
    · subst hc; simp [hr]
    · subst hc; simp [hr]
  · subst hc
    have h0 : isalnum '-' = false := by decide
    have h1 : ('-' = APOS) = False := by decide
    simp [h0, h1, hr]

theorem atom_namelistLoop_chars (atoms : Nat) (an : List (List Char))
    (t : List Char) (ht : ∀ c ∈ t, isNameChar c = true ∨ c = '-') (rest : List Char)
    (hr : rest ≠ []) (buffer m : List Char) :
    atom_namelistLoop atoms an (t ++ rest) buffer m =
      atom_namelistLoop atoms an rest (buffer ++ t) m := by
  induction t generalizing buffer with
  | nil => simp
  | cons c t ih =>
    rw [List.cons_append, atom_namelistLoop_char atoms an
      (ht c (List.mem_cons_self _ _)) _ (by simp [hr]),
      ih (fun c hc => ht c (List.mem_cons_of_mem _ hc))]
    simp

theorem atom_namelistLoop_comma (atoms : Nat) (an : List (List Char))
    (rest buffer m : List Char) :
    atom_namelistLoop atoms an (',' :: rest) buffer m =
      atom_namelistLoop atoms an rest [] (atomDispatch atoms an buffer m) := by
  have h0 : isalnum ',' = false := by decide
  have h1 : (',' = APOS) = False := by decide
  rw [atom_namelistLoop]
  simp [h0, h1, atomDispatch]

theorem atom_namelistLoop_last (atoms : Nat) (an : List (List Char))
    {c : Char} (hc : isNameChar c = true ∨ c = '-') (buffer m : List Char) :
    atom_namelistLoop atoms an [c] buffer m = atomDispatch atoms an (buffer ++ [c]) m := by
  rw [atom_namelistLoop]
  rcases hc with hc | hc
  · obtain ⟨h1, h2, -⟩ := isNameChar_facts hc
    have h3 : isalnum c = true ∨ c = '*' ∨ c = '?' ∨ c = '+' ∨ c = APOS := by
      simp only [isNameChar, Bool.or_eq_true, decide_eq_true_eq] at hc
      tauto
    simp [h2, h3, atomDispatch, atom_namelistLoop]
  · subst hc
    have h0 : isalnum '-' = false := by decide
    have h1 : ('-' = APOS) = False := by decide
    simp [h0, h1, atomDispatch, atom_namelistLoop]

/-- One sub-term followed by a comma. -/
theorem atom_namelistLoop_item (atoms : Nat) (an : List (List Char))
    (t : List Char) (ht : ∀ c ∈ t, isNameChar c = true ∨ c = '-') (rest m : List Char) :
    atom_namelistLoop atoms an (t ++ ',' :: rest) [] m =
      atom_namelistLoop atoms an rest [] (atomDispatch atoms an t m) := by
  rw [atom_namelistLoop_chars atoms an t ht _ (by simp), List.nil_append,
    atom_namelistLoop_comma]

/-- The last sub-term. -/
theorem atom_namelistLoop_item_end (atoms : Nat) (an : List (List Char)) (t : List Char)
    (hne : t ≠ []) (ht : ∀ c ∈ t, isNameChar c = true ∨ c = '-') (m : List Char) :
    atom_namelistLoop atoms an t [] m = atomDispatch atoms an t m := by
  have e : t = t.dropLast ++ [t.getLast hne] := (List.dropLast_append_getLast hne).symm
  conv_lhs => rw [e]
  rw [atom_namelistLoop_chars atoms an _
    (fun c hc => ht c (List.mem_of_mem_dropLast hc)) _ (by simp), List.nil_append,
    atom_namelistLoop_last atoms an (ht _ (List.getLast_mem hne)), ← e]

/-! ## Sub-terms of a name list -/

theorem isdigit_isNameChar {c : Char} (h : isdigit c = true) : isNameChar c = true := by
  simp [isNameChar, isalnum_iff, h]

theorem IsNumber.number_no_dash {n : List Char} (h : IsNumber n) : strchr n '-' = false := by
  cases hs : strchr n '-' with
  | false => rfl
  | true =>
    have : '-' ∈ n := by simpa [strchr] using hs
    have := h.2 _ this
    revert this; decide

theorem IsName.name_no_dash {p : List Char} (h : IsName p) : strchr p '-' = false := by
  cases hs : strchr p '-' with
  | false => rfl
  | true =>
    have : '-' ∈ p := by simpa [strchr] using hs
    have := h.1 _ this
    revert this; decide

theorem IsName.ne_nil {p : List Char} (h : IsName p) : p ≠ [] := by
  obtain ⟨c, hc, -⟩ := h.2
  exact List.ne_nil_of_mem hc

theorem SubTerm.text_chars {it : SubTerm} (h : it.Valid) :
    it.text ≠ [] ∧ ∀ c ∈ it.text, isNameChar c = true ∨ c = '-' := by
  cases it with
  | numeric it =>
    obtain ⟨h1, h2⟩ := NumItem.text_isNumChar h
    refine ⟨h1, fun c hc => ?_⟩
    have := h2 c hc
    simp only [isNumChar, Bool.or_eq_true, decide_eq_true_eq] at this
    rcases this with (h3 | h3) | h3
    · exact Or.inl (isdigit_isNameChar h3)
    · exfalso
      subst h3
      cases it with
      | num n =>
        have := h.2 _ hc
        revert this; decide
      | range a b =>
        simp only [SubTerm.text, NumItem.text, List.mem_append, List.mem_cons] at hc
        rcases hc with hc | hc | hc
        · have := h.1.2 _ hc; revert this; decide
        · revert hc; decide
        · have := h.2.2 _ hc; revert this; decide
    · exact Or.inr h3
  | name p => exact ⟨h.ne_nil, fun c hc => Or.inl (h.1 c hc)⟩

theorem resDispatch_num (residues : Nat) (rn : List (List Char)) (ipres : List Nat)
    (n : List Char) (hn : IsNumber n) (m : List Char) :
    resDispatch residues rn ipres n m = resname_select n m residues rn ipres := by
  simp [resDispatch, hn.number_no_dash]

theorem resDispatch_name (residues : Nat) (rn : List (List Char)) (ipres : List Nat)
    (p : List Char) (hp : IsName p) (m : List Char) :
    resDispatch residues rn ipres p m = resname_select p m residues rn ipres := by
  simp [resDispatch, hp.name_no_dash]

theorem numlistLoop_range (sel : Int → Int → List Char → List Char) (a b : List Char)
    (ha : IsNumber a) (hb : IsNumber b) (r1 : Int) (m : List Char) :
    numlistLoop sel (a ++ '-' :: b) [] r1 false m =
      sel (storeInt (decimal a)) (storeInt (decimal b)) m := by
  rw [numlistLoop_number sel a ha _ (by simp), numlistLoop_dash sel _ _ hb.1 ha,
    numlistLoop_number_end sel b hb]
  simp

theorem range_dispatch_cond (a b : List Char) (ha : IsNumber a) :
    strchr (a ++ '-' :: b) '-' = true ∧ isdigit ((a ++ '-' :: b).headD NUL) = true := by
  refine ⟨by simp [strchr], ?_⟩
  obtain ⟨hne, hd⟩ := ha
  cases a with
  | nil => exact (hne rfl).elim
  | cons c a => simpa using hd c (List.mem_cons_self _ _)

theorem resDispatch_range (residues : Nat) (rn : List (List Char)) (ipres : List Nat)
    (a b : List Char) (ha : IsNumber a) (hb : IsNumber b) (m : List Char) :
    resDispatch residues rn ipres (a ++ '-' :: b) m =
      resnum_select (storeInt (decimal a)) (storeInt (decimal b)) m residues ipres := by
  obtain ⟨h1, h2⟩ := range_dispatch_cond a b ha
  unfold resDispatch
  rw [if_pos ⟨h1, h2⟩]
  exact numlistLoop_range _ a b ha hb 0 m

theorem atomDispatch_num (atoms : Nat) (an : List (List Char))
    (n : List Char) (hn : IsNumber n) (m : List Char) :
    atomDispatch atoms an n m = atname_select n m atoms an := by
  simp [atomDispatch, hn.number_no_dash]

theorem atomDispatch_name (atoms : Nat) (an : List (List Char))
    (p : List Char) (hp : IsName p) (m : List Char) :
    atomDispatch atoms an p m = atname_select p m atoms an := by
  simp [atomDispatch, hp.name_no_dash]

theorem atomDispatch_range (atoms : Nat) (an : List (List Char))
    (a b : List Char) (ha : IsNumber a) (hb : IsNumber b) (m : List Char) :
    atomDispatch atoms an (a ++ '-' :: b) m =
      atnum_select (storeInt (decimal a)) (storeInt (decimal b)) m atoms := by
  obtain ⟨h1, h2⟩ := range_dispatch_cond a b ha
  unfold atomDispatch
  rw [if_pos ⟨h1, h2⟩]
  exact numlistLoop_range _ a b ha hb 0 m

/-- What `residue_namelist` marks for one sub-term. -/
theorem resDispatch_marks (U : Universe) (hU : U.WF) (it : SubTerm) (h : it.Valid) :
    Marks (fun m => resDispatch U.residues U.residueName U.ipres it.text m)
      (it.resInNames U) := by
  cases it with
  | numeric it =>
    cases it with
    | num n =>
      simp only [SubTerm.text, NumItem.text, resDispatch_num _ _ _ n h]
      exact resname_select_marks n _ _ _ hU.ipres_pos
    | range a b =>
      simp only [SubTerm.text, NumItem.text, resDispatch_range _ _ _ a b h.1 h.2]
      exact resnum_select_marks _ _ _ _ hU.ipres_pos
  | name p =>
    simp only [SubTerm.text, resDispatch_name _ _ _ p h]
    exact resname_select_marks p _ _ _ hU.ipres_pos

/-- What `atom_namelist` marks for one sub-term. -/
theorem atomDispatch_marks (U : Universe) (it : SubTerm) (h : it.Valid) :
    Marks (fun m => atomDispatch U.atoms U.atomName it.text m) (it.atomInNames U) := by
  cases it with
  | numeric it =>
    cases it with
    | num n =>
      simp only [SubTerm.text, NumItem.text, atomDispatch_num _ _ n h]
      exact atname_select_marks n _ _
    | range a b =>
      simp only [SubTerm.text, NumItem.text, atomDispatch_range _ _ a b h.1 h.2]
      exact atnum_select_marks _ _ _
  | name p =>
    simp only [SubTerm.text, atomDispatch_name _ _ p h]
    exact atname_select_marks p _ _

/-- The loop of `residue_namelist` marks what every sub-term marks. -/
theorem residue_namelist_marks (U : Universe) (hU : U.WF) (items : List SubTerm)
    (hne : items ≠ []) (hv : ∀ it ∈ items, it.Valid) :
    Marks (fun m => residue_namelist (subListText items) m U.residues U.residueName U.ipres)
      (fun k => ∃ it ∈ items, it.resInNames U k) := by
  unfold residue_namelist
  induction items with
  | nil => exact (hne rfl).elim
  | cons it its ih =>
    have hit := hv it (List.mem_cons_self _ _)
    obtain ⟨h1, h2⟩ := SubTerm.text_chars hit
    cases its with
    | nil =>
      simp only [subListText, residue_namelistLoop_item_end _ _ _ _ h1 h2]
      exact (resDispatch_marks U hU it hit).congr (by simp)
    | cons it2 its =>
      have ih2 := ih (by simp) (fun x hx => hv x (List.mem_cons_of_mem _ hx))
      simp only [subListText, residue_namelistLoop_item _ _ _ _ h2]
      exact (Marks.comp (resDispatch_marks U hU it hit) ih2).congr (by simp)

/-- The loop of `atom_namelist` marks what every sub-term marks. -/
theorem atom_namelist_marks (U : Universe) (items : List SubTerm)
    (hne : items ≠ []) (hv : ∀ it ∈ items, it.Valid) :
    Marks (fun m => atom_namelist (subListText items) m U.atoms U.atomName)
      (fun k => ∃ it ∈ items, it.atomInNames U k) := by
  unfold atom_namelist
  induction items with
  | nil => exact (hne rfl).elim
  | cons it its ih =>
    have hit := hv it (List.mem_cons_self _ _)
    obtain ⟨h1, h2⟩ := SubTerm.text_chars hit
    cases its with
    | nil =>
      simp only [subListText, atom_namelistLoop_item_end _ _ _ h1 h2]
      exact (atomDispatch_marks U it hit).congr (by simp)
    | cons it2 its =>
      have ih2 := ih (by simp) (fun x hx => hv x (List.mem_cons_of_mem _ hx))
      simp only [subListText, atom_namelistLoop_item _ _ _ h2]
      exact (Marks.comp (atomDispatch_marks U it hit) ih2).congr (by simp)

/-! ## Number list or name list -/

theorem isListChar_facts {c : Char} (h : isListChar c = true) :
    c ≠ '%' ∧ c ≠ '/' ∧ c ≠ '=' ∧ isOperand c = true := by
  simp only [isListChar, Bool.or_eq_true, decide_eq_true_eq] at h
  rcases h with (h | h) | h
  · obtain ⟨-, -, h1, h2, h3, h4⟩ := isNameChar_facts h
    exact ⟨h1, h2, h3, h4⟩
  · subst h; decide
  · subst h; decide

theorem isTrigger_of_nameChar {c : Char} (h : isNameChar c = true) (hd : isdigit c = false) :
    isTrigger c = true := by
  simp only [isNameChar, Bool.or_eq_true, decide_eq_true_eq, isalnum_iff] at h
  simp only [isTrigger, Bool.or_eq_true, decide_eq_true_eq]
  rcases h with ((h | h) | h) | h
  · exact Or.inl (Or.inr h)
  · rw [h] at hd; exact absurd hd (by simp)
  · exact Or.inl (Or.inl h)
  · exact Or.inr h

theorem resMaskLoop_namelist (U : Universe) (s : List Char) (hne : s ≠ [])
    (hs : ∀ c ∈ s, isListChar c = true) (buffer : List Char) (kind : ListKind)
    (hk : kind = ListKind.NUMLIST ∨ kind = ListKind.NAMELIST)
    (ht : kind = ListKind.NAMELIST ∨ ∃ c ∈ s, isTrigger c = true) (m : List Char) :
    resMaskLoop U s buffer kind m =
      residue_namelist (buffer ++ s) m U.residues U.residueName U.ipres := by
  induction s generalizing buffer kind with
  | nil => exact (hne rfl).elim
  | cons c s ih =>
    rw [resMaskLoop]
    -- the kind after this character
    have key : ∀ k2, k2 = (if c = '*' then
          if (buffer ++ [c]).length = 0 ∧ (s.headD NUL = ',' ∨ s = []) then ListKind.ALL
          else if kind = ListKind.NUMLIST then ListKind.NAMELIST else kind
        else if isalpha c = true ∨ c = '?' then ListKind.NAMELIST else kind) →
        (k2 = ListKind.NUMLIST ∨ k2 = ListKind.NAMELIST) ∧
        (kind = ListKind.NAMELIST ∨ isTrigger c = true → k2 = ListKind.NAMELIST) := by
      intro k2 e
      subst e
      simp only [isTrigger, Bool.or_eq_true, decide_eq_true_eq]
      by_cases h1 : c = '*'
      · rcases hk with hk | hk <;> simp [h1, hk]
      · by_cases h2 : isalpha c = true ∨ c = '?'
        · simp [h1, h2]
        · have h2a : isalpha c = false := by
            cases h : isalpha c with
            | false => rfl
            | true => exact absurd (Or.inl h) h2
          have h2b : c ≠ '?' := fun h => h2 (Or.inr h)
          rcases hk with hk | hk <;> simp [h1, h2a, h2b, hk]
    obtain ⟨hk2, ht2⟩ := key _ rfl
    by_cases hnil : s = []
    · subst hnil
      have : kind = ListKind.NAMELIST ∨ isTrigger c = true := by
        rcases ht with h | ⟨d, hd, h⟩
        · exact Or.inl h
        · rw [List.mem_singleton.1 hd] at h; exact Or.inr h
      rw [if_pos rfl, ht2 this]
    · rw [if_neg hnil]
      rw [ih hnil (fun c hc => hs c (List.mem_cons_of_mem _ hc)) _ _ hk2]
      · simp
      · rcases ht with h | ⟨d, hd, h⟩
        · exact Or.inl (ht2 (Or.inl h))
        · rcases List.mem_cons.1 hd with e | e
          · subst e; exact Or.inl (ht2 (Or.inr h))
          · exact Or.inr ⟨d, e, h⟩

theorem atomMaskLoop_namelist (U : Universe) (s : List Char) (hne : s ≠ [])
    (hs : ∀ c ∈ s, isListChar c = true) (buffer : List Char) (kind : ListKind)
    (hk : kind = ListKind.NUMLIST ∨ kind = ListKind.NAMELIST)
    (ht : kind = ListKind.NAMELIST ∨ ∃ c ∈ s, isTrigger c = true) (m : List Char) :
    atomMaskLoop U s buffer kind m = atom_namelist (buffer ++ s) m U.atoms U.atomName := by
  induction s generalizing buffer kind with
  | nil => exact (hne rfl).elim
  | cons c s ih =>
    obtain ⟨hp, hsl, -, -⟩ := isListChar_facts (hs c (List.mem_cons_self _ _))
    rw [atomMaskLoop]
    have key : ∀ k2, k2 = (if c = '*' then
          if (buffer ++ [c]).length = 0 ∧ (s.headD NUL = ',' ∨ s = []) then ListKind.ALL
          else if kind = ListKind.NUMLIST then ListKind.NAMELIST else kind
        else if isalpha c = true ∨ c = '?' then
          if kind = ListKind.NUMLIST then ListKind.NAMELIST else kind
        else if c = '%' then ListKind.TYPELIST
        else if c = '/' then ListKind.ELEMLIST
        else kind) →
        (k2 = ListKind.NUMLIST ∨ k2 = ListKind.NAMELIST) ∧
        (kind = ListKind.NAMELIST ∨ isTrigger c = true → k2 = ListKind.NAMELIST) := by
      intro k2 e
      subst e
      simp only [isTrigger, Bool.or_eq_true, decide_eq_true_eq]
      by_cases h1 : c = '*'
      · rcases hk with hk | hk <;> simp [h1, hk]
      · by_cases h2 : isalpha c = true ∨ c = '?'
        · rcases hk with hk | hk <;> simp [h1, h2, hk]
        · have h2a : isalpha c = false := by
            cases h : isalpha c with
            | false => rfl
            | true => exact absurd (Or.inl h) h2
          have h2b : c ≠ '?' := fun h => h2 (Or.inr h)
          rcases hk with hk | hk <;> simp [h1, h2a, h2b, hp, hsl, hk]
    obtain ⟨hk2, ht2⟩ := key _ rfl
    by_cases hnil : s = []
    · subst hnil
      have : kind = ListKind.NAMELIST ∨ isTrigger c = true := by
        rcases ht with h | ⟨d, hd, h⟩
        · exact Or.inl h
        · rw [List.mem_singleton.1 hd] at h; exact Or.inr h
      rw [if_pos rfl, ht2 this]
    · rw [if_neg hnil]
      rw [ih hnil (fun c hc => hs c (List.mem_cons_of_mem _ hc)) _ _ hk2]
      · simp
      · rcases ht with h | ⟨d, hd, h⟩
        · exact Or.inl (ht2 (Or.inl h))
        · rcases List.mem_cons.1 hd with e | e
          · subst e; exact Or.inl (ht2 (Or.inr h))
          · exact Or.inr ⟨d, e, h⟩

theorem subListText_chars (items : List SubTerm) (hne : items ≠ [])
    (hv : ∀ it ∈ items, it.Valid) :
    subListText items ≠ [] ∧ (∀ c ∈ subListText items, isListChar c = true) ∧
      ((∃ p, SubTerm.name p ∈ items) → ∃ c ∈ subListText items, isTrigger c = true) := by
  induction items with
  | nil => exact (hne rfl).elim
  | cons it its ih =>
    have hit := hv it (List.mem_cons_self _ _)
    obtain ⟨h1, h2⟩ := SubTerm.text_chars hit
    have h2l : ∀ c ∈ it.text, isListChar c = true := by
      intro c hc
      rcases h2 c hc with h | h
      · simp [isListChar, h]
      · subst h; decide
    have htrig : ∀ p, it = SubTerm.name p → ∃ c ∈ it.text, isTrigger c = true := by
      intro p e
      subst e
      obtain ⟨c, hc, hd⟩ := hit.2
      exact ⟨c, hc, isTrigger_of_nameChar (hit.1 c hc) hd⟩
    cases its with
    | nil =>
      refine ⟨by simpa [subListText] using h1, by simpa [subListText] using h2l, ?_⟩
      rintro ⟨p, hp⟩
      simp only [List.mem_singleton] at hp
      simpa [subListText] using htrig p hp.symm
    | cons it2 its =>
      obtain ⟨-, i2, i3⟩ := ih (by simp) (fun x hx => hv x (List.mem_cons_of_mem _ hx))
      refine ⟨by simp [subListText], ?_, ?_⟩
      · intro c hc
        simp only [subListText, List.mem_append, List.mem_cons] at hc
        rcases hc with hc | hc | hc
        · exact h2l c hc
        · subst hc; decide
        · exact i2 c hc
      · rintro ⟨p, hp⟩
        rcases List.mem_cons.1 hp with e | e
        · obtain ⟨c, hc, ht⟩ := htrig p e.symm
          exact ⟨c, by simp [subListText, hc], ht⟩
        · obtain ⟨c, hc, ht⟩ := i3 ⟨p, e⟩
          exact ⟨c, by
            simp only [subListText, List.mem_append, List.mem_cons]
            exact Or.inr (Or.inr hc), ht⟩

theorem map_eqStar_of_listChars (s : List Char) (hs : ∀ c ∈ s, isListChar c = true) :
    s.map eqStar = s := by
  have : ∀ c ∈ s, eqStar c = c := by
    intro c hc
    have := (isListChar_facts (hs c hc)).2.2.1
    simp [eqStar, this]
  calc s.map eqStar = s.map id := List.map_congr_left this
    _ = s := List.map_id s

/-- A residue list with at least one name pattern is evaluated by `residue_namelist`. -/
theorem parseMaskString_residue_namelist {Coords : Type} (U : Universe) (X : Option Coords)
    (type : Char)
    (distd : Option (List Char) → Option (List Char) → Coords → Outcome (List Char × Coords))
    (items : List SubTerm) (hne : items ≠ []) (hv : ∀ it ∈ items, it.Valid)
    (hname : ∃ p, SubTerm.name p ∈ items) :
    parseMaskString U X type distd (':' :: subListText items) =
      Outcome.ok (residue_namelist (subListText items) (List.replicate U.atoms 'F')
        U.residues U.residueName U.ipres) := by
  obtain ⟨htne, htc, htr⟩ := subListText_chars items hne hv
  obtain ⟨m, hm, -, hp⟩ := parseMaskString_term U X type distd ':' (subListText items)
    (Or.inl rfl) (fun c hc => (isListChar_facts (htc c hc)).2.2.2)
  have : selectElemMask U (termText ':' (subListText items)) =
      some (residue_namelist (subListText items) (List.replicate U.atoms 'F')
        U.residues U.residueName U.ipres) := by
    simp only [termText, map_eqStar_of_listChars _ htc, selectElemMask]
    simp [resMaskLoop_namelist U _ htne htc [] _ (Or.inl rfl) (Or.inr (htr hname))]
  rw [this] at hm
  rw [hp, ← Option.some.inj hm]

/-- An atom list with at least one name pattern is evaluated by `atom_namelist`. -/
theorem parseMaskString_atom_namelist {Coords : Type} (U : Universe) (X : Option Coords)
    (type : Char)
    (distd : Option (List Char) → Option (List Char) → Coords → Outcome (List Char × Coords))
    (items : List SubTerm) (hne : items ≠ []) (hv : ∀ it ∈ items, it.Valid)
    (hname : ∃ p, SubTerm.name p ∈ items) :
    parseMaskString U X type distd ('@' :: subListText items) =
      Outcome.ok (atom_namelist (subListText items) (List.replicate U.atoms 'F')
        U.atoms U.atomName) := by
  obtain ⟨htne, htc, htr⟩ := subListText_chars items hne hv
  obtain ⟨m, hm, -, hp⟩ := parseMaskString_term U X type distd '@' (subListText items)
    (Or.inr rfl) (fun c hc => (isListChar_facts (htc c hc)).2.2.2)
  have : selectElemMask U (termText '@' (subListText items)) =
      some (atom_namelist (subListText items) (List.replicate U.atoms 'F')
        U.atoms U.atomName) := by
    simp only [termText, map_eqStar_of_listChars _ htc, selectElemMask]
    simp [atomMaskLoop_namelist U _ htne htc [] _ (Or.inl rfl) (Or.inr (htr hname))]
  rw [this] at hm
  rw [hp, ← Option.some.inj hm]

/-- An atom list of numbers and ranges is evaluated by `atom_numlist`. -/
theorem parseMaskString_atom_numlist {Coords : Type} (U : Universe) (X : Option Coords)
    (type : Char)
    (distd : Option (List Char) → Option (List Char) → Coords → Outcome (List Char × Coords))
    (items : List NumItem) (hne : items ≠ []) (hv : ∀ it ∈ items, it.Valid) :
    parseMaskString U X type distd ('@' :: numListText items) =
      Outcome.ok (numlistLoop (fun a1 a2 m => atnum_select a1 a2 m U.atoms)
        (numListText items) [] 0 false (List.replicate U.atoms 'F')) := by
  obtain ⟨htne, htc⟩ := numListText_isNumChar items hne hv
  obtain ⟨m, hm, -, hp⟩ := parseMaskString_term U X type distd '@' (numListText items)
    (Or.inr rfl) (fun c hc => (isNumChar_facts (htc c hc)).2.2.2.2.2)
  have : selectElemMask U (termText '@' (numListText items)) =
      some (atom_numlist (numListText items) (List.replicate U.atoms 'F') U.atoms) := by
    simp only [termText, map_eqStar_of_numChars _ htc, selectElemMask]
    simp [atomMaskLoop_numlist U _ htne htc]
  rw [this] at hm
  rw [hp, ← Option.some.inj hm]
  rfl

/-! ## Plain names -/

theorem scenario_WF : scenario.WF :=
  ⟨by decide, by decide, by decide, by decide, by decide, by decide⟩

theorem isalnum_isLiteral {c : Char} (h : isalnum c = true) : isLiteral c = true := by
  have h1 : c ≠ '*' := by intro e; subst e; revert h; decide
  have h2 : c ≠ '?' := by intro e; subst e; revert h; decide
  have h3 : c ≠ ' ' := by intro e; subst e; revert h; decide
  simp [isLiteral, h1, h2, h3]

theorem isalpha_not_digit {c : Char} (h : isalpha c = true) : isdigit c = false := by
  cases hd : isdigit c with
  | false => rfl
  | true => rw [(isdigit_facts hd).2.2.2.2.2.2.1] at h; exact absurd h (by simp)

/-- A wildcard-free name with a letter never matches the decimal text of a number. -/
theorem isNameMatch_number_false (w : List Char) (hw : ∀ c ∈ w, isalnum c = true)
    (hl : ∃ c ∈ w, isalpha c = true) (n : Nat) : isNameMatch (sprintf_d n) w = false := by
  cases h : isNameMatch (sprintf_d n) w with
  | false => rfl
  | true =>
    exfalso
    rw [nameMatch_literal w (fun c hc => isalnum_isLiteral (hw c hc)),
      stripSpaces_digits _ (sprintf_d_isdigit n)] at h
    obtain ⟨c, hc, ha⟩ := hl
    rw [← h] at hc
    have := sprintf_d_isdigit n c hc
    rw [isalpha_not_digit ha] at this
    exact absurd this (by simp)

theorem plain_name_isName (w : List Char) (hw : ∀ c ∈ w, isalnum c = true)
    (hl : ∃ c ∈ w, isalpha c = true) : IsName w := by
  refine ⟨fun c hc => by simp [isNameChar, hw c hc], ?_⟩
  obtain ⟨c, hc, ha⟩ := hl
  exact ⟨c, hc, isalpha_not_digit ha⟩

/-- C2. For a wildcard-free name `w` of letters and digits with at least one letter, in a
well-formed universe, `@w` selects exactly the atoms whose stored name without its padding
spaces is `w`, and `:w` selects exactly the atoms of the residues whose stored name without
its padding spaces is `w`; every other entry of the result is `'F'`. -/
theorem C2_plain_name_selection {Coords : Type} (U : Universe) (hU : U.WF)
    (X : Option Coords) (type : Char)
    (distd : Option (List Char) → Option (List Char) → Coords → Outcome (List Char × Coords))
    (w : List Char) (hw : ∀ c ∈ w, isalnum c = true) (hl : ∃ c ∈ w, isalpha c = true) :
    (∃ m, parseMaskString U X type distd ('@' :: w) = Outcome.ok m ∧ m.length = U.atoms ∧
      ∀ k, k < U.atoms →
        (m.getD k 'F' = 'T' ↔ stripSpaces (U.atomName.getD k []) = w) ∧
        (m.getD k 'F' = 'F' ↔ ¬ stripSpaces (U.atomName.getD k []) = w)) ∧
    (∃ m, parseMaskString U X type distd (':' :: w) = Outcome.ok m ∧ m.length = U.atoms ∧
      ∀ k, k < U.atoms →
        (m.getD k 'F' = 'T' ↔ ∃ i, i < U.residues ∧
          stripSpaces (U.residueName.getD i []) = w ∧ inResidue U.ipres i k) ∧
        (m.getD k 'F' = 'F' ↔ ¬ ∃ i, i < U.residues ∧
          stripSpaces (U.residueName.getD i []) = w ∧ inResidue U.ipres i k)) := by
  have hname := plain_name_isName w hw hl
  have hv : ∀ it ∈ [SubTerm.name w], it.Valid := by
    intro it hit; rw [List.mem_singleton.1 hit]; exact hname
  have hlit : ∀ s, isNameMatch s w = true ↔ stripSpaces s = w :=
    nameMatch_literal w (fun c hc => isalnum_isLiteral (hw c hc))
  have hnum : ∀ n, isNameMatch (sprintf_d n) w = false := isNameMatch_number_false w hw hl
  constructor
  · have hp := parseMaskString_atom_namelist U X type distd [SubTerm.name w] (by simp) hv
      ⟨w, by simp⟩
    have hf := (atom_namelist_marks U [SubTerm.name w] (by simp) hv).on_fresh U.atoms
    simp only [subListText, SubTerm.text] at hp hf
    refine ⟨_, hp, hf.1, fun k hk => ?_⟩
    have key : (∃ it ∈ [SubTerm.name w], it.atomInNames U k) ↔
        stripSpaces (U.atomName.getD k []) = w := by
      simp [SubTerm.atomInNames, atomNameSel, hk, hnum, hlit]
    rw [← key]
    exact hf.2 k hk
  · have hp := parseMaskString_residue_namelist U X type distd [SubTerm.name w] (by simp) hv
      ⟨w, by simp⟩
    have hf := (residue_namelist_marks U hU [SubTerm.name w] (by simp) hv).on_fresh U.atoms
    simp only [subListText, SubTerm.text] at hp hf
    refine ⟨_, hp, hf.1, fun k hk => ?_⟩
    have key : (∃ it ∈ [SubTerm.name w], it.resInNames U k) ↔
        ∃ i, i < U.residues ∧ stripSpaces (U.residueName.getD i []) = w ∧
          inResidue U.ipres i k := by
      simp [SubTerm.resInNames, resNameSel, hnum, hlit]
    rw [← key]
    exact hf.2 k hk

/-- C2 on the scenario of three residues that each hold `CA`, `CB`, `N`: the statement for
the name `CA`, and the mask of `@CA`, which selects atoms 0, 3 and 6. -/
theorem C2_plain_name_selection_witness :
    (∃ m, parseMaskString scenario (none : Option Unit) 'd' (fun _ _ _ => Outcome.fail)
        ['@', 'C', 'A'] = Outcome.ok m ∧ m.length = scenario.atoms ∧
      ∀ k, k < scenario.atoms →
        (m.getD k 'F' = 'T' ↔ stripSpaces (scenario.atomName.getD k []) = ['C', 'A']) ∧
        (m.getD k 'F' = 'F' ↔ ¬ stripSpaces (scenario.atomName.getD k []) = ['C', 'A'])) ∧
    parseMaskString scenario (none : Option Unit) 'd' (fun _ _ _ => Outcome.fail)
        ['@', 'C', 'A'] = Outcome.ok ['T', 'F', 'F', 'T', 'F', 'F', 'T', 'F', 'F'] :=
  ⟨(C2_plain_name_selection scenario scenario_WF
      (none : Option Unit) 'd' (fun _ _ _ => Outcome.fail) ['C', 'A']
      (by decide) (by decide)).1, by decide⟩

/-! ## Comma-separated sub-terms -/

theorem isdigit_isalnum {c : Char} (h : isdigit c = true) : isalnum c = true := by
  simp [isalnum_iff, h]

/-- In a name list a plain number that is canonical and is no stored name matches
exactly the entry with that number. -/
theorem plain_number_match (names : List (List Char)) (n : List Char) (hn : IsNumber n)
    (hok : PlainNumberOK names n) (i : Nat) (hi : i < names.length) :
    (isNameMatch (names.getD i []) n || isNameMatch (sprintf_d (i + 1)) n) = true ↔
      storeInt (decimal n) ≤ (i : Int) + 1 ∧ (i : Int) + 1 ≤ storeInt (decimal n) := by
  rw [storeInt_of_lt hok.2.1]
  have hlit : ∀ s, isNameMatch s n = true ↔ stripSpaces s = n :=
    nameMatch_literal n (fun c hc => isalnum_isLiteral (isdigit_isalnum (hn.2 c hc)))
  have h1 : ¬ isNameMatch (names.getD i []) n = true := by
    rw [hlit]
    have hmem : names.getD i [] ∈ names := by
      rw [List.getD_eq_getElem _ _ hi]
      exact List.getElem_mem hi
    exact hok.2.2 _ hmem
  rw [Bool.or_eq_true, hlit (sprintf_d (i + 1)),
    stripSpaces_digits _ (sprintf_d_isdigit (i + 1))]
  constructor
  · rintro (h | h)
    · exact absurd h h1
    · have := decimal_sprintf_d (i + 1)
      rw [h] at this
      omega
  · rintro ⟨h2, h3⟩
    have e : decimal n = i + 1 := by omega
    right
    rw [← e, hok.1]

/-- A residue sub-term on its own. -/
theorem residue_subterm_alone {Coords : Type} (U : Universe) (hU : U.WF) (X : Option Coords)
    (type : Char)
    (distd : Option (List Char) → Option (List Char) → Coords → Outcome (List Char × Coords))
    (it : SubTerm) (hv : it.Valid) :
    ∃ m, parseMaskString U X type distd (':' :: it.text) = Outcome.ok m ∧
      m.length = U.atoms ∧ ∀ k, k < U.atoms → (m.getD k 'F' = 'T' ↔ it.resAlone U k) := by
  cases it with
  | numeric it =>
    have hp := parseMaskString_residue_numlist U X type distd [it] (by simp)
      (by intro x hx; rw [List.mem_singleton.1 hx]; exact hv)
    have hf := (numlistLoop_marks (fun r1 r2 m => resnum_select r1 r2 m U.residues U.ipres)
      (fun r1 r2 => resNumSel U r1 r2)
      (fun a b => resnum_select_marks a b U.residues U.ipres hU.ipres_pos) [it] (by simp)
      (by intro x hx; rw [List.mem_singleton.1 hx]; exact hv) 0).on_fresh U.atoms
    simp only [numListText] at hp hf
    refine ⟨_, hp, hf.1, fun k hk => ?_⟩
    rw [(hf.2 k hk).1]
    simp [SubTerm.resAlone]
  | name p =>
    have hv1 : ∀ x ∈ [SubTerm.name p], x.Valid := by
      intro x hx; rw [List.mem_singleton.1 hx]; exact hv
    have hp := parseMaskString_residue_namelist U X type distd [SubTerm.name p] (by simp) hv1
      ⟨p, by simp⟩
    have hf := (residue_namelist_marks U hU [SubTerm.name p] (by simp) hv1).on_fresh U.atoms
    simp only [subListText] at hp hf
    refine ⟨_, hp, hf.1, fun k hk => ?_⟩
    rw [(hf.2 k hk).1]
    simp [SubTerm.resAlone, SubTerm.resInNames]

/-- An atom sub-term on its own. -/
theorem atom_subterm_alone {Coords : Type} (U : Universe) (X : Option Coords)
    (type : Char)
    (distd : Option (List Char) → Option (List Char) → Coords → Outcome (List Char × Coords))
    (it : SubTerm) (hv : it.Valid) :
    ∃ m, parseMaskString U X type distd ('@' :: it.text) = Outcome.ok m ∧
      m.length = U.atoms ∧ ∀ k, k < U.atoms → (m.getD k 'F' = 'T' ↔ it.atomAlone U k) := by
  cases it with
  | numeric it =>
    have hp := parseMaskString_atom_numlist U X type distd [it] (by simp)
      (by intro x hx; rw [List.mem_singleton.1 hx]; exact hv)
    have hf := (numlistLoop_marks (fun a1 a2 m => atnum_select a1 a2 m U.atoms)
      (fun a1 a2 => atomNumSel U a1 a2)
      (fun a b => atnum_select_marks a b U.atoms) [it] (by simp)
      (by intro x hx; rw [List.mem_singleton.1 hx]; exact hv) 0).on_fresh U.atoms
    simp only [numListText] at hp hf
    refine ⟨_, hp, hf.1, fun k hk => ?_⟩
    rw [(hf.2 k hk).1]
    simp [SubTerm.atomAlone]
  | name p =>
    have hv1 : ∀ x ∈ [SubTerm.name p], x.Valid := by
      intro x hx; rw [List.mem_singleton.1 hx]; exact hv
    have hp := parseMaskString_atom_namelist U X type distd [SubTerm.name p] (by simp) hv1
      ⟨p, by simp⟩
    have hf := (atom_namelist_marks U [SubTerm.name p] (by simp) hv1).on_fresh U.atoms
    simp only [subListText] at hp hf
    refine ⟨_, hp, hf.1, fun k hk => ?_⟩
    rw [(hf.2 k hk).1]
    simp [SubTerm.atomAlone, SubTerm.atomInNames]

theorem all_numeric_list (items : List SubTerm) (h : ¬ ∃ p, SubTerm.name p ∈ items) :
    ∃ nums : List NumItem, items = nums.map SubTerm.numeric ∧
      subListText items = numListText nums := by
  induction items with
  | nil => exact ⟨[], rfl, rfl⟩
  | cons it its ih =>
    obtain ⟨nums, h1, h2⟩ := ih (fun ⟨p, hp⟩ => h ⟨p, List.mem_cons_of_mem _ hp⟩)
    cases it with
    | name p => exact (h ⟨p, List.mem_cons_self _ _⟩).elim
    | numeric it =>
      refine ⟨it :: nums, by simp [h1], ?_⟩
      cases its with
      | nil =>
        cases nums with
        | nil => rfl
        | cons a b => cases h1
      | cons it2 its2 =>
        cases nums with
        | nil => cases h1
        | cons a b =>
          simp only [subListText, numListText, SubTerm.text]
          rw [h2]

/-- A residue list selects what its sub-terms select in the reading chosen for
the list. -/
theorem residue_list_marks {Coords : Type} (U : Universe) (hU : U.WF) (X : Option Coords)
    (type : Char)
    (distd : Option (List Char) → Option (List Char) → Coords → Outcome (List Char × Coords))
    (items : List SubTerm) (hne : items ≠ []) (hv : ∀ it ∈ items, it.Valid)
    (hplain : (∃ p, SubTerm.name p ∈ items) →
      ∀ n, SubTerm.numeric (NumItem.num n) ∈ items → PlainNumberOK U.residueName n) :
    ∃ m, parseMaskString U X type distd (':' :: subListText items) = Outcome.ok m ∧
      m.length = U.atoms ∧
      ∀ k, k < U.atoms →
        (m.getD k 'F' = 'T' ↔ ∃ it ∈ items, it.resAlone U k) ∧
        (m.getD k 'F' = 'F' ↔ ¬ ∃ it ∈ items, it.resAlone U k) := by
  by_cases hname : ∃ p, SubTerm.name p ∈ items
  · have hp := parseMaskString_residue_namelist U X type distd items hne hv hname
    have hmk := residue_namelist_marks U hU items hne hv
    have hcongr : ∀ k, (∃ it ∈ items, it.resInNames U k) ↔ ∃ it ∈ items, it.resAlone U k := by
      intro k
      have one : ∀ it ∈ items, (it.resInNames U k ↔ it.resAlone U k) := by
        intro it hit
        cases it with
        | name p => exact Iff.rfl
        | numeric it =>
          cases it with
          | range a b => exact Iff.rfl
          | num n =>
            have hok := hplain hname n hit
            have hn : IsNumber n := hv _ hit
            simp only [SubTerm.resInNames, SubTerm.resAlone, resNameSel, resNumSel,
              NumItem.lo, NumItem.hi]
            constructor
            · rintro ⟨i, hi, hm, hr⟩
              have := (plain_number_match U.residueName n hn hok i (by rw [hU.2.1]; exact hi)).1 hm
              exact ⟨i, hi, this.1, this.2, hr⟩
            · rintro ⟨i, hi, h1, h2, hr⟩
              exact ⟨i, hi, (plain_number_match U.residueName n hn hok i
                (by rw [hU.2.1]; exact hi)).2 ⟨h1, h2⟩, hr⟩
      constructor
      · rintro ⟨it, hit, h⟩; exact ⟨it, hit, (one it hit).1 h⟩
      · rintro ⟨it, hit, h⟩; exact ⟨it, hit, (one it hit).2 h⟩
    have hf := (hmk.congr hcongr).on_fresh U.atoms
    exact ⟨_, hp, hf.1, hf.2⟩
  · obtain ⟨nums, h1, h2⟩ := all_numeric_list items hname
    have hne2 : nums ≠ [] := by
      intro e; rw [e] at h1; exact hne h1
    have hv2 : ∀ it ∈ nums, it.Valid := by
      intro it hit
      exact hv (SubTerm.numeric it) (by rw [h1]; exact List.mem_map_of_mem _ hit)
    have hp := parseMaskString_residue_numlist U X type distd nums hne2 hv2
    have hmk := numlistLoop_marks (fun r1 r2 m => resnum_select r1 r2 m U.residues U.ipres)
      (fun r1 r2 => resNumSel U r1 r2)
      (fun a b => resnum_select_marks a b U.residues U.ipres hU.ipres_pos) nums hne2 hv2 0
    have hcongr : ∀ k, (∃ it ∈ nums, resNumSel U (storeInt it.lo) (storeInt it.hi) k) ↔
        ∃ it ∈ items, it.resAlone U k := by
      intro k
      rw [h1]
      simp [SubTerm.resAlone]
    have hf := (hmk.congr hcongr).on_fresh U.atoms
    rw [h2]
    exact ⟨_, hp, hf.1, hf.2⟩

/-- An atom list selects what its sub-terms select in the reading chosen for the list. -/
theorem atom_list_marks {Coords : Type} (U : Universe) (hU : U.WF) (X : Option Coords)
    (type : Char)
    (distd : Option (List Char) → Option (List Char) → Coords → Outcome (List Char × Coords))
    (items : List SubTerm) (hne : items ≠ []) (hv : ∀ it ∈ items, it.Valid)
    (hplain : (∃ p, SubTerm.name p ∈ items) →
      ∀ n, SubTerm.numeric (NumItem.num n) ∈ items → PlainNumberOK U.atomName n) :
    ∃ m, parseMaskString U X type distd ('@' :: subListText items) = Outcome.ok m ∧
      m.length = U.atoms ∧
      ∀ k, k < U.atoms →
        (m.getD k 'F' = 'T' ↔ ∃ it ∈ items, it.atomAlone U k) ∧
        (m.getD k 'F' = 'F' ↔ ¬ ∃ it ∈ items, it.atomAlone U k) := by
  by_cases hname : ∃ p, SubTerm.name p ∈ items
  · have hp := parseMaskString_atom_namelist U X type distd items hne hv hname
    have hmk := atom_namelist_marks U items hne hv
    have hcongr : ∀ k, (∃ it ∈ items, it.atomInNames U k) ↔ ∃ it ∈ items, it.atomAlone U k := by
      intro k
      have one : ∀ it ∈ items, (it.atomInNames U k ↔ it.atomAlone U k) := by
        intro it hit
        cases it with
        | name p => exact Iff.rfl
        | numeric it =>
          cases it with
          | range a b => exact Iff.rfl
          | num n =>
            have hok := hplain hname n hit
            have hn : IsNumber n := hv _ hit
            simp only [SubTerm.atomInNames, SubTerm.atomAlone, atomNameSel, atomNumSel,
              NumItem.lo, NumItem.hi]
            constructor
            · rintro ⟨hk, hm⟩
              have := (plain_number_match U.atomName n hn hok k (by rw [hU.1]; exact hk)).1 hm
              exact ⟨hk, this.1, this.2⟩
            · rintro ⟨hk, h1, h2⟩
              exact ⟨hk, (plain_number_match U.atomName n hn hok k
                (by rw [hU.1]; exact hk)).2 ⟨h1, h2⟩⟩
      constructor
      · rintro ⟨it, hit, h⟩; exact ⟨it, hit, (one it hit).1 h⟩
      · rintro ⟨it, hit, h⟩; exact ⟨it, hit, (one it hit).2 h⟩
    have hf := (hmk.congr hcongr).on_fresh U.atoms
    exact ⟨_, hp, hf.1, hf.2⟩
  · obtain ⟨nums, h1, h2⟩ := all_numeric_list items hname
    have hne2 : nums ≠ [] := by
      intro e; rw [e] at h1; exact hne h1
    have hv2 : ∀ it ∈ nums, it.Valid := by
      intro it hit
      exact hv (SubTerm.numeric it) (by rw [h1]; exact List.mem_map_of_mem _ hit)
    have hp := parseMaskString_atom_numlist U X type distd nums hne2 hv2
    have hmk := numlistLoop_marks (fun a1 a2 m => atnum_select a1 a2 m U.atoms)
      (fun a1 a2 => atomNumSel U a1 a2)
      (fun a b => atnum_select_marks a b U.atoms) nums hne2 hv2 0
    have hcongr : ∀ k, (∃ it ∈ nums, atomNumSel U (storeInt it.lo) (storeInt it.hi) k) ↔
        ∃ it ∈ items, it.atomAlone U k := by
      intro k
      rw [h1]
      simp [SubTerm.atomAlone]
    have hf := (hmk.congr hcongr).on_fresh U.atoms
    rw [h2]
    exact ⟨_, hp, hf.1, hf.2⟩

/-- C9 (amended). Comma means OR: in a well-formed universe, for a non-empty list of
sub-terms (numbers, ranges, name patterns) in which, whenever a name pattern is present,
every plain number is written without leading zero, is below `2^31` and is not itself a
stored name, the term `:s1,...,sk` evaluates to the mask that selects atom `k` exactly when one of the
terms `:s1`, ..., `:sk`, evaluated on its own, selects it; likewise for `@s1,...,sk`. -/
theorem C9_comma_is_or {Coords : Type} (U : Universe) (hU : U.WF) (X : Option Coords)
    (type : Char)
    (distd : Option (List Char) → Option (List Char) → Coords → Outcome (List Char × Coords))
    (items : List SubTerm) (hne : items ≠ []) (hv : ∀ it ∈ items, it.Valid) :
    (((∃ p, SubTerm.name p ∈ items) →
        ∀ n, SubTerm.numeric (NumItem.num n) ∈ items → PlainNumberOK U.residueName n) →
      ∃ m, parseMaskString U X type distd (':' :: subListText items) = Outcome.ok m ∧
        m.length = U.atoms ∧
        ∀ k, k < U.atoms →
          (m.getD k 'F' = 'T' ↔ ∃ it ∈ items, ∃ mi,
            parseMaskString U X type distd (':' :: it.text) = Outcome.ok mi ∧
              mi.getD k 'F' = 'T') ∧
          (m.getD k 'F' = 'F' ↔ ¬ ∃ it ∈ items, ∃ mi,
            parseMaskString U X type distd (':' :: it.text) = Outcome.ok mi ∧
              mi.getD k 'F' = 'T')) ∧
    (((∃ p, SubTerm.name p ∈ items) →
        ∀ n, SubTerm.numeric (NumItem.num n) ∈ items → PlainNumberOK U.atomName n) →
      ∃ m, parseMaskString U X type distd ('@' :: subListText items) = Outcome.ok m ∧
        m.length = U.atoms ∧
        ∀ k, k < U.atoms →
          (m.getD k 'F' = 'T' ↔ ∃ it ∈ items, ∃ mi,
            parseMaskString U X type distd ('@' :: it.text) = Outcome.ok mi ∧
              mi.getD k 'F' = 'T') ∧
          (m.getD k 'F' = 'F' ↔ ¬ ∃ it ∈ items, ∃ mi,
            parseMaskString U X type distd ('@' :: it.text) = Outcome.ok mi ∧
              mi.getD k 'F' = 'T')) := by
  constructor
  · intro hplain
    obtain ⟨m, hp, hl, hk⟩ := residue_list_marks U hU X type distd items hne hv hplain
    refine ⟨m, hp, hl, fun k hklt => ?_⟩
    have key : (∃ it ∈ items, it.resAlone U k) ↔ ∃ it ∈ items, ∃ mi,
        parseMaskString U X type distd (':' :: it.text) = Outcome.ok mi ∧
          mi.getD k 'F' = 'T' := by
      constructor
      · rintro ⟨it, hit, h⟩
        obtain ⟨mi, h1, -, h3⟩ := residue_subterm_alone U hU X type distd it (hv it hit)
        exact ⟨it, hit, mi, h1, (h3 k hklt).2 h⟩
      · rintro ⟨it, hit, mi, h1, h2⟩
        obtain ⟨mi2, h3, -, h4⟩ := residue_subterm_alone U hU X type distd it (hv it hit)
        rw [h1] at h3
        have e : mi = mi2 := Outcome.ok.inj h3
        subst e
        exact ⟨it, hit, (h4 k hklt).1 h2⟩
    rw [← key]
    exact hk k hklt
  · intro hplain
    obtain ⟨m, hp, hl, hk⟩ := atom_list_marks U hU X type distd items hne hv hplain
    refine ⟨m, hp, hl, fun k hklt => ?_⟩
    have key : (∃ it ∈ items, it.atomAlone U k) ↔ ∃ it ∈ items, ∃ mi,
        parseMaskString U X type distd ('@' :: it.text) = Outcome.ok mi ∧
          mi.getD k 'F' = 'T' := by
      constructor
      · rintro ⟨it, hit, h⟩
        obtain ⟨mi, h1, -, h3⟩ := atom_subterm_alone U X type distd it (hv it hit)
        exact ⟨it, hit, mi, h1, (h3 k hklt).2 h⟩
      · rintro ⟨it, hit, mi, h1, h2⟩
        obtain ⟨mi2, h3, -, h4⟩ := atom_subterm_alone U X type distd it (hv it hit)
        rw [h1] at h3
        have e : mi = mi2 := Outcome.ok.inj h3
        subst e
        exact ⟨it, hit, (h4 k hklt).1 h2⟩
    rw [← key]
    exact hk k hklt

/-- C9 on the scenario, for the residue list `:1,GLY`: the number `1` is canonical and no
residue is named `1`, so the list selects the atoms of residue 1 and of `GLY`. -/
theorem C9_comma_is_or_witness :
    (∃ m, parseMaskString scenario (none : Option Unit) 'd' (fun _ _ _ => Outcome.fail)
        (':' :: subListText [SubTerm.numeric (NumItem.num ['1']),
          SubTerm.name ['G', 'L', 'Y']]) = Outcome.ok m ∧
      m.length = scenario.atoms ∧
      ∀ k, k < scenario.atoms →
        (m.getD k 'F' = 'T' ↔ ∃ it ∈ [SubTerm.numeric (NumItem.num ['1']),
            SubTerm.name ['G', 'L', 'Y']], ∃ mi,
          parseMaskString scenario (none : Option Unit) 'd' (fun _ _ _ => Outcome.fail)
            (':' :: it.text) = Outcome.ok mi ∧ mi.getD k 'F' = 'T') ∧
        (m.getD k 'F' = 'F' ↔ ¬ ∃ it ∈ [SubTerm.numeric (NumItem.num ['1']),
            SubTerm.name ['G', 'L', 'Y']], ∃ mi,
          parseMaskString scenario (none : Option Unit) 'd' (fun _ _ _ => Outcome.fail)
            (':' :: it.text) = Outcome.ok mi ∧ mi.getD k 'F' = 'T')) ∧
    parseMaskString scenario (none : Option Unit) 'd' (fun _ _ _ => Outcome.fail)
      [':', '1', ',', 'G', 'L', 'Y'] =
        Outcome.ok ['T', 'T', 'T', 'T', 'T', 'T', 'F', 'F', 'F'] :=
  ⟨(C9_comma_is_or scenario scenario_WF (none : Option Unit) 'd' (fun _ _ _ => Outcome.fail)
      [SubTerm.numeric (NumItem.num ['1']), SubTerm.name ['G', 'L', 'Y']] (by simp)
      (by
        intro it hit
        simp only [List.mem_cons, List.mem_singleton, List.not_mem_nil, or_false] at hit
        rcases hit with h | h <;> subst h
        · exact ⟨by simp, by decide⟩
        · exact ⟨by decide, ⟨'G', by simp, by decide⟩⟩)).1
      (by
        intro _ n hn
        simp only [List.mem_cons, List.mem_singleton, List.not_mem_nil, or_false,
          SubTerm.numeric.injEq, NumItem.num.injEq, reduceCtorEq] at hn
        subst hn
        exact ⟨by decide, by decide, by decide⟩), by decide⟩

/-- C9 as stated fails. With the third residue named `1`, the list `:1,GLY` selects atom 6,
which neither `:1` nor `:GLY` selects; on the scenario the list `:01,GLY` does not
select atom 0, which `:01` selects; and the list `:4294967297,GLY` does not select atom 0,
which `:4294967297`, read into an `int` as `1`, selects. -/
theorem C9_comma_is_or_counterexample :
    (parseMaskString scenarioNumericName (none : Option Unit) 'd' (fun _ _ _ => Outcome.fail)
        [':', '1', ',', 'G', 'L', 'Y'] =
          Outcome.ok ['T', 'T', 'T', 'T', 'T', 'T', 'T', 'T', 'T'] ∧
      parseMaskString scenarioNumericName (none : Option Unit) 'd' (fun _ _ _ => Outcome.fail)
        [':', '1'] = Outcome.ok ['T', 'T', 'T', 'F', 'F', 'F', 'F', 'F', 'F'] ∧
      parseMaskString scenarioNumericName (none : Option Unit) 'd' (fun _ _ _ => Outcome.fail)
        [':', 'G', 'L', 'Y'] = Outcome.ok ['F', 'F', 'F', 'T', 'T', 'T', 'F', 'F', 'F']) ∧
    (parseMaskString scenario (none : Option Unit) 'd' (fun _ _ _ => Outcome.fail)
        [':', '0', '1', ',', 'G', 'L', 'Y'] =
          Outcome.ok ['F', 'F', 'F', 'T', 'T', 'T', 'F', 'F', 'F'] ∧
      parseMaskString scenario (none : Option Unit) 'd' (fun _ _ _ => Outcome.fail)
        [':', '0', '1'] = Outcome.ok ['T', 'T', 'T', 'F', 'F', 'F', 'F', 'F', 'F'] ∧
      parseMaskString scenario (none : Option Unit) 'd' (fun _ _ _ => Outcome.fail)
        [':', 'G', 'L', 'Y'] = Outcome.ok ['F', 'F', 'F', 'T', 'T', 'T', 'F', 'F', 'F']) ∧
    (parseMaskString scenario (none : Option Unit) 'd' (fun _ _ _ => Outcome.fail)
        [':', '4', '2', '9', '4', '9', '6', '7', '2', '9', '7', ',', 'G', 'L', 'Y'] =
          Outcome.ok ['F', 'F', 'F', 'T', 'T', 'T', 'F', 'F', 'F'] ∧
      parseMaskString scenario (none : Option Unit) 'd' (fun _ _ _ => Outcome.fail)
        [':', '4', '2', '9', '4', '9', '6', '7', '2', '9', '7'] =
          Outcome.ok ['T', 'T', 'T', 'F', 'F', 'F', 'F', 'F', 'F'] ∧
      parseMaskString scenario (none : Option Unit) 'd' (fun _ _ _ => Outcome.fail)
        [':', 'G', 'L', 'Y'] = Outcome.ok ['F', 'F', 'F', 'T', 'T', 'T', 'F', 'F', 'F']) := by
  refine ⟨by decide, by decide, ?_, ?_, by decide⟩
  · exact parseMaskString_term_value _ _ _ _ _ _ (Or.inl rfl) (by decide) _ (by decide)
  · exact parseMaskString_term_value _ _ _ _ _ _ (Or.inl rfl) (by decide) _ (by decide)

/-! ## General facts about the tokenizer loop -/

theorem two_step_induction {P : List Char → Prop} (h0 : P []) (h1 : ∀ c, P [c])
    (h2 : ∀ c d rest, P rest → P (d :: rest) → P (c :: d :: rest)) : ∀ l, P l := by
  have key : ∀ l, P l ∧ ∀ c, P (c :: l) := by
    intro l
    induction l with
    | nil => exact ⟨h0, h1⟩
    | cons d l ih => exact ⟨ih.2 d, fun c => h2 c d l ih.1 (ih.2 d)⟩
  exact fun l => (key l).1

theorem flushed_append (flag : Nat) (buffer O out : List Char) :
    flushed flag buffer (O ++ out) = O ++ flushed flag buffer out := by
  unfold flushed
  split <;> simp

theorem tokenizeLoop_nil_flushed (flag : Nat) (buffer out : List Char) :
    tokenizeLoop [] flag buffer out = some (flushed flag buffer out ++ [NUL]) := rfl

/-- The step of the tokenizer loop on an operator or a parenthesis. -/
theorem tokenizeLoop_opchar {c : Char} (hc : isOperator c = true ∨ c = '(' ∨ c = ')')
    (rest : List Char) (flag : Nat) (buffer out : List Char) :
    tokenizeLoop (c :: rest) flag buffer out =
      if c = '>' ∨ c = '<' then
        match rest with
        | [] => some (flushed flag buffer out ++ [c])
        | d :: rest2 =>
          if d = ':' ∨ d = '@' then
            tokenizeLoop rest2 3 ['(', '[', c, d] (flushed flag buffer out ++ [c])
          else none
      else tokenizeLoop rest 0 buffer (flushed flag buffer out ++ [c]) := by
  have hs : isspace c = false := by
    rcases hc with h | h | h
    · rcases isOperator_cases h with h1 | h1 | h1 | h1 | h1 <;> subst h1 <;> decide
    · subst h; decide
    · subst h; decide
  rw [tokenizeLoop_cons]
  simp only [hs, Bool.false_eq_true, if_false, hc, if_true]
  rfl

/-- The step of the tokenizer loop on a character that is no space, operator or
parenthesis. -/
theorem tokenizeLoop_other {c : Char} (hs : isspace c = false)
    (hc : ¬ (isOperator c = true ∨ c = '(' ∨ c = ')'))
    (rest : List Char) (flag : Nat) (buffer out : List Char) :
    tokenizeLoop (c :: rest) flag buffer out =
      if isOperand c then
        if flag = 0 ∧ c ≠ '*' then none
        else tokenizeLoop rest (if flag = 0 then 1 else flag)
          ((if flag = 0 then ['(', '['] else buffer) ++ [eqStar c]) out
      else if c = ':' then
        if flag = 0 then tokenizeLoop rest 1 ['(', '[', ':'] out
        else tokenizeLoop rest 1 (buffer ++ [']', ')', '|', '(', '[', ':']) out
      else if c = '@' then
        if flag = 0 then tokenizeLoop rest 2 ['(', '[', '@'] out
        else if flag = 1 then tokenizeLoop rest 2 (buffer ++ [']', '&', '[', '@']) out
        else if flag = 2 then
          tokenizeLoop rest 2 (buffer ++ [']', ')', '|', '(', '[', '@']) out
        else tokenizeLoop rest flag buffer out
      else none := by
  rw [tokenizeLoop_cons]
  simp only [hs, Bool.false_eq_true, if_false, hc]
  by_cases ho : isOperand c = true
  · simp only [ho, if_true]
    by_cases h0 : flag = 0 ∧ c ≠ '*'
    · simp [h0]
    · simp only [h0, if_false]
      by_cases he : c = '='
      · have : (if flag = 0 then 1 else flag) > 0 := by split <;> omega
        simp [he, eqStar, this]
      · simp [he, eqStar]
  · simp [ho]

/-- Characters already written are passed through unchanged. -/
theorem tokenizeLoop_out_prefix (inp : List Char) (flag : Nat) (buffer out O : List Char) :
    tokenizeLoop inp flag buffer (O ++ out) =
      (tokenizeLoop inp flag buffer out).map (fun r => O ++ r) := by
  induction inp using two_step_induction generalizing flag buffer out with
  | h0 => simp [tokenizeLoop_nil_flushed, flushed_append]
  | h1 c =>
    by_cases hs : isspace c = true
    · simp [tokenizeLoop_space hs, tokenizeLoop_nil_flushed, flushed_append]
    · have hs : isspace c = false := by simpa using hs
      by_cases hc : isOperator c = true ∨ c = '(' ∨ c = ')'
      · simp only [tokenizeLoop_opchar hc, flushed_append, tokenizeLoop_nil_flushed]
        split_ifs <;> simp [flushed]
      · simp only [tokenizeLoop_other hs hc, tokenizeLoop_nil_flushed, flushed_append]
        split_ifs <;> simp
  | h2 c d rest ih1 ih2 =>
    by_cases hs : isspace c = true
    · simp [tokenizeLoop_space hs, ih2]
    · have hs : isspace c = false := by simpa using hs
      by_cases hc : isOperator c = true ∨ c = '(' ∨ c = ')'
      · simp only [tokenizeLoop_opchar hc, flushed_append]
        split_ifs <;> simp only [List.append_assoc, ih1, ih2, Option.map_none']
      · simp only [tokenizeLoop_other hs hc]
        split_ifs <;> simp [ih2]

/-- Between terms the old content of the buffer is irrelevant. -/
theorem tokenizeLoop_flag0_buffer (inp : List Char) (buffer out : List Char) :
    tokenizeLoop inp 0 buffer out = tokenizeLoop inp 0 [] out := by
  induction inp using two_step_induction generalizing buffer out with
  | h0 => simp [tokenizeLoop_nil_flushed, flushed]
  | h1 c =>
    by_cases hs : isspace c = true
    · simp [tokenizeLoop_space hs, tokenizeLoop_nil_flushed, flushed]
    · have hs : isspace c = false := by simpa using hs
      by_cases hc : isOperator c = true ∨ c = '(' ∨ c = ')'
      · simp only [tokenizeLoop_opchar hc, tokenizeLoop_nil_flushed]
        split_ifs <;> simp [flushed]
      · simp only [tokenizeLoop_other hs hc]
        split_ifs <;> simp
  | h2 c d rest ih1 ih2 =>
    by_cases hs : isspace c = true
    · simp only [tokenizeLoop_space hs]; exact ih2 _ _
    · have hs : isspace c = false := by simpa using hs
      by_cases hc : isOperator c = true ∨ c = '(' ∨ c = ')'
      · simp only [tokenizeLoop_opchar hc]
        have e : ∀ b, flushed 0 b out = out := fun b => by simp [flushed]
        split_ifs
        · simp [e]
        · simp
        · rw [e, e, ih2 buffer]
      · simp only [tokenizeLoop_other hs hc]
        split_ifs <;> simp

theorem flushed_split (flag : Nat) (hf : 0 < flag) (b1 b2 out : List Char) :
    flushed flag (b1 ++ b2) out = flushed flag b2 (out ++ b1) := by
  simp [flushed, hf]

/-- Inside a term only the concatenation of the output and the buffer matters. -/
theorem tokenizeLoop_flush (inp : List Char) (flag : Nat) (hf : 0 < flag)
    (b1 b2 out : List Char) :
    tokenizeLoop inp flag (b1 ++ b2) out = tokenizeLoop inp flag b2 (out ++ b1) := by
  have hf0 : flag ≠ 0 := by omega
  induction inp using two_step_induction generalizing flag b1 b2 out with
  | h0 => simp [tokenizeLoop_nil_flushed, flushed_split flag hf]
  | h1 c =>
    by_cases hs : isspace c = true
    · simp [tokenizeLoop_space hs, tokenizeLoop_nil_flushed, flushed_split flag hf]
    · have hs : isspace c = false := by simpa using hs
      by_cases hc : isOperator c = true ∨ c = '(' ∨ c = ')'
      · simp only [tokenizeLoop_opchar hc, tokenizeLoop_nil_flushed, flushed_split flag hf]
        split_ifs <;> simp [flushed]
      · simp only [tokenizeLoop_other hs hc, tokenizeLoop_nil_flushed]
        split_ifs <;> simp_all [flushed]
  | h2 c d rest ih1 ih2 =>
    by_cases hs : isspace c = true
    · simp only [tokenizeLoop_space hs]; exact ih2 _ hf _ _ _ hf0
    · have hs : isspace c = false := by simpa using hs
      by_cases hc : isOperator c = true ∨ c = '(' ∨ c = ')'
      · simp only [tokenizeLoop_opchar hc, flushed_split flag hf]
        split_ifs
        · rfl
        · rfl
        · rw [tokenizeLoop_flag0_buffer _ (b1 ++ b2), tokenizeLoop_flag0_buffer _ b2]
      · simp only [tokenizeLoop_other hs hc, hf0, false_and, if_false]
        split_ifs
        · rw [List.append_assoc]; exact ih2 _ hf _ _ _ hf0
        · rw [List.append_assoc]; exact ih2 _ (by decide) _ _ _ (by decide)
        · rw [List.append_assoc]; exact ih2 _ (by decide) _ _ _ (by decide)
        · rw [List.append_assoc]; exact ih2 _ (by decide) _ _ _ (by decide)
        · exact ih2 _ hf _ _ _ hf0
        · rfl

/-- The loop never returns an empty text. -/
theorem tokenizeLoop_ne_nil (inp : List Char) (flag : Nat) (buffer out r : List Char)
    (h : tokenizeLoop inp flag buffer out = some r) : r ≠ [] := by
  induction inp using two_step_induction generalizing flag buffer out with
  | h0 =>
    simp only [tokenizeLoop_nil_flushed, Option.some.injEq] at h
    rw [← h]; simp
  | h1 c =>
    by_cases hs : isspace c = true
    · simp only [tokenizeLoop_space hs, tokenizeLoop_nil_flushed, Option.some.injEq] at h
      rw [← h]; simp
    · have hs : isspace c = false := by simpa using hs
      by_cases hc : isOperator c = true ∨ c = '(' ∨ c = ')'
      · simp only [tokenizeLoop_opchar hc, tokenizeLoop_nil_flushed] at h
        split_ifs at h <;> (simp only [Option.some.injEq] at h; rw [← h]; simp)
      · simp only [tokenizeLoop_other hs hc, tokenizeLoop_nil_flushed] at h
        split_ifs at h <;> simp only [Option.some.injEq] at h <;>
          (rw [← h]; simp)
  | h2 c d rest ih1 ih2 =>
    by_cases hs : isspace c = true
    · simp only [tokenizeLoop_space hs] at h; exact ih2 _ _ _ h
    · have hs : isspace c = false := by simpa using hs
      by_cases hc : isOperator c = true ∨ c = '(' ∨ c = ')'
      · simp only [tokenizeLoop_opchar hc] at h
        split_ifs at h
        · exact ih1 _ _ _ h
        · exact ih2 _ _ _ h
      · simp only [tokenizeLoop_other hs hc] at h
        split_ifs at h <;> exact ih2 _ _ _ h

/-! ## Blocks in immediate succession -/

theorem inCriterion_nil (s : Bool) : inCriterion [] s = s := rfl

theorem inCriterion_cons (c : Char) (rest : List Char) (s : Bool) :
    inCriterion (c :: rest) s =
      if c = '<' ∨ c = '>' then
        match rest with
        | [] => true
        | _ :: rest2 => inCriterion rest2 true
      else if c = ':' ∨ isPlainOp c = true then inCriterion rest false
      else inCriterion rest s := by
  cases rest <;> rfl

theorem bracketOpen_append (x y : List Char) (fl : Bool) :
    bracketOpen (x ++ y) fl = bracketOpen y (bracketOpen x fl) := by
  induction x generalizing fl with
  | nil => rfl
  | cons c x ih => simp only [List.cons_append, bracketOpen]; exact ih _

theorem bracketOpen_flushed (f : Nat) (b o : List Char) (ho : bracketOpen o false = false) :
    bracketOpen (flushed f b o) false = false := by
  unfold flushed
  split
  · simp [bracketOpen_append, bracketOpen]
  · exact ho

/-- One step of the scanner on a character other than `<` and `>`: a syntax error, or a new
state that does not depend on the rest of the text. The new state is inside a distance
criterion only if the old one was and the character is none of `: ! & | ( )`; and an
output whose brackets are closed keeps them closed. -/
theorem tokenizeLoop_step (c : Char) (h1 : c ≠ '<') (h2 : c ≠ '>') (f : Nat)
    (b o : List Char) :
    (∀ r, tokenizeLoop (c :: r) f b o = none) ∨
    ∃ f2 b2 o2, (∀ r, tokenizeLoop (c :: r) f b o = tokenizeLoop r f2 b2 o2) ∧
      (3 ≤ f2 → 3 ≤ f ∧ c ≠ ':' ∧ isPlainOp c = false) ∧
      (bracketOpen o false = false → bracketOpen o2 false = false) := by
  by_cases hs : isspace c = true
  · refine Or.inr ⟨f, b, o, fun r => tokenizeLoop_space hs r f b o, fun h => ⟨h, ?_, ?_⟩,
      fun ho => ho⟩
    · intro e; subst e; revert hs; decide
    · rcases isspace_cases hs with e | e | e | e | e | e <;> subst e <;> decide
  · have hs : isspace c = false := by simpa using hs
    by_cases hc : isOperator c = true ∨ c = '(' ∨ c = ')'
    · refine Or.inr ⟨0, b, flushed f b o ++ [c], fun r => ?_, fun h => by omega, fun ho => ?_⟩
      · rw [tokenizeLoop_opchar hc]
        simp [h1, h2]
      · have hc1 : c ≠ '[' := by
          rintro rfl; revert hc; decide
        have hc2 : c ≠ ']' := by
          rintro rfl; revert hc; decide
        rw [bracketOpen_append, bracketOpen_flushed f b o ho]
        simp [bracketOpen, hc1, hc2]
    · have hp : isPlainOp c = false := by
        cases hp : isPlainOp c with
        | false => rfl
        | true =>
          exfalso; apply hc
          simp only [isPlainOp, decide_eq_true_eq] at hp
          rcases hp with e | e | e | e | e
          · subst e; exact Or.inl (by decide)
          · subst e; exact Or.inl (by decide)
          · subst e; exact Or.inl (by decide)
          · exact Or.inr (Or.inl e)
          · exact Or.inr (Or.inr e)
      by_cases ho : isOperand c = true
      · have hcol := (isOperand_not_special ho).2.2.2.2.2.1
        by_cases h0 : f = 0 ∧ c ≠ '*'
        · left; intro r; rw [tokenizeLoop_other hs hc]; simp [ho, h0]
        · refine Or.inr ⟨if f = 0 then 1 else f,
            (if f = 0 then ['(', '['] else b) ++ [eqStar c], o, fun r => ?_, fun h => ?_,
            fun hout => hout⟩
          · rw [tokenizeLoop_other hs hc]; simp only [ho, if_true, h0, if_false]
          · refine ⟨?_, hcol, hp⟩
            split at h <;> omega
      · by_cases hcol : c = ':'
        · subst hcol
          refine Or.inr ⟨1, if f = 0 then ['(', '[', ':'] else
            b ++ [']', ')', '|', '(', '[', ':'], o, fun r => ?_, fun h => by omega,
            fun hout => hout⟩
          rw [tokenizeLoop_colon]
          split <;> rfl
        · by_cases hat : c = '@'
          · subst hat
            by_cases f0 : f = 0
            · refine Or.inr ⟨2, ['(', '[', '@'], o, fun r => ?_, fun h => by omega,
                fun hout => hout⟩
              rw [tokenizeLoop_at, if_pos f0]
            · by_cases f1 : f = 1
              · refine Or.inr ⟨2, b ++ [']', '&', '[', '@'], o, fun r => ?_, fun h => by omega,
                  fun hout => hout⟩
                rw [tokenizeLoop_at, if_neg f0, if_pos f1]
              · by_cases f2 : f = 2
                · refine Or.inr ⟨2, b ++ [']', ')', '|', '(', '[', '@'], o, fun r => ?_,
                    fun h => by omega, fun hout => hout⟩
                  rw [tokenizeLoop_at, if_neg f0, if_neg f1, if_pos f2]
                · refine Or.inr ⟨f, b, o, fun r => ?_, fun h => ⟨h, hcol, hp⟩,
                    fun hout => hout⟩
                  rw [tokenizeLoop_at, if_neg f0, if_neg f1, if_neg f2]
          · left; intro r; rw [tokenizeLoop_other hs hc]; simp [ho, hcol, hat]

theorem tokenizeLoop_block (a rest : List Char) (flag : Nat) (hf : 0 < flag)
    (ha : ∀ c ∈ a, isOperand c = true ∨ isspace c = true) (buffer out : List Char) :
    tokenizeLoop (a ++ rest) flag buffer out =
      tokenizeLoop rest flag (buffer ++ blockText a) out := by
  induction a generalizing buffer with
  | nil => simp [blockText]
  | cons c a ih =>
    have ih2 := fun b => ih (fun c hc => ha c (List.mem_cons_of_mem _ hc)) b
    rcases ha c (List.mem_cons_self _ _) with hc | hc
    · rw [List.cons_append, tokenizeLoop_operand hc _ _ hf, ih2]
      simp [blockText, isOperand_not_space hc]
    · rw [List.cons_append, tokenizeLoop_space hc, ih2]
      simp [blockText, hc]

/-- Inside a term, a `:` opens a new term after an implicit `|`. -/
theorem tokenizeLoop_colon_or (a post : List Char) (flag : Nat) (hf : 0 < flag)
    (ha : ∀ c ∈ a, isOperand c = true ∨ isspace c = true) (buffer out : List Char) :
    tokenizeLoop (a ++ ':' :: post) flag buffer out =
      tokenizeLoop (a ++ '|' :: ':' :: post) flag buffer out := by
  have hf0 : flag ≠ 0 := by omega
  rw [tokenizeLoop_block a _ flag hf ha, tokenizeLoop_block a _ flag hf ha,
    tokenizeLoop_colon, if_neg hf0,
    tokenizeLoop_plainOp (by decide : isPlainOp '|' = true), tokenizeLoop_colon, if_pos rfl]
  have e : buffer ++ blockText a ++ [']', ')', '|', '(', '[', ':'] =
      (buffer ++ blockText a ++ [']', ')', '|']) ++ ['(', '[', ':'] := by simp
  rw [e, tokenizeLoop_flush _ 1 (by decide)]
  simp [flushed, hf]

/-- Inside a particle term, an `@` opens a new term after an implicit `|`. -/
theorem tokenizeLoop_at_or (a post : List Char)
    (ha : ∀ c ∈ a, isOperand c = true ∨ isspace c = true) (buffer out : List Char) :
    tokenizeLoop (a ++ '@' :: post) 2 buffer out =
      tokenizeLoop (a ++ '|' :: '@' :: post) 2 buffer out := by
  rw [tokenizeLoop_block a _ 2 (by decide) ha, tokenizeLoop_block a _ 2 (by decide) ha,
    tokenizeLoop_at, if_neg (by decide), if_neg (by decide), if_pos rfl,
    tokenizeLoop_plainOp (by decide : isPlainOp '|' = true), tokenizeLoop_at, if_pos rfl]
  have e : buffer ++ blockText a ++ [']', ')', '|', '(', '[', '@'] =
      (buffer ++ blockText a ++ [']', ')', '|']) ++ ['(', '[', '@'] := by simp
  rw [e, tokenizeLoop_flush _ 2 (by decide)]
  simp [flushed]

/-- Two texts that the scanner cannot tell apart, in any state and also right after `<` or
`>`, cannot be told apart behind a common beginning. -/
theorem tokenizeLoop_congr (s1 s2 : List Char)
    (h : ∀ flag buffer out, tokenizeLoop s1 flag buffer out = tokenizeLoop s2 flag buffer out)
    (hb : ∀ c, c = '<' ∨ c = '>' → ∀ flag buffer out,
      tokenizeLoop (c :: s1) flag buffer out = tokenizeLoop (c :: s2) flag buffer out)
    (pre : List Char) (flag : Nat) (buffer out : List Char) :
    tokenizeLoop (pre ++ s1) flag buffer out = tokenizeLoop (pre ++ s2) flag buffer out := by
  induction pre using two_step_induction generalizing flag buffer out with
  | h0 => exact h _ _ _
  | h1 c =>
    by_cases hc : c = '<' ∨ c = '>'
    · exact hb c hc _ _ _
    · have h1 : c ≠ '<' := fun e => hc (Or.inl e)
      have h2 : c ≠ '>' := fun e => hc (Or.inr e)
      rcases tokenizeLoop_step c h1 h2 flag buffer out with hn | ⟨f2, b2, o2, hstep, -, -⟩
      · simp [hn]
      · simp only [List.singleton_append, hstep]; exact h _ _ _
  | h2 c d rest ih1 ih2 =>
    by_cases hc : c = '<' ∨ c = '>'
    · have hop : isOperator c = true ∨ c = '(' ∨ c = ')' := by
        rcases hc with e | e <;> subst e <;> exact Or.inl (by decide)
      have hc2 : c = '>' ∨ c = '<' := hc.symm
      simp only [List.cons_append, tokenizeLoop_opchar hop, hc2, if_true]
      split_ifs
      · exact ih1 _ _ _
      · rfl
    · have h1 : c ≠ '<' := fun e => hc (Or.inl e)
      have h2 : c ≠ '>' := fun e => hc (Or.inr e)
      rcases tokenizeLoop_step c h1 h2 flag buffer out with hn | ⟨f2, b2, o2, hstep, -, -⟩
      · simp [hn]
      · simp only [List.cons_append] at ih2 ⊢
        rw [hstep, hstep]; exact ih2 _ _ _

/-- Behind a beginning that does not end inside a distance criterion, an `@` that follows a
particle term opens a new term after an implicit `|`. -/
theorem tokenizeLoop_particle_blocks (a post : List Char)
    (ha : ∀ c ∈ a, isOperand c = true ∨ isspace c = true) (pre : List Char) (s : Bool)
    (flag : Nat) (buffer out : List Char) (hs : 3 ≤ flag → s = true)
    (hpre : inCriterion pre s = false) :
    tokenizeLoop (pre ++ '@' :: (a ++ '@' :: post)) flag buffer out =
      tokenizeLoop (pre ++ '@' :: (a ++ '|' :: '@' :: post)) flag buffer out := by
  induction pre using two_step_induction generalizing s flag buffer out with
  | h0 =>
    rw [inCriterion_nil] at hpre
    have hfl : ¬ 3 ≤ flag := fun h => by rw [hs h] at hpre; exact absurd hpre (by simp)
    simp only [List.nil_append, tokenizeLoop_at]
    split_ifs <;> first | exact tokenizeLoop_at_or a post ha _ _ | omega
  | h1 c =>
    rw [inCriterion_cons] at hpre
    by_cases hc : c = '<' ∨ c = '>'
    · simp [hc] at hpre
    · have h1 : c ≠ '<' := fun e => hc (Or.inl e)
      have h2 : c ≠ '>' := fun e => hc (Or.inr e)
      simp only [hc, if_false, inCriterion_nil] at hpre
      rcases tokenizeLoop_step c h1 h2 flag buffer out with hn | ⟨f2, b2, o2, hstep, hfl, -⟩
      · simp [hn]
      · have hfl2 : ¬ 3 ≤ f2 := by
          intro h3
          obtain ⟨h4, h5, h6⟩ := hfl h3
          simp only [h5, h6, Bool.false_eq_true, or_self, if_false] at hpre
          rw [hs h4] at hpre; exact absurd hpre (by simp)
        simp only [List.singleton_append, hstep, tokenizeLoop_at]
        split_ifs <;> first | exact tokenizeLoop_at_or a post ha _ _ | omega
  | h2 c d rest ih1 ih2 =>
    rw [inCriterion_cons] at hpre
    by_cases hc : c = '<' ∨ c = '>'
    · have hop : isOperator c = true ∨ c = '(' ∨ c = ')' := by
        rcases hc with e | e <;> subst e <;> exact Or.inl (by decide)
      have hc2 : c = '>' ∨ c = '<' := hc.symm
      simp only [hc, if_true] at hpre
      simp only [List.cons_append, tokenizeLoop_opchar hop, hc2, if_true]
      split_ifs
      · exact ih1 true _ _ _ (fun _ => rfl) hpre
      · rfl
    · have h1 : c ≠ '<' := fun e => hc (Or.inl e)
      have h2 : c ≠ '>' := fun e => hc (Or.inr e)
      simp only [hc, if_false] at hpre
      rcases tokenizeLoop_step c h1 h2 flag buffer out with hn | ⟨f2, b2, o2, hstep, hfl, -⟩
      · simp [hn]
      · simp only [List.cons_append] at ih2 ⊢
        rw [hstep, hstep]
        by_cases hcp : c = ':' ∨ isPlainOp c = true
        · simp only [hcp, if_true] at hpre
          refine ih2 false _ _ _ (fun h3 => ?_) hpre
          obtain ⟨-, h5, h6⟩ := hfl h3
          rcases hcp with e | e
          · exact absurd e h5
          · rw [h6] at e; exact absurd e (by simp)
        · simp only [hcp, if_false] at hpre
          exact ih2 s _ _ _ (fun h3 => hs (hfl h3).1) hpre

/-- C8 (amended). Two residue blocks in immediate succession are OR-combined: inserting an
explicit `|` between them leaves the normalized stream of `tokenize` unchanged, in every
expression. The same holds for two particle blocks in immediate succession when the first
of them does not stand inside a distance criterion. -/
theorem C8_adjacent_blocks_or (pre a post : List Char)
    (ha : ∀ c ∈ a, isOperand c = true ∨ isspace c = true) :
    tokenize (pre ++ ':' :: (a ++ ':' :: post)) =
      tokenize (pre ++ ':' :: (a ++ '|' :: ':' :: post)) ∧
    (inCriterion pre false = false →
      tokenize (pre ++ '@' :: (a ++ '@' :: post)) =
        tokenize (pre ++ '@' :: (a ++ '|' :: '@' :: post))) := by
  constructor
  · unfold tokenize
    rw [tokenizeLoop_congr (':' :: (a ++ ':' :: post)) (':' :: (a ++ '|' :: ':' :: post))]
    · intro flag buffer out
      simp only [tokenizeLoop_colon]
      split_ifs <;> exact tokenizeLoop_colon_or a post 1 (by decide) ha _ _
    · intro c hc flag buffer out
      have hop : isOperator c = true ∨ c = '(' ∨ c = ')' := by
        rcases hc with e | e <;> subst e <;> exact Or.inl (by decide)
      simp only [tokenizeLoop_opchar hop, hc.symm, if_true, true_or]
      exact tokenizeLoop_colon_or a post 3 (by decide) ha _ _
  · intro hpre
    unfold tokenize
    rw [tokenizeLoop_particle_blocks a post ha pre false 0 [] [] (by omega) hpre]

/-- C8 on the expressions `:1:2:3` and `:1@2@3`, with the stream of the latter. -/
theorem C8_adjacent_blocks_or_witness :
    (tokenize ([':', '1'] ++ ':' :: (['2'] ++ ':' :: ['3'])) =
      tokenize ([':', '1'] ++ ':' :: (['2'] ++ '|' :: ':' :: ['3'])) ∧
    (inCriterion [':', '1'] false = false →
      tokenize ([':', '1'] ++ '@' :: (['2'] ++ '@' :: ['3'])) =
        tokenize ([':', '1'] ++ '@' :: (['2'] ++ '|' :: '@' :: ['3'])))) ∧
    inCriterion [':', '1'] false = false ∧
    tokenize [':', '1', '@', '2', '@', '3'] =
      some ['(', '[', ':', '1', ']', '&', '[', '@', '2', ']', ')', '|',
        '(', '[', '@', '3', ']', ')', '_'] :=
  ⟨C8_adjacent_blocks_or [':', '1'] ['2'] ['3'] (by decide), by decide, by decide⟩

/-- C8 as stated fails inside a distance criterion: in `:1<:5@CA@CB` both `@` are dropped
and the criterion becomes `<:5CACB`, whereas `:1<:5@CA|@CB` yields the criterion `<:5CA`
and the block `@CB`. -/
theorem C8_adjacent_blocks_or_counterexample :
    tokenize [':', '1', '<', ':', '5', '@', 'C', 'A', '@', 'C', 'B'] =
      some ['(', '[', ':', '1', ']', ')', '<', '(', '[', '<', ':', '5', 'C', 'A', 'C', 'B',
        ']', ')', '_'] ∧
    tokenize [':', '1', '<', ':', '5', '@', 'C', 'A', '|', '@', 'C', 'B'] =
      some ['(', '[', ':', '1', ']', ')', '<', '(', '[', '<', ':', '5', 'C', 'A', ']', ')',
        '|', '(', '[', '@', 'C', 'B', ']', ')', '_'] := by
  decide

/-! ## Steps of `torpn` -/

theorem parseMaskString_eq_rpnOf {Coords : Type} (U : Universe) (X : Option Coords)
    (type : Char)
    (distd : Option (List Char) → Option (List Char) → Coords → Outcome (List Char × Coords))
    (s : List Char) :
    parseMaskString U X type distd s =
      match rpnOf s with
      | Outcome.ok rpn => eval U X type distd rpn
      | Outcome.fail => Outcome.fail
      | Outcome.ub => Outcome.ub := by
  unfold parseMaskString rpnOf
  cases tokenize s <;> rfl

theorem tokenize_eq_finish (s : List Char) :
    tokenize s = (tokenizeLoop s 0 [] []).map finish := by
  unfold tokenize
  cases tokenizeLoop s 0 [] [] <;> rfl

theorem finish_append (O r : List Char) (h : r ≠ []) : finish (O ++ r) = O ++ finish r := by
  unfold finish
  rw [List.dropLast_append_of_ne_nil _ h, List.append_assoc]

theorem torpnLoop_nil (stack : List Char) (flag : Bool) (out : List Char) :
    torpnLoop [] stack flag out = Outcome.ok out := by
  rw [torpnLoop]

theorem torpnLoop_open (rest stack out : List Char) :
    torpnLoop ('(' :: rest) stack false out = torpnLoop rest ('(' :: stack) false out := by
  rw [torpnLoop]; simp

theorem torpnLoop_close (rest stack out s2 o2 : List Char)
    (h : popToParen stack out = Outcome.ok (s2, o2)) :
    torpnLoop (')' :: rest) stack false out = torpnLoop rest s2 false o2 := by
  rw [torpnLoop]; simp [h]

theorem torpnLoop_end (rest stack out s2 o2 : List Char)
    (h : popToTerm stack out = Outcome.ok (s2, o2)) :
    torpnLoop ('_' :: rest) stack false out = torpnLoop rest s2 false o2 := by
  rw [torpnLoop]; simp [h]

theorem torpnLoop_op (c : Char) (hc : isOperator c = true) (rest stack out s2 o2 : List Char)
    (h : pushOperator c stack out = Outcome.ok (s2, o2)) :
    torpnLoop (c :: rest) stack false out = torpnLoop rest s2 false o2 := by
  have h1 : c ≠ '[' := by intro e; subst e; revert hc; decide
  have h2 : c ≠ ']' := by intro e; subst e; revert hc; decide
  have h3 : c ≠ '(' := by intro e; subst e; revert hc; decide
  have h4 : c ≠ ')' := by intro e; subst e; revert hc; decide
  have h5 : c ≠ '_' := by intro e; subst e; revert hc; decide
  rw [torpnLoop]; simp [h1, h2, h3, h4, h5, hc, h]

theorem torpnLoop_bracket (body rest stack out : List Char) (h : ∀ c ∈ body, c ≠ ']') :
    torpnLoop ('[' :: (body ++ ']' :: rest)) stack false out =
      torpnLoop rest stack false (out ++ '[' :: (body ++ [']'])) := by
  rw [torpnLoop]
  simp only [if_true]
  rw [torpnLoop_body _ _ _ _ h]
  simp

theorem torpnLoop_and_paren (rest stack out : List Char) :
    torpnLoop ('&' :: rest) ('(' :: stack) false out =
      torpnLoop rest ('&' :: '(' :: stack) false out :=
  torpnLoop_op '&' (by decide) _ _ _ _ _ (by simp [pushOperator, priority])

theorem torpnLoop_close_and (rest stack out : List Char) :
    torpnLoop (')' :: rest) ('&' :: '(' :: stack) false out =
      torpnLoop rest stack false (out ++ ['&']) :=
  torpnLoop_close _ _ _ _ _ (by simp [popToParen])

theorem torpnLoop_op_push (c : Char) (hc : isOperator c = true) (rest : List Char)
    (top : Char) (stack out : List Char) (h0 : priority top ≠ 0)
    (h : priority top < priority c) :
    torpnLoop (c :: rest) (top :: stack) false out =
      torpnLoop rest (c :: top :: stack) false out := by
  have hc0 : priority c ≠ 0 := by omega
  exact torpnLoop_op c hc _ _ _ _ _ (by simp [pushOperator, hc0, h0, h])

theorem torpnLoop_finish0 (out : List Char) :
    torpnLoop ['_'] ['_'] false out = Outcome.ok out := by
  rw [torpnLoop_end _ _ _ [] out (by simp [popToTerm]), torpnLoop_nil]

theorem torpnLoop_finish1 (c : Char) (h1 : c ≠ '_') (h2 : c ≠ '(') (out : List Char) :
    torpnLoop ['_'] [c, '_'] false out = Outcome.ok (out ++ [c]) := by
  rw [torpnLoop_end _ _ _ [] (out ++ [c]) (by simp [popToTerm, h1, h2]), torpnLoop_nil]

theorem finish_concat (P : List Char) (c : Char) : finish (P ++ [c]) = P ++ ['_'] := by
  simp [finish]

/-! ## A compound block -/

/-- The stream of the compound block `:r@a` closed at the end of the text or at an
operator or parenthesis. -/
theorem tokenizeLoop_compound (r a : List Char) (hr : ∀ c ∈ r, isOperand c = true)
    (ha : ∀ c ∈ a, isOperand c = true) (rest out : List Char) :
    tokenizeLoop (':' :: (r ++ '@' :: (a ++ rest))) 0 [] out =
      tokenizeLoop rest 2
        ('(' :: '[' :: (termText ':' r ++ ']' :: '&' :: '[' :: termText '@' a)) out := by
  rw [tokenizeLoop_colon, if_pos rfl, tokenizeLoop_operands r _ 1 (by decide) hr,
    tokenizeLoop_at, if_neg (by decide), if_pos rfl,
    tokenizeLoop_operands a _ 2 (by decide) ha]
  simp [termText]

theorem torpnLoop_compound (r a rest stack out : List Char)
    (hr : ∀ c ∈ termText ':' r, c ≠ ']') (ha : ∀ c ∈ termText '@' a, c ≠ ']') :
    torpnLoop ('(' :: '[' :: (termText ':' r ++ ']' :: '&' :: '[' ::
        (termText '@' a ++ ']' :: ')' :: rest))) stack false out =
      torpnLoop rest stack false
        (out ++ '[' :: (termText ':' r ++ ']' :: '[' :: (termText '@' a ++ [']', '&']))) := by
  rw [torpnLoop_open, torpnLoop_bracket _ _ _ _ hr, torpnLoop_and_paren,
    torpnLoop_bracket _ _ _ _ ha, torpnLoop_close_and]
  simp

theorem torpnLoop_explicit (r a rest stack out : List Char)
    (hr : ∀ c ∈ termText ':' r, c ≠ ']') (ha : ∀ c ∈ termText '@' a, c ≠ ']') :
    torpnLoop ('(' :: '(' :: '[' :: (termText ':' r ++ ']' :: ')' :: '&' :: '(' :: '[' ::
        (termText '@' a ++ ']' :: ')' :: ')' :: rest))) stack false out =
      torpnLoop rest stack false
        (out ++ '[' :: (termText ':' r ++ ']' :: '[' :: (termText '@' a ++ [']', '&']))) := by
  rw [torpnLoop_open, torpnLoop_term _ _ _ _ hr, torpnLoop_and_paren,
    torpnLoop_term _ _ _ _ ha, torpnLoop_close_and]
  simp

theorem termText_ne_close (c0 : Char) (spec : List Char) (hc : c0 = ':' ∨ c0 = '@')
    (h : ∀ c ∈ spec, isOperand c = true) : ∀ c ∈ termText c0 spec, c ≠ ']' :=
  fun c hc2 => isTermChar_ne_close (termText_isTermChar c0 spec hc h c hc2)

theorem rpnOf_compound (r a : List Char) (hr : ∀ c ∈ r, isOperand c = true)
    (ha : ∀ c ∈ a, isOperand c = true) :
    rpnOf (':' :: (r ++ '@' :: a)) = Outcome.ok (compoundRpn r a) := by
  have hr2 := termText_ne_close ':' r (Or.inl rfl) hr
  have ha2 := termText_ne_close '@' a (Or.inr rfl) ha
  have ht : tokenize (':' :: (r ++ '@' :: a)) =
      some ('(' :: '[' :: (termText ':' r ++ ']' :: '&' :: '[' ::
        (termText '@' a ++ ']' :: ')' :: ['_']))) := by
    have e := tokenizeLoop_compound r a hr ha [] []
    rw [List.append_nil] at e
    rw [tokenize_eq_finish, e, tokenizeLoop_nil_flushed, Option.map_some', finish_concat]
    simp [flushed]
  unfold rpnOf
  rw [ht]
  simp only
  unfold torpn
  rw [torpnLoop_compound r a _ _ _ hr2 ha2, torpnLoop_finish0]
  simp [compoundRpn]

theorem rpnOf_explicit_and (r a : List Char) (hr : ∀ c ∈ r, isOperand c = true)
    (ha : ∀ c ∈ a, isOperand c = true) :
    rpnOf (':' :: (r ++ ' ' :: '&' :: ' ' :: '@' :: a)) = Outcome.ok (compoundRpn r a) := by
  have hr2 := termText_ne_close ':' r (Or.inl rfl) hr
  have ha2 := termText_ne_close '@' a (Or.inr rfl) ha
  have ht : tokenize (':' :: (r ++ ' ' :: '&' :: ' ' :: '@' :: a)) =
      some ('(' :: '[' :: (termText ':' r ++ ']' :: ')' :: '&' :: '(' :: '[' ::
        (termText '@' a ++ ']' :: ')' :: ['_']))) := by
    have e := tokenizeLoop_operands a [] 2 (by decide) ha
    simp only [List.append_nil] at e
    rw [tokenize_eq_finish, tokenizeLoop_colon, if_pos rfl,
      tokenizeLoop_operands r _ 1 (by decide) hr,
      tokenizeLoop_space (by decide : isspace ' ' = true),
      tokenizeLoop_plainOp (by decide : isPlainOp '&' = true),
      tokenizeLoop_space (by decide : isspace ' ' = true),
      tokenizeLoop_at, if_pos rfl, e, tokenizeLoop_nil_flushed, Option.map_some',
      finish_concat]
    simp [flushed, termText]
  unfold rpnOf
  rw [ht]
  simp only
  unfold torpn
  rw [torpnLoop_term _ _ _ _ hr2,
    torpnLoop_op_push '&' (by decide) _ '_' _ _ (by decide) (by decide),
    torpnLoop_term _ _ _ _ ha2, torpnLoop_finish1 '&' (by decide) (by decide)]
  simp [compoundRpn]

/-- C6. For strings `r` and `a` of operand characters, the compound expression `:r@a` and
the explicit expression `:r & @a` have the same postfix stream `[:r][@a]&` (with `=`
rewritten to `*` inside the terms by `tokenize`), hence `parseMaskString` gives the same
outcome for both in every universe. -/
theorem C6_compound_is_and {Coords : Type} (U : Universe) (X : Option Coords) (type : Char)
    (distd : Option (List Char) → Option (List Char) → Coords → Outcome (List Char × Coords))
    (r a : List Char) (hr : ∀ c ∈ r, isOperand c = true) (ha : ∀ c ∈ a, isOperand c = true) :
    rpnOf (':' :: (r ++ '@' :: a)) = Outcome.ok (compoundRpn r a) ∧
    rpnOf (':' :: (r ++ ' ' :: '&' :: ' ' :: '@' :: a)) = Outcome.ok (compoundRpn r a) ∧
    parseMaskString U X type distd (':' :: (r ++ '@' :: a)) =
      parseMaskString U X type distd (':' :: (r ++ ' ' :: '&' :: ' ' :: '@' :: a)) := by
  refine ⟨rpnOf_compound r a hr ha, rpnOf_explicit_and r a hr ha, ?_⟩
  rw [parseMaskString_eq_rpnOf, parseMaskString_eq_rpnOf, rpnOf_compound r a hr ha,
    rpnOf_explicit_and r a hr ha]

/-- C6 on `:1-10@CA` and `:1-10 & @CA`, with the common stream and the result on the
scenario. -/
theorem C6_compound_is_and_witness :
    (rpnOf (':' :: (['1', '-', '1', '0'] ++ '@' :: ['C', 'A'])) =
        Outcome.ok (compoundRpn ['1', '-', '1', '0'] ['C', 'A']) ∧
      rpnOf (':' :: (['1', '-', '1', '0'] ++ ' ' :: '&' :: ' ' :: '@' :: ['C', 'A'])) =
        Outcome.ok (compoundRpn ['1', '-', '1', '0'] ['C', 'A']) ∧
      parseMaskString scenario (none : Option Unit) 'd' (fun _ _ _ => Outcome.fail)
          (':' :: (['1', '-', '1', '0'] ++ '@' :: ['C', 'A'])) =
        parseMaskString scenario (none : Option Unit) 'd' (fun _ _ _ => Outcome.fail)
          (':' :: (['1', '-', '1', '0'] ++ ' ' :: '&' :: ' ' :: '@' :: ['C', 'A']))) ∧
    compoundRpn ['1', '-', '1', '0'] ['C', 'A'] =
      ['[', ':', '1', '-', '1', '0', ']', '[', '@', 'C', 'A', ']', '&'] ∧
    parseMaskString scenario (none : Option Unit) 'd' (fun _ _ _ => Outcome.fail)
      [':', '1', '-', '1', '0', '@', 'C', 'A'] =
        Outcome.ok ['T', 'F', 'F', 'T', 'F', 'F', 'T', 'F', 'F'] :=
  ⟨C6_compound_is_and scenario (none : Option Unit) 'd' (fun _ _ _ => Outcome.fail)
    ['1', '-', '1', '0'] ['C', 'A'] (by decide) (by decide), by decide, by decide⟩

/-! ## A compound block inside an expression -/

/-- A beginning that ends with one of `! & | ( )` is either rejected or leaves the scanner
between terms, with an output whose brackets are closed. -/
theorem tokenizeLoop_prefix (pre : List Char) (f : Nat) (b o : List Char)
    (ho : bracketOpen o false = false)
    (hl : ∃ e, pre.getLast? = some e ∧ isPlainOp e = true) :
    (∀ rest, tokenizeLoop (pre ++ rest) f b o = none) ∨
    ∃ O, bracketOpen O false = false ∧
      ∀ rest, tokenizeLoop (pre ++ rest) f b o = tokenizeLoop rest 0 [] O := by
  induction pre using two_step_induction generalizing f b o with
  | h0 =>
    obtain ⟨e, he, -⟩ := hl
    simp at he
  | h1 c =>
    obtain ⟨e, he, hp⟩ := hl
    simp only [List.getLast?_singleton, Option.some.injEq] at he
    subst he
    refine Or.inr ⟨flushed f b o ++ [c], ?_, fun rest => ?_⟩
    · have hc1 : c ≠ '[' := by rintro rfl; revert hp; decide
      have hc2 : c ≠ ']' := by rintro rfl; revert hp; decide
      rw [bracketOpen_append, bracketOpen_flushed f b o ho]
      simp [bracketOpen, hc1, hc2]
    · rw [List.singleton_append, tokenizeLoop_plainOp hp, tokenizeLoop_flag0_buffer]
  | h2 c d rest ih1 ih2 =>
    have hl2 : ∃ e, (d :: rest).getLast? = some e ∧ isPlainOp e = true := by
      obtain ⟨e, he, hp⟩ := hl
      rw [List.getLast?_cons_cons] at he
      exact ⟨e, he, hp⟩
    by_cases hc : c = '<' ∨ c = '>'
    · have hop : isOperator c = true ∨ c = '(' ∨ c = ')' := by
        rcases hc with e | e <;> subst e <;> exact Or.inl (by decide)
      have hc1 : c ≠ '[' := by rintro rfl; revert hop; decide
      have hc2 : c ≠ ']' := by rintro rfl; revert hop; decide
      by_cases hd : d = ':' ∨ d = '@'
      · cases rest with
        | nil =>
          obtain ⟨e, he, hp⟩ := hl2
          simp only [List.getLast?_singleton, Option.some.injEq] at he
          subst he
          rcases hd with e | e <;> subst e <;> exact absurd hp (by decide)
        | cons x rest =>
          have hl3 : ∃ e, (x :: rest).getLast? = some e ∧ isPlainOp e = true := by
            obtain ⟨e, he, hp⟩ := hl2
            rw [List.getLast?_cons_cons] at he
            exact ⟨e, he, hp⟩
          have hO : bracketOpen (flushed f b o ++ [c]) false = false := by
            rw [bracketOpen_append, bracketOpen_flushed f b o ho]
            simp [bracketOpen, hc1, hc2]
          rcases ih1 3 ['(', '[', c, d] (flushed f b o ++ [c]) hO hl3 with hn | ⟨O, h1, h2⟩
          · left; intro r
            simp only [List.cons_append, tokenizeLoop_opchar hop, hc.symm, if_true, hd]
            exact hn r
          · refine Or.inr ⟨O, h1, fun r => ?_⟩
            simp only [List.cons_append, tokenizeLoop_opchar hop, hc.symm, if_true, hd]
            exact h2 r
      · left; intro r
        simp only [List.cons_append, tokenizeLoop_opchar hop, hc.symm, if_true, hd, if_false]
    · have h1 : c ≠ '<' := fun e => hc (Or.inl e)
      have h2 : c ≠ '>' := fun e => hc (Or.inr e)
      rcases tokenizeLoop_step c h1 h2 f b o with hn | ⟨f2, b2, o2, hstep, -, hinv⟩
      · left; intro r; exact hn _
      · rcases ih2 f2 b2 o2 (hinv ho) hl2 with hn | ⟨O, h3, h4⟩
        · left; intro r
          have := hn r
          simp only [List.cons_append] at this ⊢
          rw [hstep]; exact this
        · refine Or.inr ⟨O, h3, fun r => ?_⟩
          have := h4 r
          simp only [List.cons_append] at this ⊢
          rw [hstep]; exact this

/-- At the end of the text or at an operator or parenthesis, a pending term is closed. -/
theorem tokenizeLoop_close_term (post : List Char) (flag : Nat) (hf : 0 < flag)
    (b o : List Char)
    (hpost : post = [] ∨ ∃ c, post.head? = some c ∧
      (isOperator c = true ∨ c = '(' ∨ c = ')')) :
    tokenizeLoop post flag b o = tokenizeLoop post 0 [] (o ++ (b ++ [']', ')'])) := by
  rcases hpost with e | ⟨c, hc, hop⟩
  · subst e; simp [tokenizeLoop_nil_flushed, flushed, hf]
  · cases post with
    | nil => simp at hc
    | cons x rest =>
      simp only [List.head?_cons, Option.some.injEq] at hc
      subst hc
      have e1 : flushed flag b o = o ++ (b ++ [']', ')']) := by simp [flushed, hf]
      have e2 : flushed 0 [] (o ++ (b ++ [']', ')'])) = o ++ (b ++ [']', ')']) := by
        simp [flushed]
      simp only [tokenizeLoop_opchar hop, e1, e2]
      split_ifs
      · rfl
      · rw [tokenizeLoop_flag0_buffer]

/-- Behind a common beginning that leaves its brackets closed, `torpn` cannot tell apart two
texts that it cannot tell apart in any state outside a bracketed term. -/
theorem torpnLoop_congr (R1 R2 : List Char)
    (h : ∀ st out, torpnLoop R1 st false out = torpnLoop R2 st false out) (O : List Char)
    (st : List Char) (fl : Bool) (out : List Char) (hO : bracketOpen O fl = false) :
    torpnLoop (O ++ R1) st fl out = torpnLoop (O ++ R2) st fl out := by
  induction O generalizing st fl out with
  | nil =>
    simp only [bracketOpen] at hO
    subst hO
    exact h st out
  | cons c O ih =>
    simp only [bracketOpen] at hO
    simp only [List.cons_append]
    rw [torpnLoop, torpnLoop]
    by_cases h1 : c = '['
    · simp only [h1, if_true] at hO ⊢
      exact ih _ _ _ hO
    · by_cases h2 : c = ']'
      · simp only [h1, h2, if_true, if_false] at hO ⊢
        simp only [Char.reduceEq, if_false]
        exact ih _ _ _ hO
      · simp only [h1, h2, if_false] at hO ⊢
        cases fl with
        | true => simp only [if_true]; exact ih _ _ _ hO
        | false =>
          simp only [Bool.false_eq_true, if_false]
          split_ifs
          · exact ih _ _ _ hO
          · cases popToParen st out with
            | ok p => exact ih _ _ _ hO
            | fail => rfl
            | ub => rfl
          · cases popToTerm st out with
            | ok p => exact ih _ _ _ hO
            | fail => rfl
            | ub => rfl
          · cases pushOperator c st out with
            | ok p => exact ih _ _ _ hO
            | fail => rfl
            | ub => rfl
          · rfl

theorem tokenizeLoop_compound_block (r a post O : List Char)
    (hr : ∀ c ∈ r, isOperand c = true) (ha : ∀ c ∈ a, isOperand c = true)
    (hpost : post = [] ∨ ∃ c, post.head? = some c ∧
      (isOperator c = true ∨ c = '(' ∨ c = ')')) :
    tokenizeLoop (':' :: (r ++ '@' :: (a ++ post))) 0 [] O =
      (tokenizeLoop post 0 [] []).map (fun s => (O ++ compoundStream r a) ++ s) := by
  rw [tokenizeLoop_compound r a hr ha, tokenizeLoop_close_term post 2 (by decide) _ _ hpost,
    ← tokenizeLoop_out_prefix]
  simp [compoundStream]

theorem tokenizeLoop_explicit_block (r a post O : List Char)
    (hr : ∀ c ∈ r, isOperand c = true) (ha : ∀ c ∈ a, isOperand c = true) :
    tokenizeLoop ('(' :: ':' :: (r ++ '&' :: '@' :: (a ++ ')' :: post))) 0 [] O =
      (tokenizeLoop post 0 [] []).map (fun s => (O ++ explicitStream r a) ++ s) := by
  rw [tokenizeLoop_plainOp (by decide : isPlainOp '(' = true), tokenizeLoop_colon, if_pos rfl,
    tokenizeLoop_operands r _ 1 (by decide) hr,
    tokenizeLoop_plainOp (by decide : isPlainOp '&' = true), tokenizeLoop_at, if_pos rfl,
    tokenizeLoop_operands a _ 2 (by decide) ha,
    tokenizeLoop_plainOp (by decide : isPlainOp ')' = true), tokenizeLoop_flag0_buffer,
    ← tokenizeLoop_out_prefix]
  simp [explicitStream, flushed, termText]

theorem torpnLoop_compoundStream (r a S st out : List Char)
    (hr : ∀ c ∈ r, isOperand c = true) (ha : ∀ c ∈ a, isOperand c = true) :
    torpnLoop (compoundStream r a ++ S) st false out =
      torpnLoop S st false (out ++ compoundRpn r a) := by
  have e : compoundStream r a ++ S = '(' :: '[' :: (termText ':' r ++ ']' :: '&' :: '[' ::
      (termText '@' a ++ ']' :: ')' :: S)) := by simp [compoundStream]
  rw [e, torpnLoop_compound r a _ _ _ (termText_ne_close ':' r (Or.inl rfl) hr)
    (termText_ne_close '@' a (Or.inr rfl) ha)]
  rfl

theorem torpnLoop_explicitStream (r a S st out : List Char)
    (hr : ∀ c ∈ r, isOperand c = true) (ha : ∀ c ∈ a, isOperand c = true) :
    torpnLoop (explicitStream r a ++ S) st false out =
      torpnLoop S st false (out ++ compoundRpn r a) := by
  have e : explicitStream r a ++ S = '(' :: '(' :: '[' :: (termText ':' r ++ ']' :: ')' ::
      '&' :: '(' :: '[' :: (termText '@' a ++ ']' :: ')' :: ')' :: S)) := by
    simp [explicitStream]
  rw [e, torpnLoop_explicit r a _ _ _ (termText_ne_close ':' r (Or.inl rfl) hr)
    (termText_ne_close '@' a (Or.inr rfl) ha)]
  rfl

/-- The postfix stream does not change when a compound block between operators or
parentheses is replaced by its parenthesised form. -/
theorem rpnOf_compound_grouped (pre r a post : List Char)
    (hr : ∀ c ∈ r, isOperand c = true) (ha : ∀ c ∈ a, isOperand c = true)
    (hpre : pre = [] ∨ ∃ e, pre.getLast? = some e ∧ isPlainOp e = true)
    (hpost : post = [] ∨ ∃ c, post.head? = some c ∧
      (isOperator c = true ∨ c = '(' ∨ c = ')')) :
    rpnOf (pre ++ ':' :: (r ++ '@' :: (a ++ post))) =
      rpnOf (pre ++ '(' :: ':' :: (r ++ '&' :: '@' :: (a ++ ')' :: post))) := by
  have key : (∀ rest, tokenizeLoop (pre ++ rest) 0 [] [] = none) ∨
      ∃ O, bracketOpen O false = false ∧
        ∀ rest, tokenizeLoop (pre ++ rest) 0 [] [] = tokenizeLoop rest 0 [] O := by
    rcases hpre with e | hl
    · subst e
      exact Or.inr ⟨[], rfl, fun rest => rfl⟩
    · exact tokenizeLoop_prefix pre 0 [] [] rfl hl
  unfold rpnOf
  rw [tokenize_eq_finish, tokenize_eq_finish]
  rcases key with hn | ⟨O, hO, hk⟩
  · rw [hn, hn]
  · rw [hk, hk, tokenizeLoop_compound_block r a post O hr ha hpost,
      tokenizeLoop_explicit_block r a post O hr ha]
    cases hL : tokenizeLoop post 0 [] [] with
    | none => rfl
    | some S0 =>
      have hne := tokenizeLoop_ne_nil _ _ _ _ _ hL
      simp only [Option.map_some', finish_append _ _ hne]
      unfold torpn
      rw [List.append_assoc, List.append_assoc]
      exact torpnLoop_congr _ _
        (fun st out => by
          rw [torpnLoop_compoundStream r a _ st out hr ha,
            torpnLoop_explicitStream r a _ st out hr ha])
        O _ _ _ hO

/-- C7 (amended). The implicit AND of a compound block is grouped: when a compound block
`:r@a` has on its left the beginning of the expression or one of `! & | ( )`, and on its
right the end of the expression or an operator or parenthesis, replacing it by `(:r&@a)`
leaves the postfix stream, and therefore the result, unchanged. -/
theorem C7_compound_grouped {Coords : Type} (U : Universe) (X : Option Coords) (type : Char)
    (distd : Option (List Char) → Option (List Char) → Coords → Outcome (List Char × Coords))
    (pre r a post : List Char)
    (hr : ∀ c ∈ r, isOperand c = true) (ha : ∀ c ∈ a, isOperand c = true)
    (hpre : pre = [] ∨ ∃ e, pre.getLast? = some e ∧ isPlainOp e = true)
    (hpost : post = [] ∨ ∃ c, post.head? = some c ∧
      (isOperator c = true ∨ c = '(' ∨ c = ')')) :
    rpnOf (pre ++ ':' :: (r ++ '@' :: (a ++ post))) =
      rpnOf (pre ++ '(' :: ':' :: (r ++ '&' :: '@' :: (a ++ ')' :: post))) ∧
    parseMaskString U X type distd (pre ++ ':' :: (r ++ '@' :: (a ++ post))) =
      parseMaskString U X type distd
        (pre ++ '(' :: ':' :: (r ++ '&' :: '@' :: (a ++ ')' :: post))) := by
  have h := rpnOf_compound_grouped pre r a post hr ha hpre hpost
  refine ⟨h, ?_⟩
  rw [parseMaskString_eq_rpnOf, parseMaskString_eq_rpnOf, h]

/-- C7 on `!:1@CA`: its postfix stream is that of `!(:1&@CA)`, namely `[:1][@CA]&!`, and
not that of `(!:1)&@CA`. -/
theorem C7_compound_grouped_witness :
    (rpnOf (['!'] ++ ':' :: (['1'] ++ '@' :: (['C', 'A'] ++ []))) =
        rpnOf (['!'] ++ '(' :: ':' :: (['1'] ++ '&' :: '@' :: (['C', 'A'] ++ ')' :: []))) ∧
      parseMaskString scenario (none : Option Unit) 'd' (fun _ _ _ => Outcome.fail)
          (['!'] ++ ':' :: (['1'] ++ '@' :: (['C', 'A'] ++ []))) =
        parseMaskString scenario (none : Option Unit) 'd' (fun _ _ _ => Outcome.fail)
          (['!'] ++ '(' :: ':' :: (['1'] ++ '&' :: '@' :: (['C', 'A'] ++ ')' :: [])))) ∧
    rpnOf ['!', ':', '1', '@', 'C', 'A'] =
      Outcome.ok ['[', ':', '1', ']', '[', '@', 'C', 'A', ']', '&', '!'] ∧
    rpnOf ['(', '!', ':', '1', ')', '&', '@', 'C', 'A'] =
      Outcome.ok ['[', ':', '1', ']', '!', '[', '@', 'C', 'A', ']', '&'] :=
  ⟨C7_compound_grouped scenario (none : Option Unit) 'd' (fun _ _ _ => Outcome.fail)
    ['!'] ['1'] ['C', 'A'] [] (by decide) (by decide)
    (Or.inr ⟨'!', by decide, by decide⟩) (Or.inl rfl), by decide, by decide⟩

/-- C7 as stated fails after a distance operator: `:2<:1@CA` is accepted, its `:` being
taken by the operator `<` and its `@` dropped, while `:2<(:1&@CA)` is a syntax error. -/
theorem C7_compound_grouped_counterexample :
    rpnOf [':', '2', '<', ':', '1', '@', 'C', 'A'] =
      Outcome.ok ['[', ':', '2', ']', '[', '<', ':', '1', 'C', 'A', ']', '<'] ∧
    rpnOf [':', '2', '<', '(', ':', '1', '&', '@', 'C', 'A', ')'] = Outcome.fail := by
  decide

/-! ## Terms joined by `&` and `|`: the normalized stream -/

theorem tokenizeLoop_one_term (t : Term) (ht : t.Valid) (rest O : List Char)
    (hrest : rest = [] ∨ ∃ c, rest.head? = some c ∧
      (isOperator c = true ∨ c = '(' ∨ c = ')')) :
    tokenizeLoop (t.raw ++ rest) 0 [] O =
      tokenizeLoop rest 0 [] (O ++ '(' :: '[' :: (t.text ++ [']', ')'])) := by
  obtain ⟨hc, hs⟩ := ht
  unfold Term.raw Term.text
  rcases hc with e | e <;> rw [e]
  · rw [List.cons_append, tokenizeLoop_colon, if_pos rfl,
      tokenizeLoop_operands _ _ 1 (by decide) hs,
      tokenizeLoop_close_term rest 1 (by decide) _ _ hrest]
    simp [termText]
  · rw [List.cons_append, tokenizeLoop_at, if_pos rfl,
      tokenizeLoop_operands _ _ 2 (by decide) hs,
      tokenizeLoop_close_term rest 2 (by decide) _ _ hrest]
    simp [termText]

theorem tokenizeLoop_plain_between (c : Char) (hc : isPlainOp c = true) (rest O : List Char) :
    tokenizeLoop (c :: rest) 0 [] O = tokenizeLoop rest 0 [] (O ++ [c]) := by
  rw [tokenizeLoop_plainOp hc]
  simp [flushed]

theorem tokenizeLoop_group (g : List Term) (hg : ∀ t ∈ g, t.Valid) (hne : g ≠ [])
    (rest O : List Char)
    (hrest : rest = [] ∨ ∃ c, rest.head? = some c ∧
      (isOperator c = true ∨ c = '(' ∨ c = ')')) :
    tokenizeLoop (groupRaw g ++ rest) 0 [] O =
      tokenizeLoop rest 0 [] (O ++ groupStream g) := by
  induction g generalizing O with
  | nil => exact (hne rfl).elim
  | cons t ts ih =>
    have ht := hg t (List.mem_cons_self _ _)
    cases ts with
    | nil =>
      simp only [groupRaw, groupStream]
      exact tokenizeLoop_one_term t ht rest O hrest
    | cons t2 ts =>
      simp only [groupRaw, groupStream, List.append_assoc, List.cons_append]
      rw [tokenizeLoop_one_term t ht ('&' :: (groupRaw (t2 :: ts) ++ rest)) O
          (Or.inr ⟨'&', rfl, Or.inl (by decide)⟩),
        tokenizeLoop_plain_between '&' (by decide),
        ih (fun x hx => hg x (List.mem_cons_of_mem _ hx)) (by simp)]
      simp

theorem tokenizeLoop_expr (gs : List (List Term)) (hgs : ∀ g ∈ gs, g ≠ [] ∧ ∀ t ∈ g, t.Valid)
    (hne : gs ≠ []) (O : List Char) :
    tokenizeLoop (exprRaw gs) 0 [] O = some (O ++ exprStream gs ++ [NUL]) := by
  induction gs generalizing O with
  | nil => exact (hne rfl).elim
  | cons g gs ih =>
    obtain ⟨hgne, hg⟩ := hgs g (List.mem_cons_self _ _)
    cases gs with
    | nil =>
      have := tokenizeLoop_group g hg hgne [] O (Or.inl rfl)
      rw [List.append_nil] at this
      simp only [exprRaw, exprStream]
      rw [this, tokenizeLoop_nil_flushed]
      simp [flushed]
    | cons g2 gs =>
      simp only [exprRaw, exprStream]
      rw [tokenizeLoop_group g hg hgne ('|' :: exprRaw (g2 :: gs)) O
          (Or.inr ⟨'|', rfl, Or.inl (by decide)⟩),
        tokenizeLoop_plain_between '|' (by decide),
        ih (fun x hx => hgs x (List.mem_cons_of_mem _ hx)) (by simp)]
      simp

theorem tokenize_expr (gs : List (List Term)) (hgs : ∀ g ∈ gs, g ≠ [] ∧ ∀ t ∈ g, t.Valid)
    (hne : gs ≠ []) : tokenize (exprRaw gs) = some (exprStream gs ++ ['_']) := by
  rw [tokenize_eq_finish, tokenizeLoop_expr gs hgs hne, Option.map_some', finish_concat]
  simp

/-! ## Terms joined by `&` and `|`: the postfix stream -/

theorem Term.text_ne_close (t : Term) (ht : t.Valid) : ∀ c ∈ t.text, c ≠ ']' := by
  intro c hc
  unfold Term.text termText at hc
  rcases List.mem_cons.mp hc with e | h
  · rcases ht.1 with h0 | h0 <;> rw [e, h0] <;> decide
  · obtain ⟨d, hd, rfl⟩ := List.mem_map.mp h
    exact isTermChar_ne_close (isTermChar_eqStar (ht.2 d hd))

theorem torpnLoop_flush_and (c : Char) (hc : c = '&' ∨ c = '|' ∨ c = '_')
    (rest S out : List Char) :
    torpnLoop (c :: rest) ('&' :: S) false out = torpnLoop (c :: rest) S false (out ++ ['&']) := by
  rcases hc with h | h | h <;> subst h
  · rw [torpnLoop]; conv_rhs => rw [torpnLoop]
    simp [pushOperator, priority, isOperator, strchr]
  · rw [torpnLoop]; conv_rhs => rw [torpnLoop]
    simp [pushOperator, priority, isOperator, strchr]
  · rw [torpnLoop]; conv_rhs => rw [torpnLoop]
    simp [popToTerm]

theorem torpnLoop_flush_or (c : Char) (hc : c = '|' ∨ c = '_')
    (rest S out : List Char) :
    torpnLoop (c :: rest) ('|' :: S) false out = torpnLoop (c :: rest) S false (out ++ ['|']) := by
  rcases hc with h | h <;> subst h
  · rw [torpnLoop]; conv_rhs => rw [torpnLoop]
    simp [pushOperator, priority, isOperator, strchr]
  · rw [torpnLoop]; conv_rhs => rw [torpnLoop]
    simp [popToTerm]

theorem torpnLoop_ands (g : List Term) (hg : ∀ t ∈ g, t.Valid) (hne : g ≠ [])
    (c : Char) (hc : c = '|' ∨ c = '_') (rest : List Char)
    (top : Char) (S out : List Char) (h0 : priority top ≠ 0) (h4 : priority top < 4) :
    torpnLoop (groupStream g ++ c :: rest) ('&' :: top :: S) false out =
      torpnLoop (c :: rest) (top :: S) false (out ++ rpnAnds g) := by
  have hand : priority '&' = 4 := by decide
  induction g generalizing out with
  | nil => exact (hne rfl).elim
  | cons t ts ih =>
    have ht := hg t (List.mem_cons_self _ _)
    cases ts with
    | nil =>
      simp only [groupStream, rpnAnds, List.cons_append, List.append_assoc]
      rw [torpnLoop_term _ _ _ _ (t.text_ne_close ht), List.nil_append,
        torpnLoop_flush_and c (Or.inr hc)]
      simp
    | cons t2 ts =>
      simp only [groupStream, List.cons_append, List.append_assoc]
      rw [torpnLoop_term _ _ _ _ (t.text_ne_close ht), torpnLoop_flush_and '&' (Or.inl rfl),
        torpnLoop_op_push '&' (by decide) _ top S _ h0 (by omega),
        ih (fun x hx => hg x (List.mem_cons_of_mem _ hx)) (by simp)]
      simp [rpnAnds]

theorem torpnLoop_group (g : List Term) (hg : ∀ t ∈ g, t.Valid) (hne : g ≠ [])
    (c : Char) (hc : c = '|' ∨ c = '_') (rest : List Char)
    (top : Char) (S out : List Char) (h0 : priority top ≠ 0) (h4 : priority top < 4) :
    torpnLoop (groupStream g ++ c :: rest) (top :: S) false out =
      torpnLoop (c :: rest) (top :: S) false (out ++ rpnGroup g) := by
  have hand : priority '&' = 4 := by decide
  cases g with
  | nil => exact (hne rfl).elim
  | cons t ts =>
    have ht := hg t (List.mem_cons_self _ _)
    cases ts with
    | nil =>
      simp only [groupStream, rpnGroup, rpnAnds, List.cons_append, List.append_assoc]
      rw [torpnLoop_term _ _ _ _ (t.text_ne_close ht)]
      simp
    | cons t2 ts =>
      simp only [groupStream, List.cons_append, List.append_assoc]
      rw [torpnLoop_term _ _ _ _ (t.text_ne_close ht),
        torpnLoop_op_push '&' (by decide) _ top S _ h0 (by omega),
        torpnLoop_ands (t2 :: ts) (fun x hx => hg x (List.mem_cons_of_mem _ hx)) (by simp)
          c hc rest top S _ h0 h4]
      simp [rpnGroup]

theorem torpnLoop_ors (gs : List (List Term)) (hgs : ∀ g ∈ gs, g ≠ [] ∧ ∀ t ∈ g, t.Valid)
    (hne : gs ≠ []) (out : List Char) :
    torpnLoop (exprStream gs ++ ['_']) ['|', '_'] false out =
      Outcome.ok (out ++ rpnOrs gs) := by
  have hor : priority '|' = 3 := by decide
  have hend : priority '_' = 1 := by decide
  induction gs generalizing out with
  | nil => exact (hne rfl).elim
  | cons g gs ih =>
    obtain ⟨hgne, hg⟩ := hgs g (List.mem_cons_self _ _)
    cases gs with
    | nil =>
      simp only [exprStream, rpnOrs]
      rw [torpnLoop_group g hg hgne '_' (Or.inr rfl) [] '|' ['_'] _ (by omega) (by omega),
        torpnLoop_finish1 '|' (by decide) (by decide)]
      simp
    | cons g2 gs =>
      simp only [exprStream, List.append_assoc, List.cons_append]
      rw [torpnLoop_group g hg hgne '|' (Or.inl rfl) _ '|' ['_'] _ (by omega) (by omega),
        torpnLoop_flush_or '|' (Or.inl rfl),
        torpnLoop_op_push '|' (by decide) _ '_' [] _ (by omega) (by omega),
        ih (fun x hx => hgs x (List.mem_cons_of_mem _ hx)) (by simp)]
      simp [rpnOrs]

theorem torpn_expr (gs : List (List Term)) (hgs : ∀ g ∈ gs, g ≠ [] ∧ ∀ t ∈ g, t.Valid)
    (hne : gs ≠ []) :
    torpn (exprStream gs ++ ['_']) = Outcome.ok (rpnExpr gs) := by
  have hor : priority '|' = 3 := by decide
  have hend : priority '_' = 1 := by decide
  unfold torpn
  cases gs with
  | nil => exact (hne rfl).elim
  | cons g gs =>
    obtain ⟨hgne, hg⟩ := hgs g (List.mem_cons_self _ _)
    cases gs with
    | nil =>
      simp only [exprStream, rpnExpr, rpnOrs]
      rw [torpnLoop_group g hg hgne '_' (Or.inr rfl) [] '_' [] _ (by omega) (by omega),
        torpnLoop_finish0]
      simp
    | cons g2 gs =>
      simp only [exprStream, List.append_assoc, List.cons_append]
      rw [torpnLoop_group g hg hgne '|' (Or.inl rfl) _ '_' [] _ (by omega) (by omega),
        torpnLoop_op_push '|' (by decide) _ '_' [] _ (by omega) (by omega),
        torpnLoop_ors (g2 :: gs) (fun x hx => hgs x (List.mem_cons_of_mem _ hx)) (by simp)]
      simp [rpnExpr]

theorem rpnOf_expr (gs : List (List Term)) (hgs : ∀ g ∈ gs, g ≠ [] ∧ ∀ t ∈ g, t.Valid)
    (hne : gs ≠ []) : rpnOf (exprRaw gs) = Outcome.ok (rpnExpr gs) := by
  unfold rpnOf
  rw [tokenize_expr gs hgs hne]
  exact torpn_expr gs hgs hne

/-! ## Terms joined by `&` and `|`: evaluation -/

theorem buildMask_ok (f : Nat → Outcome Char) (g : Nat → Char) (n : Nat)
    (h : ∀ i, i < n → f i = Outcome.ok (g i)) :
    buildMask f n = Outcome.ok ((List.range n).map g) := by
  induction n with
  | zero => rfl
  | succ n ih =>
    rw [buildMask, ih (fun i hi => h i (Nat.lt_succ_of_lt hi)), h n (Nat.lt_succ_self n),
      List.range_succ, List.map_append]
    rfl

theorem binop_and (m2 m1 : List Char) (atoms : Nat) (h2 : m2.length = atoms)
    (h1 : m1.length = atoms) :
    ∃ m, binop '&' m2 m1 atoms = Outcome.ok m ∧ m.length = atoms ∧
      ∀ k : Nat, m[k]? = some 'T' ↔ (m2[k]? = some 'T' ∧ m1[k]? = some 'T') := by
  refine ⟨(List.range atoms).map
    (fun i => if m2[i]? = some 'T' ∧ m1[i]? = some 'T' then 'T' else 'F'), ?_, by simp, ?_⟩
  · unfold binop
    rw [if_pos rfl]
    apply buildMask_ok
    intro i hi
    have e2 : m2.get? i = some (m2[i]) := by
      rw [List.get?_eq_getElem?]; exact List.getElem?_eq_getElem (by omega)
    have e1 : m1.get? i = some (m1[i]) := by
      rw [List.get?_eq_getElem?]; exact List.getElem?_eq_getElem (by omega)
    rw [e2]
    simp only [e1]
    rw [List.getElem?_eq_getElem (by omega : i < m2.length),
      List.getElem?_eq_getElem (by omega : i < m1.length)]
    by_cases a : m2[i] = 'T' <;> by_cases b : m1[i] = 'T' <;> simp [a, b]
  · intro k
    by_cases hk : k < atoms
    · simp only [List.getElem?_map, List.getElem?_range hk, Option.map_some']
      by_cases a : m2[k]? = some 'T' ∧ m1[k]? = some 'T'
      · simp [a]
      · simp [a]
    · rw [List.getElem?_eq_none (by simp; omega), List.getElem?_eq_none (by omega : m2.length ≤ k)]
      simp

theorem binop_or (m2 m1 : List Char) (atoms : Nat) (h2 : m2.length = atoms)
    (h1 : m1.length = atoms) :
    ∃ m, binop '|' m2 m1 atoms = Outcome.ok m ∧ m.length = atoms ∧
      ∀ k : Nat, m[k]? = some 'T' ↔ (m2[k]? = some 'T' ∨ m1[k]? = some 'T') := by
  refine ⟨(List.range atoms).map
    (fun i => if m2[i]? = some 'T' ∨ m1[i]? = some 'T' then 'T' else 'F'), ?_, by simp, ?_⟩
  · unfold binop
    rw [if_neg (by decide), if_pos rfl]
    apply buildMask_ok
    intro i hi
    have e2 : m2.get? i = some (m2[i]) := by
      rw [List.get?_eq_getElem?]; exact List.getElem?_eq_getElem (by omega)
    have e1 : m1.get? i = some (m1[i]) := by
      rw [List.get?_eq_getElem?]; exact List.getElem?_eq_getElem (by omega)
    rw [e2]
    simp only [e1]
    rw [List.getElem?_eq_getElem (by omega : i < m2.length),
      List.getElem?_eq_getElem (by omega : i < m1.length)]
    by_cases a : m2[i] = 'T' <;> by_cases b : m1[i] = 'T' <;> simp [a, b]
  · intro k
    by_cases hk : k < atoms
    · simp only [List.getElem?_map, List.getElem?_range hk, Option.map_some']
      by_cases a : m2[k]? = some 'T' ∨ m1[k]? = some 'T'
      · simp [a]
      · simp [a]
    · rw [List.getElem?_eq_none (by simp; omega), List.getElem?_eq_none (by omega : m2.length ≤ k),
        List.getElem?_eq_none (by omega : m1.length ≤ k)]
      simp

theorem Term.mask_exists (U : Universe) (t : Term) (ht : t.Valid) :
    ∃ mt, selectElemMask U t.text = some mt ∧ mt.length = U.atoms :=
  selectElemMask_length U t.c0 (t.spec.map eqStar)
    (by rcases ht.1 with h | h <;> simp [h])

theorem Term.text_isTermChar (t : Term) (ht : t.Valid) : ∀ c ∈ t.text, isTermChar c = true :=
  termText_isTermChar t.c0 t.spec ht.1 ht.2

theorem evalLoop_ands {Coords : Type} (U : Universe) (type : Char)
    (distd : Option (List Char) → Option (List Char) → Coords → Outcome (List Char × Coords))
    (ts : List Term) (hts : ∀ t ∈ ts, t.Valid) (rest buffer : List Char)
    (stack : List (Option (List Char))) (X : Option Coords) (m0 : List Char)
    (h0 : m0.length = U.atoms) :
    ∃ m b, evalLoop U type distd (rpnAnds ts ++ rest) buffer (some m0 :: stack) X =
        evalLoop U type distd rest b (some m :: stack) X ∧ m.length = U.atoms ∧
      ∀ k : Nat, m[k]? = some 'T' ↔ (m0[k]? = some 'T' ∧ ∀ t ∈ ts, t.selects U k) := by
  induction ts generalizing buffer m0 with
  | nil => exact ⟨m0, buffer, rfl, h0, fun k => by simp⟩
  | cons t ts ih =>
    have ht := hts t (List.mem_cons_self _ _)
    obtain ⟨mt, hmt, hl⟩ := t.mask_exists U ht
    obtain ⟨ma, hb, hla, hka⟩ := binop_and m0 mt U.atoms h0 hl
    obtain ⟨m, b, he, hlm, hk⟩ := ih (fun x hx => hts x (List.mem_cons_of_mem _ hx))
      t.text ma hla
    refine ⟨m, b, ?_, hlm, fun k => ?_⟩
    · simp only [rpnAnds, List.cons_append, List.append_assoc]
      rw [evalLoop_term U type distd _ _ _ _ _ (t.text_isTermChar ht), hmt,
        evalLoop_binop U type distd '&' (Or.inl rfl) _ _ _ _ mt m0 ma hb]
      exact he
    · rw [hk, hka]
      simp only [List.mem_cons, forall_eq_or_imp, Term.selects, hmt, Option.some.injEq,
        exists_eq_left']
      tauto

theorem evalLoop_group {Coords : Type} (U : Universe) (type : Char)
    (distd : Option (List Char) → Option (List Char) → Coords → Outcome (List Char × Coords))
    (g : List Term) (hg : ∀ t ∈ g, t.Valid) (hne : g ≠ []) (rest buffer : List Char)
    (stack : List (Option (List Char))) (X : Option Coords) :
    ∃ m b, evalLoop U type distd (rpnGroup g ++ rest) buffer stack X =
        evalLoop U type distd rest b (some m :: stack) X ∧ m.length = U.atoms ∧
      ∀ k : Nat, m[k]? = some 'T' ↔ ∀ t ∈ g, t.selects U k := by
  cases g with
  | nil => exact (hne rfl).elim
  | cons t ts =>
    have ht := hg t (List.mem_cons_self _ _)
    obtain ⟨mt, hmt, hl⟩ := t.mask_exists U ht
    obtain ⟨m, b, he, hlm, hk⟩ := evalLoop_ands U type distd ts
      (fun x hx => hg x (List.mem_cons_of_mem _ hx)) rest t.text stack X mt hl
    refine ⟨m, b, ?_, hlm, fun k => ?_⟩
    · simp only [rpnGroup, List.cons_append, List.append_assoc]
      rw [evalLoop_term U type distd _ _ _ _ _ (t.text_isTermChar ht), hmt]
      exact he
    · rw [hk]
      simp only [List.mem_cons, forall_eq_or_imp, Term.selects, hmt, Option.some.injEq,
        exists_eq_left']

theorem evalLoop_ors {Coords : Type} (U : Universe) (type : Char)
    (distd : Option (List Char) → Option (List Char) → Coords → Outcome (List Char × Coords))
    (gs : List (List Term)) (hgs : ∀ g ∈ gs, g ≠ [] ∧ ∀ t ∈ g, t.Valid) (rest buffer : List Char)
    (stack : List (Option (List Char))) (X : Option Coords) (m0 : List Char)
    (h0 : m0.length = U.atoms) :
    ∃ m b, evalLoop U type distd (rpnOrs gs ++ rest) buffer (some m0 :: stack) X =
        evalLoop U type distd rest b (some m :: stack) X ∧ m.length = U.atoms ∧
      ∀ k : Nat, m[k]? = some 'T' ↔
        (m0[k]? = some 'T' ∨ ∃ g ∈ gs, ∀ t ∈ g, t.selects U k) := by
  induction gs generalizing buffer m0 with
  | nil => exact ⟨m0, buffer, rfl, h0, fun k => by simp⟩
  | cons g gs ih =>
    obtain ⟨hgne, hg⟩ := hgs g (List.mem_cons_self _ _)
    obtain ⟨mg, bg, heg, hlg, hkg⟩ := evalLoop_group U type distd g hg hgne
      ('|' :: (rpnOrs gs ++ rest)) buffer (some m0 :: stack) X
    obtain ⟨mo, hb, hlo, hko⟩ := binop_or m0 mg U.atoms h0 hlg
    obtain ⟨m, b, he, hlm, hk⟩ := ih (fun x hx => hgs x (List.mem_cons_of_mem _ hx))
      bg mo hlo
    refine ⟨m, b, ?_, hlm, fun k => ?_⟩
    · simp only [rpnOrs, List.cons_append, List.append_assoc]
      rw [heg, evalLoop_binop U type distd '|' (Or.inr rfl) _ _ _ _ mg m0 mo hb]
      exact he
    · rw [hk, hko, hkg]
      simp only [List.mem_cons, exists_eq_or_imp]
      tauto

theorem eval_expr {Coords : Type} (U : Universe) (X : Option Coords) (type : Char)
    (distd : Option (List Char) → Option (List Char) → Coords → Outcome (List Char × Coords))
    (gs : List (List Term)) (hgs : ∀ g ∈ gs, g ≠ [] ∧ ∀ t ∈ g, t.Valid) (hne : gs ≠ []) :
    ∃ m, eval U X type distd (rpnExpr gs) = Outcome.ok m ∧ m.length = U.atoms ∧
      ∀ k : Nat, m[k]? = some 'T' ↔ ∃ g ∈ gs, ∀ t ∈ g, t.selects U k := by
  cases gs with
  | nil => exact (hne rfl).elim
  | cons g gs =>
    obtain ⟨hgne, hg⟩ := hgs g (List.mem_cons_self _ _)
    obtain ⟨mg, bg, heg, hlg, hkg⟩ := evalLoop_group U type distd g hg hgne
      (rpnOrs gs) [] [] X
    obtain ⟨m, b, he, hlm, hk⟩ := evalLoop_ors U type distd gs
      (fun x hx => hgs x (List.mem_cons_of_mem _ hx)) [] bg [] X mg hlg
    refine ⟨m, ?_, hlm, fun k => ?_⟩
    · unfold eval
      rw [rpnExpr, heg]
      rw [List.append_nil] at he
      rw [he, evalLoop_nil]
      simp [popStack, hlm]
    · rw [hk, hkg]
      simp only [List.mem_cons, exists_eq_or_imp]

/-! ## Whitespace outside distance operators -/

theorem tokenizeLoop_dropSpaces (s : List Char) (h : ∀ c ∈ s, c ≠ '<' ∧ c ≠ '>')
    (f : Nat) (b o : List Char) :
    tokenizeLoop s f b o = tokenizeLoop (dropSpaces s) f b o := by
  induction s generalizing f b o with
  | nil => rfl
  | cons c s ih =>
    have ihs := ih (fun x hx => h x (List.mem_cons_of_mem _ hx))
    by_cases hs : isspace c = true
    · rw [tokenizeLoop_space hs, ihs]
      simp [dropSpaces, hs]
    · have e : dropSpaces (c :: s) = c :: dropSpaces s := by simp [dropSpaces, hs]
      obtain ⟨h1, h2⟩ := h c (List.mem_cons_self _ _)
      rw [e]
      rcases tokenizeLoop_step c h1 h2 f b o with hn | ⟨f2, b2, o2, hstep, -, -⟩
      · rw [hn, hn]
      · rw [hstep, hstep, ihs]

theorem groupRaw_no_distance (g : List Term) (hg : ∀ t ∈ g, t.Valid) :
    ∀ c ∈ groupRaw g, c ≠ '<' ∧ c ≠ '>' := by
  have hterm : ∀ t : Term, t.Valid → ∀ c ∈ t.raw, c ≠ '<' ∧ c ≠ '>' := by
    intro t ht c hc
    rcases List.mem_cons.mp hc with e | hmem
    · rcases ht.1 with h0 | h0 <;> rw [e, h0] <;> decide
    · have := (isOperand_not_special (ht.2 c hmem)).1
      constructor <;> rintro rfl <;> revert this <;> decide
  induction g with
  | nil => intro c hc; simp [groupRaw] at hc
  | cons t ts ih =>
    have ht := hg t (List.mem_cons_self _ _)
    cases ts with
    | nil => simpa [groupRaw] using hterm t ht
    | cons t2 ts =>
      intro c hc
      simp only [groupRaw, List.mem_append, List.mem_cons] at hc
      rcases hc with hc | hc | hc
      · exact hterm t ht c hc
      · rw [hc]; decide
      · exact ih (fun x hx => hg x (List.mem_cons_of_mem _ hx)) c hc

theorem exprRaw_no_distance (gs : List (List Term)) (hgs : ∀ g ∈ gs, g ≠ [] ∧ ∀ t ∈ g, t.Valid) :
    ∀ c ∈ exprRaw gs, c ≠ '<' ∧ c ≠ '>' := by
  induction gs with
  | nil => intro c hc; simp [exprRaw] at hc
  | cons g gs ih =>
    have hg := (hgs g (List.mem_cons_self _ _)).2
    cases gs with
    | nil => simpa [exprRaw] using groupRaw_no_distance g hg
    | cons g2 gs =>
      intro c hc
      simp only [exprRaw, List.mem_append, List.mem_cons] at hc
      rcases hc with hc | hc | hc
      · exact groupRaw_no_distance g hg c hc
      · rw [hc]; decide
      · exact ih (fun x hx => hgs x (List.mem_cons_of_mem _ hx)) c hc

theorem tokenize_dropSpaces (s : List Char) (h : ∀ c ∈ s, c ≠ '<' ∧ c ≠ '>') :
    tokenize s = tokenize (dropSpaces s) := by
  rw [tokenize_eq_finish, tokenize_eq_finish, tokenizeLoop_dropSpaces s h]

theorem spaced_no_distance (s t : List Char) (hs : dropSpaces s = t)
    (ht : ∀ c ∈ t, c ≠ '<' ∧ c ≠ '>') : ∀ c ∈ s, c ≠ '<' ∧ c ≠ '>' := by
  intro c hc
  by_cases hsp : isspace c = true
  · rcases isspace_cases hsp with e | e | e | e | e | e <;> subst e <;> decide
  · apply ht
    rw [← hs]
    simp [dropSpaces, hc, hsp]

/-! ## Terms joined by `&` and `|` -/

/-- C5: an expression of residue and particle terms joined by `&` and `|`, with any
whitespace in between: groups separated by `|`, the terms of a group joined by `&`. Its
postfix stream is the first group followed by every further group and `|`, a group being
its first term followed by every further term and `&`; the evaluation succeeds, and the
result has `'T'` at `k` exactly when in at least one group every term, evaluated on its
own, has `'T'` at `k`. -/
theorem C5_and_binds_tighter_than_or {Coords : Type} (U : Universe) (X : Option Coords)
    (type : Char)
    (distd : Option (List Char) → Option (List Char) → Coords → Outcome (List Char × Coords))
    (gs : List (List Term)) (hne : gs ≠ []) (hgs : ∀ g ∈ gs, g ≠ [] ∧ ∀ t ∈ g, t.Valid)
    (s : List Char) (hs : dropSpaces s = exprRaw gs) :
    rpnOf s = Outcome.ok (rpnExpr gs) ∧
    ∃ m, parseMaskString U X type distd s = Outcome.ok m ∧ m.length = U.atoms ∧
      ∀ k : Nat, m[k]? = some 'T' ↔
        ∃ g ∈ gs, ∀ t ∈ g, ∃ mt,
          parseMaskString U X type distd t.raw = Outcome.ok mt ∧ mt[k]? = some 'T' := by
  have hrpn : rpnOf s = Outcome.ok (rpnExpr gs) := by
    have e : tokenize s = tokenize (exprRaw gs) := by
      rw [tokenize_dropSpaces s
        (spaced_no_distance s _ hs (exprRaw_no_distance gs hgs)), hs]
    have := rpnOf_expr gs hgs hne
    unfold rpnOf at this ⊢
    rw [e]; exact this
  refine ⟨hrpn, ?_⟩
  obtain ⟨m, hm, hl, hk⟩ := eval_expr U X type distd gs hgs hne
  refine ⟨m, ?_, hl, fun k => ?_⟩
  · rw [parseMaskString_eq_rpnOf, hrpn]; exact hm
  · rw [hk]
    constructor
    · rintro ⟨g, hg, h⟩
      refine ⟨g, hg, fun t ht => ?_⟩
      obtain ⟨mt, hmt, hT⟩ := h t ht
      have hv := (hgs g hg).2 t ht
      obtain ⟨m2, hm2, -, hp⟩ := parseMaskString_term U X type distd t.c0 t.spec hv.1 hv.2
      have e : m2 = mt := by
        have : selectElemMask U t.text = some m2 := hm2
        rw [hmt] at this; exact (Option.some.inj this).symm
      exact ⟨mt, by rw [← e]; exact hp, hT⟩
    · rintro ⟨g, hg, h⟩
      refine ⟨g, hg, fun t ht => ?_⟩
      obtain ⟨mt, hmt, hT⟩ := h t ht
      have hv := (hgs g hg).2 t ht
      obtain ⟨m2, hm2, -, hp⟩ := parseMaskString_term U X type distd t.c0 t.spec hv.1 hv.2
      have e : m2 = mt := by
        have : parseMaskString U X type distd t.raw = Outcome.ok m2 := hp
        rw [hmt] at this; exact (Outcome.ok.inj this).symm
      exact ⟨m2, hm2, by rw [e]; exact hT⟩

/-- C5 on `:1 | :2 & :3`: the postfix stream is `[:1][:2][:3]&|`, and on the scenario the
result is residue 1, residues 2 and 3 having no atom in common. -/
theorem C5_and_binds_tighter_than_or_witness :
    ((rpnOf [':', '1', ' ', '|', ' ', ':', '2', ' ', '&', ' ', ':', '3'] =
        Outcome.ok (rpnExpr [[⟨':', ['1']⟩], [⟨':', ['2']⟩, ⟨':', ['3']⟩]])) ∧
      ∃ m, parseMaskString scenario (none : Option Unit) 'd' (fun _ _ _ => Outcome.fail)
          [':', '1', ' ', '|', ' ', ':', '2', ' ', '&', ' ', ':', '3'] = Outcome.ok m ∧
        m.length = scenario.atoms ∧
        ∀ k : Nat, m[k]? = some 'T' ↔
          ∃ g ∈ [[(⟨':', ['1']⟩ : Term)], [⟨':', ['2']⟩, ⟨':', ['3']⟩]], ∀ t ∈ g, ∃ mt,
            parseMaskString scenario (none : Option Unit) 'd' (fun _ _ _ => Outcome.fail)
              t.raw = Outcome.ok mt ∧ mt[k]? = some 'T') ∧
    rpnOf [':', '1', '|', ':', '2', '&', ':', '3'] =
      Outcome.ok ['[', ':', '1', ']', '[', ':', '2', ']', '[', ':', '3', ']', '&', '|'] ∧
    rpnOf [':', '1', '&', ':', '2', '|', ':', '3'] =
      Outcome.ok ['[', ':', '1', ']', '[', ':', '2', ']', '&', '[', ':', '3', ']', '|'] ∧
    parseMaskString scenario (none : Option Unit) 'd' (fun _ _ _ => Outcome.fail)
        [':', '1', ' ', '|', ' ', ':', '2', ' ', '&', ' ', ':', '3'] =
      Outcome.ok ['T', 'T', 'T', 'F', 'F', 'F', 'F', 'F', 'F'] :=
  ⟨C5_and_binds_tighter_than_or scenario (none : Option Unit) 'd' (fun _ _ _ => Outcome.fail)
    [[⟨':', ['1']⟩], [⟨':', ['2']⟩, ⟨':', ['3']⟩]] (by decide) (by decide)
    [':', '1', ' ', '|', ' ', ':', '2', ' ', '&', ' ', ':', '3'] (by decide),
    by decide, by decide, by decide⟩

/-! ## Parentheses of the text and of the normalized stream -/

theorem streamScan_append (a b : List Char) (fl : Bool) (d : Nat) :
    streamScan (a ++ b) fl d =
      (streamScan a fl d).bind (fun p => streamScan b p.2 p.1) := by
  induction a generalizing fl d with
  | nil => simp [streamScan]
  | cons c a ih =>
    simp only [List.cons_append, streamScan]
    split_ifs <;> simp [ih]

theorem streamScan_inside {c : Char} (hc : c ≠ ']') (r : List Char) (d : Nat) :
    streamScan (c :: r) true d = streamScan r true d := by
  simp [streamScan, hc]

theorem streamScan_body (body r : List Char) (h : ∀ c ∈ body, c ≠ ']') (d : Nat) :
    streamScan (body ++ r) true d = streamScan r true d := by
  induction body with
  | nil => rfl
  | cons c body ih =>
    rw [List.cons_append, streamScan_inside (h c (List.mem_cons_self _ _)),
      ih (fun x hx => h x (List.mem_cons_of_mem _ hx))]

theorem tokenizeLoop_norm (r : List Char) (f : Nat) (hf : 0 < f) (b o : List Char) :
    tokenizeLoop r f b o = tokenizeLoop r f [] (o ++ b) := by
  have := tokenizeLoop_flush r f hf b [] o
  rwa [List.append_nil] at this

theorem isPlainOp_cases {c : Char} (h : isPlainOp c = true) :
    c = '!' ∨ c = '&' ∨ c = '|' ∨ c = '(' ∨ c = ')' := by
  simpa [isPlainOp] using h

/-- One step of the tokenizer on a character other than `<` and `>`, outside a distance
criterion and with the pending term moved to the output: the characters it adds to the
stream keep the parentheses of the stream in step with those of the text, a pending term
counting as one open parenthesis and an open bracket. -/
theorem tokenizeLoop_step_scan (c : Char) (h1 : c ≠ '<') (h2 : c ≠ '>') (f : Nat) (hf : f ≤ 2)
    (o : List Char) (D D2 : Nat) (hD : parenDepth [c] D = some D2) :
    (∀ r, tokenizeLoop (c :: r) f [] o = none) ∨
    ∃ f2 A, f2 ≤ 2 ∧ (∀ r, tokenizeLoop (c :: r) f [] o = tokenizeLoop r f2 [] (o ++ A)) ∧
      streamScan A (decide (f ≠ 0)) (D + (if f = 0 then 0 else 1)) =
        some (D2 + (if f2 = 0 then 0 else 1), decide (f2 ≠ 0)) := by
  by_cases hs : isspace c = true
  · have e : D2 = D := by
      rcases isspace_cases hs with e | e | e | e | e | e <;> subst e <;>
        simpa [parenDepth] using hD.symm
    subst e
    exact Or.inr ⟨f, [], hf, fun r => by rw [tokenizeLoop_space hs, List.append_nil],
      by simp [streamScan]⟩
  · have hs : isspace c = false := by simpa using hs
    by_cases hp : isPlainOp c = true
    · right
      refine ⟨0, (if f > 0 then [']', ')'] else []) ++ [c], by omega, fun r => ?_, ?_⟩
      · rw [tokenizeLoop_plainOp hp]
        unfold flushed
        split <;> simp
      · rcases isPlainOp_cases hp with e | e | e | e | e <;> subst e <;>
          simp only [parenDepth, Char.reduceEq, if_false, if_true] at hD
        · injection hD with hD; subst hD
          interval_cases f <;> simp [streamScan, isOperator, strchr]
        · injection hD with hD; subst hD
          interval_cases f <;> simp [streamScan, isOperator, strchr]
        · injection hD with hD; subst hD
          interval_cases f <;> simp [streamScan, isOperator, strchr]
        · injection hD with hD; subst hD
          interval_cases f <;> simp [streamScan, isOperator, strchr]
        · by_cases h0 : D = 0
          · simp [h0] at hD
          · simp only [h0, if_false] at hD
            injection hD with hD; subst hD
            interval_cases f <;> simp [streamScan, isOperator, strchr, h0]
    · have hc : ¬ (isOperator c = true ∨ c = '(' ∨ c = ')') := by
        rintro (h | h | h)
        · rcases isOperator_cases h with e | e | e | e | e
          · subst e; exact hp (by decide)
          · subst e; exact hp (by decide)
          · subst e; exact hp (by decide)
          · exact h1 e
          · exact h2 e
        · subst h; exact hp (by decide)
        · subst h; exact hp (by decide)
      have e : D2 = D := by
        have ho : c ≠ '(' := fun e => hc (Or.inr (Or.inl e))
        have hcl : c ≠ ')' := fun e => hc (Or.inr (Or.inr e))
        simpa [parenDepth, ho, hcl] using hD.symm
      subst e
      by_cases ho : isOperand c = true
      · by_cases h0 : f = 0 ∧ c ≠ '*'
        · left; intro r; rw [tokenizeLoop_other hs hc]; simp [ho, h0]
        · right
          have hne : eqStar c ≠ ']' := isTermChar_ne_close (isTermChar_eqStar ho)
          refine ⟨if f = 0 then 1 else f, (if f = 0 then ['(', '['] else []) ++ [eqStar c],
            by split <;> omega, fun r => ?_, ?_⟩
          · rw [tokenizeLoop_other hs hc]
            simp only [ho, if_true, h0, if_false]
            rw [tokenizeLoop_norm _ _ (by split <;> omega)]
          · by_cases hf0 : f = 0
            · subst hf0
              simp [streamScan, hne]
            · have : f = 1 ∨ f = 2 := by omega
              rcases this with e | e <;> subst e <;> simp [streamScan, hne]
      · by_cases hcol : c = ':'
        · subst hcol
          right
          refine ⟨1, if f = 0 then ['(', '[', ':'] else [']', ')', '|', '(', '[', ':'],
            by omega, fun r => ?_, ?_⟩
          · rw [tokenizeLoop_colon]
            by_cases hf0 : f = 0
            · simp only [hf0, if_true]
              rw [tokenizeLoop_norm _ _ (by decide)]
            · simp only [hf0, if_false]
              rw [tokenizeLoop_norm _ _ (by decide)]
              simp
          · interval_cases f <;> simp [streamScan, isOperator, strchr]
        · by_cases hat : c = '@'
          · subst hat
            right
            refine ⟨2, if f = 0 then ['(', '[', '@'] else if f = 1 then [']', '&', '[', '@']
              else [']', ')', '|', '(', '[', '@'], by omega, fun r => ?_, ?_⟩
            · rw [tokenizeLoop_at]
              interval_cases f
              · simp only [if_true]
                rw [tokenizeLoop_norm _ _ (by decide)]
              · simp only [OfNat.one_ne_ofNat, if_false, if_true, one_ne_zero]
                rw [tokenizeLoop_norm _ _ (by decide)]
                simp
              · simp only [OfNat.ofNat_ne_zero, OfNat.ofNat_ne_one, if_false, if_true]
                rw [tokenizeLoop_norm _ _ (by decide)]
                simp
            · interval_cases f <;> simp [streamScan, isOperator, strchr]
          · left; intro r; rw [tokenizeLoop_other hs hc]; simp [ho, hcol, hat]

theorem parenDepth_cons (c : Char) (s : List Char) (D D' : Nat)
    (h : parenDepth (c :: s) D = some D') :
    ∃ D2, parenDepth [c] D = some D2 ∧ parenDepth s D2 = some D' := by
  simp only [parenDepth] at h ⊢
  by_cases h1 : c = '('
  · simp only [h1, if_true] at h ⊢; exact ⟨_, rfl, h⟩
  · by_cases h2 : c = ')'
    · simp only [h1, h2, if_false, if_true, Char.reduceEq] at h ⊢
      by_cases h0 : D = 0
      · simp [h0] at h
      · simp only [h0, if_false] at h ⊢; exact ⟨_, rfl, h⟩
    · simp only [h1, h2, if_false] at h ⊢; exact ⟨_, rfl, h⟩

/-- The tokenizer on a text without `<` and `>` whose parentheses do not close more than
was opened: the piece it adds to the stream has its parentheses in step with the text. -/
theorem tokenizeLoop_scan (s : List Char) (hs : ∀ c ∈ s, c ≠ '<' ∧ c ≠ '>') (D D' : Nat)
    (hD : parenDepth s D = some D') (f : Nat) (hf : f ≤ 2) (o : List Char) :
    (∀ rest, tokenizeLoop (s ++ rest) f [] o = none) ∨
    ∃ f2 A, f2 ≤ 2 ∧
      (∀ rest, tokenizeLoop (s ++ rest) f [] o = tokenizeLoop rest f2 [] (o ++ A)) ∧
      streamScan A (decide (f ≠ 0)) (D + (if f = 0 then 0 else 1)) =
        some (D' + (if f2 = 0 then 0 else 1), decide (f2 ≠ 0)) := by
  induction s generalizing D f o with
  | nil =>
    simp only [parenDepth, Option.some.injEq] at hD
    subst hD
    exact Or.inr ⟨f, [], hf, fun rest => by simp, by simp [streamScan]⟩
  | cons c s ih =>
    obtain ⟨h1, h2⟩ := hs c (List.mem_cons_self _ _)
    obtain ⟨D2, hc, hrest⟩ := parenDepth_cons c s D D' hD
    rcases tokenizeLoop_step_scan c h1 h2 f hf o D D2 hc with hn | ⟨f2, A, hf2, hstep, hscan⟩
    · exact Or.inl (fun rest => hn _)
    · rcases ih (fun x hx => hs x (List.mem_cons_of_mem _ hx)) D2 hrest f2 hf2 (o ++ A)
        with hn | ⟨f3, A2, hf3, hrun, hscan2⟩
      · exact Or.inl (fun rest => by rw [List.cons_append, hstep]; exact hn rest)
      · refine Or.inr ⟨f3, A ++ A2, hf3, fun rest => ?_, ?_⟩
        · rw [List.cons_append, hstep, hrun, List.append_assoc]
        · rw [streamScan_append, hscan]
          exact hscan2

/-- The stream of a parenthesised expression without `<` and `>`: the parentheses
of the text enclose a piece that never closes more than it opened. -/
theorem tokenize_parenthesised (inner : List Char) (hs : ∀ c ∈ inner, c ≠ '<' ∧ c ≠ '>')
    (hD : parenDepth inner 0 = some 0) :
    tokenize ('(' :: (inner ++ [')'])) = none ∨
    ∃ T, tokenize ('(' :: (inner ++ [')'])) = some ('(' :: (T ++ [')', '_'])) ∧
      streamScan T false 0 = some (0, false) := by
  rw [tokenize_eq_finish, tokenizeLoop_plainOp (by decide)]
  have e0 : flushed 0 [] [] ++ ['('] = ['('] := by simp [flushed]
  rw [e0]
  rcases tokenizeLoop_scan inner hs 0 0 hD 0 (by omega) ['('] with hn | ⟨f2, A, hf2, hrun, hscan⟩
  · left; rw [hn]; rfl
  · right
    refine ⟨A ++ (if f2 > 0 then [']', ')'] else []), ?_, ?_⟩
    · rw [hrun, tokenizeLoop_plainOp (by decide), tokenizeLoop_nil_flushed]
      simp only [Option.map_some', flushed, Nat.lt_irrefl, if_false, gt_iff_lt]
      rw [finish_concat]
      split <;> simp
    · have hscan2 : streamScan A false 0 =
          some (0 + (if f2 = 0 then 0 else 1), decide (f2 ≠ 0)) := hscan
      rw [streamScan_append, hscan2]
      simp only [Option.some_bind]
      interval_cases f2 <;> simp [streamScan]

theorem tokenize_star : tokenize ['*'] = some ['(', '[', '*', ']', ')', '_'] := by
  decide

/-- The tokenizer on `!E`: the operator followed by the stream of `E`. -/
theorem tokenize_neg (E : List Char) :
    tokenize ('!' :: E) = (tokenize E).map (fun r => '!' :: r) := by
  rw [tokenize_eq_finish, tokenize_eq_finish, tokenizeLoop_plainOp (by decide)]
  have e0 : flushed 0 [] [] ++ ['!'] = ['!'] ++ [] := by simp [flushed]
  rw [e0, tokenizeLoop_out_prefix]
  cases h : tokenizeLoop E 0 [] [] with
  | none => rfl
  | some r =>
    simp only [Option.map_some', Option.some.injEq]
    rw [finish_append _ _ (tokenizeLoop_ne_nil _ _ _ _ _ h)]
    rfl

/-! ## `torpn` above an open parenthesis -/

theorem priority_operator {c : Char} (h : isOperator c = true) : 3 ≤ priority c := by
  rcases isOperator_cases h with e | e | e | e | e <;> subst e <;> decide

theorem isOperator_ne_paren {c : Char} (h : isOperator c = true) :
    c ≠ '(' ∧ c ≠ ')' ∧ c ≠ '_' ∧ c ≠ '[' ∧ c ≠ ']' := by
  rcases isOperator_cases h with e | e | e | e | e <;> subst e <;> decide

/-- Pushing an operator on a stack that holds an open parenthesis does not look
below that parenthesis. -/
theorem pushOperator_frame (c : Char) (hc : isOperator c = true) (W : List Char)
    (hW : ∀ x ∈ W, isOperator x = true ∨ x = '(') (hcount : 0 < W.count '(')
    (out : List Char) :
    ∃ W2 out2, W2.count '(' = W.count '(' ∧ (∀ x ∈ W2, isOperator x = true ∨ x = '(') ∧
      ∀ B, pushOperator c (W ++ B) out = Outcome.ok (W2 ++ B, out2) := by
  have hpc := priority_operator hc
  induction W generalizing out with
  | nil => simp at hcount
  | cons top W ih =>
    have htop : priority top ≠ 0 := by
      rcases hW top (List.mem_cons_self _ _) with h | h
      · have := priority_operator h; omega
      · subst h; decide
    by_cases hgt : priority c > priority top
    · refine ⟨c :: top :: W, out, ?_, ?_, fun B => ?_⟩
      · rw [List.count_cons_of_ne (Ne.symm (isOperator_ne_paren hc).1)]
      · intro x hx
        rcases List.mem_cons.mp hx with e | hx
        · exact Or.inl (e ▸ hc)
        · exact hW x hx
      · have h0 : priority c ≠ 0 := by omega
        simp [pushOperator, h0, htop, hgt]
    · have hne : top ≠ '(' := by
        intro e; subst e
        have : priority '(' = 2 := by decide
        omega
      have hc2 : 0 < W.count '(' := by
        rwa [List.count_cons_of_ne (Ne.symm hne)] at hcount
      obtain ⟨W2, out2, h1, h2, h3⟩ := ih (fun x hx => hW x (List.mem_cons_of_mem _ hx)) hc2
        (out ++ [top])
      refine ⟨W2, out2, by rw [h1, List.count_cons_of_ne (Ne.symm hne)], h2, fun B => ?_⟩
      have h0 : priority c ≠ 0 := by omega
      rw [List.cons_append, pushOperator]
      simp only [h0, htop, or_self, if_false, hgt]
      exact h3 B

/-- Closing a parenthesis on a stack that holds an open one pops down to it. -/
theorem popToParen_frame (W : List Char)
    (hW : ∀ x ∈ W, isOperator x = true ∨ x = '(') (hcount : 0 < W.count '(')
    (out : List Char) :
    ∃ W2 out2, W2.count '(' + 1 = W.count '(' ∧ (∀ x ∈ W2, isOperator x = true ∨ x = '(') ∧
      ∀ B, popToParen (W ++ B) out = Outcome.ok (W2 ++ B, out2) := by
  induction W generalizing out with
  | nil => simp at hcount
  | cons top W ih =>
    by_cases hp : top = '('
    · subst hp
      exact ⟨W, out, by simp, fun x hx => hW x (List.mem_cons_of_mem _ hx),
        fun B => by simp [popToParen]⟩
    · have hop : isOperator top = true := by
        rcases hW top (List.mem_cons_self _ _) with h | h
        · exact h
        · exact (hp h).elim
      have hc2 : 0 < W.count '(' := by
        rwa [List.count_cons_of_ne (Ne.symm hp)] at hcount
      obtain ⟨W2, out2, h1, h2, h3⟩ := ih (fun x hx => hW x (List.mem_cons_of_mem _ hx)) hc2
        (out ++ [top])
      refine ⟨W2, out2, by rw [h1, List.count_cons_of_ne (Ne.symm hp)], h2, fun B => ?_⟩
      rw [List.cons_append, popToParen]
      simp only [hp, if_false, (isOperator_ne_paren hop).2.2.1]
      exact h3 B

theorem popToTerm_operators (W : List Char) (hW : ∀ x ∈ W, isOperator x = true)
    (B out : List Char) : popToTerm (W ++ B) out = popToTerm B (out ++ W) := by
  induction W generalizing out with
  | nil => simp
  | cons top W ih =>
    have h := isOperator_ne_paren (hW top (List.mem_cons_self _ _))
    rw [List.cons_append, popToTerm]
    simp only [h.1, h.2.2.1, if_false]
    rw [ih (fun x hx => hW x (List.mem_cons_of_mem _ hx))]
    simp

/-- A piece of the stream whose parentheses stay above an open parenthesis of the stack
is processed by `torpn` without a look below that parenthesis. -/
theorem torpnLoop_frame (T : List Char) (fl : Bool) (d d2 : Nat) (fl2 : Bool)
    (h : streamScan T fl d = some (d2, fl2)) (W : List Char)
    (hW : ∀ x ∈ W, isOperator x = true ∨ x = '(') (hcount : W.count '(' = d + 1)
    (out : List Char) :
    ∃ W2 out2, W2.count '(' = d2 + 1 ∧ (∀ x ∈ W2, isOperator x = true ∨ x = '(') ∧
      ∀ rest B, torpnLoop (T ++ rest) (W ++ B) fl out = torpnLoop rest (W2 ++ B) fl2 out2 := by
  induction T generalizing fl d W out with
  | nil =>
    simp only [streamScan, Option.some.injEq, Prod.mk.injEq] at h
    obtain ⟨e1, e2⟩ := h
    subst e1; subst e2
    exact ⟨W, out, hcount, hW, fun rest B => rfl⟩
  | cons c T ih =>
    rw [streamScan] at h
    by_cases h1 : c = '['
    · simp only [h1, if_true] at h
      obtain ⟨W2, out2, ha, hb, hc⟩ := ih true d h W hW hcount (out ++ [c])
      refine ⟨W2, out2, ha, hb, fun rest B => ?_⟩
      rw [List.cons_append, torpnLoop]
      simp only [h1, if_true]
      rw [← h1]; exact hc rest B
    · by_cases h2 : c = ']'
      · simp only [h1, h2, if_false, if_true, Char.reduceEq] at h
        obtain ⟨W2, out2, ha, hb, hc⟩ := ih false d h W hW hcount (out ++ [c])
        refine ⟨W2, out2, ha, hb, fun rest B => ?_⟩
        rw [List.cons_append, torpnLoop]
        simp only [h2, if_true, Char.reduceEq, if_false]
        rw [← h2]; exact hc rest B
      · by_cases h3 : fl = true
        · simp only [h1, h2, if_false, h3, if_true] at h
          obtain ⟨W2, out2, ha, hb, hc⟩ := ih true d h W hW hcount (out ++ [c])
          refine ⟨W2, out2, ha, hb, fun rest B => ?_⟩
          rw [List.cons_append, torpnLoop]
          simp only [h1, h2, if_false, h3, if_true]
          exact hc rest B
        · have h3 : fl = false := by simpa using h3
          subst h3
          by_cases h4 : c = '('
          · simp only [h1, h2, if_false, h4, if_true, Bool.false_eq_true, Char.reduceEq] at h
            obtain ⟨W2, out2, ha, hb, hc⟩ := ih false (d + 1) h ('(' :: W)
              (by
                intro x hx
                rcases List.mem_cons.mp hx with e | hx
                · exact Or.inr e
                · exact hW x hx)
              (by simp [hcount]) out
            refine ⟨W2, out2, ha, hb, fun rest B => ?_⟩
            rw [h4, List.cons_append, torpnLoop_open]
            exact hc rest B
          · by_cases h5 : c = ')'
            · simp only [h1, h2, if_false, h4, h5, if_true, Bool.false_eq_true,
                Char.reduceEq] at h
              by_cases hd : d = 0
              · simp [hd] at h
              · simp only [hd, if_false] at h
                obtain ⟨W1, out1, ha1, hb1, hc1⟩ := popToParen_frame W hW (by omega) out
                obtain ⟨W2, out2, ha, hb, hc⟩ := ih false (d - 1) h W1 hb1 (by omega) out1
                refine ⟨W2, out2, ha, hb, fun rest B => ?_⟩
                rw [h5, List.cons_append, torpnLoop_close _ _ _ _ _ (hc1 B)]
                exact hc rest B
            · by_cases h6 : isOperator c = true
              · simp only [h1, h2, if_false, h4, h5, h6, if_true, Bool.false_eq_true] at h
                obtain ⟨W1, out1, ha1, hb1, hc1⟩ := pushOperator_frame c h6 W hW (by omega) out
                obtain ⟨W2, out2, ha, hb, hc⟩ := ih false d h W1 hb1 (by omega) out1
                refine ⟨W2, out2, ha, hb, fun rest B => ?_⟩
                rw [List.cons_append, torpnLoop_op c h6 _ _ _ _ _ (hc1 B)]
                exact hc rest B
              · simp [h1, h2, h4, h5, h6] at h

/-- The postfix stream of `!E` for an enclosed `E`: that of `E` followed by `!`. -/
theorem torpn_neg_enclosed (T : List Char) (h : streamScan T false 0 = some (0, false)) :
    ∃ P, torpn ('(' :: (T ++ [')', '_'])) = Outcome.ok P ∧
      torpn ('!' :: '(' :: (T ++ [')', '_'])) = Outcome.ok (P ++ ['!']) := by
  obtain ⟨W1, out1, ha1, hb1, hc1⟩ := torpnLoop_frame T false 0 0 false h ['(']
    (by simp) (by simp) []
  obtain ⟨W2, out2, ha2, hb2, hc2⟩ := popToParen_frame W1 hb1 (by omega) out1
  have hops : ∀ x ∈ W2, isOperator x = true := by
    intro x hx
    rcases hb2 x hx with h | h
    · exact h
    · subst h
      have : 0 < W2.count '(' := List.count_pos_iff.mpr hx
      omega
  refine ⟨out2 ++ W2, ?_, ?_⟩
  · unfold torpn
    rw [torpnLoop_open]
    have e := hc1 [')', '_'] ['_']
    simp only [List.singleton_append] at e
    rw [e, torpnLoop_close _ _ _ _ _ (hc2 ['_']),
      torpnLoop_end _ _ _ [] (out2 ++ W2)
        (by rw [popToTerm_operators W2 hops]; simp [popToTerm]),
      torpnLoop_nil]
  · unfold torpn
    rw [torpnLoop_op_push '!' (by decide) _ '_' [] _ (by decide) (by decide), torpnLoop_open]
    have e := hc1 [')', '_'] ['!', '_']
    simp only [List.singleton_append] at e
    rw [e, torpnLoop_close _ _ _ _ _ (hc2 ['!', '_']),
      torpnLoop_end _ _ _ [] (out2 ++ W2 ++ ['!'])
        (by rw [popToTerm_operators W2 hops]; simp [popToTerm]),
      torpnLoop_nil]

/-! ## Negation of an enclosed expression -/

theorem evalLoop_neg_only {Coords : Type} (U : Universe) (type : Char)
    (distd : Option (List Char) → Option (List Char) → Coords → Outcome (List Char × Coords))
    (b : List Char) (s : List (Option (List Char))) (X : Option Coords) :
    evalLoop U type distd ['!'] b s X = evalLoop U type distd ['!'] [] s X := by
  have h1 : isOperand '!' = false := by decide
  have h2 : strchr [':', '@'] '!' = false := by decide
  have h3 : strchr ['<', '>'] '!' = false := by decide
  rw [evalLoop, evalLoop.eq_2]
  simp only [Char.reduceEq, if_false, h1, h2, h3, Bool.false_eq_true, or_self, if_true]
  cases (popStack s).1 with
  | none => rfl
  | some m1 =>
    simp only
    cases neg m1 U.atoms with
    | ok m => simp only [evalLoop_nil]
    | fail => rfl
    | ub => rfl

/-- A postfix text followed by `!`: the text is evaluated as it is on its own and the
operator is applied to what it leaves. -/
theorem evalLoop_append_neg {Coords : Type} (U : Universe) (type : Char)
    (distd : Option (List Char) → Option (List Char) → Coords → Outcome (List Char × Coords))
    (P b : List Char) (s : List (Option (List Char))) (X : Option Coords)
    (s2 : List (Option (List Char))) (X2 : Option Coords)
    (h : evalLoop U type distd P b s X = Outcome.ok (s2, X2)) :
    evalLoop U type distd (P ++ ['!']) b s X = evalLoop U type distd ['!'] [] s2 X2 := by
  induction P generalizing b s X with
  | nil =>
    rw [evalLoop_nil] at h
    injection h with h
    injection h with e1 e2
    subst e1; subst e2
    exact evalLoop_neg_only U type distd b s X
  | cons c P ih =>
    rw [evalLoop] at h
    rw [List.cons_append, evalLoop]
    by_cases h1 : c = '['
    · simp only [h1, if_true] at h ⊢
      exact ih _ _ _ h
    · simp only [h1, if_false] at h ⊢
      by_cases h2 : c = ']'
      · simp only [h2, if_true] at h ⊢
        exact ih _ _ _ h
      · simp only [h2, if_false] at h ⊢
        by_cases h3 : isOperand c = true ∨ strchr [':', '@'] c = true
        · simp only [h3, if_true] at h ⊢
          exact ih _ _ _ h
        · simp only [h3, if_false] at h ⊢
          by_cases h4 : c = '&' ∨ c = '|'
          · simp only [h4, if_true] at h ⊢
            cases e1 : (popStack s).1 with
            | none => simp [e1] at h
            | some m1 =>
              cases e2 : (popStack (popStack s).2).1 with
              | none => simp [e1, e2] at h
              | some m2 =>
                simp only [e1, e2] at h ⊢
                cases e3 : binop c m2 m1 U.atoms with
                | ok m =>
                  simp only [e3] at h ⊢
                  exact ih _ _ _ h
                | fail => simp [e3] at h
                | ub => simp [e3] at h
          · simp only [h4, if_false] at h ⊢
            by_cases h5 : strchr ['<', '>'] c = true
            · simp only [h5, if_true] at h ⊢
              by_cases h6 : P.head? = some ':' ∨ P.head? = some '@'
              · have h6b : (P ++ ['!']).head? = some ':' ∨ (P ++ ['!']).head? = some '@' := by
                  cases P with
                  | nil => simp at h6
                  | cons x P => simpa using h6
                simp only [h6, if_true] at h
                simp only [h6b, if_true]
                exact ih _ _ _ h
              · have h6b : ¬ ((P ++ ['!']).head? = some ':' ∨
                    (P ++ ['!']).head? = some '@') := by
                  cases P with
                  | nil => simp
                  | cons x P => simpa using h6
                simp only [h6, if_false] at h
                simp only [h6b, if_false]
                cases e1 : selectDist distd (popStack s).1 (popStack (popStack s).2).1 X type with
                | ok r =>
                  obtain ⟨pm, Xn⟩ := r
                  simp only [e1] at h ⊢
                  exact ih _ _ _ h
                | fail => simp [e1] at h
                | ub => simp [e1] at h
            · simp only [h5, if_false] at h ⊢
              by_cases h7 : c = '!'
              · simp only [h7, if_true] at h ⊢
                cases e1 : (popStack s).1 with
                | none => simp [e1] at h
                | some m1 =>
                  simp only [e1] at h ⊢
                  cases e3 : neg m1 U.atoms with
                  | ok m =>
                    simp only [e3] at h ⊢
                    exact ih _ _ _ h
                  | fail => simp [e3] at h
                  | ub => simp [e3] at h
              · simp [h7] at h

theorem eval_append_neg {Coords : Type} (U : Universe) (X : Option Coords) (type : Char)
    (distd : Option (List Char) → Option (List Char) → Coords → Outcome (List Char × Coords))
    (P m : List Char) (h : eval U X type distd P = Outcome.ok m) :
    U.atoms ≤ m.length ∧
      eval U X type distd (P ++ ['!']) =
        Outcome.ok ((List.range U.atoms).foldl
          (fun m i => m.set i (if m.getD i NUL = 'T' then 'F' else 'T')) m) := by
  unfold eval at h
  cases e : evalLoop U type distd P [] [] X with
  | fail => simp [e] at h
  | ub => simp [e] at h
  | ok r =>
    obtain ⟨stack, X2⟩ := r
    simp only [e] at h
    cases stack with
    | nil =>
      simp only [popStack, ne_eq, not_true_eq_false, if_false] at h
      split at h <;> simp at h
    | cons top rest =>
      cases rest with
      | cons x y => simp [popStack] at h
      | nil =>
        cases top with
        | none =>
          simp only [popStack, ne_eq, not_true_eq_false, if_false] at h
          split at h <;> simp at h
        | some m1 =>
          simp only [popStack, ne_eq, not_true_eq_false, if_false] at h
          by_cases hl : U.atoms ≤ m1.length
          · simp only [hl, if_true] at h
            injection h with h
            subst h
            refine ⟨hl, ?_⟩
            have hn : neg m1 U.atoms = Outcome.ok ((List.range U.atoms).foldl
                (fun m i => m.set i (if m.getD i NUL = 'T' then 'F' else 'T')) m1) := by
              simp [neg, hl]
            unfold eval
            rw [evalLoop_append_neg U type distd P [] [] X _ _ e,
              evalLoop_neg U type distd [] [] [] X2 m1 _ hn, evalLoop_nil]
            have hlen : ((List.range U.atoms).foldl
                (fun m i => m.set i (if m.getD i NUL = 'T' then 'F' else 'T')) m1).length =
                m1.length := foldl_length _ (fun m i => by simp) _ _
            have hl2 : U.atoms ≤ ((List.range U.atoms).foldl
                (fun m i => m.set i (if m.getD i NUL = 'T' then 'F' else 'T')) m1).length := by
              rw [hlen]; exact hl
            simp only [popStack, ne_eq, not_true_eq_false, if_false, hl2, if_true]
          · simp [hl] at h

theorem count_flipTF (l : List Char) : (l.map flipTF).count 'T' + l.count 'T' = l.length := by
  induction l with
  | nil => rfl
  | cons c l ih =>
    by_cases h : c = 'T'
    · subst h
      have : flipTF 'T' ≠ 'T' := by decide
      simp only [List.map_cons, List.length_cons]
      rw [List.count_cons_of_ne (Ne.symm this), List.count_cons_self]
      omega
    · have : flipTF c = 'T' := by simp [flipTF, h]
      simp only [List.map_cons, List.length_cons, this]
      rw [List.count_cons_self, List.count_cons_of_ne (Ne.symm h)]
      omega

/-- The stream of an elementary term or a parenthesised expression is enclosed in one
pair of parentheses that is not closed before its end. -/
theorem tokenize_enclosed (E : List Char)
    (hE : (∃ t : Term, t.Valid ∧ E = t.raw) ∨ E = ['*'] ∨
      ∃ inner, E = '(' :: (inner ++ [')']) ∧ (∀ c ∈ inner, c ≠ '<' ∧ c ≠ '>') ∧
        parenDepth inner 0 = some 0) :
    tokenize E = none ∨
    ∃ T, tokenize E = some ('(' :: (T ++ [')', '_'])) ∧
      streamScan T false 0 = some (0, false) := by
  rcases hE with ⟨t, ht, rfl⟩ | rfl | ⟨inner, rfl, hs, hD⟩
  · right
    refine ⟨'[' :: (t.text ++ [']']), ?_, ?_⟩
    · have := tokenize_term t.c0 t.spec ht.1 ht.2
      simpa [Term.raw, Term.text] using this
    · rw [streamScan]
      simp only [if_true]
      rw [streamScan_body _ _ (t.text_ne_close ht)]
      simp [streamScan]
  · right
    exact ⟨['[', '*', ']'], by decide, by decide⟩
  · exact tokenize_parenthesised inner hs hD

/-- C4: for `E` an elementary term (`:` or `@` followed by operand characters, or `*`)
or a parenthesised expression without `<` and `>` (its inner parentheses balanced) that
evaluates to a mask `m`, the expression `!E` evaluates to a mask of the same length that,
at every particle `k`, has `'T'` exactly where `m` has no `'T'` and `'F'` exactly where
`m` has `'T'`; the number of `'T'` among its `atoms` entries is `atoms` minus that of
`m`. -/
theorem C4_negation_complements {Coords : Type} (U : Universe) (X : Option Coords)
    (type : Char)
    (distd : Option (List Char) → Option (List Char) → Coords → Outcome (List Char × Coords))
    (E : List Char)
    (hE : (∃ t : Term, t.Valid ∧ E = t.raw) ∨ E = ['*'] ∨
      ∃ inner, E = '(' :: (inner ++ [')']) ∧ (∀ c ∈ inner, c ≠ '<' ∧ c ≠ '>') ∧
        parenDepth inner 0 = some 0)
    (m : List Char) (hm : parseMaskString U X type distd E = Outcome.ok m) :
    ∃ m2, parseMaskString U X type distd ('!' :: E) = Outcome.ok m2 ∧
      m2.length = m.length ∧
      (∀ k : Nat, k < U.atoms →
        (m2[k]? = some 'T' ↔ m[k]? ≠ some 'T') ∧ (m2[k]? = some 'F' ↔ m[k]? = some 'T')) ∧
      (m2.take U.atoms).count 'T' = U.atoms - (m.take U.atoms).count 'T' := by
  rcases tokenize_enclosed E hE with hn | ⟨T, hT, hscan⟩
  · simp [parseMaskString, hn] at hm
  · obtain ⟨P, hP, hP2⟩ := torpn_neg_enclosed T hscan
    have hev : eval U X type distd P = Outcome.ok m := by
      simpa [parseMaskString, hT, hP] using hm
    obtain ⟨hl, hev2⟩ := eval_append_neg U X type distd P m hev
    have hget := negFold_getElem? U.atoms m
    have hlen : ((List.range U.atoms).foldl
        (fun m i => m.set i (if m.getD i NUL = 'T' then 'F' else 'T')) m).length =
        m.length := foldl_length _ (fun m i => by simp) _ _
    refine ⟨_, ?_, hlen, fun k hk => ?_, ?_⟩
    · simp only [parseMaskString, tokenize_neg, hT, Option.map_some', hP2]
      exact hev2
    · rw [hget k]
      simp only [hk, if_true]
      rw [List.getElem?_eq_getElem (by omega : k < m.length)]
      by_cases hx : m[k] = 'T' <;> simp [flipTF, hx]
    · have htake : List.take U.atoms ((List.range U.atoms).foldl
          (fun m i => m.set i (if m.getD i NUL = 'T' then 'F' else 'T')) m) =
          (List.take U.atoms m).map flipTF := by
        apply List.ext_getElem?
        intro k
        by_cases hk : k < U.atoms
        · rw [List.getElem?_take_of_lt hk, hget k, List.getElem?_map,
            List.getElem?_take_of_lt hk]
          simp [hk]
        · rw [List.getElem?_eq_none (by simp; omega), List.getElem?_eq_none (by simp; omega)]
      have hc := count_flipTF (List.take U.atoms m)
      rw [htake]
      have : (List.take U.atoms m).length = U.atoms := by simp [hl]
      omega

/-- C4 on the scenario: `@CA` selects atoms 0, 3 and 6, and `!@CA` the other six; a
parenthesised expression is negated as a whole. -/
theorem C4_negation_complements_witness :
    (∃ m2, parseMaskString scenario (none : Option Unit) 'd' (fun _ _ _ => Outcome.fail)
        ('!' :: ['@', 'C', 'A']) = Outcome.ok m2 ∧
      m2.length = ['T', 'F', 'F', 'T', 'F', 'F', 'T', 'F', 'F'].length ∧
      (∀ k : Nat, k < scenario.atoms →
        (m2[k]? = some 'T' ↔ ['T', 'F', 'F', 'T', 'F', 'F', 'T', 'F', 'F'][k]? ≠ some 'T') ∧
        (m2[k]? = some 'F' ↔ ['T', 'F', 'F', 'T', 'F', 'F', 'T', 'F', 'F'][k]? = some 'T')) ∧
      (m2.take scenario.atoms).count 'T' =
        scenario.atoms -
          (['T', 'F', 'F', 'T', 'F', 'F', 'T', 'F', 'F'].take scenario.atoms).count 'T') ∧
    parseMaskString scenario (none : Option Unit) 'd' (fun _ _ _ => Outcome.fail)
        ['!', '@', 'C', 'A'] = Outcome.ok ['F', 'T', 'T', 'F', 'T', 'T', 'F', 'T', 'T'] ∧
    parseMaskString scenario (none : Option Unit) 'd' (fun _ _ _ => Outcome.fail)
        ['(', ':', '1', '|', '@', 'C', 'A', ')'] =
      Outcome.ok ['T', 'T', 'T', 'T', 'F', 'F', 'T', 'F', 'F'] ∧
    parseMaskString scenario (none : Option Unit) 'd' (fun _ _ _ => Outcome.fail)
        ['!', '(', ':', '1', '|', '@', 'C', 'A', ')'] =
      Outcome.ok ['F', 'F', 'F', 'F', 'T', 'T', 'F', 'T', 'T'] :=
  ⟨C4_negation_complements scenario (none : Option Unit) 'd' (fun _ _ _ => Outcome.fail)
    ['@', 'C', 'A'] (Or.inl ⟨⟨'@', ['C', 'A']⟩, by decide, rfl⟩)
    ['T', 'F', 'F', 'T', 'F', 'F', 'T', 'F', 'F'] (by decide),
    by decide, by decide, by decide⟩

/-! ## The wildcards of `isNameMatch` -/

theorem stripSpaces_cons_space (p : List Char) : stripSpaces (' ' :: p) = stripSpaces p := by
  simp [stripSpaces]

theorem stripSpaces_cons_other {c : Char} (hc : c ≠ ' ') (p : List Char) :
    stripSpaces (c :: p) = c :: stripSpaces p := by
  simp [stripSpaces, hc]

theorem nameMatch_star_nil (s1 : List Char) : nameMatch ['*'] s1 = true := by
  rw [nameMatch_cons]
  simp only [if_true, List.any_eq_true]
  exact ⟨[], by simp, by rw [nameMatch_nil]; rfl⟩

theorem litLoop_prefix (d : Char) (hd : d ≠ ' ') (k : List Char → Bool) (r : List Char)
    (hk : ∀ p, k p = true ↔ r <+: stripSpaces p) (s1 : List Char) :
    litLoop d k s1 = true ↔ d :: r <+: stripSpaces s1 := by
  induction s1 with
  | nil => simp [litLoop, stripSpaces]
  | cons c p ih =>
    rw [litLoop]
    by_cases hc : c = ' '
    · subst hc
      simp only [if_true, ih, stripSpaces_cons_space]
    · simp only [hc, if_false, stripSpaces_cons_other hc]
      by_cases hcd : c = d
      · subst hcd
        simp [hk, List.cons_prefix_cons]
      · have hdc : ¬ d = c := fun e => hcd e.symm
        simp [hcd, hdc, List.cons_prefix_cons]

/-- A literal followed by `*` matches exactly the stored names that begin with it. -/
theorem nameMatch_literal_star (w : List Char) (hw : ∀ c ∈ w, isLiteral c = true)
    (s1 : List Char) : nameMatch (w ++ ['*']) s1 = true ↔ w <+: stripSpaces s1 := by
  induction w generalizing s1 with
  | nil => simp [nameMatch_star_nil]
  | cons d r ih =>
    have hd : isLiteral d = true := hw d (List.mem_cons_self _ _)
    simp only [isLiteral, Bool.and_eq_true, decide_eq_true_eq, ne_eq, decide_not,
      Bool.not_eq_true', decide_eq_false_iff_not] at hd
    rw [List.cons_append, nameMatch_cons]
    simp only [hd.1.1, hd.1.2, if_false]
    exact litLoop_prefix d hd.2 _ r
      (fun p => ih (fun c hc => hw c (List.mem_cons_of_mem _ hc)) p) s1

/-- C13: for a literal `w` (no `*`, no `?`, no space), the pattern `w*` matches a stored
name exactly when `w` is a prefix of the name without its spaces; `N*` matches exactly
the names whose first character other than a space is `N`, the one-character name `N`
included; and `*` alone matches every stored name, the empty one included. -/
theorem C13_literal_star_is_prefix_match (c w : List Char)
    (hw : ∀ x ∈ w, isLiteral x = true) :
    (isNameMatch c (w ++ ['*']) = true ↔ w <+: stripSpaces c) ∧
    (isNameMatch c ['N', '*'] = true ↔ (stripSpaces c).head? = some 'N') ∧
    isNameMatch ['N'] ['N', '*'] = true ∧
    isNameMatch c ['*'] = true ∧ isNameMatch [] ['*'] = true := by
  refine ⟨nameMatch_literal_star w hw c, ?_, by decide, nameMatch_star_nil c,
    nameMatch_star_nil []⟩
  have h := nameMatch_literal_star ['N'] (by decide) c
  unfold isNameMatch
  rw [show ['N', '*'] = ['N'] ++ ['*'] from rfl, h]
  cases stripSpaces c with
  | nil => simp
  | cons x xs => simp [List.cons_prefix_cons, eq_comm]

/-- C13 on the stored name `N` in a field of four characters and on `CA`. -/
theorem C13_literal_star_is_prefix_match_witness :
    ((isNameMatch ['N', ' ', ' ', ' '] (['N'] ++ ['*']) = true ↔
        ['N'] <+: stripSpaces ['N', ' ', ' ', ' ']) ∧
      (isNameMatch ['N', ' ', ' ', ' '] ['N', '*'] = true ↔
        (stripSpaces ['N', ' ', ' ', ' ']).head? = some 'N') ∧
      isNameMatch ['N'] ['N', '*'] = true ∧
      isNameMatch ['N', ' ', ' ', ' '] ['*'] = true ∧ isNameMatch [] ['*'] = true) ∧
    isNameMatch ['N', ' ', ' ', ' '] ['N', '*'] = true ∧
    isNameMatch ['N', 'H', '1', ' '] ['N', '*'] = true ∧
    isNameMatch ['C', 'A', ' ', ' '] ['N', '*'] = false :=
  ⟨C13_literal_star_is_prefix_match ['N', ' ', ' ', ' '] ['N'] (by decide),
    by decide, by decide, by decide⟩

/-- Without `?` in the pattern the spaces of the stored name are skipped as if they were
absent. -/
theorem nameMatch_stripSpaces (p : List Char) (hp : ∀ x ∈ p, x ≠ '?') (s1 : List Char) :
    nameMatch p s1 = nameMatch p (stripSpaces s1) := by
  induction p generalizing s1 with
  | nil =>
    rw [nameMatch_nil, nameMatch_nil]
    induction s1 with
    | nil => rfl
    | cons c s ih =>
      by_cases hc : c = ' '
      · subst hc
        rw [stripSpaces_cons_space, ← ih]
        simp
      · rw [stripSpaces_cons_other hc]
        simp [hc]
  | cons d r ih =>
    have ihr := ih (fun x hx => hp x (List.mem_cons_of_mem _ hx))
    have hq : d ≠ '?' := hp d (List.mem_cons_self _ _)
    rw [nameMatch_cons, nameMatch_cons]
    by_cases hs : d = '*'
    · simp only [hs, if_true]
      induction s1 with
      | nil => rfl
      | cons c s ihs =>
        by_cases hc : c = ' '
        · subst hc
          rw [stripSpaces_cons_space, ← ihs]
          simp only [List.tails_cons, List.any_cons]
          rw [ihr (' ' :: s), stripSpaces_cons_space]
          cases s with
          | nil => simp [stripSpaces]
          | cons y s2 =>
            simp only [List.tails_cons, List.any_cons]
            rw [← ihr (y :: s2)]
            simp
        · rw [stripSpaces_cons_other hc]
          simp only [List.tails_cons, List.any_cons]
          rw [ihs, ihr (c :: s), stripSpaces_cons_other hc]
    · simp only [hs, hq, if_false]
      induction s1 with
      | nil => rfl
      | cons c s ihs =>
        by_cases hc : c = ' '
        · subst hc
          rw [stripSpaces_cons_space, ← ihs, litLoop]
          simp
        · rw [stripSpaces_cons_other hc, litLoop, litLoop]
          simp only [hc, if_false]
          by_cases hcd : c = d
          · simp only [hcd, ne_eq, not_true_eq_false, if_false]
            exact ihr s
          · simp [hcd]

/-- C11 at the stored name `N` followed by one padding space and the pattern `N?`: the
wildcard takes the padding space, so the padded name is matched while the name without
its space is not. -/
theorem C11_question_mark_takes_padding :
    isNameMatch ['N', ' '] ['N', '?'] = true ∧
    isNameMatch (stripSpaces ['N', ' ']) ['N', '?'] = false ∧
    stripSpaces ['N', ' '] = ['N'] := by
  decide

/-- The pattern `N?` matches exactly the stored names made of spaces, `N`, one more
character of any kind (a space included) and spaces. -/
theorem nameMatch_N_question (s1 : List Char) :
    isNameMatch s1 ['N', '?'] = true ↔
      ∃ pre x post, s1 = pre ++ 'N' :: x :: post ∧ (∀ c ∈ pre, c = ' ') ∧
        ∀ c ∈ post, c = ' ' := by
  unfold isNameMatch
  rw [nameMatch_cons]
  simp only [Char.reduceEq, if_false]
  induction s1 with
  | nil => simp [litLoop]
  | cons c s ih =>
    rw [litLoop]
    by_cases hc : c = ' '
    · subst hc
      simp only [if_true, ih]
      constructor
      · rintro ⟨pre, x, post, rfl, h1, h2⟩
        exact ⟨' ' :: pre, x, post, rfl, by simpa using h1, h2⟩
      · rintro ⟨pre, x, post, e, h1, h2⟩
        cases pre with
        | nil => simp at e
        | cons y pre =>
          simp only [List.cons_append, List.cons.injEq] at e
          exact ⟨pre, x, post, e.2, fun c hc => h1 c (List.mem_cons_of_mem _ hc), h2⟩
    · simp only [hc, if_false]
      by_cases hN : c = 'N'
      · subst hN
        simp only [ne_eq, not_true_eq_false, if_false]
        rw [nameMatch_cons]
        simp only [Char.reduceEq, if_false, if_true]
        cases s with
        | nil =>
          simp only [Bool.false_eq_true, false_iff]
          rintro ⟨pre, x, post, e, h1, -⟩
          cases pre with
          | nil => simp at e
          | cons y pre =>
            simp only [List.cons_append, List.cons.injEq] at e
            cases pre <;> simp at e
        | cons x post =>
          simp only [nameMatch_nil, List.all_eq_true, decide_eq_true_eq]
          constructor
          · intro h; exact ⟨[], x, post, rfl, by simp, h⟩
          · rintro ⟨pre, x2, post2, e, h1, h2⟩
            cases pre with
            | nil =>
              simp only [List.nil_append, List.cons.injEq, true_and] at e
              rw [e.2]; exact h2
            | cons y pre =>
              simp only [List.cons_append, List.cons.injEq] at e
              have := h1 y (List.mem_cons_self _ _)
              rw [← e.1] at this
              exact absurd this (by decide)
      · simp only [ne_eq, hN, not_false_eq_true, if_true, Bool.false_eq_true, false_iff]
        rintro ⟨pre, x, post, e, h1, -⟩
        cases pre with
        | nil =>
          simp only [List.nil_append, List.cons.injEq] at e
          exact hN e.1
        | cons y pre =>
          simp only [List.cons_append, List.cons.injEq] at e
          exact hc (e.1 ▸ h1 y (List.mem_cons_self _ _))

/-- C12 at the name `N` stored in a field of four characters: the pattern `N?` matches
it, although the name has one character; the names `NH` and `N` without padding behave as
the claim says. -/
theorem C12_question_mark_matches_padded_N :
    isNameMatch ['N', ' ', ' ', ' '] ['N', '?'] = true ∧
    stripSpaces ['N', ' ', ' ', ' '] = ['N'] ∧
    isNameMatch ['N', 'H', ' ', ' '] ['N', '?'] = true ∧
    isNameMatch ['N'] ['N', '?'] = false ∧
    isNameMatch ['N', 'H', '1', ' '] ['N', '?'] = false := by
  decide

/-! ## Element lists -/

theorem isalpha_facts {c : Char} (h : isalpha c = true) :
    c ≠ ',' ∧ c ≠ NUL ∧ c ≠ '*' ∧ c ≠ '?' ∧ c ≠ '%' ∧ c ≠ '/' ∧ c ≠ '=' ∧
      isOperand c = true := by
  have h2 := (isalpha_iff c).1 h
  refine ⟨?_, ?_, ?_, ?_, ?_, ?_, ?_, ?_⟩
  · apply char_toNat_ne; have : (',' : Char).toNat = 44 := by decide
    omega
  · apply char_toNat_ne; have : NUL.toNat = 0 := by decide
    omega
  · apply char_toNat_ne; have : ('*' : Char).toNat = 42 := by decide
    omega
  · apply char_toNat_ne; have : ('?' : Char).toNat = 63 := by decide
    omega
  · apply char_toNat_ne; have : ('%' : Char).toNat = 37 := by decide
    omega
  · apply char_toNat_ne; have : ('/' : Char).toNat = 47 := by decide
    omega
  · apply char_toNat_ne; have : ('=' : Char).toNat = 61 := by decide
    omega
  · simp [isOperand, (isalnum_iff c).2 (Or.inl h)]

/-- For a symbol of one or two letters `isElemMatch` compares the first one or two
characters of the stored name with it. -/
theorem isElemMatch_symbol (name s : List Char) (hs : IsSymbol s) :
    isElemMatch name s = if name.take s.length = s then 1 else 0 := by
  obtain ⟨hl, ha⟩ := hs
  rcases hl with hl | hl
  · obtain ⟨a, rfl⟩ := List.length_eq_one.1 hl
    have hn := (isalpha_facts (ha a (by simp))).2.1
    cases name with
    | nil => simp [isElemMatch, hn.symm]
    | cons x t =>
      by_cases hx : x = a <;> simp [isElemMatch, hx]
  · obtain ⟨a, b, rfl⟩ := List.length_eq_two.1 hl
    have hna := (isalpha_facts (ha a (by simp))).2.1
    have hnb := (isalpha_facts (ha b (by simp))).2.1
    cases name with
    | nil => simp [isElemMatch, hnb.symm]
    | cons x t =>
      cases t with
      | nil => simp [isElemMatch, hnb.symm]
      | cons y t2 =>
        by_cases hx : x = a <;> by_cases hy : y = b <;> simp [isElemMatch, hx, hy]

theorem atelem_selectLoop_symbol (s : List Char) (hs : IsSymbol s) (an : List (List Char))
    (js : List Nat) (m : List Char) :
    atelem_selectLoop s an js m =
      js.foldl (fun m j => if (an.getD j []).take s.length = s then m.set j 'T' else m) m := by
  induction js generalizing m with
  | nil => rfl
  | cons j js ih =>
    rw [atelem_selectLoop, List.foldl_cons]
    simp only [isElemMatch_symbol _ s hs]
    by_cases h : (an.getD j []).take s.length = s
    · simp only [h, if_true]; exact ih _
    · simp only [h, if_false]
      rw [if_neg (by decide), if_neg (by decide)]
      exact ih _

theorem atelem_select_marks (s : List Char) (hs : IsSymbol s) (atoms : Nat)
    (an : List (List Char)) :
    Marks (fun m => atelem_select s m atoms an)
      (fun k => k < atoms ∧ (an.getD k []).take s.length = s) := by
  unfold atelem_select
  simp only [atelem_selectLoop_symbol s hs]
  refine (Marks.foldl
    (fun m j => if (an.getD j []).take s.length = s then m.set j 'T' else m)
    (fun j k => (an.getD j []).take s.length = s ∧ k = j) _
    (fun j _ => Marks.ite _ (Marks.set j))).congr (fun k => ?_)
  simp only [List.mem_range]
  constructor
  · rintro ⟨j, h1, h2, rfl⟩; exact ⟨h1, h2⟩
  · rintro ⟨h1, h2⟩; exact ⟨k, h1, h2, rfl⟩

theorem atom_elemlistLoop_char (atoms : Nat) (an : List (List Char))
    {c : Char} (hc : isalpha c = true) (rest : List Char) (hr : rest ≠ [])
    (buffer m : List Char) :
    atom_elemlistLoop atoms an (c :: rest) buffer m =
      atom_elemlistLoop atoms an rest (buffer ++ [c]) m := by
  rw [atom_elemlistLoop]
  simp [hc, hr, (isalpha_facts hc).1]

theorem atom_elemlistLoop_chars (atoms : Nat) (an : List (List Char))
    (t : List Char) (ht : ∀ c ∈ t, isalpha c = true) (rest : List Char)
    (hr : rest ≠ []) (buffer m : List Char) :
    atom_elemlistLoop atoms an (t ++ rest) buffer m =
      atom_elemlistLoop atoms an rest (buffer ++ t) m := by
  induction t generalizing buffer with
  | nil => simp
  | cons c t ih =>
    rw [List.cons_append, atom_elemlistLoop_char atoms an
      (ht c (List.mem_cons_self _ _)) _ (by simp [hr]),
      ih (fun c hc => ht c (List.mem_cons_of_mem _ hc))]
    simp

theorem atom_elemlistLoop_comma (atoms : Nat) (an : List (List Char))
    (rest buffer m : List Char) :
    atom_elemlistLoop atoms an (',' :: rest) buffer m =
      atom_elemlistLoop atoms an rest [] (atelem_select buffer m atoms an) := by
  have h0 : isalpha ',' = false := by decide
  rw [atom_elemlistLoop]
  simp [h0]

theorem atom_elemlistLoop_last (atoms : Nat) (an : List (List Char))
    {c : Char} (hc : isalpha c = true) (buffer m : List Char) :
    atom_elemlistLoop atoms an [c] buffer m = atelem_select (buffer ++ [c]) m atoms an := by
  rw [atom_elemlistLoop]
  simp [hc, atom_elemlistLoop]

theorem atom_elemlistLoop_item (atoms : Nat) (an : List (List Char))
    (t : List Char) (ht : ∀ c ∈ t, isalpha c = true) (rest m : List Char) :
    atom_elemlistLoop atoms an (t ++ ',' :: rest) [] m =
      atom_elemlistLoop atoms an rest [] (atelem_select t m atoms an) := by
  rw [atom_elemlistLoop_chars atoms an t ht _ (by simp), List.nil_append,
    atom_elemlistLoop_comma]

theorem atom_elemlistLoop_item_end (atoms : Nat) (an : List (List Char)) (t : List Char)
    (hne : t ≠ []) (ht : ∀ c ∈ t, isalpha c = true) (m : List Char) :
    atom_elemlistLoop atoms an t [] m = atelem_select t m atoms an := by
  have e : t = t.dropLast ++ [t.getLast hne] := (List.dropLast_append_getLast hne).symm
  conv_lhs => rw [e]
  rw [atom_elemlistLoop_chars atoms an _
    (fun c hc => ht c (List.mem_of_mem_dropLast hc)) _ (by simp), List.nil_append,
    atom_elemlistLoop_last atoms an (ht _ (List.getLast_mem hne)), ← e]

theorem IsSymbol.symbol_ne_nil {s : List Char} (h : IsSymbol s) : s ≠ [] := by
  rintro rfl
  rcases h.1 with h | h <;> simp at h

/-- The loop of `atom_elemlist` marks what every symbol marks. -/
theorem atom_elemlist_marks (atoms : Nat) (an : List (List Char)) (symbols : List (List Char))
    (hv : ∀ s ∈ symbols, IsSymbol s) :
    Marks (fun m => atom_elemlist (elemListText symbols) m atoms an)
      (fun k => ∃ s ∈ symbols, k < atoms ∧ (an.getD k []).take s.length = s) := by
  unfold atom_elemlist
  induction symbols with
  | nil =>
    simp only [elemListText, atom_elemlistLoop]
    exact Marks.id_false.congr (by simp)
  | cons s ss ih =>
    have hs := hv s (List.mem_cons_self _ _)
    cases ss with
    | nil =>
      simp only [elemListText, atom_elemlistLoop_item_end _ _ _ hs.symbol_ne_nil hs.2]
      exact (atelem_select_marks s hs atoms an).congr (by simp)
    | cons s2 ss =>
      have ih2 := ih (fun x hx => hv x (List.mem_cons_of_mem _ hx))
      simp only [elemListText, atom_elemlistLoop_item _ _ _ hs.2]
      exact (Marks.comp (atelem_select_marks s hs atoms an) ih2).congr (by simp)

theorem elemListText_chars (symbols : List (List Char)) (hv : ∀ s ∈ symbols, IsSymbol s) :
    ∀ c ∈ elemListText symbols, isalpha c = true ∨ c = ',' := by
  induction symbols with
  | nil => intro c hc; simp [elemListText] at hc
  | cons s ss ih =>
    have hs := hv s (List.mem_cons_self _ _)
    cases ss with
    | nil => intro c hc; exact Or.inl (hs.2 c hc)
    | cons s2 ss =>
      intro c hc
      simp only [elemListText, List.mem_append, List.mem_cons] at hc
      rcases hc with hc | hc | hc
      · exact Or.inl (hs.2 c hc)
      · exact Or.inr hc
      · exact ih (fun x hx => hv x (List.mem_cons_of_mem _ hx)) c hc

/-- After `/` the atom branch of `selectElemMask` hands letters and commas to
`atom_elemlist`. -/
theorem atomMaskLoop_elemlist (U : Universe) (s : List Char)
    (hs : ∀ c ∈ s, isalpha c = true ∨ c = ',') (buffer : List Char) (hb : buffer ≠ [])
    (hne : s ≠ []) (m : List Char) :
    atomMaskLoop U s buffer ListKind.ELEMLIST m =
      atom_elemlist (buffer ++ s).tail m U.atoms U.atomName := by
  induction s generalizing buffer with
  | nil => exact (hne rfl).elim
  | cons c s ih =>
    have hkind : (if c = '*' then
          if (buffer ++ [c]).length = 0 ∧ (s.headD NUL = ',' ∨ s = []) then ListKind.ALL
          else if ListKind.ELEMLIST = ListKind.NUMLIST then ListKind.NAMELIST
          else ListKind.ELEMLIST
        else if isalpha c = true ∨ c = '?' then
          if ListKind.ELEMLIST = ListKind.NUMLIST then ListKind.NAMELIST else ListKind.ELEMLIST
        else if c = '%' then ListKind.TYPELIST
        else if c = '/' then ListKind.ELEMLIST
        else ListKind.ELEMLIST) = ListKind.ELEMLIST := by
      rcases hs c (List.mem_cons_self _ _) with h | h
      · obtain ⟨-, -, h1, -, -, -, -, -⟩ := isalpha_facts h
        simp [h1, h]
      · subst h
        have h0 : isalpha ',' = false := by decide
        simp [h0]
    rw [atomMaskLoop]
    simp only [hkind]
    by_cases hnil : s = []
    · subst hnil
      simp
    · rw [if_neg hnil, ih (fun c hc => hs c (List.mem_cons_of_mem _ hc)) _ (by simp) hnil]
      simp

theorem selectElemMask_elemlist (U : Universe) (s : List Char)
    (hs : ∀ c ∈ s, isalpha c = true ∨ c = ',') :
    selectElemMask U ('@' :: '/' :: s) =
      some (atom_elemlist s (List.replicate U.atoms 'F') U.atoms U.atomName) := by
  simp only [selectElemMask, Char.reduceEq, if_false, if_true]
  rw [atomMaskLoop]
  have h0 : isalpha '/' = false := by decide
  simp only [Char.reduceEq, if_false, h0, Bool.false_eq_true, false_or, if_true,
    List.nil_append]
  by_cases hnil : s = []
  · subst hnil; simp
  · rw [if_neg hnil, atomMaskLoop_elemlist U s hs ['/'] (by simp) hnil]
    simp

/-- C14: for every universe and element symbols of one or two letters, the term
`@/` followed by the symbols separated by commas evaluates to a mask that has `'T'` at
particle `k` exactly when, for some listed symbol `s`, the first `length s` characters of
the stored name of `k` are `s`. -/
theorem C14_element_list {Coords : Type} (U : Universe) (X : Option Coords)
    (type : Char)
    (distd : Option (List Char) → Option (List Char) → Coords → Outcome (List Char × Coords))
    (symbols : List (List Char)) (hv : ∀ s ∈ symbols, IsSymbol s) :
    ∃ m, parseMaskString U X type distd ('@' :: '/' :: elemListText symbols) = Outcome.ok m ∧
      m.length = U.atoms ∧
      ∀ k, k < U.atoms →
        (m.getD k 'F' = 'T' ↔
          ∃ s ∈ symbols, (U.atomName.getD k []).take s.length = s) ∧
        (m.getD k 'F' = 'F' ↔
          ¬ ∃ s ∈ symbols, (U.atomName.getD k []).take s.length = s) := by
  have hch := elemListText_chars symbols hv
  have hop : ∀ c ∈ '/' :: elemListText symbols, isOperand c = true := by
    intro c hc
    rcases List.mem_cons.1 hc with e | hc
    · subst e; decide
    · rcases hch c hc with h | h
      · exact (isalpha_facts h).2.2.2.2.2.2.2
      · subst h; decide
  have hmap : ('/' :: elemListText symbols).map eqStar = '/' :: elemListText symbols := by
    have : ∀ c ∈ '/' :: elemListText symbols, eqStar c = c := by
      intro c hc
      have hne : c ≠ '=' := by
        rcases List.mem_cons.1 hc with e | hc
        · subst e; decide
        · rcases hch c hc with h | h
          · exact (isalpha_facts h).2.2.2.2.2.2.1
          · subst h; decide
      simp [eqStar, hne]
    calc ('/' :: elemListText symbols).map eqStar
        = ('/' :: elemListText symbols).map id := List.map_congr_left this
      _ = _ := List.map_id _
  obtain ⟨m, hm, -, hp⟩ := parseMaskString_term U X type distd '@'
    ('/' :: elemListText symbols) (Or.inr rfl) hop
  rw [termText, hmap, selectElemMask_elemlist U _ hch] at hm
  have hmarks := (atom_elemlist_marks U.atoms U.atomName symbols hv).on_fresh U.atoms
  rw [Option.some.inj hm] at hmarks
  refine ⟨m, hp, hmarks.1, fun k hk => ?_⟩
  obtain ⟨h1, h2⟩ := hmarks.2 k hk
  have e : (∃ s ∈ symbols, k < U.atoms ∧ (U.atomName.getD k []).take s.length = s) ↔
      ∃ s ∈ symbols, (U.atomName.getD k []).take s.length = s := by
    constructor
    · rintro ⟨s, hs, -, h⟩; exact ⟨s, hs, h⟩
    · rintro ⟨s, hs, h⟩; exact ⟨s, hs, hk, h⟩
  exact ⟨h1.trans e, h2.trans (not_congr e)⟩

/-- C14 on the scenario: `@/C,H` selects the atoms `CA` and `CB` of every residue, and a
symbol of two letters is compared with the first two characters of the name. -/
theorem C14_element_list_witness :
    (∃ m, parseMaskString scenario (none : Option Unit) 'd' (fun _ _ _ => Outcome.fail)
        ('@' :: '/' :: elemListText [['C'], ['H']]) = Outcome.ok m ∧
      m.length = scenario.atoms ∧
      ∀ k, k < scenario.atoms →
        (m.getD k 'F' = 'T' ↔
          ∃ s ∈ [['C'], ['H']], (scenario.atomName.getD k []).take s.length = s) ∧
        (m.getD k 'F' = 'F' ↔
          ¬ ∃ s ∈ [['C'], ['H']], (scenario.atomName.getD k []).take s.length = s)) ∧
    parseMaskString scenario (none : Option Unit) 'd' (fun _ _ _ => Outcome.fail)
        ['@', '/', 'C', ',', 'H'] = Outcome.ok ['T', 'T', 'F', 'T', 'T', 'F', 'T', 'T', 'F'] ∧
    parseMaskString scenario (none : Option Unit) 'd' (fun _ _ _ => Outcome.fail)
        ['@', '/', 'C', 'B', ',', 'N'] =
      Outcome.ok ['F', 'T', 'T', 'F', 'T', 'T', 'F', 'T', 'T'] :=
  ⟨C14_element_list scenario (none : Option Unit) 'd' (fun _ _ _ => Outcome.fail)
    [['C'], ['H']] (by decide), by decide, by decide⟩

/-! ## The tokenizer outside distance criteria as a fold -/

theorem not_plainOp_not_opchar {c : Char} (h1 : c ≠ '<') (h2 : c ≠ '>')
    (hp : ¬ isPlainOp c = true) : ¬ (isOperator c = true ∨ c = '(' ∨ c = ')') := by
  rintro (h | h | h)
  · rcases isOperator_cases h with e | e | e | e | e
    · subst e; exact hp (by decide)
    · subst e; exact hp (by decide)
    · subst e; exact hp (by decide)
    · exact h1 e
    · exact h2 e
  · subst h; exact hp (by decide)
  · subst h; exact hp (by decide)

theorem tokenizeLoop_norm0 (r : List Char) (f : Nat) (b o : List Char) :
    tokenizeLoop r f b o = tokenizeLoop r f [] (o ++ (if f = 0 then [] else b)) := by
  by_cases hf : f = 0
  · subst hf; simp [tokenizeLoop_flag0_buffer r b o]
  · simp only [hf, if_false]
    exact tokenizeLoop_norm r f (by omega) b o

theorem tokenizeLoop_stepPiece_none (c : Char) (h1 : c ≠ '<') (h2 : c ≠ '>') (f : Nat)
    (h : stepPiece c f = none) (r o : List Char) :
    tokenizeLoop (c :: r) f [] o = none := by
  unfold stepPiece at h
  by_cases hs : isspace c = true
  · simp [hs] at h
  · have hs2 : isspace c = false := by simpa using hs
    simp only [hs, if_false] at h
    by_cases hp : isPlainOp c = true
    · simp [hp] at h
    · simp only [hp, if_false] at h
      have hc := not_plainOp_not_opchar h1 h2 hp
      rw [tokenizeLoop_other hs2 hc]
      by_cases ho : isOperand c = true
      · simp only [ho, if_true] at h ⊢
        by_cases h0 : f = 0 ∧ c ≠ '*'
        · simp [h0]
        · simp [h0] at h
      · simp only [ho, if_false] at h ⊢
        by_cases hcol : c = ':'
        · simp [hcol] at h
        · simp only [hcol, if_false] at h ⊢
          by_cases hat : c = '@'
          · simp only [hat, if_true] at h
            split_ifs at h
          · simp [hat]

theorem tokenizeLoop_stepPiece_some (c : Char) (h1 : c ≠ '<') (h2 : c ≠ '>') (f f2 : Nat)
    (A : List Char) (h : stepPiece c f = some (f2, A)) (r o : List Char) :
    tokenizeLoop (c :: r) f [] o = tokenizeLoop r f2 [] (o ++ A) := by
  unfold stepPiece at h
  by_cases hs : isspace c = true
  · simp only [hs, if_true, Option.some.injEq, Prod.mk.injEq] at h
    obtain ⟨rfl, rfl⟩ := h
    rw [tokenizeLoop_space hs, List.append_nil]
  · have hs2 : isspace c = false := by simpa using hs
    simp only [hs, if_false] at h
    by_cases hp : isPlainOp c = true
    · simp only [hp, if_true, Option.some.injEq, Prod.mk.injEq] at h
      obtain ⟨rfl, rfl⟩ := h
      rw [tokenizeLoop_plainOp hp]
      unfold flushed
      split <;> simp
    · simp only [hp, if_false] at h
      have hc := not_plainOp_not_opchar h1 h2 hp
      by_cases ho : isOperand c = true
      · rw [tokenizeLoop_other hs2 hc]
        simp only [ho, if_true] at h ⊢
        by_cases h0 : f = 0 ∧ c ≠ '*'
        · simp [h0] at h
        · simp only [h0, if_false, Option.some.injEq, Prod.mk.injEq] at h ⊢
          obtain ⟨rfl, rfl⟩ := h
          rw [tokenizeLoop_norm0]
          by_cases hf0 : f = 0 <;> simp [hf0]
      · simp only [ho, if_false] at h
        by_cases hcol : c = ':'
        · subst hcol
          simp only [if_true, Option.some.injEq, Prod.mk.injEq] at h
          obtain ⟨rfl, rfl⟩ := h
          rw [tokenizeLoop_colon]
          by_cases hf0 : f = 0
          · simp only [hf0, if_true]
            exact tokenizeLoop_norm r 1 (by decide) _ o
          · simp only [hf0, if_false]
            rw [tokenizeLoop_norm r 1 (by decide) _ o]
            simp
        · simp only [hcol, if_false] at h
          by_cases hat : c = '@'
          · subst hat
            simp only [if_true] at h
            rw [tokenizeLoop_at]
            by_cases hf0 : f = 0
            · simp only [hf0, if_true, Option.some.injEq, Prod.mk.injEq] at h ⊢
              obtain ⟨rfl, rfl⟩ := h
              exact tokenizeLoop_norm r 2 (by decide) _ o
            · simp only [hf0, if_false] at h ⊢
              by_cases hf1 : f = 1
              · simp only [hf1, if_true, Option.some.injEq, Prod.mk.injEq] at h ⊢
                obtain ⟨rfl, rfl⟩ := h
                rw [tokenizeLoop_norm r 2 (by decide) _ o]
                simp
              · simp only [hf1, if_false] at h ⊢
                by_cases hf2 : f = 2
                · simp only [hf2, if_true, Option.some.injEq, Prod.mk.injEq] at h ⊢
                  obtain ⟨rfl, rfl⟩ := h
                  rw [tokenizeLoop_norm r 2 (by decide) _ o]
                  simp
                · simp only [hf2, if_false, Option.some.injEq, Prod.mk.injEq] at h ⊢
                  obtain ⟨rfl, rfl⟩ := h
                  simp
          · simp [hat] at h

theorem tokenizeLoop_runPiece_none (s : List Char) (hs : noDist s) (f : Nat)
    (h : runPiece s f = none) (rest o : List Char) :
    tokenizeLoop (s ++ rest) f [] o = none := by
  induction s generalizing f o with
  | nil => simp [runPiece] at h
  | cons c s ih =>
    obtain ⟨h1, h2⟩ := hs c (List.mem_cons_self _ _)
    rw [runPiece] at h
    cases hst : stepPiece c f with
    | none => exact tokenizeLoop_stepPiece_none c h1 h2 f hst _ _
    | some p =>
      obtain ⟨f2, A⟩ := p
      simp only [hst] at h
      rw [List.cons_append, tokenizeLoop_stepPiece_some c h1 h2 f f2 A hst]
      apply ih (fun x hx => hs x (List.mem_cons_of_mem _ hx))
      cases hr : runPiece s f2 with
      | none => rfl
      | some q => simp [hr] at h

theorem tokenizeLoop_runPiece_some (s : List Char) (hs : noDist s) (f f2 : Nat)
    (A : List Char) (h : runPiece s f = some (f2, A)) (rest o : List Char) :
    tokenizeLoop (s ++ rest) f [] o = tokenizeLoop rest f2 [] (o ++ A) := by
  induction s generalizing f o A with
  | nil =>
    simp only [runPiece, Option.some.injEq, Prod.mk.injEq] at h
    obtain ⟨rfl, rfl⟩ := h
    simp
  | cons c s ih =>
    obtain ⟨h1, h2⟩ := hs c (List.mem_cons_self _ _)
    rw [runPiece] at h
    cases hst : stepPiece c f with
    | none => simp [hst] at h
    | some p =>
      obtain ⟨f1, A1⟩ := p
      simp only [hst] at h
      cases hr : runPiece s f1 with
      | none => simp [hr] at h
      | some q =>
        obtain ⟨f3, A2⟩ := q
        simp only [hr, Option.some.injEq, Prod.mk.injEq] at h
        obtain ⟨rfl, rfl⟩ := h
        rw [List.cons_append, tokenizeLoop_stepPiece_some c h1 h2 f f1 A1 hst,
          ih (fun x hx => hs x (List.mem_cons_of_mem _ hx)) f1 A2 hr, List.append_assoc]

theorem eqStar_noDist {c : Char} (h1 : c ≠ '<') (h2 : c ≠ '>') :
    eqStar c ≠ '<' ∧ eqStar c ≠ '>' := by
  unfold eqStar
  split
  · exact ⟨by decide, by decide⟩
  · exact ⟨h1, h2⟩

theorem stepPiece_noDist (c : Char) (h1 : c ≠ '<') (h2 : c ≠ '>') (f f2 : Nat)
    (A : List Char) (h : stepPiece c f = some (f2, A)) : noDist A := by
  have he := eqStar_noDist h1 h2
  unfold stepPiece at h
  unfold noDist
  split_ifs at h <;> simp only [Option.some.injEq, Prod.mk.injEq] at h <;>
    obtain ⟨-, rfl⟩ := h <;>
    simp [h1, h2, he.1, he.2]

theorem runPiece_noDist (s : List Char) (hs : noDist s) (f f2 : Nat) (A : List Char)
    (h : runPiece s f = some (f2, A)) : noDist A := by
  induction s generalizing f A with
  | nil =>
    simp only [runPiece, Option.some.injEq, Prod.mk.injEq] at h
    obtain ⟨-, rfl⟩ := h
    intro x hx; simp at hx
  | cons c s ih =>
    obtain ⟨h1, h2⟩ := hs c (List.mem_cons_self _ _)
    rw [runPiece] at h
    cases hst : stepPiece c f with
    | none => simp [hst] at h
    | some p =>
      obtain ⟨f1, A1⟩ := p
      simp only [hst] at h
      cases hr : runPiece s f1 with
      | none => simp [hr] at h
      | some q =>
        obtain ⟨f3, A2⟩ := q
        simp only [hr, Option.some.injEq, Prod.mk.injEq] at h
        obtain ⟨rfl, rfl⟩ := h
        intro x hx
        rcases List.mem_append.1 hx with hx | hx
        · exact stepPiece_noDist c h1 h2 f f1 A1 hst x hx
        · exact ih (fun x hx => hs x (List.mem_cons_of_mem _ hx)) f1 A2 hr x hx

theorem strictScan_append (a b : List Char) (fl : Bool) (d : Nat) :
    strictScan (a ++ b) fl d =
      (strictScan a fl d).bind (fun p => strictScan b p.2 p.1) := by
  induction a generalizing fl d with
  | nil => simp [strictScan]
  | cons c a ih =>
    simp only [List.cons_append, strictScan]
    split_ifs <;> simp [ih]

theorem strictScan_body (body r : List Char) (h : ∀ c ∈ body, c ≠ ']') (d : Nat) :
    strictScan (body ++ r) true d = strictScan r true d := by
  induction body with
  | nil => rfl
  | cons c body ih =>
    have hc := h c (List.mem_cons_self _ _)
    rw [List.cons_append, ← ih (fun x hx => h x (List.mem_cons_of_mem _ hx))]
    simp [strictScan, hc]

theorem stepPiece_scan (c : Char) (f f2 : Nat) (hf : f ≤ 2) (A : List Char)
    (h : stepPiece c f = some (f2, A)) (D D2 : Nat) (hD : parenDepth [c] D = some D2) :
    f2 ≤ 2 ∧
      strictScan A (decide (f ≠ 0)) (D + (if f = 0 then 0 else 1)) =
        some (D2 + (if f2 = 0 then 0 else 1), decide (f2 ≠ 0)) := by
  unfold stepPiece at h
  by_cases hs : isspace c = true
  · have e : D2 = D := by
      rcases isspace_cases hs with e | e | e | e | e | e <;> subst e <;>
        simpa [parenDepth] using hD.symm
    simp only [hs, if_true, Option.some.injEq, Prod.mk.injEq] at h
    obtain ⟨rfl, rfl⟩ := h
    subst e
    exact ⟨hf, by simp [strictScan]⟩
  · simp only [hs, if_false] at h
    by_cases hp : isPlainOp c = true
    · simp only [hp, if_true, Option.some.injEq, Prod.mk.injEq] at h
      obtain ⟨rfl, rfl⟩ := h
      refine ⟨by omega, ?_⟩
      rcases isPlainOp_cases hp with e | e | e | e | e <;> subst e <;>
        simp only [parenDepth, Char.reduceEq, if_false, if_true] at hD
      · injection hD with hD; subst hD
        interval_cases f <;> simp [strictScan, isOperator, strchr]
      · injection hD with hD; subst hD
        interval_cases f <;> simp [strictScan, isOperator, strchr]
      · injection hD with hD; subst hD
        interval_cases f <;> simp [strictScan, isOperator, strchr]
      · injection hD with hD; subst hD
        interval_cases f <;> simp [strictScan, isOperator, strchr]
      · by_cases h0 : D = 0
        · simp [h0] at hD
        · simp only [h0, if_false] at hD
          injection hD with hD; subst hD
          interval_cases f <;> simp [strictScan, isOperator, strchr, h0]
    · simp only [hp, if_false] at h
      have e : D2 = D := by
        have ho : c ≠ '(' := by
          rintro rfl; exact hp (by decide)
        have hcl : c ≠ ')' := by
          rintro rfl; exact hp (by decide)
        simpa [parenDepth, ho, hcl] using hD.symm
      subst e
      by_cases ho : isOperand c = true
      · simp only [ho, if_true] at h
        by_cases h0 : f = 0 ∧ c ≠ '*'
        · simp [h0] at h
        · simp only [h0, if_false, Option.some.injEq, Prod.mk.injEq] at h
          obtain ⟨rfl, rfl⟩ := h
          have hne : eqStar c ≠ ']' := isTermChar_ne_close (isTermChar_eqStar ho)
          refine ⟨by split <;> omega, ?_⟩
          interval_cases f <;> simp [strictScan, hne]
      · simp only [ho, if_false] at h
        by_cases hcol : c = ':'
        · simp only [hcol, if_true, Option.some.injEq, Prod.mk.injEq] at h
          obtain ⟨rfl, rfl⟩ := h
          refine ⟨by omega, ?_⟩
          interval_cases f <;> simp [strictScan, isOperator, strchr]
        · simp only [hcol, if_false] at h
          by_cases hat : c = '@'
          · simp only [hat, if_true] at h
            interval_cases f <;>
              simp only [if_true, if_false, OfNat.one_ne_ofNat, OfNat.ofNat_ne_zero,
                OfNat.ofNat_ne_one, one_ne_zero, Option.some.injEq, Prod.mk.injEq] at h <;>
              obtain ⟨rfl, rfl⟩ := h <;>
              exact ⟨by omega, by simp [strictScan, isOperator, strchr]⟩
          · simp [hat] at h

theorem runPiece_scan (s : List Char) (f f2 : Nat) (hf : f ≤ 2) (A : List Char)
    (h : runPiece s f = some (f2, A)) (D D2 : Nat) (hD : parenDepth s D = some D2) :
    f2 ≤ 2 ∧
      strictScan A (decide (f ≠ 0)) (D + (if f = 0 then 0 else 1)) =
        some (D2 + (if f2 = 0 then 0 else 1), decide (f2 ≠ 0)) := by
  induction s generalizing f A D with
  | nil =>
    simp only [runPiece, Option.some.injEq, Prod.mk.injEq] at h
    obtain ⟨rfl, rfl⟩ := h
    simp only [parenDepth, Option.some.injEq] at hD
    subst hD
    exact ⟨hf, by simp [strictScan]⟩
  | cons c s ih =>
    obtain ⟨D1, hc, hrest⟩ := parenDepth_cons c s D D2 hD
    rw [runPiece] at h
    cases hst : stepPiece c f with
    | none => simp [hst] at h
    | some p =>
      obtain ⟨f1, A1⟩ := p
      simp only [hst] at h
      cases hr : runPiece s f1 with
      | none => simp [hr] at h
      | some q =>
        obtain ⟨f3, A2⟩ := q
        simp only [hr, Option.some.injEq, Prod.mk.injEq] at h
        obtain ⟨rfl, rfl⟩ := h
        obtain ⟨hf1, hs1⟩ := stepPiece_scan c f f1 hf A1 hst D D1 hc
        obtain ⟨hf3, hs3⟩ := ih f1 hf1 A2 hr D1 hrest
        refine ⟨hf3, ?_⟩
        rw [strictScan_append, hs1]
        exact hs3

theorem Term.text_noDist (t : Term) (ht : t.Valid) : noDist t.text := by
  intro c hc
  unfold Term.text termText at hc
  rcases List.mem_cons.mp hc with e | h
  · rcases ht.1 with h0 | h0 <;> rw [e, h0] <;> exact ⟨by decide, by decide⟩
  · obtain ⟨d, hd, rfl⟩ := List.mem_map.mp h
    have := (isOperand_not_special (ht.2 d hd)).1
    apply eqStar_noDist <;> rintro rfl <;> revert this <;> decide

/-- The tokenizer on an enclosed expression followed by more text: either a syntax
error, or its stream is one pair of parentheses around a piece that never closes more
than it opened and holds no `<` or `>`; the scanner is between terms afterwards. -/
theorem tokenizeLoop_enclosed (E : List Char) (hE : Enclosed E) :
    (∀ O rest, tokenizeLoop (E ++ rest) 0 [] O = none) ∨
    ∃ T, strictScan T false 0 = some (0, false) ∧ noDist T ∧
      ∀ O rest, closes rest →
        tokenizeLoop (E ++ rest) 0 [] O = tokenizeLoop rest 0 [] (O ++ '(' :: (T ++ [')'])) := by
  rcases hE with ⟨t, ht, rfl⟩ | rfl | ⟨inner, rfl, hs, hD⟩
  · right
    refine ⟨'[' :: (t.text ++ [']']), ?_, ?_, fun O rest hrest => ?_⟩
    · rw [strictScan]
      simp only [if_true]
      rw [strictScan_body _ _ (t.text_ne_close ht)]
      simp [strictScan]
    · intro c hc
      simp only [List.mem_cons, List.mem_append, List.mem_singleton, List.not_mem_nil,
        or_false] at hc
      rcases hc with e | hc | e
      · subst e; exact ⟨by decide, by decide⟩
      · exact t.text_noDist ht c hc
      · subst e; exact ⟨by decide, by decide⟩
    · rw [tokenizeLoop_one_term t ht rest O hrest]
      simp
  · right
    refine ⟨['[', '*', ']'], by decide, by decide, fun O rest hrest => ?_⟩
    rw [List.singleton_append,
      tokenizeLoop_stepPiece_some '*' (by decide) (by decide) 0 1 ['(', '[', '*'] (by decide),
      tokenizeLoop_close_term rest 1 (by decide) [] _ hrest]
    simp
  · cases hr : runPiece inner 0 with
    | none =>
      left
      intro O rest
      rw [List.cons_append, tokenizeLoop_plainOp (by decide), tokenizeLoop_flag0_buffer,
        List.append_assoc, tokenizeLoop_runPiece_none inner hs 0 hr]
    | some p =>
      obtain ⟨f2, A⟩ := p
      right
      obtain ⟨hf2, hscan⟩ := runPiece_scan inner 0 f2 (by omega) A hr 0 0 hD
      have hnd := runPiece_noDist inner hs 0 f2 A hr
      refine ⟨A ++ (if f2 > 0 then [']', ')'] else []), ?_, ?_, fun O rest _ => ?_⟩
      · have hscan2 : strictScan A false 0 =
            some (0 + (if f2 = 0 then 0 else 1), decide (f2 ≠ 0)) := hscan
        rw [strictScan_append, hscan2]
        simp only [Option.some_bind]
        interval_cases f2 <;> simp [strictScan]
      · intro c hc
        rcases List.mem_append.1 hc with hc | hc
        · exact hnd c hc
        · split_ifs at hc
          · simp only [List.mem_cons, List.mem_singleton, List.not_mem_nil, or_false] at hc
            rcases hc with e | e <;> subst e <;> exact ⟨by decide, by decide⟩
          · simp at hc
      · rw [List.cons_append, tokenizeLoop_plainOp (by decide), tokenizeLoop_flag0_buffer,
          List.append_assoc, tokenizeLoop_runPiece_some inner hs 0 f2 A hr,
          List.singleton_append, tokenizeLoop_plainOp (by decide), tokenizeLoop_flag0_buffer]
        unfold flushed
        simp only [Nat.lt_irrefl, if_false, gt_iff_lt]
        split <;> simp

/-! ## `torpn` on a stream without distance operators -/

theorem plainScan_append (a b : List Char) (fl : Bool) :
    plainScan (a ++ b) fl = (plainScan a fl).bind (fun fl2 => plainScan b fl2) := by
  induction a generalizing fl with
  | nil => simp [plainScan]
  | cons c a ih =>
    simp only [List.cons_append, plainScan]
    split_ifs <;> simp [ih]

theorem plainScan_operators (Q : List Char) (h : ∀ x ∈ Q, x = '!' ∨ x = '&' ∨ x = '|') :
    plainScan Q false = some false := by
  induction Q with
  | nil => rfl
  | cons c Q ih =>
    have hc := h c (List.mem_cons_self _ _)
    have ihq := ih (fun x hx => h x (List.mem_cons_of_mem _ hx))
    rcases hc with e | e | e <;> subst e <;> simpa [plainScan] using ihq

theorem isStackChar_cases {c : Char} (h : isStackChar c = true) :
    c = '!' ∨ c = '&' ∨ c = '|' ∨ c = '(' := by
  simpa [isStackChar] using h

theorem isStackChar_priority {c : Char} (h : isStackChar c = true) : priority c ≠ 0 := by
  rcases isStackChar_cases h with e | e | e | e <;> subst e <;> decide

/-- Pushing `!`, `&` or `|` on a stack with an open parenthesis below the entries `V`:
the entries popped are operators of `V`, and nothing below the parenthesis is seen. -/
theorem pushOperator_plain (c : Char) (hc : c = '!' ∨ c = '&' ∨ c = '|') (V : List Char)
    (hV : ∀ x ∈ V, isStackChar x = true) :
    ∃ V2 Q, (∀ x ∈ V2, isStackChar x = true) ∧ V2.count '(' = V.count '(' ∧
      (∀ x ∈ Q, x = '!' ∨ x = '&' ∨ x = '|') ∧
      ∀ B out, pushOperator c (V ++ '(' :: B) out = Outcome.ok (V2 ++ '(' :: B, out ++ Q) := by
  have hpc : 3 ≤ priority c := by
    rcases hc with e | e | e <;> subst e <;> decide
  have hsc : isStackChar c = true := by
    rcases hc with e | e | e <;> subst e <;> decide
  have hcp : c ≠ '(' := by
    rcases hc with e | e | e <;> subst e <;> decide
  induction V with
  | nil =>
    refine ⟨[c], [], ?_, ?_, by simp, fun B out => ?_⟩
    · intro x hx; rw [List.mem_singleton.1 hx]; exact hsc
    · simp [List.count_cons_of_ne (Ne.symm hcp)]
    · have h2 : priority '(' = 2 := by decide
      have h0 : priority c ≠ 0 := by omega
      have hgt : priority c > priority '(' := by omega
      have hp0 : priority '(' ≠ 0 := by decide
      simp [pushOperator, h0, hp0, hgt]
  | cons top V ih =>
    have htop := hV top (List.mem_cons_self _ _)
    have htop0 := isStackChar_priority htop
    have h0 : priority c ≠ 0 := by omega
    by_cases hgt : priority c > priority top
    · refine ⟨c :: top :: V, [], ?_, ?_, by simp, fun B out => ?_⟩
      · intro x hx
        rcases List.mem_cons.1 hx with e | hx
        · rw [e]; exact hsc
        · exact hV x hx
      · rw [List.count_cons_of_ne (Ne.symm hcp)]
      · simp [pushOperator, h0, htop0, hgt]
    · have hne : top ≠ '(' := by
        rintro rfl
        have : priority '(' = 2 := by decide
        omega
      have hop : top = '!' ∨ top = '&' ∨ top = '|' := by
        rcases isStackChar_cases htop with e | e | e | e
        · exact Or.inl e
        · exact Or.inr (Or.inl e)
        · exact Or.inr (Or.inr e)
        · exact (hne e).elim
      obtain ⟨V2, Q, h1, h2, h3, h4⟩ := ih (fun x hx => hV x (List.mem_cons_of_mem _ hx))
      refine ⟨V2, top :: Q, h1, by rw [h2, List.count_cons_of_ne (Ne.symm hne)], ?_,
        fun B out => ?_⟩
      · intro x hx
        rcases List.mem_cons.1 hx with e | hx
        · rw [e]; exact hop
        · exact h3 x hx
      · rw [List.cons_append, pushOperator]
        simp only [h0, htop0, or_self, if_false, hgt]
        rw [h4 B (out ++ [top])]
        simp

/-- Closing a parenthesis that was opened above the base parenthesis. -/
theorem popToParen_plain (V : List Char) (hV : ∀ x ∈ V, isStackChar x = true)
    (hcount : 0 < V.count '(') :
    ∃ V2 Q, (∀ x ∈ V2, isStackChar x = true) ∧ V2.count '(' + 1 = V.count '(' ∧
      (∀ x ∈ Q, x = '!' ∨ x = '&' ∨ x = '|') ∧
      ∀ B out, popToParen (V ++ '(' :: B) out = Outcome.ok (V2 ++ '(' :: B, out ++ Q) := by
  induction V with
  | nil => simp at hcount
  | cons top V ih =>
    by_cases hp : top = '('
    · subst hp
      exact ⟨V, [], fun x hx => hV x (List.mem_cons_of_mem _ hx), by simp, by simp,
        fun B out => by simp [popToParen]⟩
    · have hop : top = '!' ∨ top = '&' ∨ top = '|' := by
        rcases isStackChar_cases (hV top (List.mem_cons_self _ _)) with e | e | e | e
        · exact Or.inl e
        · exact Or.inr (Or.inl e)
        · exact Or.inr (Or.inr e)
        · exact (hp e).elim
      have hc2 : 0 < V.count '(' := by
        rwa [List.count_cons_of_ne (Ne.symm hp)] at hcount
      obtain ⟨V2, Q, h1, h2, h3, h4⟩ := ih (fun x hx => hV x (List.mem_cons_of_mem _ hx)) hc2
      refine ⟨V2, top :: Q, h1, by rw [h2, List.count_cons_of_ne (Ne.symm hp)], ?_,
        fun B out => ?_⟩
      · intro x hx
        rcases List.mem_cons.1 hx with e | hx
        · rw [e]; exact hop
        · exact h3 x hx
      · have hu : top ≠ '_' := by
          rcases hop with e | e | e <;> subst e <;> decide
        rw [List.cons_append, popToParen]
        simp only [hp, if_false, hu]
        rw [h4 B (out ++ [top])]
        simp

/-- Closing the base parenthesis: the operators above it are emitted and the stack
below it is left as it was. -/
theorem popToParen_base (V : List Char) (hV : ∀ x ∈ V, isStackChar x = true)
    (hcount : V.count '(' = 0) (B out : List Char) :
    popToParen (V ++ '(' :: B) out = Outcome.ok (B, out ++ V) ∧
      ∀ x ∈ V, x = '!' ∨ x = '&' ∨ x = '|' := by
  induction V generalizing out with
  | nil => simp [popToParen]
  | cons top V ih =>
    have hp : top ≠ '(' := by
      rintro rfl
      simp at hcount
    have hop : top = '!' ∨ top = '&' ∨ top = '|' := by
      rcases isStackChar_cases (hV top (List.mem_cons_self _ _)) with e | e | e | e
      · exact Or.inl e
      · exact Or.inr (Or.inl e)
      · exact Or.inr (Or.inr e)
      · exact (hp e).elim
    have hc2 : V.count '(' = 0 := by
      rwa [List.count_cons_of_ne (Ne.symm hp)] at hcount
    obtain ⟨h1, h2⟩ := ih (fun x hx => hV x (List.mem_cons_of_mem _ hx)) hc2 (out ++ [top])
    have hu : top ≠ '_' := by
      rcases hop with e | e | e <;> subst e <;> decide
    refine ⟨?_, ?_⟩
    · rw [List.cons_append, popToParen]
      simp only [hp, if_false, hu]
      rw [h1]
      simp
    · intro x hx
      rcases List.mem_cons.1 hx with e | hx
      · rw [e]; exact hop
      · exact h2 x hx

/-- A piece of a stream without distance operators whose parentheses stay above the base
parenthesis: `torpn` adds to its output a piece of plain postfix text that does not depend
on what is below the base parenthesis nor on the output written before. -/
theorem torpnLoop_plain (T : List Char) (fl : Bool) (d d2 : Nat) (fl2 : Bool)
    (h : strictScan T fl d = some (d2, fl2)) (hnd : noDist T) (V : List Char)
    (hV : ∀ x ∈ V, isStackChar x = true) (hcount : V.count '(' = d) :
    ∃ V2 P, (∀ x ∈ V2, isStackChar x = true) ∧ V2.count '(' = d2 ∧
      plainScan P fl = some fl2 ∧
      ∀ rest B out, torpnLoop (T ++ rest) (V ++ '(' :: B) fl out =
        torpnLoop rest (V2 ++ '(' :: B) fl2 (out ++ P) := by
  induction T generalizing fl d V with
  | nil =>
    simp only [strictScan, Option.some.injEq, Prod.mk.injEq] at h
    obtain ⟨e1, e2⟩ := h
    subst e1; subst e2
    exact ⟨V, [], hV, hcount, rfl, fun rest B out => by simp⟩
  | cons c T ih =>
    obtain ⟨hlt, hgt⟩ := hnd c (List.mem_cons_self _ _)
    have hndT : noDist T := fun x hx => hnd x (List.mem_cons_of_mem _ hx)
    have hdist : ¬ (c = '<' ∨ c = '>') := fun e => e.elim hlt hgt
    rw [strictScan] at h
    by_cases h1 : c = '['
    · simp only [h1, if_true] at h
      obtain ⟨V2, P, ha, hb, hp, hc⟩ := ih true d h hndT V hV hcount
      refine ⟨V2, '[' :: P, ha, hb, by simpa [plainScan] using hp, fun rest B out => ?_⟩
      rw [h1, List.cons_append, torpnLoop]
      simp only [if_true]
      rw [hc rest B]
      simp
    · by_cases h2 : c = ']'
      · simp only [h2, Char.reduceEq, if_false, if_true] at h
        by_cases hfl : fl = true
        · subst hfl
          simp only [if_true] at h
          obtain ⟨V2, P, ha, hb, hp, hc⟩ := ih false d h hndT V hV hcount
          refine ⟨V2, ']' :: P, ha, hb, by simpa [plainScan] using hp, fun rest B out => ?_⟩
          rw [h2, List.cons_append, torpnLoop]
          simp only [Char.reduceEq, if_false, if_true]
          rw [hc rest B]
          simp
        · simp [hfl] at h
      · by_cases h3 : fl = true
        · simp only [h1, h2, if_false, h3, if_true] at h
          obtain ⟨V2, P, ha, hb, hp, hc⟩ := ih true d h hndT V hV hcount
          subst h3
          refine ⟨V2, c :: P, ha, hb, by simpa [plainScan, hdist, h1, h2] using hp,
            fun rest B out => ?_⟩
          rw [List.cons_append, torpnLoop]
          simp only [h1, h2, if_false, if_true]
          rw [hc rest B]
          simp
        · have h3 : fl = false := by simpa using h3
          subst h3
          by_cases h4 : c = '('
          · simp only [h4, Char.reduceEq, if_false, if_true, Bool.false_eq_true] at h
            obtain ⟨V2, P, ha, hb, hp, hc⟩ := ih false (d + 1) h hndT ('(' :: V)
              (by
                intro x hx
                rcases List.mem_cons.mp hx with e | hx
                · rw [e]; decide
                · exact hV x hx)
              (by simp [hcount])
            refine ⟨V2, P, ha, hb, hp, fun rest B out => ?_⟩
            rw [h4, List.cons_append, torpnLoop_open]
            exact hc rest B out
          · by_cases h5 : c = ')'
            · simp only [h5, Char.reduceEq, if_false, if_true, Bool.false_eq_true] at h
              by_cases hd : d = 0
              · simp [hd] at h
              · simp only [hd, if_false] at h
                obtain ⟨V1, Q, ha1, hb1, hq, hc1⟩ := popToParen_plain V hV (by omega)
                obtain ⟨V2, P, ha, hb, hp, hc⟩ := ih false (d - 1) h hndT V1 ha1 (by omega)
                refine ⟨V2, Q ++ P, ha, hb, ?_, fun rest B out => ?_⟩
                · rw [plainScan_append, plainScan_operators Q hq]
                  exact hp
                · rw [h5, List.cons_append, torpnLoop_close _ _ _ _ _ (hc1 B out), hc rest B]
                  simp
            · by_cases h6 : isOperator c = true
              · simp only [h1, h2, h4, h5, h6, if_false, if_true, Bool.false_eq_true] at h
                have hop : c = '!' ∨ c = '&' ∨ c = '|' := by
                  rcases isOperator_cases h6 with e | e | e | e | e
                  · exact Or.inl e
                  · exact Or.inr (Or.inl e)
                  · exact Or.inr (Or.inr e)
                  · exact (hlt e).elim
                  · exact (hgt e).elim
                obtain ⟨V1, Q, ha1, hb1, hq, hc1⟩ := pushOperator_plain c hop V hV
                obtain ⟨V2, P, ha, hb, hp, hc⟩ := ih false d h hndT V1 ha1 (by omega)
                refine ⟨V2, Q ++ P, ha, hb, ?_, fun rest B out => ?_⟩
                · rw [plainScan_append, plainScan_operators Q hq]
                  exact hp
                · rw [List.cons_append, torpnLoop_op c h6 _ _ _ _ _ (hc1 B out), hc rest B]
                  simp
              · simp [h1, h2, h4, h5, h6] at h

/-- The stream of an enclosed expression without distance operators: `torpn` adds one
piece of plain postfix text to the output and leaves the operator stack as it found it. -/
theorem torpnLoop_enclosed (T : List Char) (h : strictScan T false 0 = some (0, false))
    (hnd : noDist T) :
    ∃ P, plainScan P false = some false ∧
      ∀ rest B out, torpnLoop ('(' :: (T ++ ')' :: rest)) B false out =
        torpnLoop rest B false (out ++ P) := by
  obtain ⟨V2, P, ha, hb, hp, hc⟩ := torpnLoop_plain T false 0 0 false h hnd [] (by simp) rfl
  refine ⟨P ++ V2, ?_, fun rest B out => ?_⟩
  · rw [plainScan_append, hp]
    exact plainScan_operators V2 (popToParen_base V2 ha hb [] []).2
  · have e := hc (')' :: rest) B out
    simp only [List.nil_append] at e
    rw [torpnLoop_open, e,
      torpnLoop_close _ _ _ _ _ (popToParen_base V2 ha hb B (out ++ P)).1]
    simp

/-! ## Every primitive selection keeps the entries `'T'` and `'F'` -/

theorem IsTF.set_T {m : List Char} (h : IsTF m) (j : Nat) : IsTF (m.set j 'T') := by
  intro c hc
  rcases List.mem_or_eq_of_mem_set hc with h1 | h1
  · exact h c h1
  · exact Or.inl h1

theorem IsTF.of_replicate (n : Nat) : IsTF (List.replicate n 'F') := by
  intro c hc
  exact Or.inr (List.eq_of_mem_replicate hc)

theorem foldl_TF {α : Type} (f : List Char → α → List Char)
    (hf : ∀ m x, IsTF m → IsTF (f m x)) (xs : List α) (m : List Char) (hm : IsTF m) :
    IsTF (xs.foldl f m) := by
  induction xs generalizing m with
  | nil => exact hm
  | cons x xs ih => rw [List.foldl_cons]; exact ih _ (hf m x hm)

theorem setRange_TF (m : List Char) (lo hi : Nat) (hm : IsTF m) : IsTF (setRange m lo hi) :=
  foldl_TF _ (fun _ _ h => h.set_T _) _ _ hm

theorem resnum_select_TF (r1 r2 : Int) (m : List Char) (residues : Nat) (ipres : List Nat)
    (hm : IsTF m) : IsTF (resnum_select r1 r2 m residues ipres) :=
  foldl_TF _ (fun m i h => by
    split
    · exact setRange_TF _ _ _ h
    · exact h) _ _ hm

theorem resname_select_TF (p m : List Char) (residues : Nat) (rn : List (List Char))
    (ipres : List Nat) (hm : IsTF m) : IsTF (resname_select p m residues rn ipres) :=
  foldl_TF _ (fun m i h => by
    split
    · exact setRange_TF _ _ _ h
    · exact h) _ _ hm

theorem all_select_TF (m : List Char) (atoms : Nat) (hm : IsTF m) :
    IsTF (all_select m atoms) :=
  foldl_TF _ (fun _ _ h => h.set_T _) _ _ hm

theorem atnum_select_TF (a1 a2 : Int) (m : List Char) (atoms : Nat) (hm : IsTF m) :
    IsTF (atnum_select a1 a2 m atoms) :=
  foldl_TF _ (fun m i h => by
    split
    · exact h.set_T _
    · exact h) _ _ hm

theorem atname_select_TF (p m : List Char) (atoms : Nat) (an : List (List Char))
    (hm : IsTF m) : IsTF (atname_select p m atoms an) :=
  foldl_TF _ (fun m i h => by
    split
    · exact h.set_T _
    · exact h) _ _ hm

theorem atelem_selectLoop_TF (p : List Char) (an : List (List Char)) (js : List Nat)
    (m : List Char) (hm : IsTF m) : IsTF (atelem_selectLoop p an js m) := by
  induction js generalizing m with
  | nil => exact hm
  | cons j js ih =>
    simp only [atelem_selectLoop]
    split
    · exact ih _ (hm.set_T _)
    · split
      · exact hm
      · exact ih _ hm

theorem atelem_select_TF (p m : List Char) (atoms : Nat) (an : List (List Char))
    (hm : IsTF m) : IsTF (atelem_select p m atoms an) :=
  atelem_selectLoop_TF _ _ _ _ hm

theorem numlistLoop_TF (sel : Int → Int → List Char → List Char)
    (hsel : ∀ a b m, IsTF m → IsTF (sel a b m)) (pp buffer : List Char) (r1 : Int)
    (dash : Bool) (m : List Char) (hm : IsTF m) :
    IsTF (numlistLoop sel pp buffer r1 dash m) := by
  induction pp generalizing buffer r1 dash m with
  | nil => exact hm
  | cons c rest ih =>
    rw [numlistLoop]
    split_ifs <;> (try split) <;>
      first
      | exact hm
      | exact hsel _ _ _ hm
      | exact ih _ _ _ _ hm
      | exact ih _ _ _ _ (hsel _ _ _ hm)

theorem residue_numlist_TF (pp m : List Char) (residues : Nat) (ipres : List Nat)
    (hm : IsTF m) : IsTF (residue_numlist pp m residues ipres) :=
  numlistLoop_TF _ (fun _ _ _ h => resnum_select_TF _ _ _ _ _ h) _ _ _ _ _ hm

theorem atom_numlist_TF (pp m : List Char) (atoms : Nat) (hm : IsTF m) :
    IsTF (atom_numlist pp m atoms) :=
  numlistLoop_TF _ (fun _ _ _ h => atnum_select_TF _ _ _ _ h) _ _ _ _ _ hm

theorem residue_namelistLoop_TF (residues : Nat) (rn : List (List Char)) (ipres : List Nat)
    (pp buffer m : List Char) (hm : IsTF m) :
    IsTF (residue_namelistLoop residues rn ipres pp buffer m) := by
  induction pp generalizing buffer m with
  | nil => exact hm
  | cons c rest ih =>
    rw [residue_namelistLoop]
    split_ifs <;>
      first
      | exact hm
      | exact residue_numlist_TF _ _ _ _ hm
      | exact resname_select_TF _ _ _ _ _ hm
      | exact ih _ _ hm
      | exact ih _ _ (residue_numlist_TF _ _ _ _ hm)
      | exact ih _ _ (resname_select_TF _ _ _ _ _ hm)

theorem atom_namelistLoop_TF (atoms : Nat) (an : List (List Char))
    (pp buffer m : List Char) (hm : IsTF m) :
    IsTF (atom_namelistLoop atoms an pp buffer m) := by
  induction pp generalizing buffer m with
  | nil => exact hm
  | cons c rest ih =>
    rw [atom_namelistLoop]
    split_ifs <;>
      first
      | exact hm
      | exact atom_numlist_TF _ _ _ hm
      | exact atname_select_TF _ _ _ _ hm
      | exact ih _ _ hm
      | exact ih _ _ (atom_numlist_TF _ _ _ hm)
      | exact ih _ _ (atname_select_TF _ _ _ _ hm)

theorem atom_elemlistLoop_TF (atoms : Nat) (an : List (List Char))
    (pp buffer m : List Char) (hm : IsTF m) :
    IsTF (atom_elemlistLoop atoms an pp buffer m) := by
  induction pp generalizing buffer m with
  | nil => exact hm
  | cons c rest ih =>
    rw [atom_elemlistLoop]
    split_ifs <;>
      first
      | exact hm
      | exact atelem_select_TF _ _ _ _ hm
      | exact ih _ _ hm
      | exact ih _ _ (atelem_select_TF _ _ _ _ hm)

theorem resMaskLoop_TF (U : Universe) (pp buffer : List Char) (k : ListKind)
    (m : List Char) (hm : IsTF m) : IsTF (resMaskLoop U pp buffer k m) := by
  induction pp generalizing buffer k m with
  | nil => exact hm
  | cons c rest ih =>
    rw [resMaskLoop]
    split_ifs <;> (try split) <;>
      first
      | exact hm
      | exact all_select_TF _ _ hm
      | exact residue_numlist_TF _ _ _ _ hm
      | exact residue_namelistLoop_TF _ _ _ _ _ _ hm
      | exact ih _ _ _ hm

theorem atomMaskLoop_TF (U : Universe) (pp buffer : List Char) (k : ListKind)
    (m : List Char) (hm : IsTF m) : IsTF (atomMaskLoop U pp buffer k m) := by
  induction pp generalizing buffer k m with
  | nil => exact hm
  | cons c rest ih =>
    rw [atomMaskLoop]
    split_ifs <;> (try split) <;>
      first
      | exact hm
      | exact all_select_TF _ _ hm
      | exact atom_numlist_TF _ _ _ hm
      | exact atom_namelistLoop_TF _ _ _ _ _ hm
      | exact atom_elemlistLoop_TF _ _ _ _ _ hm
      | exact ih _ _ _ hm

/-- The mask of an elementary selection whose text does not start with `<` or `>` holds
only `'T'` and `'F'`. -/
theorem selectElemMask_TF (U : Universe) (buffer m : List Char)
    (hb : buffer.head? ≠ some '<' ∧ buffer.head? ≠ some '>')
    (h : selectElemMask U buffer = some m) : IsTF m := by
  cases buffer with
  | nil =>
    simp only [selectElemMask, Option.some.injEq] at h
    subst h
    intro c hc; simp at hc
  | cons c s =>
    simp only [List.head?_cons, ne_eq, Option.some.injEq] at hb
    simp only [selectElemMask] at h
    split_ifs at h with h1 h2 h3 h4
    · rw [← Option.some.inj h]
      exact resMaskLoop_TF _ _ _ _ _ (IsTF.of_replicate _)
    · rw [← Option.some.inj h]
      exact atomMaskLoop_TF _ _ _ _ _ (IsTF.of_replicate _)
    · rw [← Option.some.inj h]
      exact all_select_TF _ _ (IsTF.of_replicate _)
    · exfalso
      have : c = '<' ∨ c = '>' := by simpa [strchr] using h4
      exact this.elim hb.1 hb.2

theorem buildMask_TF (f : Nat → Outcome Char)
    (hf : ∀ i c, f i = Outcome.ok c → c = 'T' ∨ c = 'F') (n : Nat) (l : List Char)
    (h : buildMask f n = Outcome.ok l) : IsTF l := by
  induction n generalizing l with
  | zero =>
    simp only [buildMask, Outcome.ok.injEq] at h
    subst h
    intro c hc; simp at hc
  | succ n ih =>
    rw [buildMask] at h
    cases h1 : buildMask f n with
    | ok l1 =>
      cases h2 : f n with
      | ok c =>
        simp only [h1, h2, Outcome.ok.injEq] at h
        subst h
        intro x hx
        rcases List.mem_append.1 hx with hx | hx
        · exact ih l1 h1 x hx
        · rw [List.mem_singleton.1 hx]; exact hf n c h2
      | fail => simp [h1, h2] at h
      | ub => simp [h1, h2] at h
    | fail =>
      cases h2 : f n <;> simp [h1, h2] at h
    | ub => simp [h1] at h

theorem binop_TF (c : Char) (m2 m1 : List Char) (atoms : Nat) (m : List Char)
    (h : binop c m2 m1 atoms = Outcome.ok m) : IsTF m := by
  unfold binop at h
  split_ifs at h
  · refine buildMask_TF _ (fun i x hx => ?_) _ _ h
    simp only at hx
    split at hx
    · simp at hx
    · split_ifs at hx
      · split at hx
        · simp at hx
        · simp only [Outcome.ok.injEq] at hx
          rw [← hx]; split <;> simp
      · simp only [Outcome.ok.injEq] at hx
        exact Or.inr hx.symm
  · refine buildMask_TF _ (fun i x hx => ?_) _ _ h
    simp only at hx
    split at hx
    · simp at hx
    · split_ifs at hx
      · simp only [Outcome.ok.injEq] at hx
        exact Or.inl hx.symm
      · split at hx
        · simp at hx
        · simp only [Outcome.ok.injEq] at hx
          rw [← hx]; split <;> simp

theorem neg_TF (m1 : List Char) (atoms : Nat) (m : List Char) (h1 : IsTF m1)
    (h : neg m1 atoms = Outcome.ok m) : IsTF m := by
  unfold neg at h
  split_ifs at h
  simp only [Outcome.ok.injEq] at h
  rw [← h]
  refine foldl_TF _ (fun m i hm => ?_) _ _ h1
  intro c hc
  rcases List.mem_or_eq_of_mem_set hc with h2 | h2
  · exact hm c h2
  · rw [h2]; split <;> simp

/-! ## `eval` on postfix text without distance operators -/

theorem noDist_head {b : List Char} (hb : noDist b) :
    b.head? ≠ some '<' ∧ b.head? ≠ some '>' := by
  cases b with
  | nil => simp
  | cons c r =>
    have := hb c (List.mem_cons_self _ _)
    simpa using this

theorem noDist_snoc {b : List Char} (hb : noDist b) {c : Char} (h1 : c ≠ '<')
    (h2 : c ≠ '>') : noDist (b ++ [c]) := by
  intro x hx
  rcases List.mem_append.1 hx with hx | hx
  · exact hb x hx
  · rw [List.mem_singleton.1 hx]; exact ⟨h1, h2⟩

/-- A successful evaluation of plain postfix text: the coordinates are not touched, the
masks it leaves hold only `'T'` and `'F'`, and the same text evaluates in the same way
above any further stack entries, before any further text and with any coordinates. -/
theorem evalLoop_plain {Coords : Type} (U : Universe) (type : Char)
    (distd : Option (List Char) → Option (List Char) → Coords → Outcome (List Char × Coords))
    (P : List Char) (fl fl2 : Bool) (hP : plainScan P fl = some fl2) (b : List Char)
    (hb : noDist b) (s s2 : List (Option (List Char))) (X X2 : Option Coords)
    (hs : ∀ m, some m ∈ s → IsTF m)
    (h : evalLoop U type distd P b s X = Outcome.ok (s2, X2)) :
    X2 = X ∧ (∀ m, some m ∈ s2 → IsTF m) ∧
      ∀ (Q b3 : List Char) (S : List (Option (List Char))) (X3 : Option Coords),
        (fl = true → b3 = b) →
        ∃ b4, evalLoop U type distd (P ++ Q) b3 (s ++ S) X3 =
          evalLoop U type distd Q b4 (s2 ++ S) X3 := by
  induction P generalizing fl b s with
  | nil =>
    rw [evalLoop_nil] at h
    injection h with h
    injection h with e1 e2
    subst e1; subst e2
    exact ⟨rfl, hs, fun Q b3 S X3 _ => ⟨b3, rfl⟩⟩
  | cons c P ih =>
    rw [plainScan] at hP
    by_cases hd : c = '<' ∨ c = '>'
    · simp [hd] at hP
    · simp only [hd, if_false] at hP
      have hlt : c ≠ '<' := fun e => hd (Or.inl e)
      have hgt : c ≠ '>' := fun e => hd (Or.inr e)
      rw [evalLoop] at h
      by_cases h1 : c = '['
      · simp only [h1, if_true] at hP h
        obtain ⟨e, tf, k⟩ := ih true hP [] (by intro x hx; simp at hx) s hs h
        refine ⟨e, tf, fun Q b3 S X3 _ => ?_⟩
        obtain ⟨b4, hb4⟩ := k Q [] S X3 (fun _ => rfl)
        refine ⟨b4, ?_⟩
        rw [h1, List.cons_append, evalLoop]
        simp only [if_true]
        exact hb4
      · simp only [h1, if_false] at hP h
        by_cases h2 : c = ']'
        · simp only [h2, if_true] at hP h
          by_cases hfl : fl = true
          · simp only [hfl, if_true] at hP
            have hs2 : ∀ m, some m ∈ selectElemMask U b :: s → IsTF m := by
              intro m hm
              rcases List.mem_cons.1 hm with e | hm
              · exact selectElemMask_TF U b m (noDist_head hb) e.symm
              · exact hs m hm
            obtain ⟨e, tf, k⟩ := ih false hP b hb _ hs2 h
            refine ⟨e, tf, fun Q b3 S X3 hb3 => ?_⟩
            obtain ⟨b4, hb4⟩ := k Q b S X3 (fun hf => by simp at hf)
            refine ⟨b4, ?_⟩
            rw [h2, List.cons_append, evalLoop, hb3 hfl]
            simp only [Char.reduceEq, if_false, if_true]
            exact hb4
          · simp [hfl] at hP
        · simp only [h2, if_false] at hP h
          have hP2 : plainScan P fl = some fl2 := by
            by_cases hfl : fl = true
            · subst hfl; simpa using hP
            · have hfl2 : fl = false := by simpa using hfl
              subst hfl2
              simp only [Bool.false_eq_true, if_false] at hP
              split_ifs at hP
              exact hP
          by_cases h3 : isOperand c = true ∨ strchr [':', '@'] c = true
          · simp only [h3, if_true] at h
            obtain ⟨e, tf, k⟩ := ih fl hP2 (b ++ [c]) (noDist_snoc hb hlt hgt) s hs h
            refine ⟨e, tf, fun Q b3 S X3 hb3 => ?_⟩
            obtain ⟨b4, hb4⟩ := k Q (b3 ++ [c]) S X3 (fun hf => by rw [hb3 hf])
            refine ⟨b4, ?_⟩
            rw [List.cons_append, evalLoop]
            simp only [h1, h2, if_false, h3, if_true]
            exact hb4
          · simp only [h3, if_false] at h
            by_cases h4 : c = '&' ∨ c = '|'
            · simp only [h4, if_true] at h
              cases s with
              | nil => simp [popStack] at h
              | cons e1 s1 =>
                cases e1 with
                | none => simp [popStack] at h
                | some m1 =>
                  cases s1 with
                  | nil => simp [popStack] at h
                  | cons e2 s0 =>
                    cases e2 with
                    | none => simp [popStack] at h
                    | some m2 =>
                      simp only [popStack] at h
                      cases e3 : binop c m2 m1 U.atoms with
                      | ok m =>
                        simp only [e3] at h
                        have hs2 : ∀ x, some x ∈ some m :: s0 → IsTF x := by
                          intro x hx
                          rcases List.mem_cons.1 hx with e | hx
                          · rw [Option.some.inj e]; exact binop_TF c m2 m1 U.atoms m e3
                          · exact hs x (List.mem_cons_of_mem _ (List.mem_cons_of_mem _ hx))
                        obtain ⟨e, tf, k⟩ := ih fl hP2 b hb _ hs2 h
                        refine ⟨e, tf, fun Q b3 S X3 hb3 => ?_⟩
                        obtain ⟨b4, hb4⟩ := k Q b3 S X3 hb3
                        refine ⟨b4, ?_⟩
                        rw [List.cons_append, List.cons_append, List.cons_append,
                          evalLoop_binop U type distd c h4 _ _ _ _ m1 m2 m e3]
                        exact hb4
                      | fail => simp [e3] at h
                      | ub => simp [e3] at h
            · simp only [h4, if_false] at h
              have h5 : strchr ['<', '>'] c = false := by
                simp [strchr, hlt, hgt]
              simp only [h5, Bool.false_eq_true, if_false] at h
              by_cases h7 : c = '!'
              · simp only [h7, if_true] at h
                cases s with
                | nil => simp [popStack] at h
                | cons e1 s0 =>
                  cases e1 with
                  | none => simp [popStack] at h
                  | some m1 =>
                    simp only [popStack] at h
                    cases e3 : neg m1 U.atoms with
                    | ok m =>
                      simp only [e3] at h
                      have hs2 : ∀ x, some x ∈ some m :: s0 → IsTF x := by
                        intro x hx
                        rcases List.mem_cons.1 hx with e | hx
                        · rw [Option.some.inj e]
                          exact neg_TF m1 U.atoms m (hs m1 (List.mem_cons_self _ _)) e3
                        · exact hs x (List.mem_cons_of_mem _ hx)
                      obtain ⟨e, tf, k⟩ := ih fl hP2 b hb _ hs2 h
                      refine ⟨e, tf, fun Q b3 S X3 hb3 => ?_⟩
                      obtain ⟨b4, hb4⟩ := k Q b3 S X3 hb3
                      refine ⟨b4, ?_⟩
                      rw [h7, List.cons_append, List.cons_append,
                        evalLoop_neg U type distd _ _ _ _ m1 m e3]
                      exact hb4
                    | fail => simp [e3] at h
                    | ub => simp [e3] at h
              · simp [h7] at h

/-! ## Enclosed expressions through the whole pipeline -/

theorem eval_ok_stack {Coords : Type} (U : Universe) (X : Option Coords) (type : Char)
    (distd : Option (List Char) → Option (List Char) → Coords → Outcome (List Char × Coords))
    (P m : List Char) (h : eval U X type distd P = Outcome.ok m) :
    ∃ X2, evalLoop U type distd P [] [] X = Outcome.ok ([some m], X2) ∧
      U.atoms ≤ m.length := by
  unfold eval at h
  cases e : evalLoop U type distd P [] [] X with
  | fail => simp [e] at h
  | ub => simp [e] at h
  | ok r =>
    obtain ⟨stack, X2⟩ := r
    simp only [e] at h
    cases stack with
    | nil =>
      simp only [popStack, ne_eq, not_true_eq_false, if_false] at h
      split at h <;> simp at h
    | cons top rest =>
      cases rest with
      | cons x y => simp [popStack] at h
      | nil =>
        cases top with
        | none =>
          simp only [popStack, ne_eq, not_true_eq_false, if_false] at h
          split at h <;> simp at h
        | some m1 =>
          simp only [popStack, ne_eq, not_true_eq_false, if_false] at h
          by_cases hl : U.atoms ≤ m1.length
          · simp only [hl, if_true] at h
            injection h with h
            subst h
            exact ⟨X2, rfl, hl⟩
          · simp [hl] at h

theorem eval_of_stack {Coords : Type} (U : Universe) (X : Option Coords) (type : Char)
    (distd : Option (List Char) → Option (List Char) → Coords → Outcome (List Char × Coords))
    (P m : List Char) (X2 : Option Coords)
    (h : evalLoop U type distd P [] [] X = Outcome.ok ([some m], X2))
    (hl : U.atoms ≤ m.length) : eval U X type distd P = Outcome.ok m := by
  unfold eval
  rw [h]
  simp [popStack, hl]

/-- What the three steps do with an enclosed expression that evaluates to `m`: the
tokenizer writes one pair of parentheses around a piece `T`, `torpn` turns that into a
piece `P` of postfix text whatever surrounds it, and `eval` on `P` pushes `m`, a mask of
`'T'` and `'F'`, whatever is on the stack and whatever follows. -/
theorem enclosed_pipeline {Coords : Type} (U : Universe) (X : Option Coords) (type : Char)
    (distd : Option (List Char) → Option (List Char) → Coords → Outcome (List Char × Coords))
    (E : List Char) (hE : Enclosed E) (m : List Char)
    (hm : parseMaskString U X type distd E = Outcome.ok m) :
    ∃ T P,
      (∀ O rest, closes rest →
        tokenizeLoop (E ++ rest) 0 [] O = tokenizeLoop rest 0 [] (O ++ '(' :: (T ++ [')']))) ∧
      (∀ rest B out, torpnLoop ('(' :: (T ++ ')' :: rest)) B false out =
        torpnLoop rest B false (out ++ P)) ∧
      U.atoms ≤ m.length ∧ IsTF m ∧
      ∀ (Q b3 : List Char) (S : List (Option (List Char))) (X3 : Option Coords),
        ∃ b4, evalLoop U type distd (P ++ Q) b3 S X3 =
          evalLoop U type distd Q b4 (some m :: S) X3 := by
  rcases tokenizeLoop_enclosed E hE with hn | ⟨T, hscan, hnd, hrun⟩
  · have : tokenize E = none := by
      have := hn [] []
      rw [List.append_nil] at this
      rw [tokenize_eq_finish, this]; rfl
    simp [parseMaskString, this] at hm
  · obtain ⟨P, hP, htor⟩ := torpnLoop_enclosed T hscan hnd
    have htok : tokenize E = some ('(' :: (T ++ [')', '_'])) := by
      have := hrun [] [] (Or.inl rfl)
      rw [List.append_nil] at this
      rw [tokenize_eq_finish, this, tokenizeLoop_nil_flushed]
      simp only [flushed, Nat.lt_irrefl, if_false, Option.map_some', gt_iff_lt]
      rw [finish_concat]
      simp
    have hrpn : torpn ('(' :: (T ++ [')', '_'])) = Outcome.ok P := by
      unfold torpn
      rw [htor ['_'] ['_'] [], torpnLoop_finish0]
      simp
    have hev : eval U X type distd P = Outcome.ok m := by
      simpa [parseMaskString, htok, hrpn] using hm
    obtain ⟨X2, hst, hl⟩ := eval_ok_stack U X type distd P m hev
    obtain ⟨-, htf, hframe⟩ := evalLoop_plain U type distd P false false hP []
      (by intro x hx; simp at hx) [] [some m] X X2 (by intro x hx; simp at hx) hst
    refine ⟨T, P, hrun, htor, hl, htf m (by simp), fun Q b3 S X3 => ?_⟩
    obtain ⟨b4, hb4⟩ := hframe Q b3 S X3 (fun hf => by simp at hf)
    exact ⟨b4, by simpa using hb4⟩

theorem flipTF_flipTF {c : Char} (h : c = 'T' ∨ c = 'F') : flipTF (flipTF c) = c := by
  rcases h with e | e <;> subst e <;> decide

/-- Inverting a mask of `'T'` and `'F'` twice gives the mask back. -/
theorem neg_neg (m : List Char) (atoms : Nat) (hl : atoms ≤ m.length) (htf : IsTF m) :
    ∃ m1, neg m atoms = Outcome.ok m1 ∧ m1.length = m.length ∧
      neg m1 atoms = Outcome.ok m := by
  have hlen : ∀ m : List Char, ((List.range atoms).foldl
      (fun m i => m.set i (if m.getD i NUL = 'T' then 'F' else 'T')) m).length = m.length :=
    fun m => foldl_length _ (fun m i => by simp) _ _
  refine ⟨_, by simp [neg, hl], hlen m, ?_⟩
  simp only [neg, hlen, hl, if_true, Outcome.ok.injEq]
  apply List.ext_getElem?
  intro k
  rw [negFold_getElem?, negFold_getElem?]
  by_cases hk : k < atoms
  · simp only [hk, if_true]
    rw [List.getElem?_eq_getElem (by omega : k < m.length)]
    simp only [Option.map_some', Option.some.injEq]
    exact flipTF_flipTF (htf _ (List.getElem_mem _))
  · simp [hk]

/-- On masks of at least `atoms` entries `binop` succeeds, does not depend on the order
of its two masks, and computes the element-wise AND or OR. -/
theorem binop_comm (c : Char) (hc : c = '&' ∨ c = '|') (m2 m1 : List Char) (atoms : Nat)
    (h2 : atoms ≤ m2.length) (h1 : atoms ≤ m1.length) :
    ∃ m, binop c m2 m1 atoms = Outcome.ok m ∧ binop c m1 m2 atoms = Outcome.ok m ∧
      m.length = atoms ∧
      ∀ k : Nat, k < atoms → (m[k]? = some 'T' ↔
        if c = '&' then m2[k]? = some 'T' ∧ m1[k]? = some 'T'
        else m2[k]? = some 'T' ∨ m1[k]? = some 'T') := by
  have key : ∀ (a b : List Char), atoms ≤ a.length → atoms ≤ b.length →
      binop c a b atoms = Outcome.ok ((List.range atoms).map (fun i =>
        if c = '&' then (if a[i]? = some 'T' ∧ b[i]? = some 'T' then 'T' else 'F')
        else (if a[i]? = some 'T' ∨ b[i]? = some 'T' then 'T' else 'F'))) := by
    intro a b ha hb
    unfold binop
    rcases hc with e | e <;> subst e
    · rw [if_pos rfl]
      apply buildMask_ok
      intro i hi
      have e2 : a.get? i = some (a[i]) := by
        rw [List.get?_eq_getElem?]; exact List.getElem?_eq_getElem (by omega)
      have e1 : b.get? i = some (b[i]) := by
        rw [List.get?_eq_getElem?]; exact List.getElem?_eq_getElem (by omega)
      rw [e2]
      simp only [e1, if_true]
      rw [List.getElem?_eq_getElem (by omega : i < a.length),
        List.getElem?_eq_getElem (by omega : i < b.length)]
      by_cases x : a[i] = 'T' <;> by_cases y : b[i] = 'T' <;> simp [x, y]
    · rw [if_neg (by decide), if_pos rfl]
      apply buildMask_ok
      intro i hi
      have e2 : a.get? i = some (a[i]) := by
        rw [List.get?_eq_getElem?]; exact List.getElem?_eq_getElem (by omega)
      have e1 : b.get? i = some (b[i]) := by
        rw [List.get?_eq_getElem?]; exact List.getElem?_eq_getElem (by omega)
      rw [e2]
      simp only [e1, Char.reduceEq, if_false]
      rw [List.getElem?_eq_getElem (by omega : i < a.length),
        List.getElem?_eq_getElem (by omega : i < b.length)]
      by_cases x : a[i] = 'T' <;> by_cases y : b[i] = 'T' <;> simp [x, y]
  refine ⟨_, key m2 m1 h2 h1, ?_, by simp, fun k hk => ?_⟩
  · rw [key m1 m2 h1 h2]
    congr 1
    apply List.map_congr_left
    intro i _
    simp only [and_comm, or_comm]
  · simp only [List.getElem?_map, List.getElem?_range hk, Option.map_some', Option.some.injEq]
    by_cases hand : c = '&'
    · simp only [hand, if_true]
      by_cases x : m2[k]? = some 'T' ∧ m1[k]? = some 'T' <;> simp [x]
    · simp only [hand, if_false]
      by_cases x : m2[k]? = some 'T' ∨ m1[k]? = some 'T' <;> simp [x]

/-! ## Double negation -/

/-- For an enclosed `E` that evaluates to `m`, the expression `!(!E)` has the
postfix text of `E` followed by `!!` and evaluates to `m`. -/
theorem double_neg_parenthesised {Coords : Type} (U : Universe) (X : Option Coords)
    (type : Char)
    (distd : Option (List Char) → Option (List Char) → Coords → Outcome (List Char × Coords))
    (E : List Char) (hE : Enclosed E) (m : List Char)
    (hm : parseMaskString U X type distd E = Outcome.ok m) :
    parseMaskString U X type distd ('!' :: '(' :: '!' :: (E ++ [')'])) = Outcome.ok m := by
  obtain ⟨T, P, hrun, htor, hl, htf, hframe⟩ := enclosed_pipeline U X type distd E hE m hm
  have htok : tokenize ('!' :: '(' :: '!' :: (E ++ [')'])) =
      some ('!' :: '(' :: '!' :: '(' :: (T ++ [')', ')', '_'])) := by
    rw [tokenize_eq_finish, tokenizeLoop_plain_between '!' (by decide),
      tokenizeLoop_plain_between '(' (by decide), tokenizeLoop_plain_between '!' (by decide),
      hrun _ [')'] (Or.inr ⟨')', rfl, Or.inr (Or.inr rfl)⟩),
      tokenizeLoop_plain_between ')' (by decide), tokenizeLoop_nil_flushed]
    simp only [flushed, Nat.lt_irrefl, if_false, Option.map_some', gt_iff_lt]
    rw [finish_concat]
    simp
  have hrpn : torpn ('!' :: '(' :: '!' :: '(' :: (T ++ [')', ')', '_'])) =
      Outcome.ok (P ++ ['!', '!']) := by
    unfold torpn
    rw [torpnLoop_op_push '!' (by decide) _ '_' [] [] (by decide) (by decide), torpnLoop_open,
      torpnLoop_op_push '!' (by decide) _ '(' ['!', '_'] [] (by decide) (by decide),
      htor [')', '_'] ['!', '(', '!', '_'] [],
      torpnLoop_close _ _ _ ['!', '_'] ([] ++ P ++ ['!']) (by simp [popToParen]),
      torpnLoop_finish1 '!' (by decide) (by decide)]
    simp
  obtain ⟨m1, hn1, hl1, hn2⟩ := neg_neg m U.atoms hl htf
  have hev : eval U X type distd (P ++ ['!', '!']) = Outcome.ok m := by
    obtain ⟨b4, hb4⟩ := hframe ['!', '!'] [] [] X
    refine eval_of_stack U X type distd _ m X ?_ hl
    rw [hb4, evalLoop_neg U type distd _ _ _ _ m m1 hn1,
      evalLoop_neg U type distd _ _ _ _ m1 m hn2, evalLoop_nil]
  simp only [parseMaskString, htok, hrpn]
  exact hev

/-- C18: for every universe and every `E` that is an elementary term or a parenthesised
expression without `<` and `>` and that evaluates to a mask `m`, the expression `!(!E)`
evaluates to `m`. -/
theorem C18_double_negation {Coords : Type} (U : Universe) (X : Option Coords)
    (type : Char)
    (distd : Option (List Char) → Option (List Char) → Coords → Outcome (List Char × Coords))
    (E : List Char) (hE : Enclosed E) (m : List Char)
    (hm : parseMaskString U X type distd E = Outcome.ok m) :
    parseMaskString U X type distd ('!' :: '(' :: '!' :: (E ++ [')'])) = Outcome.ok m :=
  double_neg_parenthesised U X type distd E hE m hm

/-- C18 on the scenario with `E = (:1|@CA)`. -/
theorem C18_double_negation_witness :
    parseMaskString scenario (none : Option Unit) 'd' (fun _ _ _ => Outcome.fail)
        ('!' :: '(' :: '!' :: (['(', ':', '1', '|', '@', 'C', 'A', ')'] ++ [')'])) =
      Outcome.ok ['T', 'T', 'T', 'T', 'F', 'F', 'T', 'F', 'F'] :=
  C18_double_negation scenario (none : Option Unit) 'd' (fun _ _ _ => Outcome.fail)
    ['(', ':', '1', '|', '@', 'C', 'A', ')']
    (Or.inr (Or.inr ⟨[':', '1', '|', '@', 'C', 'A'], rfl, by decide, by decide⟩))
    ['T', 'T', 'T', 'T', 'F', 'F', 'T', 'F', 'F'] (by decide)

/-- Two negations in a row without parentheses: `torpn` emits the first `!` before the
operand, and `eval` finds no operand for it. -/
theorem double_neg_bare {Coords : Type} (U : Universe) (X : Option Coords)
    (type : Char)
    (distd : Option (List Char) → Option (List Char) → Coords → Outcome (List Char × Coords))
    (t : Term) (ht : t.Valid) :
    rpnOf ('!' :: '!' :: t.raw) = Outcome.ok ('!' :: '[' :: (t.text ++ [']', '!'])) ∧
    parseMaskString U X type distd ('!' :: '!' :: t.raw) = Outcome.fail := by
  have htok : tokenize ('!' :: '!' :: t.raw) =
      some ('!' :: '!' :: '(' :: '[' :: (t.text ++ [']', ')', '_'])) := by
    rw [tokenize_neg, tokenize_neg]
    have := tokenize_term t.c0 t.spec ht.1 ht.2
    rw [show t.raw = t.c0 :: t.spec from rfl, this]
    rfl
  have hrpn : torpn ('!' :: '!' :: '(' :: '[' :: (t.text ++ [']', ')', '_'])) =
      Outcome.ok ('!' :: '[' :: (t.text ++ [']', '!'])) := by
    unfold torpn
    have e : t.text ++ [']', ')', '_'] = t.text ++ ']' :: ')' :: ['_'] := rfl
    rw [torpnLoop_op_push '!' (by decide) _ '_' [] [] (by decide) (by decide),
      torpnLoop_op '!' (by decide) _ _ _ ['!', '_'] ['!'] (by simp [pushOperator, priority]),
      e, torpnLoop_term _ _ _ _ (t.text_ne_close ht),
      torpnLoop_finish1 '!' (by decide) (by decide)]
    simp
  refine ⟨by simp only [rpnOf, htok, hrpn], ?_⟩
  simp only [parseMaskString, htok, hrpn]
  unfold eval
  rw [evalLoop]
  have h1 : isOperand '!' = false := by decide
  have h2 : strchr [':', '@'] '!' = false := by decide
  have h3 : strchr ['<', '>'] '!' = false := by decide
  simp [h1, h2, h3, popStack]

/-- C19 as amended: for every universe and every elementary term `T` (`:` or `@` followed
by operand characters), the expression `!!T` is turned by `torpn` into `![T]!` and is
refused by `eval`, so `parseMaskString` fails; with parentheses, `!(!T)` evaluates to the
mask of `T`. -/
theorem C19_double_negation_needs_parentheses {Coords : Type} (U : Universe)
    (X : Option Coords) (type : Char)
    (distd : Option (List Char) → Option (List Char) → Coords → Outcome (List Char × Coords))
    (t : Term) (ht : t.Valid) :
    rpnOf ('!' :: '!' :: t.raw) = Outcome.ok ('!' :: '[' :: (t.text ++ [']', '!'])) ∧
    parseMaskString U X type distd ('!' :: '!' :: t.raw) = Outcome.fail ∧
    ∃ m, parseMaskString U X type distd t.raw = Outcome.ok m ∧
      parseMaskString U X type distd ('!' :: '(' :: '!' :: (t.raw ++ [')'])) =
        Outcome.ok m := by
  obtain ⟨h1, h2⟩ := double_neg_bare U X type distd t ht
  obtain ⟨m, -, -, hp⟩ := parseMaskString_term U X type distd t.c0 t.spec ht.1 ht.2
  exact ⟨h1, h2, m, hp,
    double_neg_parenthesised U X type distd t.raw (Or.inl ⟨t, ht, rfl⟩) m hp⟩

/-- C19 as amended, on the scenario with `T = :1`. -/
theorem C19_double_negation_needs_parentheses_witness :
    (rpnOf ('!' :: '!' :: (⟨':', ['1']⟩ : Term).raw) =
        Outcome.ok ('!' :: '[' :: ((⟨':', ['1']⟩ : Term).text ++ [']', '!'])) ∧
      parseMaskString scenario (none : Option Unit) 'd' (fun _ _ _ => Outcome.fail)
        ('!' :: '!' :: (⟨':', ['1']⟩ : Term).raw) = Outcome.fail ∧
      ∃ m, parseMaskString scenario (none : Option Unit) 'd' (fun _ _ _ => Outcome.fail)
          (⟨':', ['1']⟩ : Term).raw = Outcome.ok m ∧
        parseMaskString scenario (none : Option Unit) 'd' (fun _ _ _ => Outcome.fail)
          ('!' :: '(' :: '!' :: ((⟨':', ['1']⟩ : Term).raw ++ [')'])) = Outcome.ok m) ∧
    parseMaskString scenario (none : Option Unit) 'd' (fun _ _ _ => Outcome.fail)
        ['!', '(', '!', ':', '1', ')'] =
      Outcome.ok ['T', 'T', 'T', 'F', 'F', 'F', 'F', 'F', 'F'] :=
  ⟨C19_double_negation_needs_parentheses scenario (none : Option Unit) 'd'
    (fun _ _ _ => Outcome.fail) ⟨':', ['1']⟩ (by decide), by decide⟩

/-- C19 as stated fails: on the scenario `:1` evaluates to a mask while `!!:1` is
refused; its postfix text is `![:1]!`. -/
theorem C19_double_negation_needs_parentheses_counterexample :
    parseMaskString scenario (none : Option Unit) 'd' (fun _ _ _ => Outcome.fail)
        [':', '1'] = Outcome.ok ['T', 'T', 'T', 'F', 'F', 'F', 'F', 'F', 'F'] ∧
    parseMaskString scenario (none : Option Unit) 'd' (fun _ _ _ => Outcome.fail)
        ['!', '!', ':', '1'] = Outcome.fail ∧
    rpnOf ['!', '!', ':', '1'] = Outcome.ok ['!', '[', ':', '1', ']', '!'] := by
  decide

/-! ## The binary operators between two enclosed expressions -/

/-- Two enclosed expressions joined by `&` or `|`: the postfix text is that of the first,
that of the second and the operator, and the result is `binop` of the two masks. -/
theorem binary_enclosed {Coords : Type} (U : Universe) (X : Option Coords) (type : Char)
    (distd : Option (List Char) → Option (List Char) → Coords → Outcome (List Char × Coords))
    (c : Char) (hc : c = '&' ∨ c = '|') (E1 E2 : List Char) (h1 : Enclosed E1)
    (h2 : Enclosed E2) (m1 m2 : List Char)
    (hm1 : parseMaskString U X type distd E1 = Outcome.ok m1)
    (hm2 : parseMaskString U X type distd E2 = Outcome.ok m2) :
    U.atoms ≤ m1.length ∧ U.atoms ≤ m2.length ∧
      ∀ m, binop c m1 m2 U.atoms = Outcome.ok m → m.length = U.atoms →
        parseMaskString U X type distd (E1 ++ c :: E2) = Outcome.ok m := by
  obtain ⟨T1, P1, hrun1, htor1, hl1, -, hframe1⟩ :=
    enclosed_pipeline U X type distd E1 h1 m1 hm1
  obtain ⟨T2, P2, hrun2, htor2, hl2, -, hframe2⟩ :=
    enclosed_pipeline U X type distd E2 h2 m2 hm2
  refine ⟨hl1, hl2, fun m hb hlen => ?_⟩
  have hop : isOperator c = true := by
    rcases hc with e | e <;> subst e <;> decide
  have hpl : isPlainOp c = true := by
    rcases hc with e | e <;> subst e <;> decide
  have hpr : priority '_' < priority c := by
    rcases hc with e | e <;> subst e <;> decide
  have hne : c ≠ '_' ∧ c ≠ '(' := by
    rcases hc with e | e <;> subst e <;> decide
  have htok : tokenize (E1 ++ c :: E2) =
      some ('(' :: (T1 ++ ')' :: c :: '(' :: (T2 ++ [')', '_']))) := by
    have e2 := hrun2 ([] ++ '(' :: (T1 ++ [')']) ++ [c]) [] (Or.inl rfl)
    rw [List.append_nil] at e2
    rw [tokenize_eq_finish, hrun1 [] (c :: E2) (Or.inr ⟨c, rfl, Or.inl hop⟩),
      tokenizeLoop_plain_between c hpl, e2, tokenizeLoop_nil_flushed]
    simp only [flushed, Nat.lt_irrefl, if_false, Option.map_some', gt_iff_lt]
    rw [finish_concat]
    simp
  have hrpn : torpn ('(' :: (T1 ++ ')' :: c :: '(' :: (T2 ++ [')', '_']))) =
      Outcome.ok (P1 ++ P2 ++ [c]) := by
    unfold torpn
    rw [htor1 _ ['_'] [],
      torpnLoop_op_push c hop _ '_' [] _ (by decide) hpr,
      htor2 ['_'] [c, '_'] _, torpnLoop_finish1 c hne.1 hne.2]
    simp
  have hev : eval U X type distd (P1 ++ P2 ++ [c]) = Outcome.ok m := by
    obtain ⟨b4, hb4⟩ := hframe1 (P2 ++ [c]) [] [] X
    obtain ⟨b5, hb5⟩ := hframe2 [c] b4 [some m1] X
    refine eval_of_stack U X type distd _ m X ?_ (by omega)
    rw [List.append_assoc, hb4, hb5,
      evalLoop_binop U type distd c hc [] b5 [] X m2 m1 m hb, evalLoop_nil]
  simp only [parseMaskString, htok, hrpn]
  exact hev

theorem parseMaskString_dropSpaces {Coords : Type} (U : Universe) (X : Option Coords)
    (type : Char)
    (distd : Option (List Char) → Option (List Char) → Coords → Outcome (List Char × Coords))
    (s : List Char) (hs : noDist s) :
    parseMaskString U X type distd s = parseMaskString U X type distd (dropSpaces s) := by
  unfold parseMaskString
  rw [tokenize_dropSpaces s hs]

theorem dropSpaces_append (a b : List Char) :
    dropSpaces (a ++ b) = dropSpaces a ++ dropSpaces b := by
  simp [dropSpaces]

theorem dropSpaces_spaces (sp : List Char) (h : ∀ c ∈ sp, isspace c = true) :
    dropSpaces sp = [] := by
  simp only [dropSpaces, List.filter_eq_nil_iff]
  intro c hc
  simp [h c hc]

theorem dropSpaces_cons_other {c : Char} (h : isspace c = false) (s : List Char) :
    dropSpaces (c :: s) = c :: dropSpaces s := by
  simp [dropSpaces, h]

theorem parenDepth_dropSpaces (s : List Char) (d : Nat) :
    parenDepth (dropSpaces s) d = parenDepth s d := by
  induction s generalizing d with
  | nil => rfl
  | cons c s ih =>
    by_cases hs : isspace c = true
    · have e : dropSpaces (c :: s) = dropSpaces s := by simp [dropSpaces, hs]
      have h1 : c ≠ '(' := by
        rintro rfl; revert hs; decide
      have h2 : c ≠ ')' := by
        rintro rfl; revert hs; decide
      rw [e, ih, parenDepth]
      simp [h1, h2]
    · have hs2 : isspace c = false := by simpa using hs
      rw [dropSpaces_cons_other hs2, parenDepth, parenDepth]
      simp only [ih]

theorem noDist_dropSpaces {s : List Char} (h : noDist s) : noDist (dropSpaces s) := by
  intro c hc
  exact h c (List.mem_of_mem_filter hc)

theorem Enclosed.noDist {E : List Char} (h : Enclosed E) : noDist E := by
  rcases h with ⟨t, ht, rfl⟩ | rfl | ⟨inner, rfl, hs, -⟩
  · exact groupRaw_no_distance [t] (by simpa using ht)
  · decide
  · intro c hc
    simp only [List.mem_cons, List.mem_append, List.mem_singleton, List.not_mem_nil,
      or_false] at hc
    rcases hc with e | hc | e
    · subst e; exact ⟨by decide, by decide⟩
    · exact hs c hc
    · subst e; exact ⟨by decide, by decide⟩

theorem Enclosed.dropSpaces {E : List Char} (h : Enclosed E) : Enclosed (dropSpaces E) := by
  rcases h with ⟨t, ht, rfl⟩ | rfl | ⟨inner, rfl, hs, hD⟩
  · left
    refine ⟨t, ht, ?_⟩
    have : ∀ c ∈ t.raw, isspace c = false := by
      intro c hc
      rcases List.mem_cons.1 hc with e | hc
      · rcases ht.1 with h0 | h0 <;> rw [e, h0] <;> decide
      · exact isOperand_not_space (ht.2 c hc)
    simp only [Ptrajmask.dropSpaces, List.filter_eq_self]
    intro c hc
    simp [this c hc]
  · right; left; decide
  · right; right
    refine ⟨Ptrajmask.dropSpaces inner, ?_, noDist_dropSpaces hs, ?_⟩
    · rw [dropSpaces_cons_other (by decide), dropSpaces_append]
      rfl
    · rw [parenDepth_dropSpaces]; exact hD

/-- C20: for every universe and all `E1`, `E2` that are elementary terms or parenthesised
expressions without `<` and `>` and evaluate to masks `m1`, `m2`, written with any
whitespace around the operator: `E1 | E2` and `E2 | E1` evaluate to the same mask, the
element-wise OR of `m1` and `m2`; `E1 & E2` and `E2 & E1` evaluate to the same mask, the
element-wise AND. -/
theorem C20_binary_operators_commute {Coords : Type} (U : Universe) (X : Option Coords)
    (type : Char)
    (distd : Option (List Char) → Option (List Char) → Coords → Outcome (List Char × Coords))
    (E1 E2 : List Char) (h1 : Enclosed E1) (h2 : Enclosed E2) (m1 m2 : List Char)
    (hm1 : parseMaskString U X type distd E1 = Outcome.ok m1)
    (hm2 : parseMaskString U X type distd E2 = Outcome.ok m2)
    (sp1 sp2 : List Char) (hsp1 : ∀ c ∈ sp1, isspace c = true)
    (hsp2 : ∀ c ∈ sp2, isspace c = true) :
    (∃ m, parseMaskString U X type distd (E1 ++ sp1 ++ '|' :: (sp2 ++ E2)) = Outcome.ok m ∧
      parseMaskString U X type distd (E2 ++ sp1 ++ '|' :: (sp2 ++ E1)) = Outcome.ok m ∧
      m.length = U.atoms ∧
      ∀ k : Nat, k < U.atoms →
        (m[k]? = some 'T' ↔ m1[k]? = some 'T' ∨ m2[k]? = some 'T')) ∧
    (∃ m, parseMaskString U X type distd (E1 ++ sp1 ++ '&' :: (sp2 ++ E2)) = Outcome.ok m ∧
      parseMaskString U X type distd (E2 ++ sp1 ++ '&' :: (sp2 ++ E1)) = Outcome.ok m ∧
      m.length = U.atoms ∧
      ∀ k : Nat, k < U.atoms →
        (m[k]? = some 'T' ↔ m1[k]? = some 'T' ∧ m2[k]? = some 'T')) := by
  have key : ∀ c : Char, c = '&' ∨ c = '|' →
      ∃ m, parseMaskString U X type distd (E1 ++ sp1 ++ c :: (sp2 ++ E2)) = Outcome.ok m ∧
        parseMaskString U X type distd (E2 ++ sp1 ++ c :: (sp2 ++ E1)) = Outcome.ok m ∧
        m.length = U.atoms ∧
        ∀ k : Nat, k < U.atoms → (m[k]? = some 'T' ↔
          if c = '&' then m1[k]? = some 'T' ∧ m2[k]? = some 'T'
          else m1[k]? = some 'T' ∨ m2[k]? = some 'T') := by
    intro c hc
    have hcs : isspace c = false := by
      rcases hc with e | e <;> subst e <;> decide
    have hcd : c ≠ '<' ∧ c ≠ '>' := by
      rcases hc with e | e <;> subst e <;> decide
    have hspd : ∀ sp : List Char, (∀ x ∈ sp, isspace x = true) → noDist sp := by
      intro sp hsp x hx
      rcases isspace_cases (hsp x hx) with e | e | e | e | e | e <;> subst e <;> decide
    have hnd : ∀ A B : List Char, noDist A → noDist B →
        noDist (A ++ sp1 ++ c :: (sp2 ++ B)) := by
      intro A B hA hB x hx
      simp only [List.mem_append, List.mem_cons] at hx
      rcases hx with (hx | hx) | hx | hx | hx
      · exact hA x hx
      · exact hspd sp1 hsp1 x hx
      · rw [hx]; exact hcd
      · exact hspd sp2 hsp2 x hx
      · exact hB x hx
    have hdrop : ∀ A B : List Char,
        dropSpaces (A ++ sp1 ++ c :: (sp2 ++ B)) = dropSpaces A ++ c :: dropSpaces B := by
      intro A B
      rw [dropSpaces_append, dropSpaces_append, dropSpaces_spaces sp1 hsp1,
        dropSpaces_cons_other hcs, dropSpaces_append, dropSpaces_spaces sp2 hsp2]
      simp
    have hd1 : parseMaskString U X type distd (dropSpaces E1) = Outcome.ok m1 := by
      rw [← parseMaskString_dropSpaces U X type distd E1 h1.noDist]; exact hm1
    have hd2 : parseMaskString U X type distd (dropSpaces E2) = Outcome.ok m2 := by
      rw [← parseMaskString_dropSpaces U X type distd E2 h2.noDist]; exact hm2
    obtain ⟨hl1, hl2, hA⟩ := binary_enclosed U X type distd c hc _ _ h1.dropSpaces
      h2.dropSpaces m1 m2 hd1 hd2
    obtain ⟨-, -, hB⟩ := binary_enclosed U X type distd c hc _ _ h2.dropSpaces
      h1.dropSpaces m2 m1 hd2 hd1
    obtain ⟨m, hb1, hb2, hlen, hsem⟩ := binop_comm c hc m1 m2 U.atoms hl1 hl2
    refine ⟨m, ?_, ?_, hlen, hsem⟩
    · rw [parseMaskString_dropSpaces U X type distd _ (hnd E1 E2 h1.noDist h2.noDist),
        hdrop]
      exact hA m hb1 hlen
    · rw [parseMaskString_dropSpaces U X type distd _ (hnd E2 E1 h2.noDist h1.noDist),
        hdrop]
      exact hB m hb2 hlen
  obtain ⟨m, ha, hb, hl, hs⟩ := key '|' (Or.inr rfl)
  obtain ⟨n, ha2, hb2, hl2, hs2⟩ := key '&' (Or.inl rfl)
  exact ⟨⟨m, ha, hb, hl, fun k hk => by simpa using hs k hk⟩,
    ⟨n, ha2, hb2, hl2, fun k hk => by simpa using hs2 k hk⟩⟩

/-- C20 on the scenario with `E1 = :1` and `E2 = (@CA|@CB)`, written `E1 | E2`. -/
theorem C20_binary_operators_commute_witness :
    ((∃ m, parseMaskString scenario (none : Option Unit) 'd' (fun _ _ _ => Outcome.fail)
          ([':', '1'] ++ [' '] ++ '|' :: ([' '] ++ ['(', '@', 'C', 'A', '|', '@', 'C', 'B', ')']))
            = Outcome.ok m ∧
        parseMaskString scenario (none : Option Unit) 'd' (fun _ _ _ => Outcome.fail)
          (['(', '@', 'C', 'A', '|', '@', 'C', 'B', ')'] ++ [' '] ++ '|' :: ([' '] ++ [':', '1']))
            = Outcome.ok m ∧
        m.length = scenario.atoms ∧
        ∀ k : Nat, k < scenario.atoms →
          (m[k]? = some 'T' ↔ ['T', 'T', 'T', 'F', 'F', 'F', 'F', 'F', 'F'][k]? = some 'T' ∨
            ['T', 'T', 'F', 'T', 'T', 'F', 'T', 'T', 'F'][k]? = some 'T')) ∧
      (∃ m, parseMaskString scenario (none : Option Unit) 'd' (fun _ _ _ => Outcome.fail)
          ([':', '1'] ++ [' '] ++ '&' :: ([' '] ++ ['(', '@', 'C', 'A', '|', '@', 'C', 'B', ')']))
            = Outcome.ok m ∧
        parseMaskString scenario (none : Option Unit) 'd' (fun _ _ _ => Outcome.fail)
          (['(', '@', 'C', 'A', '|', '@', 'C', 'B', ')'] ++ [' '] ++ '&' :: ([' '] ++ [':', '1']))
            = Outcome.ok m ∧
        m.length = scenario.atoms ∧
        ∀ k : Nat, k < scenario.atoms →
          (m[k]? = some 'T' ↔ ['T', 'T', 'T', 'F', 'F', 'F', 'F', 'F', 'F'][k]? = some 'T' ∧
            ['T', 'T', 'F', 'T', 'T', 'F', 'T', 'T', 'F'][k]? = some 'T'))) ∧
    parseMaskString scenario (none : Option Unit) 'd' (fun _ _ _ => Outcome.fail)
        [':', '1', ' ', '|', ' ', '(', '@', 'C', 'A', '|', '@', 'C', 'B', ')'] =
      Outcome.ok ['T', 'T', 'T', 'T', 'T', 'F', 'T', 'T', 'F'] ∧
    parseMaskString scenario (none : Option Unit) 'd' (fun _ _ _ => Outcome.fail)
        ['(', '@', 'C', 'A', '|', '@', 'C', 'B', ')', ' ', '&', ' ', ':', '1'] =
      Outcome.ok ['T', 'T', 'F', 'F', 'F', 'F', 'F', 'F', 'F'] :=
  ⟨C20_binary_operators_commute scenario (none : Option Unit) 'd' (fun _ _ _ => Outcome.fail)
    [':', '1'] ['(', '@', 'C', 'A', '|', '@', 'C', 'B', ')']
    (Or.inl ⟨⟨':', ['1']⟩, by decide, rfl⟩)
    (Or.inr (Or.inr ⟨['@', 'C', 'A', '|', '@', 'C', 'B'], rfl, by decide, by decide⟩))
    ['T', 'T', 'T', 'F', 'F', 'F', 'F', 'F', 'F'] ['T', 'T', 'F', 'T', 'T', 'F', 'T', 'T', 'F']
    (by decide) (by decide) [' '] [' '] (by decide) (by decide), by decide, by decide⟩

/-! ## The loops of `selectDistd` -/

/-- What the inner loop can have done when it ends normally: nothing to the mask, or
(leaving by `break`) the marks of the residue `curres` or of the particle `i`; the
coordinate array keeps its length. -/
theorem distdInner_spec {F : Type} (ops : FloatOps F) (comp type : Char) (dist : F)
    (center : List Char) (ipres : List Nat) (curres i : Nat) (js : List Nat)
    (pMask : List Char) (X : List F) (brk : Bool) (p2 : List Char) (X2 : List F)
    (h : distdInner ops comp type dist center ipres curres i js pMask X =
      Outcome.ok (brk, p2, X2)) :
    X2.length = X.length ∧
      ((brk = false ∧ p2 = pMask) ∨
        (brk = true ∧
          ((type = ':' ∧
              p2 = setRange pMask (ipres.getD curres 0) (ipres.getD (curres + 1) 0)) ∨
            (type = '@' ∧ p2 = pMask.set i 'T')))) := by
  induction js generalizing X with
  | nil =>
    rw [distdInner] at h
    simp only [Outcome.ok.injEq, Prod.mk.injEq] at h
    obtain ⟨rfl, rfl, rfl⟩ := h
    exact ⟨rfl, Or.inl ⟨rfl, rfl⟩⟩
  | cons j js ih =>
    have hlen : ∀ z : F, (X.set (i * 3 + 2) z).length = X.length := fun z => by simp
    rw [distdInner] at h
    repeat' (split at h)
    all_goals (try dsimp only at h)
    repeat' (split at h)
    all_goals first
      | (exact ih X h)
      | (simp only [Outcome.ok.injEq, Prod.mk.injEq] at h
         obtain ⟨rfl, rfl, rfl⟩ := h
         refine ⟨hlen _, Or.inr ⟨rfl, ?_⟩⟩
         first
           | exact Or.inl ⟨by assumption, rfl⟩
           | exact Or.inr ⟨by assumption, rfl⟩)
      | (obtain ⟨e1, e2⟩ := ih _ h
         exact ⟨by rw [e1, hlen], e2⟩)
      | (exact absurd h (by simp))

theorem get?_of_lt {α : Type} (l : List α) (k : Nat) (h : k < l.length) :
    ∃ a, l.get? k = some a :=
  ⟨l.get ⟨k, h⟩, List.get?_eq_get h⟩

/-- With the reads inside the arrays and a known comparator and granularity the inner loop
ends normally. -/
theorem distdInner_total {F : Type} (ops : FloatOps F) (comp type : Char) (dist : F)
    (center : List Char) (ipres : List Nat) (curres i n : Nat)
    (hty : type = '@' ∨ (type = ':' ∧ (comp = '<' ∨ comp = '>')))
    (hi : i * 3 + 2 < n) (js : List Nat)
    (hjs : ∀ j ∈ js, j < center.length ∧ j * 3 + 2 < n)
    (pMask : List Char) (X : List F) (hX : X.length = n) :
    ∃ brk p2 X2, distdInner ops comp type dist center ipres curres i js pMask X =
      Outcome.ok (brk, p2, X2) := by
  induction js generalizing X with
  | nil => exact ⟨false, pMask, X, by rw [distdInner]⟩
  | cons j js ih =>
    obtain ⟨hjc, hjn⟩ := hjs j (List.mem_cons_self _ _)
    have ih2 := fun X hX => ih (fun x hx => hjs x (List.mem_cons_of_mem _ hx)) X hX
    subst hX
    obtain ⟨cj, hc⟩ := get?_of_lt center j hjc
    obtain ⟨xi, hxi⟩ := get?_of_lt X (i * 3) (by omega)
    obtain ⟨xj, hxj⟩ := get?_of_lt X (j * 3) (by omega)
    obtain ⟨yi, hyi⟩ := get?_of_lt X (i * 3 + 1) (by omega)
    obtain ⟨yj, hyj⟩ := get?_of_lt X (j * 3 + 1) (by omega)
    obtain ⟨zj, hzj⟩ := get?_of_lt X (j * 3 + 2) (by omega)
    have hlen : ∀ z : F, (X.set (i * 3 + 2) z).length = X.length := fun z => by simp
    have hnl : ¬ X.length ≤ i * 3 + 2 := by omega
    rw [distdInner]
    simp only [hc, hxi, hxj, hyi, hyj, hzj, hnl, if_false]
    by_cases hcj : cj = 'F'
    · simp only [hcj, if_true]
      exact ih2 _ rfl
    · simp only [hcj, if_false]
      rcases hty with h | ⟨h, h2 | h2⟩
      · subst h
        simp only [show ¬ ('@' : Char) = ':' by decide, if_false, if_true]
        split
        · exact ⟨_, _, _, rfl⟩
        · split
          · exact ⟨_, _, _, rfl⟩
          · exact ih2 _ (hlen _)
      · subst h; subst h2
        simp only [if_true]
        split
        · exact ⟨_, _, _, rfl⟩
        · exact ih2 _ (hlen _)
      · subst h; subst h2
        simp only [show ¬ ('>' : Char) = '<' by decide, if_false, if_true]
        split
        · exact ⟨_, _, _, rfl⟩
        · exact ih2 _ (hlen _)

/-- When no distance is below the threshold, the inner loop of `<@` runs to its end and
leaves the mask as it is. -/
theorem distdInner_never {F : Type} (ops : FloatOps F) (dist : F)
    (hlt : ∀ x, ops.lt (ops.sqrt x) dist = false)
    (center : List Char) (ipres : List Nat) (curres i n : Nat)
    (hi : i * 3 + 2 < n) (js : List Nat)
    (hjs : ∀ j ∈ js, j < center.length ∧ j * 3 + 2 < n)
    (pMask : List Char) (X : List F) (hX : X.length = n) :
    ∃ X2, distdInner ops '<' '@' dist center ipres curres i js pMask X =
      Outcome.ok (false, pMask, X2) ∧ X2.length = n := by
  induction js generalizing X with
  | nil => exact ⟨X, by rw [distdInner], hX⟩
  | cons j js ih =>
    obtain ⟨hjc, hjn⟩ := hjs j (List.mem_cons_self _ _)
    have ih2 := fun X hX => ih (fun x hx => hjs x (List.mem_cons_of_mem _ hx)) X hX
    subst hX
    obtain ⟨cj, hc⟩ := get?_of_lt center j hjc
    obtain ⟨xi, hxi⟩ := get?_of_lt X (i * 3) (by omega)
    obtain ⟨xj, hxj⟩ := get?_of_lt X (j * 3) (by omega)
    obtain ⟨yi, hyi⟩ := get?_of_lt X (i * 3 + 1) (by omega)
    obtain ⟨yj, hyj⟩ := get?_of_lt X (j * 3 + 1) (by omega)
    obtain ⟨zj, hzj⟩ := get?_of_lt X (j * 3 + 2) (by omega)
    have hlen : ∀ z : F, (X.set (i * 3 + 2) z).length = X.length := fun z => by simp
    have hnl : ¬ X.length ≤ i * 3 + 2 := by omega
    rw [distdInner]
    simp only [hc, hxi, hxj, hyi, hyj, hzj, hnl, if_false]
    by_cases hcj : cj = 'F'
    · simp only [hcj, if_true]
      exact ih2 _ rfl
    · simp only [hcj, if_false, show ¬ ('@' : Char) = ':' by decide, if_true, hlt,
        Bool.false_eq_true, and_false, show ¬ ('<' : Char) = '>' by decide, false_and]
      exact ih2 _ (hlen _)

/-- The outer loop of `<@` when no distance is below the threshold: with fuel for the
particles still to come it ends with the mask as it was. -/
theorem distdOuter_never {F : Type} (ops : FloatOps F) (dist : F)
    (hlt : ∀ x, ops.lt (ops.sqrt x) dist = false)
    (center : List Char) (atoms : Nat) (ipres : List Nat) (n : Nat)
    (hc : atoms ≤ center.length) (hn : 3 * atoms ≤ n) (pMask : List Char) (fuel : Nat) :
    ∀ (i curres : Nat) (X : List F), X.length = n → atoms - i < fuel →
      ∃ X2, distdOuter ops '<' '@' dist center atoms ipres fuel i curres pMask X =
        some (Outcome.ok (pMask, X2)) ∧ X2.length = n := by
  induction fuel with
  | zero => intro i curres X _ h; omega
  | succ fuel ih =>
    intro i curres X hX hf
    rw [distdOuter]
    by_cases hi : atoms ≤ i
    · simp only [hi, if_true]
      exact ⟨X, rfl, hX⟩
    · simp only [hi, if_false]
      split
      · exact ih _ _ X hX (by omega)
      · obtain ⟨X2, h2, hl2⟩ := distdInner_never ops dist hlt center ipres
          (if ipres.getD (curres + 1) 0 ≤ i + 1 then curres + 1 else curres) i n (by omega)
          (List.range atoms) (fun j hj => by rw [List.mem_range] at hj; omega) pMask X hX
        simp only [h2, Bool.false_eq_true, false_and, if_false]
        exact ih _ _ X2 hl2 (by omega)

/-! ## Residue granularity -/

/-- In a well-formed universe the boundaries never decrease up to the last one. -/
theorem Universe.WF.ipres_mono {U : Universe} (h : U.WF) (a b : Nat) (hab : a ≤ b)
    (hb : b ≤ U.residues) : U.ipres.getD a 0 ≤ U.ipres.getD b 0 := by
  obtain ⟨-, -, -, -, -, hmono⟩ := h
  induction b with
  | zero =>
    have : a = 0 := by omega
    subst this; exact Nat.le_refl _
  | succ b ih =>
    by_cases e : a = b + 1
    · subst e; exact Nat.le_refl _
    · exact Nat.le_trans (ih (by omega) (by omega)) (hmono b (by omega))

/-- A particle of a residue is one of the `atoms` particles. -/
theorem Universe.WF.inResidue_lt {U : Universe} (h : U.WF) (r k : Nat) (hr : r < U.residues)
    (hk : inResidue U.ipres r k) : k < U.atoms := by
  have h1 := h.ipres_mono (r + 1) U.residues (by omega) (Nat.le_refl _)
  have h2 := h.2.2.2.2.1
  have h3 := hk.2
  omega

/-- Distinct residues share no particle. -/
theorem Universe.WF.inResidue_unique {U : Universe} (h : U.WF) (r c k : Nat)
    (hr : r < U.residues) (hc : c < U.residues)
    (hk : inResidue U.ipres r k) (hk2 : inResidue U.ipres c k) : r = c := by
  rcases Nat.lt_trichotomy r c with hlt | heq | hgt
  · have := h.ipres_mono (r + 1) c (by omega) (by omega)
    have := hk.2
    have := hk2.1
    omega
  · exact heq
  · have := h.ipres_mono (c + 1) r (by omega) (by omega)
    have := hk2.2
    have := hk.1
    omega

theorem WholeResidues.of_fresh {U : Universe} (h : U.WF) :
    WholeResidues U (List.replicate U.atoms 'F') := by
  intro r hr
  right
  intro k hk
  have := h.inResidue_lt r k hr hk
  simp [List.getElem?_replicate, this]

/-- Marking one residue keeps a union of whole residues one. -/
theorem WholeResidues.setRange {U : Universe} (h : U.WF) (c : Nat) (hc : c < U.residues)
    (m : List Char) (hm : m.length = U.atoms) (hw : WholeResidues U m) :
    WholeResidues U (setRange m (U.ipres.getD c 0) (U.ipres.getD (c + 1) 0)) := by
  obtain ⟨-, hmark⟩ := setRange_marks (U.ipres.getD c 0) (U.ipres.getD (c + 1) 0)
    (h.ipres_pos c hc) m
  intro r hr
  by_cases e : r = c
  · subst e
    left
    intro k hk
    exact (hmark k (by rw [hm]; exact h.inResidue_lt r k hr hk)).1 hk
  · have hnot : ∀ k, inResidue U.ipres r k → ¬ inResidue U.ipres c k :=
      fun k hk hk2 => e (h.inResidue_unique r c k hr hc hk hk2)
    have hsame : ∀ k, inResidue U.ipres r k →
        (Ptrajmask.setRange m (U.ipres.getD c 0) (U.ipres.getD (c + 1) 0))[k]? = m[k]? :=
      fun k hk => (hmark k (by rw [hm]; exact h.inResidue_lt r k hr hk)).2 (hnot k hk)
    rcases hw r hr with hT | hF
    · left; intro k hk; rw [hsame k hk]; exact hT k hk
    · right; intro k hk; rw [hsame k hk]; exact hF k hk

/-- The measure of the outer loop falls when the loop variable moves forward, and also
when it moves back to the first particle after the current residue, since the residue
counter is then advanced. -/
theorem distd_measure (A R i c i2 b : Nat) (hi : i < A) (hc : c < R)
    (h : i < i2 ∨ b ≤ i2 + 1) :
    (R - (if b ≤ i2 + 1 then c + 1 else c)) * (A + 1) + (A - i2) <
      (R - c) * (A + 1) + (A - i) := by
  by_cases hb : b ≤ i2 + 1
  · simp only [hb, if_true]
    have e : (R - c) * (A + 1) = (R - (c + 1)) * (A + 1) + (A + 1) := by
      have : R - c = (R - (c + 1)) + 1 := by omega
      rw [this, Nat.succ_mul]
    rw [e]
    omega
  · simp only [hb, if_false]
    have := h.resolve_right hb
    omega

/-- The outer loop at residue granularity in a well-formed universe: with enough fuel it
ends normally, and a mask that was a union of whole residues is one afterwards. -/
theorem distdOuter_residues {F : Type} (ops : FloatOps F) (comp : Char)
    (hcomp : comp = '<' ∨ comp = '>') (dist : F) (center : List Char) (U : Universe)
    (hU : U.WF) (hc : U.atoms ≤ center.length) (n : Nat) (hn : 3 * U.atoms ≤ n)
    (fuel : Nat) :
    ∀ (i curres : Nat) (pMask : List Char) (X : List F), X.length = n →
      pMask.length = U.atoms → WholeResidues U pMask →
      (U.atoms ≤ i ∨ curres < U.residues) →
      (U.residues - (if U.ipres.getD (curres + 1) 0 ≤ i + 1 then curres + 1 else curres)) *
          (U.atoms + 1) + (U.atoms - i) < fuel →
      ∃ m X2, distdOuter ops comp ':' dist center U.atoms U.ipres fuel i curres pMask X =
          some (Outcome.ok (m, X2)) ∧ m.length = U.atoms ∧ WholeResidues U m := by
  induction fuel with
  | zero => intro i curres pMask X _ _ _ _ h; omega
  | succ fuel ih =>
    intro i curres pMask X hX hp hw hcur hf
    rw [distdOuter]
    by_cases hi : U.atoms ≤ i
    · simp only [hi, if_true]
      exact ⟨pMask, X, rfl, hp, hw⟩
    · simp only [hi, if_false]
      have hcr : curres < U.residues := hcur.resolve_left hi
      have hlast : U.ipres.getD U.residues 0 = U.atoms + 1 := hU.2.2.2.2.1
      have hc2 : (if U.ipres.getD (curres + 1) 0 ≤ i + 1 then curres + 1 else curres) <
          U.residues := by
        split
        · rename_i hle
          have : curres + 1 ≠ U.residues := by
            intro e
            rw [e, hlast] at hle
            omega
          omega
        · exact hcr
      generalize (if U.ipres.getD (curres + 1) 0 ≤ i + 1 then curres + 1 else curres) = c2
        at hc2 hf ⊢
      split
      · have hm := distd_measure U.atoms U.residues i c2 (i + 1) (U.ipres.getD (c2 + 1) 0)
          (by omega) hc2 (Or.inl (by omega))
        exact ih (i + 1) c2 pMask X hX hp hw (Or.inr hc2) (by omega)
      · obtain ⟨brk, p2, X2, hin⟩ := distdInner_total ops comp ':' dist center U.ipres c2 i n
          (Or.inr ⟨rfl, hcomp⟩) (by omega) (List.range U.atoms)
          (fun j hj => by rw [List.mem_range] at hj; omega) pMask X hX
        obtain ⟨hl2, hsp⟩ := distdInner_spec ops comp ':' dist center U.ipres c2 i
          (List.range U.atoms) pMask X brk p2 X2 hin
        simp only [hin, and_true]
        rcases hsp with ⟨hb, rfl⟩ | ⟨hb, ⟨-, rfl⟩ | ⟨habs, -⟩⟩
        · subst hb
          simp only [Bool.false_eq_true, if_false]
          have hm := distd_measure U.atoms U.residues i c2 (i + 1) (U.ipres.getD (c2 + 1) 0)
            (by omega) hc2 (Or.inl (by omega))
          exact ih (i + 1) c2 p2 X2 (by omega) hp hw (Or.inr hc2) (by omega)
        · subst hb
          simp only [if_true]
          have hm := distd_measure U.atoms U.residues i c2 (U.ipres.getD (c2 + 1) 0 - 1)
            (U.ipres.getD (c2 + 1) 0) (by omega) hc2 (Or.inr (by omega))
          exact ih _ c2 _ X2 (by omega) (by rw [setRange_length]; exact hp)
            (hw.setRange hU c2 hc2 pMask hp) (Or.inr hc2) (by omega)
        · exact absurd habs (by decide)

/-! ## C15, C16: the distance test and the residue granularity -/

/-- C15 (defect of the code): for a single particle at `(x, y, z)` that is its own
center, `selectDistd` with the criterion `<@` and the threshold `d` read from the text
tests the value `sqrt((x - x)² + (y - y)² + z * z)` against `d`: the third term is the
square of the coordinate `z` itself, not of a difference, because the source reads
`dz = X[i3+2] = X[j3+2]`. The Euclidean distance of the particle to itself is
`sqrt((x - x)² + (y - y)² + (z - z)²)`. -/
theorem C15_z_term_is_not_a_difference {F : Type} (ops : FloatOps F) (x y z d : F)
    (text : List Char) (hd : ops.scan text = some d) (fuel : Nat) (hf : 2 ≤ fuel) :
    selectDistd ops fuel (some ('<' :: '@' :: text)) (some ['T']) 1 1 [1, 2] [x, y, z] =
      some (Outcome.ok
        ([if ops.lt (ops.sqrt (ops.add (ops.add (ops.mul (ops.sub x x) (ops.sub x x))
              (ops.mul (ops.sub y y) (ops.sub y y))) (ops.mul z z))) d = true
            then 'T' else 'F'], [x, y, z])) := by
  obtain ⟨k, rfl⟩ : ∃ k, fuel = k + 2 := ⟨fuel - 2, by omega⟩
  by_cases h : ops.lt (ops.sqrt (ops.add (ops.add (ops.mul (ops.sub x x) (ops.sub x x))
      (ops.mul (ops.sub y y) (ops.sub y y))) (ops.mul z z))) d = true
  · simp [selectDistd, distdOuter, distdInner, hd, h, List.range_succ]
  · simp [selectDistd, distdOuter, distdInner, hd, h, List.range_succ]

/-- C15 at one particle at `(0, 0, 5)`, threshold `1`, in exact integer arithmetic: the
particle is at distance `0` from itself and is not selected, because the value tested is
`sqrt(0 + 0 + 25) = 5`; so `*<@1` selects nothing. -/
theorem C15_z_term_is_not_a_difference_witness :
    intOps.scan ['1'] = some 1 ∧
      selectDistd intOps 2 (some ['<', '@', '1']) (some ['T']) 1 1 [1, 2] [0, 0, 5] =
        some (Outcome.ok (['F'], [0, 0, 5])) ∧
      parseMaskString ⟨1, 1, [['C', 'A']], [['A']], [1, 2]⟩ (some [0, 0, 5]) 'd'
        (distdOf intOps 2 ⟨1, 1, [['C', 'A']], [['A']], [1, 2]⟩) ['*', '<', '@', '1'] =
        Outcome.ok ['F'] :=
  ⟨by decide,
    (C15_z_term_is_not_a_difference intOps 0 0 5 1 ['1'] (by decide) 2 (by decide)).trans
      (by decide),
    by decide⟩

/-- C16: in a well-formed universe, for a comparator `<` or `>`, a threshold that reads
as a number, a center vector of at least `atoms` entries and `3 * atoms` coordinates,
`selectDistd` at residue granularity returns (given fuel for `(residues + 1) * (atoms + 1)`
steps of its outer loop) a mask of `atoms` entries that is a union of whole residues: in
every residue either all particles are selected or none is. -/
theorem C16_residue_granularity_whole_residues {F : Type} (ops : FloatOps F) (U : Universe)
    (hU : U.WF) (comp : Char) (hcomp : comp = '<' ∨ comp = '>') (text : List Char) (d : F)
    (hd : ops.scan text = some d) (center : List Char) (hc : U.atoms ≤ center.length)
    (X : List F) (hX : 3 * U.atoms ≤ X.length) (fuel : Nat)
    (hfuel : (U.residues + 1) * (U.atoms + 1) ≤ fuel) :
    ∃ m X2, selectDistd ops fuel (some (comp :: ':' :: text)) (some center) U.atoms
        U.residues U.ipres X = some (Outcome.ok (m, X2)) ∧
      m.length = U.atoms ∧ WholeResidues U m := by
  simp only [selectDistd, List.length_cons, List.drop_succ_cons, List.drop_zero, hd,
    List.getD_cons_zero, List.getD_cons_succ, Option.getD_some]
  rw [if_neg (by omega)]
  refine distdOuter_residues ops comp hcomp d center U hU hc X.length hX fuel 0 0 _ X rfl
    (by simp) (WholeResidues.of_fresh hU) ?_ ?_
  · by_cases h0 : U.atoms = 0
    · left; omega
    · right
      have h1 : U.ipres.getD 0 0 = 1 := hU.2.2.2.1
      have h2 : U.ipres.getD U.residues 0 = U.atoms + 1 := hU.2.2.2.2.1
      by_contra hr
      have : U.residues = 0 := by omega
      rw [this, h1] at h2
      omega
  · have e : (U.residues + 1) * (U.atoms + 1) = U.residues * (U.atoms + 1) + (U.atoms + 1) :=
      Nat.succ_mul _ _
    have hle : (U.residues - (if U.ipres.getD (0 + 1) 0 ≤ 0 + 1 then 0 + 1 else 0)) *
        (U.atoms + 1) ≤ U.residues * (U.atoms + 1) :=
      Nat.mul_le_mul_right _ (Nat.sub_le _ _)
    omega

/-- C16 on three particles in two residues (particles 0, 1 and particle 2), center
particle 0: within distance 2 the first residue is selected as a whole, beyond distance 2
the second. -/
theorem C16_residue_granularity_whole_residues_witness :
    (∃ m X2, selectDistd intOps 12 (some ['<', ':', '2']) (some ['T', 'F', 'F']) 3 2
        [1, 3, 4] [0, 0, 0, 1, 0, 0, 5, 0, 0] = some (Outcome.ok (m, X2)) ∧
      m.length = 3 ∧
      WholeResidues ⟨3, 2, List.replicate 3 ['C', 'A'], List.replicate 2 ['A'], [1, 3, 4]⟩
        m) ∧
    selectDistd intOps 12 (some ['<', ':', '2']) (some ['T', 'F', 'F']) 3 2
        [1, 3, 4] [0, 0, 0, 1, 0, 0, 5, 0, 0] =
      some (Outcome.ok (['T', 'T', 'F'], [0, 0, 0, 1, 0, 0, 5, 0, 0])) ∧
    selectDistd intOps 12 (some ['>', ':', '2']) (some ['T', 'F', 'F']) 3 2
        [1, 3, 4] [0, 0, 0, 1, 0, 0, 5, 0, 0] =
      some (Outcome.ok (['F', 'F', 'T'], [0, 0, 0, 1, 0, 0, 5, 0, 0])) :=
  ⟨C16_residue_granularity_whole_residues intOps
      ⟨3, 2, List.replicate 3 ['C', 'A'], List.replicate 2 ['A'], [1, 3, 4]⟩
      ⟨by decide, by decide, by decide, by decide, by decide, by decide⟩
      '<' (Or.inl rfl) ['2'] 2 (by decide) ['T', 'F', 'F'] (by decide)
      [0, 0, 0, 1, 0, 0, 5, 0, 0] (by decide) 12 (by decide),
    by decide, by decide⟩

/-! ## A distance criterion after an enclosed expression -/

theorem tokenizeLoop_dropSpaces_append (A R : List Char) (h : noDist A)
    (f : Nat) (b o : List Char) :
    tokenizeLoop (A ++ R) f b o = tokenizeLoop (dropSpaces A ++ R) f b o := by
  induction A generalizing f b o with
  | nil => rfl
  | cons c s ih =>
    have ihs := ih (fun x hx => h x (List.mem_cons_of_mem _ hx))
    by_cases hs : isspace c = true
    · rw [List.cons_append, tokenizeLoop_space hs, ihs]
      simp [dropSpaces, hs]
    · have e : dropSpaces (c :: s) = c :: dropSpaces s := by simp [dropSpaces, hs]
      obtain ⟨h1, h2⟩ := h c (List.mem_cons_self _ _)
      rw [e, List.cons_append, List.cons_append]
      rcases tokenizeLoop_step c h1 h2 f b o with hn | ⟨f2, b2, o2, hstep, -, -⟩
      · rw [hn, hn]
      · rw [hstep, hstep, ihs]

theorem spaces_noDist (sp : List Char) (h : ∀ c ∈ sp, isspace c = true) : noDist sp := by
  intro c hc
  have := h c hc
  constructor <;> rintro rfl <;> revert this <;> decide

/-- The tokenizer on an enclosed expression followed by a distance criterion: the
expression in parentheses, the comparator, and the criterion as a term of its own. -/
theorem tokenize_distance (C : List Char) (hC : noDist C) (T : List Char)
    (hrun : ∀ O rest, closes rest →
      tokenizeLoop (dropSpaces C ++ rest) 0 [] O =
        tokenizeLoop rest 0 [] (O ++ '(' :: (T ++ [')'])))
    (cmp g : Char) (hcmp : cmp = '<' ∨ cmp = '>') (hg : g = ':' ∨ g = '@')
    (sp1 sp2 : List Char) (hsp1 : ∀ c ∈ sp1, isspace c = true)
    (hsp2 : ∀ c ∈ sp2, isspace c = true) (txt : List Char)
    (htxt : ∀ c ∈ txt, isOperand c = true) :
    tokenize (C ++ sp1 ++ cmp :: g :: (sp2 ++ txt)) =
      some ('(' :: (T ++ ')' :: cmp :: '(' :: '[' :: cmp :: g ::
        (txt.map eqStar ++ [']', ')', '_']))) := by
  have hop : isOperator cmp = true := by
    rcases hcmp with e | e <;> subst e <;> decide
  have hcl : cmp = '>' ∨ cmp = '<' := by
    rcases hcmp with e | e
    · exact Or.inr e
    · exact Or.inl e
  have hnd : noDist (C ++ sp1) := by
    intro c hc
    rcases List.mem_append.1 hc with h | h
    · exact hC c h
    · exact spaces_noDist sp1 hsp1 c h
  have hds : dropSpaces (C ++ sp1) = dropSpaces C := by
    rw [dropSpaces_append, dropSpaces_spaces sp1 hsp1, List.append_nil]
  have h2 := tokenizeLoop_dropSpaces_append sp2 txt (spaces_noDist sp2 hsp2) 3
    ['(', '[', cmp, g] ('(' :: (T ++ [')']) ++ [cmp])
  rw [dropSpaces_spaces sp2 hsp2, List.nil_append] at h2
  have h3 := tokenizeLoop_operands txt [] 3 (by decide) htxt ['(', '[', cmp, g]
    ('(' :: (T ++ [')']) ++ [cmp])
  rw [List.append_nil] at h3
  rw [tokenize_eq_finish, tokenizeLoop_dropSpaces_append (C ++ sp1) _ hnd, hds,
    hrun [] (cmp :: g :: (sp2 ++ txt)) (Or.inr ⟨cmp, rfl, Or.inl hop⟩),
    tokenizeLoop_opchar (Or.inl hop)]
  simp only [hcl, if_true, hg, flushed, Nat.lt_irrefl, gt_iff_lt, if_false, List.nil_append]
  rw [h2, h3, tokenizeLoop_nil_flushed]
  simp only [flushed, Nat.lt_irrefl, if_false, Option.map_some', gt_iff_lt,
    show 0 < 3 by decide, if_true]
  have e : '(' :: (T ++ [')']) ++ [cmp] ++ (['(', '[', cmp, g] ++ List.map eqStar txt ++
      [']', ')']) ++ [NUL] =
      ('(' :: (T ++ ')' :: cmp :: '(' :: '[' :: cmp :: g ::
        (txt.map eqStar ++ [']', ')']))) ++ [NUL] := by simp
  rw [e, finish_concat]
  simp

/-- The conversion to postfix of an enclosed expression followed by a distance criterion:
the postfix text of the expression, the criterion in brackets, the comparator. -/
theorem torpn_distance (T P : List Char)
    (htor : ∀ rest B out, torpnLoop ('(' :: (T ++ ')' :: rest)) B false out =
      torpnLoop rest B false (out ++ P))
    (cmp g : Char) (hcmp : cmp = '<' ∨ cmp = '>') (hg : g = ':' ∨ g = '@')
    (body : List Char) (hbody : ∀ c ∈ body, isTermChar c = true) :
    torpn ('(' :: (T ++ ')' :: cmp :: '(' :: '[' :: cmp :: g :: (body ++ [']', ')', '_']))) =
      Outcome.ok (P ++ '[' :: cmp :: g :: (body ++ [']', cmp])) := by
  have hop : isOperator cmp = true := by
    rcases hcmp with e | e <;> subst e <;> decide
  have hpr : priority '_' < priority cmp := by
    rcases hcmp with e | e <;> subst e <;> decide
  have hne : cmp ≠ '_' ∧ cmp ≠ '(' ∧ cmp ≠ ']' := by
    rcases hcmp with e | e <;> subst e <;> decide
  have hgne : g ≠ ']' := by
    rcases hg with e | e <;> subst e <;> decide
  have hb : ∀ c ∈ cmp :: g :: body, c ≠ ']' := by
    intro c hc
    simp only [List.mem_cons] at hc
    rcases hc with e | e | hc
    · rw [e]; exact hne.2.2
    · rw [e]; exact hgne
    · exact isTermChar_ne_close (hbody c hc)
  have e1 : '(' :: '[' :: cmp :: g :: (body ++ [']', ')', '_']) =
      '(' :: '[' :: ((cmp :: g :: body) ++ ']' :: ')' :: ['_']) := by simp
  unfold torpn
  rw [htor _ ['_'] [], torpnLoop_op_push cmp hop _ '_' [] _ (by decide) hpr, e1,
    torpnLoop_term _ _ _ _ hb, torpnLoop_finish1 cmp hne.1 hne.2.1]
  simp

/-- The evaluation of a distance criterion in brackets followed by its comparator: the
text of the criterion is put on the stack and `selectDist` is called with it and with the
entry below it, the center. -/
theorem evalLoop_distance {Coords : Type} (U : Universe) (type : Char)
    (distd : Option (List Char) → Option (List Char) → Coords → Outcome (List Char × Coords))
    (cmp g : Char) (hcmp : cmp = '<' ∨ cmp = '>') (hg : g = ':' ∨ g = '@')
    (body : List Char) (hbody : ∀ c ∈ body, isTermChar c = true) (b : List Char)
    (m : List Char) (S : List (Option (List Char))) (X : Option Coords) :
    evalLoop U type distd ('[' :: cmp :: g :: (body ++ [']', cmp])) b (some m :: S) X =
      match selectDist distd (some (cmp :: g :: body)) (some m) X type with
      | Outcome.ok (pMask, X2) => Outcome.ok (some pMask :: S, some X2)
      | Outcome.fail => Outcome.fail
      | Outcome.ub => Outcome.ub := by
  have hc : cmp ≠ '[' ∧ cmp ≠ ']' ∧ isOperand cmp = false ∧ strchr [':', '@'] cmp = false ∧
      cmp ≠ '&' ∧ cmp ≠ '|' ∧ strchr ['<', '>'] cmp = true := by
    rcases hcmp with e | e <;> subst e <;> decide
  have hgt : isTermChar g = true := by
    rcases hg with e | e <;> subst e <;> decide
  have hgb : ∀ c ∈ g :: body, isTermChar c = true := by
    intro c h
    rcases List.mem_cons.1 h with e | h
    · rw [e]; exact hgt
    · exact hbody c h
  have hsel : selectElemMask U (cmp :: g :: body) = some (cmp :: g :: body) := by
    rcases hcmp with e | e <;> subst e <;> simp [selectElemMask, strchr]
  have e1 : g :: (body ++ [']', cmp]) = (g :: body) ++ ']' :: [cmp] := by simp
  rw [evalLoop]
  simp only [if_true]
  rw [evalLoop]
  simp only [hc.1, hc.2.1, hc.2.2.1, hc.2.2.2.1, hc.2.2.2.2.1, hc.2.2.2.2.2.1,
    hc.2.2.2.2.2.2, if_false, if_true, Bool.false_eq_true, or_self, List.head?_cons,
    Option.some.injEq, hg]
  rw [e1, evalLoop_body U type distd (g :: body) _ _ _ _ hgb, evalLoop]
  simp only [Char.reduceEq, if_false, if_true, List.nil_append, List.singleton_append, hsel]
  rw [evalLoop]
  simp only [hc.1, hc.2.1, hc.2.2.1, hc.2.2.2.1, hc.2.2.2.2.1, hc.2.2.2.2.2.1,
    hc.2.2.2.2.2.2, if_false, if_true, Bool.false_eq_true, or_self, List.head?_nil,
    popStack]
  cases selectDist distd (some (cmp :: g :: body)) (some m) X type with
  | ok r => obtain ⟨pMask, X2⟩ := r; simp [evalLoop_nil]
  | fail => rfl
  | ub => rfl

/-- An enclosed expression that evaluates to `m`, followed by a distance criterion (the
comparator, the granularity and the text of the threshold, with any whitespace before the
comparator and before the threshold): the result is that of `selectDist` on the text of
the criterion and the center `m`. -/
theorem distance_enclosed {Coords : Type} (U : Universe) (X : Option Coords) (type : Char)
    (distd : Option (List Char) → Option (List Char) → Coords → Outcome (List Char × Coords))
    (cmp g : Char) (hcmp : cmp = '<' ∨ cmp = '>') (hg : g = ':' ∨ g = '@')
    (C : List Char) (hC : Enclosed C) (m : List Char)
    (hm : parseMaskString U X type distd C = Outcome.ok m)
    (sp1 sp2 : List Char) (hsp1 : ∀ c ∈ sp1, isspace c = true)
    (hsp2 : ∀ c ∈ sp2, isspace c = true) (txt : List Char)
    (htxt : ∀ c ∈ txt, isOperand c = true) :
    U.atoms ≤ m.length ∧
    parseMaskString U X type distd (C ++ sp1 ++ cmp :: g :: (sp2 ++ txt)) =
      match selectDist distd (some (cmp :: g :: txt.map eqStar)) (some m) X type with
      | Outcome.ok (pMask, _) => if U.atoms ≤ pMask.length then Outcome.ok pMask else Outcome.ub
      | Outcome.fail => Outcome.fail
      | Outcome.ub => Outcome.ub := by
  have hd : parseMaskString U X type distd (dropSpaces C) = Outcome.ok m := by
    rw [← parseMaskString_dropSpaces U X type distd C hC.noDist]; exact hm
  obtain ⟨T, P, hrun, htor, hl, -, hframe⟩ :=
    enclosed_pipeline U X type distd (dropSpaces C) hC.dropSpaces m hd
  have hbody : ∀ c ∈ txt.map eqStar, isTermChar c = true := by
    intro c hc
    obtain ⟨a, ha, rfl⟩ := List.mem_map.1 hc
    exact isTermChar_eqStar (htxt a ha)
  refine ⟨hl, ?_⟩
  obtain ⟨b4, hb4⟩ := hframe ('[' :: cmp :: g :: (txt.map eqStar ++ [']', cmp])) [] [] X
  simp only [parseMaskString,
    tokenize_distance C hC.noDist T hrun cmp g hcmp hg sp1 sp2 hsp1 hsp2 txt htxt,
    torpn_distance T P htor cmp g hcmp hg _ hbody, eval, hb4,
    evalLoop_distance U type distd cmp g hcmp hg _ hbody b4 m [] X]
  cases selectDist distd (some (cmp :: g :: txt.map eqStar)) (some m) X type with
  | ok r => obtain ⟨pMask, X2⟩ := r; simp [popStack]
  | fail => rfl
  | ub => rfl

/-! ## C17: within distance zero -/

/-- C17: let the threshold text `0.0` read as `z`, and let no square root compare below
`z` (for `double`: a square root is never below zero). Then for every universe, every
center vector of at least `atoms` entries and `3 * atoms` coordinates, `selectDistd` with
the criterion `<@0.0` returns, given fuel for `atoms` steps of its outer loop, the mask of
`atoms` entries `'F'`; and for every elementary term or parenthesised expression
without `<` and `>` `C` that evaluates successfully, `C <@ 0.0` (whitespace allowed before
the comparator and before the threshold) evaluates successfully in the `double` variant
and selects no particle. -/
theorem C17_within_zero_selects_nothing {F : Type} (ops : FloatOps F) (z : F)
    (hz : ops.scan ['0', '.', '0'] = some z) (hlt : ∀ x, ops.lt (ops.sqrt x) z = false)
    (U : Universe) (X : List F) (hX : 3 * U.atoms ≤ X.length) (fuel : Nat)
    (hfuel : U.atoms < fuel) :
    (∀ center : List Char, U.atoms ≤ center.length →
      ∃ X2, selectDistd ops fuel (some ['<', '@', '0', '.', '0']) (some center) U.atoms
        U.residues U.ipres X = some (Outcome.ok (List.replicate U.atoms 'F', X2))) ∧
    ∀ (C : List Char), Enclosed C → ∀ m : List Char,
      parseMaskString U (some X) 'd' (distdOf ops fuel U) C = Outcome.ok m →
      ∀ sp1 sp2 : List Char, (∀ c ∈ sp1, isspace c = true) → (∀ c ∈ sp2, isspace c = true) →
        parseMaskString U (some X) 'd' (distdOf ops fuel U)
          (C ++ sp1 ++ '<' :: '@' :: (sp2 ++ ['0', '.', '0'])) =
          Outcome.ok (List.replicate U.atoms 'F') := by
  have hsel : ∀ center : List Char, U.atoms ≤ center.length →
      ∃ X2, selectDistd ops fuel (some ['<', '@', '0', '.', '0']) (some center) U.atoms
        U.residues U.ipres X = some (Outcome.ok (List.replicate U.atoms 'F', X2)) := by
    intro center hc
    obtain ⟨X2, h2, -⟩ := distdOuter_never ops z hlt center U.atoms U.ipres X.length hc hX
      (List.replicate U.atoms 'F') fuel 0 0 X rfl (by omega)
    refine ⟨X2, ?_⟩
    simp only [selectDistd, List.length_cons, List.length_nil, List.drop_succ_cons,
      List.drop_zero, hz, List.getD_cons_zero, List.getD_cons_succ, Option.getD_some]
    rw [if_neg (by omega)]
    exact h2
  refine ⟨hsel, fun C hC m hm sp1 sp2 hsp1 hsp2 => ?_⟩
  obtain ⟨hl, hp⟩ := distance_enclosed U (some X) 'd' (distdOf ops fuel U) '<' '@'
    (Or.inl rfl) (Or.inr rfl) C hC m hm sp1 sp2 hsp1 hsp2 ['0', '.', '0'] (by decide)
  obtain ⟨X2, h2⟩ := hsel m hl
  rw [hp]
  have e : List.map eqStar ['0', '.', '0'] = ['0', '.', '0'] := by decide
  simp [selectDist, distdOf, e, h2]

/-- C17 on three particles in exact integer arithmetic: `*  <@ 0.0` selects nothing. -/
theorem C17_within_zero_selects_nothing_witness :
    intOps.scan ['0', '.', '0'] = some 0 ∧
    (∀ x, intOps.lt (intOps.sqrt x) 0 = false) ∧
    parseMaskString ⟨3, 2, List.replicate 3 ['C', 'A'], List.replicate 2 ['A'], [1, 3, 4]⟩
      (some [0, 0, 0, 1, 0, 0, 5, 0, 0]) 'd'
      (distdOf intOps 4 ⟨3, 2, List.replicate 3 ['C', 'A'], List.replicate 2 ['A'], [1, 3, 4]⟩)
      (['*'] ++ [' '] ++ '<' :: '@' :: ([' '] ++ ['0', '.', '0'])) =
        Outcome.ok (List.replicate 3 'F') :=
  ⟨by decide, fun x => by simp [intOps],
    (C17_within_zero_selects_nothing intOps 0 (by decide) (fun x => by simp [intOps])
      ⟨3, 2, List.replicate 3 ['C', 'A'], List.replicate 2 ['A'], [1, 3, 4]⟩
      [0, 0, 0, 1, 0, 0, 5, 0, 0] (by decide) 4 (by decide)).2 ['*']
      (Or.inr (Or.inl rfl)) (List.replicate 3 'T') (by decide) [' '] [' '] (by decide)
      (by decide)⟩

/-! ## The evaluation of a postfix text in two parts -/

/-- How the evaluation of `A ++ Q` follows from that of `A`, when `Q` does not start with
`:` or `@` (so that a `<` or `>` at the end of `A` is read in the same way): failure and
undefined behaviour of `A` are those of the whole, and after a normal end of `A` the
evaluation goes on with `Q` on the stack and coordinates that `A` leaves. -/
theorem evalLoop_append {Coords : Type} (U : Universe) (type : Char)
    (distd : Option (List Char) → Option (List Char) → Coords → Outcome (List Char × Coords))
    (A Q : List Char) (hQ : Q.head? ≠ some ':' ∧ Q.head? ≠ some '@') (b : List Char)
    (S : List (Option (List Char))) (X : Option Coords) :
    match evalLoop U type distd A b S X with
    | Outcome.ok (S2, X2) =>
      ∃ b2, evalLoop U type distd (A ++ Q) b S X = evalLoop U type distd Q b2 S2 X2
    | Outcome.fail => evalLoop U type distd (A ++ Q) b S X = Outcome.fail
    | Outcome.ub => evalLoop U type distd (A ++ Q) b S X = Outcome.ub := by
  induction A generalizing b S X with
  | nil =>
    rw [evalLoop_nil]
    exact ⟨b, rfl⟩
  | cons c A ih =>
    have hlook : ((A ++ Q).head? = some ':' ∨ (A ++ Q).head? = some '@') ↔
        (A.head? = some ':' ∨ A.head? = some '@') := by
      cases A with
      | nil => simp [hQ.1, hQ.2]
      | cons a A => simp
    rw [List.cons_append, evalLoop, evalLoop]
    by_cases h1 : c = '['
    · simp only [h1, if_true]; exact ih _ _ _
    simp only [h1, if_false]
    by_cases h2 : c = ']'
    · simp only [h2, if_true]; exact ih _ _ _
    simp only [h2, if_false]
    by_cases h3 : isOperand c = true ∨ strchr [':', '@'] c = true
    · simp only [h3, if_true]; exact ih _ _ _
    simp only [h3, if_false]
    by_cases h4 : c = '&' ∨ c = '|'
    · simp only [h4, if_true]
      cases (popStack S).1 with
      | none => simp
      | some p1 =>
        cases (popStack (popStack S).2).1 with
        | none => simp
        | some p2 =>
          simp only []
          cases binop c p2 p1 U.atoms with
          | ok m => simp only []; exact ih _ _ _
          | fail => simp
          | ub => simp
    simp only [h4, if_false]
    by_cases h5 : strchr ['<', '>'] c = true
    · simp only [h5, if_true, hlook]
      by_cases h6 : A.head? = some ':' ∨ A.head? = some '@'
      · simp only [h6, if_true]; exact ih _ _ _
      · simp only [h6, if_false]
        cases selectDist distd (popStack S).1 (popStack (popStack S).2).1 X type with
        | ok r => obtain ⟨pMask, X2⟩ := r; simp only []; exact ih _ _ _
        | fail => simp
        | ub => simp
    simp only [h5, if_false]
    by_cases h7 : c = '!'
    · simp only [h7, if_true]
      cases (popStack S).1 with
      | none => simp
      | some p1 =>
        simp only []
        cases neg p1 U.atoms with
        | ok m => simp only []; exact ih _ _ _
        | fail => simp
        | ub => simp
    simp [h7]

/-- Without coordinates no distance selection succeeds, so the evaluation ends without
coordinates as well. -/
theorem evalLoop_no_coords {Coords : Type} (U : Universe) (type : Char)
    (distd : Option (List Char) → Option (List Char) → Coords → Outcome (List Char × Coords))
    (A b : List Char) (S S2 : List (Option (List Char))) (X2 : Option Coords)
    (h : evalLoop U type distd A b S none = Outcome.ok (S2, X2)) : X2 = none := by
  induction A generalizing b S with
  | nil =>
    rw [evalLoop_nil] at h
    simp only [Outcome.ok.injEq, Prod.mk.injEq] at h
    exact h.2.symm
  | cons c A ih =>
    rw [evalLoop] at h
    by_cases h1 : c = '['
    · simp only [h1, if_true] at h; exact ih _ _ h
    simp only [h1, if_false] at h
    by_cases h2 : c = ']'
    · simp only [h2, if_true] at h; exact ih _ _ h
    simp only [h2, if_false] at h
    by_cases h3 : isOperand c = true ∨ strchr [':', '@'] c = true
    · simp only [h3, if_true] at h; exact ih _ _ h
    simp only [h3, if_false] at h
    by_cases h4 : c = '&' ∨ c = '|'
    · simp only [h4, if_true] at h
      cases e1 : (popStack S).1 with
      | none => simp [e1] at h
      | some p1 =>
        cases e2 : (popStack (popStack S).2).1 with
        | none => simp [e1, e2] at h
        | some p2 =>
          simp only [e1, e2] at h
          cases e3 : binop c p2 p1 U.atoms with
          | ok m => simp only [e3] at h; exact ih _ _ h
          | fail => simp [e3] at h
          | ub => simp [e3] at h
    simp only [h4, if_false] at h
    by_cases h5 : strchr ['<', '>'] c = true
    · simp only [h5, if_true] at h
      by_cases h6 : A.head? = some ':' ∨ A.head? = some '@'
      · simp only [h6, if_true] at h; exact ih _ _ h
      · simp [h6, selectDist] at h
    simp only [h5, if_false] at h
    by_cases h7 : c = '!'
    · simp only [h7, if_true] at h
      cases e1 : (popStack S).1 with
      | none => simp [e1] at h
      | some p1 =>
        simp only [e1] at h
        cases e3 : neg p1 U.atoms with
        | ok m => simp only [e3] at h; exact ih _ _ h
        | fail => simp [e3] at h
        | ub => simp [e3] at h
    simp [h7] at h

theorem eval_of_fail {Coords : Type} (U : Universe) (X : Option Coords) (type : Char)
    (distd : Option (List Char) → Option (List Char) → Coords → Outcome (List Char × Coords))
    (P : List Char) (h : evalLoop U type distd P [] [] X = Outcome.fail) :
    eval U X type distd P = Outcome.fail := by
  unfold eval
  rw [h]

/-- An operator that fails on the stack left by the text before it makes `eval` fail. -/
theorem eval_fail_after {Coords : Type} (U : Universe) (X : Option Coords) (type : Char)
    (distd : Option (List Char) → Option (List Char) → Coords → Outcome (List Char × Coords))
    (A : List Char) (c : Char) (rest : List Char) (hc : c ≠ ':' ∧ c ≠ '@')
    (S : List (Option (List Char))) (X2 : Option Coords)
    (hA : evalLoop U type distd A [] [] X = Outcome.ok (S, X2))
    (hstep : ∀ b, evalLoop U type distd (c :: rest) b S X2 = Outcome.fail) :
    eval U X type distd (A ++ c :: rest) = Outcome.fail := by
  have h := evalLoop_append U type distd A (c :: rest)
    (by simp [hc.1, hc.2]) [] [] X
  rw [hA] at h
  obtain ⟨b2, h2⟩ := h
  exact eval_of_fail U X type distd _ (by rw [h2, hstep])

/-! ## C25, C30: missing coordinates and missing operands -/

/-- C30: when the postfix text before an operator is evaluated normally and leaves a
stack `S`, then `&` or `|` on a stack of fewer than two entries, and `!` on an empty
stack, make `eval` return the failure, in every universe and whatever follows. -/
theorem C30_missing_operand_fails {Coords : Type} (U : Universe) (X : Option Coords)
    (type : Char)
    (distd : Option (List Char) → Option (List Char) → Coords → Outcome (List Char × Coords))
    (A : List Char) (c : Char) (rest : List Char) (S : List (Option (List Char)))
    (X2 : Option Coords) (hA : evalLoop U type distd A [] [] X = Outcome.ok (S, X2))
    (h : ((c = '&' ∨ c = '|') ∧ S.length < 2) ∨ (c = '!' ∧ S = [])) :
    eval U X type distd (A ++ c :: rest) = Outcome.fail := by
  have hc : c ≠ ':' ∧ c ≠ '@' := by
    rcases h with ⟨e | e, -⟩ | ⟨e, -⟩ <;> subst e <;> decide
  refine eval_fail_after U X type distd A c rest hc S X2 hA (fun b => ?_)
  rw [evalLoop]
  rcases h with ⟨hop, hlen⟩ | ⟨e, hS⟩
  · have h1 : c ≠ '[' ∧ c ≠ ']' ∧ ¬ (isOperand c = true ∨ strchr [':', '@'] c = true) := by
      rcases hop with e | e <;> subst e <;> decide
    simp only [h1.1, h1.2.1, h1.2.2, if_false, hop, if_true]
    match S, hlen with
    | [], _ => simp [popStack]
    | [x], _ => cases x <;> simp [popStack]
  · subst e; subst hS
    have h1 : ¬ (isOperand '!' = true ∨ strchr [':', '@'] '!' = true) ∧
        strchr ['<', '>'] '!' = false := by decide
    simp [h1.1, h1.2, popStack]

/-- C30 on the scenario: the postfix text `[:1]&` fails at `&`, and the expressions
`:1 &`, `| :1` and `!` fail. -/
theorem C30_missing_operand_fails_witness :
    eval scenario (none : Option Unit) 'd' (fun _ _ _ => Outcome.fail)
      (['[', ':', '1', ']'] ++ '&' :: []) = Outcome.fail ∧
    parseMaskString scenario (none : Option Unit) 'd' (fun _ _ _ => Outcome.fail)
      [':', '1', ' ', '&'] = Outcome.fail ∧
    parseMaskString scenario (none : Option Unit) 'd' (fun _ _ _ => Outcome.fail)
      ['|', ' ', ':', '1'] = Outcome.fail ∧
    parseMaskString scenario (none : Option Unit) 'd' (fun _ _ _ => Outcome.fail)
      ['!'] = Outcome.fail :=
  ⟨C30_missing_operand_fails scenario (none : Option Unit) 'd' (fun _ _ _ => Outcome.fail)
      ['[', ':', '1', ']'] '&' []
      [some ['T', 'T', 'T', 'F', 'F', 'F', 'F', 'F', 'F']] none (by decide)
      (Or.inl ⟨Or.inl rfl, by decide⟩),
    by decide, by decide, by decide⟩

/-- C25: when the postfix text of an expression reaches a distance operator (a `<` or
`>` that is not the start of a criterion, after a part `A` that is evaluated normally)
and no coordinates are supplied, `eval` returns the failure, and so does
`parseMaskString` for every expression with that postfix text, in every universe and for
every type of coordinates. -/
theorem C25_distance_without_coordinates {Coords : Type} (U : Universe) (type : Char)
    (distd : Option (List Char) → Option (List Char) → Coords → Outcome (List Char × Coords))
    (A : List Char) (c : Char) (rest : List Char) (hc : c = '<' ∨ c = '>')
    (hrest : rest.head? ≠ some ':' ∧ rest.head? ≠ some '@')
    (S : List (Option (List Char))) (X2 : Option Coords)
    (hA : evalLoop U type distd A [] [] none = Outcome.ok (S, X2)) :
    eval U none type distd (A ++ c :: rest) = Outcome.fail ∧
      ∀ s t : List Char, tokenize s = some t → torpn t = Outcome.ok (A ++ c :: rest) →
        parseMaskString U none type distd s = Outcome.fail := by
  have hX2 := evalLoop_no_coords U type distd A [] [] S X2 hA
  subst hX2
  have hne : c ≠ ':' ∧ c ≠ '@' := by
    rcases hc with e | e <;> subst e <;> decide
  have key : eval U none type distd (A ++ c :: rest) = Outcome.fail := by
    refine eval_fail_after U none type distd A c rest hne S none hA (fun b => ?_)
    have h1 : c ≠ '[' ∧ c ≠ ']' ∧ ¬ (isOperand c = true ∨ strchr [':', '@'] c = true) ∧
        ¬ (c = '&' ∨ c = '|') ∧ strchr ['<', '>'] c = true := by
      rcases hc with e | e <;> subst e <;> decide
    rw [evalLoop]
    simp only [h1.1, h1.2.1, h1.2.2.1, h1.2.2.2.1, h1.2.2.2.2, if_false, if_true, hrest.1,
      hrest.2, or_self, selectDist]
  refine ⟨key, fun s t ht hr => ?_⟩
  simp only [parseMaskString, ht, hr]
  exact key

/-- C25 on the scenario: `:1 <@ 2.4` has the postfix text `[:1][<@2.4]<`, which reaches
`<` with the criterion and the center on the stack, and fails without coordinates. -/
theorem C25_distance_without_coordinates_witness :
    eval scenario (none : Option Unit) 'd' (fun _ _ _ => Outcome.fail)
      (['[', ':', '1', ']', '[', '<', '@', '2', '.', '4', ']'] ++ '<' :: []) =
        Outcome.fail ∧
    parseMaskString scenario (none : Option Unit) 'd' (fun _ _ _ => Outcome.fail)
      [':', '1', ' ', '<', '@', ' ', '2', '.', '4'] = Outcome.fail :=
  ⟨(C25_distance_without_coordinates scenario 'd' (fun _ _ _ => Outcome.fail)
      ['[', ':', '1', ']', '[', '<', '@', '2', '.', '4', ']'] '<' [] (Or.inl rfl)
      (by decide)
      [some ['<', '@', '2', '.', '4'], some ['T', 'T', 'T', 'F', 'F', 'F', 'F', 'F', 'F']]
      none (by decide)).1,
    by decide⟩

/-! ## C23, C24: what the scanner of `tokenize` refuses -/

theorem isUnknown_iff (c : Char) :
    isUnknown c = true ↔ isspace c = false ∧ isOperator c = false ∧ c ≠ '(' ∧ c ≠ ')' ∧
      c ≠ ':' ∧ c ≠ '@' ∧ isOperand c = false := by
  simp [isUnknown, and_assoc]

/-- The scanner fails once an unknown character lies ahead, whatever its state. -/
theorem tokenizeLoop_unknown (n : Nat) :
    ∀ s : List Char, s.length ≤ n → (∃ x ∈ s, isUnknown x = true) →
      ∀ (f : Nat) (b o : List Char), tokenizeLoop s f b o = none := by
  induction n with
  | zero =>
    intro s hs ⟨x, hx, _⟩
    have : s = [] := List.length_eq_zero.1 (by omega)
    subst this
    simp at hx
  | succ n ih =>
    intro s hs ⟨x, hx, hu⟩ f b o
    obtain ⟨hx1, hx2, hx3, hx4, hx5, hx6, hx7⟩ := (isUnknown_iff x).1 hu
    cases s with
    | nil => simp at hx
    | cons c rest =>
      have hlen : rest.length ≤ n := by simpa using hs
      -- the unknown character is `c` itself or lies in `rest`
      have hrest : x ≠ c → ∃ y ∈ rest, isUnknown y = true := by
        intro hne
        rcases List.mem_cons.1 hx with e | e
        · exact absurd e hne
        · exact ⟨x, e, hu⟩
      by_cases hs1 : isspace c = true
      · have hne : x ≠ c := by intro e; rw [e, hs1] at hx1; exact absurd hx1 (by decide)
        rw [tokenizeLoop_space hs1]
        exact ih rest hlen (hrest hne) f b o
      have hs2 : isspace c = false := by simpa using hs1
      by_cases hc : isOperator c = true ∨ c = '(' ∨ c = ')'
      · have hne : x ≠ c := by
          intro e
          rcases hc with h | h | h
          · rw [e, h] at hx2; exact absurd hx2 (by decide)
          · exact hx3 (e.trans h)
          · exact hx4 (e.trans h)
        obtain ⟨y, hy, hyu⟩ := hrest hne
        rw [tokenizeLoop_opchar hc]
        split
        · cases rest with
          | nil => simp at hy
          | cons d rest2 =>
            simp only []
            split
            · rename_i hd
              have hyd : y ≠ d := by
                intro e
                obtain ⟨-, -, -, -, h5, h6, -⟩ := (isUnknown_iff y).1 hyu
                rcases hd with h | h
                · exact h5 (e.trans h)
                · exact h6 (e.trans h)
              have hy2 : y ∈ rest2 := by
                rcases List.mem_cons.1 hy with e | e
                · exact absurd e hyd
                · exact e
              exact ih rest2 (by simp at hlen; omega) ⟨y, hy2, hyu⟩ _ _ _
            · rfl
        · exact ih rest hlen ⟨y, hy, hyu⟩ _ _ _
      · rw [tokenizeLoop_other hs2 hc]
        by_cases ho : isOperand c = true
        · have hne : x ≠ c := by intro e; rw [e, ho] at hx7; exact absurd hx7 (by decide)
          simp only [ho, if_true]
          split
          · rfl
          · exact ih rest hlen (hrest hne) _ _ _
        simp only [ho, Bool.false_eq_true, if_false]
        by_cases h1 : c = ':'
        · have hne : x ≠ c := fun e => hx5 (e.trans h1)
          simp only [h1, if_true]
          split <;> exact ih rest hlen (hrest hne) _ _ _
        simp only [h1, if_false]
        by_cases h2 : c = '@'
        · have hne : x ≠ c := fun e => hx6 (e.trans h2)
          simp only [h2, if_true]
          split
          · exact ih rest hlen (hrest hne) _ _ _
          · split
            · exact ih rest hlen (hrest hne) _ _ _
            · split <;> exact ih rest hlen (hrest hne) _ _ _
        simp [h2]

/-- C23: an expression that holds a character which is no whitespace, no operator
(`! & | < >`), no parenthesis, neither `:` nor `@`, and no operand character (a letter, a
digit or one of `* / % - ? , ' . = +`) is refused by `tokenize`, and `parseMaskString`
fails; the markers `[`, `]` and `_` are such characters. -/
theorem C23_unknown_symbol_is_refused {Coords : Type} (U : Universe) (X : Option Coords)
    (type : Char)
    (distd : Option (List Char) → Option (List Char) → Coords → Outcome (List Char × Coords))
    (s : List Char) (x : Char) (hx : x ∈ s) (hs : isspace x = false)
    (hop : isOperator x = false) (hpar : x ≠ '(' ∧ x ≠ ')') (hterm : x ≠ ':' ∧ x ≠ '@')
    (hopd : isOperand x = false) :
    tokenize s = none ∧ parseMaskString U X type distd s = Outcome.fail ∧
      (∀ c : Char, c = '[' ∨ c = ']' ∨ c = '_' →
        isspace c = false ∧ isOperator c = false ∧ (c ≠ '(' ∧ c ≠ ')') ∧
          (c ≠ ':' ∧ c ≠ '@') ∧ isOperand c = false) := by
  have hu : isUnknown x = true :=
    (isUnknown_iff x).2 ⟨hs, hop, hpar.1, hpar.2, hterm.1, hterm.2, hopd⟩
  have ht : tokenize s = none := by
    rw [tokenize_eq_finish, tokenizeLoop_unknown s.length s (Nat.le_refl _) ⟨x, hx, hu⟩]
    rfl
  refine ⟨ht, by simp [parseMaskString, ht], ?_⟩
  rintro c (rfl | rfl | rfl) <;> decide

/-- C23 on `:1#2`, and on the typed markers: `[:1]` and `:1_` are refused. -/
theorem C23_unknown_symbol_is_refused_witness :
    tokenize [':', '1', '#', '2'] = none ∧ tokenize ['[', ':', '1', ']'] = none ∧
      tokenize [':', '1', '_'] = none :=
  ⟨(C23_unknown_symbol_is_refused scenario (none : Option Unit) 'd'
      (fun _ _ _ => Outcome.fail) [':', '1', '#', '2'] '#' (by decide) (by decide)
      (by decide) (by decide) (by decide) (by decide)).1,
    by decide, by decide⟩

/-- A `<` or `>` that is followed by a character other than `:` and `@` makes the scanner
fail, whatever its state and whatever comes before. -/
theorem tokenizeLoop_adjacency (n : Nat) (c d : Char) (rest : List Char)
    (hc : c = '<' ∨ c = '>') (hd : d ≠ ':' ∧ d ≠ '@') :
    ∀ A : List Char, A.length ≤ n →
      ∀ (f : Nat) (b o : List Char), tokenizeLoop (A ++ c :: d :: rest) f b o = none := by
  have hcop : isOperator c = true := by
    rcases hc with e | e <;> subst e <;> decide
  have hcc : c = '>' ∨ c = '<' := by
    rcases hc with e | e
    · exact Or.inr e
    · exact Or.inl e
  have hcne : c ≠ ':' ∧ c ≠ '@' := by
    rcases hc with e | e <;> subst e <;> decide
  have base : ∀ (f : Nat) (b o : List Char), tokenizeLoop (c :: d :: rest) f b o = none := by
    intro f b o
    rw [tokenizeLoop_opchar (Or.inl hcop)]
    simp [hcc, hd.1, hd.2]
  induction n with
  | zero =>
    intro A hA f b o
    have : A = [] := List.length_eq_zero.1 (by omega)
    subst this
    exact base f b o
  | succ n ih =>
    intro A hA f b o
    cases A with
    | nil => exact base f b o
    | cons a A =>
      have hlen : A.length ≤ n := by simpa using hA
      rw [List.cons_append]
      by_cases hs1 : isspace a = true
      · rw [tokenizeLoop_space hs1]
        exact ih A hlen f b o
      have hs2 : isspace a = false := by simpa using hs1
      by_cases ha : isOperator a = true ∨ a = '(' ∨ a = ')'
      · rw [tokenizeLoop_opchar ha]
        split
        · cases A with
          | nil =>
            simp only [List.nil_append]
            simp [hcne.1, hcne.2]
          | cons a2 A2 =>
            simp only [List.cons_append]
            split
            · exact ih A2 (by simp at hlen; omega) _ _ _
            · rfl
        · exact ih A hlen _ _ _
      · rw [tokenizeLoop_other hs2 ha]
        repeat' split
        all_goals first
          | rfl
          | exact ih A hlen _ _ _

/-- Outside the end of the expression the adjacency rule is enforced: a `<` or `>`
followed by any character other than `:` and `@` makes `tokenize` fail. -/
theorem tokenize_adjacency (A : List Char) (c d : Char) (rest : List Char)
    (hc : c = '<' ∨ c = '>') (hd : d ≠ ':' ∧ d ≠ '@') :
    tokenize (A ++ c :: d :: rest) = none := by
  rw [tokenize_eq_finish, tokenizeLoop_adjacency A.length c d rest hc hd A (Nat.le_refl _)]
  rfl

/-- C24 (defect of the code): a `<` that is the last character of the expression is
accepted: `tokenize` on `:1<` succeeds, the terminal symbol overwrites the operator, and
`parseMaskString` evaluates the expression like `:1`. -/
theorem C24_trailing_distance_operator_accepted :
    tokenize [':', '1', '<'] = some ['(', '[', ':', '1', ']', ')', '_'] ∧
      tokenize [':', '1', '>'] = some ['(', '[', ':', '1', ']', ')', '_'] ∧
      parseMaskString scenario (none : Option Unit) 'd' (fun _ _ _ => Outcome.fail)
        [':', '1', '<'] = Outcome.ok ['T', 'T', 'T', 'F', 'F', 'F', 'F', 'F', 'F'] := by
  decide

/-! ## C26: the type selector -/

/-- Once the atom branch of `selectElemMask` has seen `%`, and as long as no `/` follows,
the list kind stays `TYPELIST` and the mask is left as it is. -/
theorem atomMaskLoop_typelist (U : Universe) (s : List Char) (hs : ∀ c ∈ s, c ≠ '/')
    (buffer m : List Char) :
    atomMaskLoop U s buffer ListKind.TYPELIST m = m := by
  induction s generalizing buffer with
  | nil => rw [atomMaskLoop]
  | cons c s ih =>
    have hc : c ≠ '/' := hs c (List.mem_cons_self _ _)
    have hkind : (if c = '*' then
          if (buffer ++ [c]).length = 0 ∧ (s.headD NUL = ',' ∨ s = []) then ListKind.ALL
          else if ListKind.TYPELIST = ListKind.NUMLIST then ListKind.NAMELIST
          else ListKind.TYPELIST
        else if isalpha c = true ∨ c = '?' then
          if ListKind.TYPELIST = ListKind.NUMLIST then ListKind.NAMELIST else ListKind.TYPELIST
        else if c = '%' then ListKind.TYPELIST
        else if c = '/' then ListKind.ELEMLIST
        else ListKind.TYPELIST) = ListKind.TYPELIST := by
      have h0 : (buffer ++ [c]).length ≠ 0 := by simp
      have h1 : ¬ (ListKind.TYPELIST = ListKind.NUMLIST) := by decide
      simp only [h0, false_and, if_false, h1, hc]
      split_ifs <;> rfl
    rw [atomMaskLoop]
    simp only [hkind]
    by_cases hnil : s = []
    · simp [hnil]
    · rw [if_neg hnil]
      exact ih (fun c hc => hs c (List.mem_cons_of_mem _ hc)) _

/-- C26 (amended): for every universe and every text `name` of operand characters
without `/`, the term `@%name` (such as `@%CT`) is evaluated without a failure and
selects no particle: `parseMaskString` returns the mask of `atoms` entries `'F'`. -/
theorem C26_type_selector_selects_nothing {Coords : Type} (U : Universe)
    (X : Option Coords) (type : Char)
    (distd : Option (List Char) → Option (List Char) → Coords → Outcome (List Char × Coords))
    (name : List Char) (hn : ∀ c ∈ name, isOperand c = true ∧ c ≠ '/') :
    parseMaskString U X type distd ('@' :: '%' :: name) =
      Outcome.ok (List.replicate U.atoms 'F') := by
  obtain ⟨m, hm, -, hp⟩ := parseMaskString_term U X type distd '@' ('%' :: name)
    (Or.inr rfl) (by
      intro c hc
      rcases List.mem_cons.1 hc with e | hc
      · subst e; decide
      · exact (hn c hc).1)
  have hsel : selectElemMask U (termText '@' ('%' :: name)) =
      some (List.replicate U.atoms 'F') := by
    have hmap : ∀ c ∈ name.map eqStar, c ≠ '/' := by
      intro c hc
      obtain ⟨a, ha, rfl⟩ := List.mem_map.1 hc
      unfold eqStar
      split
      · decide
      · exact (hn a ha).2
    have h0 : isalpha '%' = false := by decide
    simp only [termText, List.map_cons, selectElemMask, Char.reduceEq, if_false, if_true,
      show eqStar '%' = '%' by decide]
    rw [atomMaskLoop]
    simp only [Char.reduceEq, if_false, h0, Bool.false_eq_true, false_or, if_true,
      List.nil_append]
    by_cases hnil : name.map eqStar = []
    · simp [hnil]
    · rw [if_neg hnil, atomMaskLoop_typelist U _ hmap]
  rw [hsel] at hm
  injection hm with hm
  rw [hp, hm]

/-- C26 on the scenario: `@%CT` selects nothing. -/
theorem C26_type_selector_selects_nothing_witness :
    parseMaskString scenario (none : Option Unit) 'd' (fun _ _ _ => Outcome.fail)
      ['@', '%', 'C', 'T'] = Outcome.ok (List.replicate scenario.atoms 'F') :=
  C26_type_selector_selects_nothing scenario (none : Option Unit) 'd'
    (fun _ _ _ => Outcome.fail) ['C', 'T'] (by decide)

/-- C26 as stated fails: on the scenario `@%CT` is evaluated to a mask, not to the
failure. -/
theorem C26_type_selector_selects_nothing_counterexample :
    parseMaskString scenario (none : Option Unit) 'd' (fun _ _ _ => Outcome.fail)
        ['@', '%', 'C', 'T'] = Outcome.ok ['F', 'F', 'F', 'F', 'F', 'F', 'F', 'F', 'F'] ∧
      parseMaskString scenario (none : Option Unit) 'd' (fun _ _ _ => Outcome.fail)
        ['@', '%', 'C', 'T'] ≠ Outcome.fail := by
  decide

/-! ## C28: element symbols of a wrong length -/

theorem isElemMatch_long (name s : List Char) (hs : 2 < s.length) :
    isElemMatch name s = -1 := by
  match s, hs with
  | _ :: _ :: _ :: t, _ => simp [isElemMatch]

theorem atelem_select_long (s : List Char) (hs : 2 < s.length) (m : List Char) (atoms : Nat)
    (an : List (List Char)) : atelem_select s m atoms an = m := by
  unfold atelem_select
  cases List.range atoms with
  | nil => rw [atelem_selectLoop]
  | cons j js =>
    rw [atelem_selectLoop]
    simp [isElemMatch_long _ s hs]

/-- C28 (amended): for every universe and every symbol `s` of letters whose length is 0
or greater than 2, the element selector `@/s` is evaluated without a failure and selects
no particle: `parseMaskString` returns the mask of `atoms` entries `'F'`. -/
theorem C28_element_symbol_of_wrong_length {Coords : Type} (U : Universe)
    (X : Option Coords) (type : Char)
    (distd : Option (List Char) → Option (List Char) → Coords → Outcome (List Char × Coords))
    (s : List Char) (hs : ∀ c ∈ s, isalpha c = true) (hl : s.length = 0 ∨ 2 < s.length) :
    parseMaskString U X type distd ('@' :: '/' :: s) =
      Outcome.ok (List.replicate U.atoms 'F') := by
  obtain ⟨m, hm, -, hp⟩ := parseMaskString_term U X type distd '@' ('/' :: s)
    (Or.inr rfl) (by
      intro c hc
      rcases List.mem_cons.1 hc with e | hc
      · subst e; decide
      · exact (isalpha_facts (hs c hc)).2.2.2.2.2.2.2)
  have hmap : s.map eqStar = s := by
    have : ∀ c ∈ s, eqStar c = c := by
      intro c hc
      have := (isalpha_facts (hs c hc)).2.2.2.2.2.2.1
      simp [eqStar, this]
    calc s.map eqStar = s.map id := List.map_congr_left this
      _ = s := List.map_id s
  have hsel : selectElemMask U (termText '@' ('/' :: s)) =
      some (List.replicate U.atoms 'F') := by
    simp only [termText, List.map_cons, hmap, show eqStar '/' = '/' by decide]
    rw [selectElemMask_elemlist U s (fun c hc => Or.inl (hs c hc))]
    rcases hl with h0 | h2
    · have : s = [] := List.length_eq_zero.1 h0
      subst this
      simp [atom_elemlist, atom_elemlistLoop]
    · have hne : s ≠ [] := by
        intro e; subst e; simp at h2
      unfold atom_elemlist
      rw [atom_elemlistLoop_item_end U.atoms U.atomName s hne hs, atelem_select_long s h2]
  rw [hsel] at hm
  injection hm with hm
  rw [hp, hm]

/-- C28 on the scenario: `@/Cal` and `@/` select nothing. -/
theorem C28_element_symbol_of_wrong_length_witness :
    parseMaskString scenario (none : Option Unit) 'd' (fun _ _ _ => Outcome.fail)
      ['@', '/', 'C', 'a', 'l'] = Outcome.ok (List.replicate scenario.atoms 'F') ∧
    parseMaskString scenario (none : Option Unit) 'd' (fun _ _ _ => Outcome.fail)
      ['@', '/'] = Outcome.ok (List.replicate scenario.atoms 'F') :=
  ⟨C28_element_symbol_of_wrong_length scenario (none : Option Unit) 'd'
      (fun _ _ _ => Outcome.fail) ['C', 'a', 'l'] (by decide) (Or.inr (by decide)),
    by decide⟩

/-- C28 as stated fails: on the scenario `@/Cal` and `@/` are evaluated to a mask, not to
the failure. -/
theorem C28_element_symbol_of_wrong_length_counterexample :
    parseMaskString scenario (none : Option Unit) 'd' (fun _ _ _ => Outcome.fail)
        ['@', '/', 'C', 'a', 'l'] =
          Outcome.ok ['F', 'F', 'F', 'F', 'F', 'F', 'F', 'F', 'F'] ∧
      parseMaskString scenario (none : Option Unit) 'd' (fun _ _ _ => Outcome.fail)
        ['@', '/'] = Outcome.ok ['F', 'F', 'F', 'F', 'F', 'F', 'F', 'F', 'F'] := by
  decide

/-! ## C27: sub-terms of a numeric list that are no numbers -/

/-- A numeric list text (digits, commas, dashes) after `:` or `@` is handed to the loop of
`residue_numlist` or `atom_numlist`, and `parseMaskString` returns the mask that the loop
leaves. -/
theorem parseMaskString_numchars {Coords : Type} (U : Universe) (X : Option Coords)
    (type : Char)
    (distd : Option (List Char) → Option (List Char) → Coords → Outcome (List Char × Coords))
    (c0 : Char) (hc0 : c0 = ':' ∨ c0 = '@') (s : List Char) (hne : s ≠ [])
    (hs : ∀ c ∈ s, isNumChar c = true) :
    parseMaskString U X type distd (c0 :: s) =
      Outcome.ok (numlistLoop (numSel U c0) s [] 0 false (List.replicate U.atoms 'F')) := by
  obtain ⟨m, hm, -, hp⟩ := parseMaskString_term U X type distd c0 s hc0
    (fun c hc => (isNumChar_facts (hs c hc)).2.2.2.2.2)
  have : selectElemMask U (termText c0 s) =
      some (numlistLoop (numSel U c0) s [] 0 false (List.replicate U.atoms 'F')) := by
    rcases hc0 with e | e <;> subst e
    · simp only [termText, map_eqStar_of_numChars _ hs, selectElemMask]
      simp [resMaskLoop_numlist U _ hne hs, residue_numlist, numSel]
    · simp only [termText, map_eqStar_of_numChars _ hs, selectElemMask]
      simp [atomMaskLoop_numlist U _ hne hs, atom_numlist, numSel]
  rw [this] at hm
  rw [hp, ← Option.some.inj hm]

/-- At an empty sub-term and at a sub-term that starts with a dash the loop returns, and
the mask stays as it is. -/
theorem numlistLoop_stop (sel : Int → Int → List Char → List Char) (c : Char)
    (hc : c = ',' ∨ c = '-') (r : List Char) (r1 : Int) (m : List Char) :
    numlistLoop sel (c :: r) [] r1 false m = m := by
  have hd : isdigit c = false := by
    rcases hc with e | e <;> subst e <;> decide
  have hs : sscanf_d [] = none := rfl
  rw [numlistLoop]
  rcases hc with e | e <;> subst e
  · simp [hd, hs]
  · by_cases hr : r = []
    · simp [hd, hs, hr]
    · simp [hd, hs, hr]

theorem numlistLoop_stop_rest (sel : Int → Int → List Char → List Char) (rest : List Char)
    (hrest : ∀ d, rest.head? = some d → d = ',' ∨ d = '-') (r1 : Int) (m : List Char) :
    numlistLoop sel rest [] r1 false m = m := by
  cases rest with
  | nil => rw [numlistLoop]
  | cons c r => exact numlistLoop_stop sel c (hrest c rfl) r r1 m

/-- Valid sub-terms followed, after a comma, by text that does not start with a digit: the
loop marks what the valid sub-terms mark and stops. -/
theorem numlistLoop_stops_after (sel : Int → Int → List Char → List Char)
    (items : List NumItem) (hne : items ≠ []) (hv : ∀ it ∈ items, it.Valid)
    (rest : List Char) (hrest : ∀ d, rest.head? = some d → d = ',' ∨ d = '-') (r1 : Int)
    (m : List Char) :
    numlistLoop sel (numListText items ++ ',' :: rest) [] r1 false m =
      numlistLoop sel (numListText items) [] r1 false m := by
  induction items generalizing r1 m with
  | nil => exact (hne rfl).elim
  | cons it its ih =>
    have hit : it.Valid := hv it (List.mem_cons_self _ _)
    cases its with
    | nil =>
      cases it with
      | num n =>
        simp only [numListText, NumItem.text]
        rw [numlistLoop_number sel n hit _ (by simp), numlistLoop_comma sel _ _ hit,
          numlistLoop_stop_rest sel rest hrest, numlistLoop_number_end sel n hit]
      | range a b =>
        obtain ⟨ha, hb⟩ := hit
        simp only [numListText, NumItem.text, List.append_assoc, List.cons_append]
        rw [numlistLoop_number sel a ha _ (by simp), numlistLoop_dash sel _ _ (by simp) ha,
          numlistLoop_number sel b hb _ (by simp), numlistLoop_comma sel _ _ hb,
          numlistLoop_stop_rest sel rest hrest,
          numlistLoop_number sel a ha _ (by simp), numlistLoop_dash sel _ _ hb.1 ha,
          numlistLoop_number_end sel b hb]
    | cons it2 its =>
      have ih2 := fun r m => ih (by simp) (fun x hx => hv x (List.mem_cons_of_mem _ hx)) r m
      cases it with
      | num n =>
        simp only [numListText, NumItem.text, List.append_assoc, List.cons_append]
        rw [numlistLoop_number sel n hit _ (by simp), numlistLoop_comma sel _ _ hit,
          numlistLoop_number sel n hit _ (by simp), numlistLoop_comma sel _ _ hit]
        exact ih2 _ _
      | range a b =>
        obtain ⟨ha, hb⟩ := hit
        simp only [numListText, NumItem.text, List.append_assoc, List.cons_append]
        rw [numlistLoop_number sel a ha _ (by simp), numlistLoop_dash sel _ _ (by simp) ha,
          numlistLoop_number sel b hb _ (by simp), numlistLoop_comma sel _ _ hb,
          numlistLoop_number sel a ha _ (by simp), numlistLoop_dash sel _ _ (by simp) ha,
          numlistLoop_number sel b hb _ (by simp), numlistLoop_comma sel _ _ hb]
        exact ih2 _ _

theorem numChar_not_digit {d : Char} (h : isNumChar d = true) (hd : isdigit d = false) :
    d = ',' ∨ d = '-' := by
  simpa [isNumChar, hd] using h

/-- C27 (amended): for every universe, a residue or atom spec that is a numeric list (a
text of digits, commas and dashes after `:` or `@`) is evaluated without a failure,
whether or not its sub-terms are numbers or ranges: `parseMaskString` returns a mask of
`atoms` entries. When the text starts with a sub-term that is empty or begins with a
dash (`:-5`, `:,`), that mask selects nothing; when such a sub-term follows valid
sub-terms (`@3,-`), the mask is the selection of the valid sub-terms before it. -/
theorem C27_numeric_list_error_not_propagated {Coords : Type} (U : Universe)
    (X : Option Coords) (type : Char)
    (distd : Option (List Char) → Option (List Char) → Coords → Outcome (List Char × Coords))
    (c0 : Char) (hc0 : c0 = ':' ∨ c0 = '@') :
    (∀ s : List Char, s ≠ [] → (∀ c ∈ s, isNumChar c = true) →
      ∃ m, parseMaskString U X type distd (c0 :: s) = Outcome.ok m ∧ m.length = U.atoms) ∧
    (∀ rest : List Char, rest ≠ [] → (∀ c ∈ rest, isNumChar c = true) →
      (∀ d, rest.head? = some d → isdigit d = false) →
      parseMaskString U X type distd (c0 :: rest) =
        Outcome.ok (List.replicate U.atoms 'F')) ∧
    (∀ (items : List NumItem) (rest : List Char), items ≠ [] → (∀ it ∈ items, it.Valid) →
      (∀ c ∈ rest, isNumChar c = true) → (∀ d, rest.head? = some d → isdigit d = false) →
      parseMaskString U X type distd (c0 :: (numListText items ++ ',' :: rest)) =
        parseMaskString U X type distd (c0 :: numListText items)) := by
  have hhead : ∀ rest : List Char, (∀ c ∈ rest, isNumChar c = true) →
      (∀ d, rest.head? = some d → isdigit d = false) →
      ∀ d, rest.head? = some d → d = ',' ∨ d = '-' := by
    intro rest hr hd d hdh
    have hmem : d ∈ rest := by
      cases rest with
      | nil => simp at hdh
      | cons a r =>
        simp only [List.head?_cons, Option.some.injEq] at hdh
        subst hdh; exact List.mem_cons_self _ _
    exact numChar_not_digit (hr d hmem) (hd d hdh)
  refine ⟨fun s hne hs => ?_, fun rest hne hr hd => ?_, fun items rest hne hv hr hd => ?_⟩
  · obtain ⟨m, -, hl, hp⟩ := parseMaskString_term U X type distd c0 s hc0
      (fun c hc => (isNumChar_facts (hs c hc)).2.2.2.2.2)
    exact ⟨m, hp, hl⟩
  · rw [parseMaskString_numchars U X type distd c0 hc0 rest hne hr,
      numlistLoop_stop_rest _ rest (hhead rest hr hd)]
  · obtain ⟨h1, h2⟩ := numListText_isNumChar items hne hv
    rw [parseMaskString_numchars U X type distd c0 hc0 _ (by simp) (by
        intro c hc
        simp only [List.mem_append, List.mem_cons] at hc
        rcases hc with hc | hc | hc
        · exact h2 c hc
        · subst hc; decide
        · exact hr c hc),
      parseMaskString_numchars U X type distd c0 hc0 _ h1 h2,
      numlistLoop_stops_after _ items hne hv rest (hhead rest hr hd)]

/-- C27 on the scenario: `:-5` and `:,` select nothing, and `@3,-` selects what `@3`
selects. -/
theorem C27_numeric_list_error_not_propagated_witness :
    parseMaskString scenario (none : Option Unit) 'd' (fun _ _ _ => Outcome.fail)
      [':', '-', '5'] = Outcome.ok (List.replicate scenario.atoms 'F') ∧
    parseMaskString scenario (none : Option Unit) 'd' (fun _ _ _ => Outcome.fail)
      [':', ','] = Outcome.ok (List.replicate scenario.atoms 'F') ∧
    parseMaskString scenario (none : Option Unit) 'd' (fun _ _ _ => Outcome.fail)
      ['@', '3', ',', '-'] =
        parseMaskString scenario (none : Option Unit) 'd' (fun _ _ _ => Outcome.fail)
          ['@', '3'] :=
  ⟨(C27_numeric_list_error_not_propagated scenario (none : Option Unit) 'd'
      (fun _ _ _ => Outcome.fail) ':' (Or.inl rfl)).2.1 ['-', '5'] (by decide) (by decide)
      (by decide),
    by decide, by decide⟩

/-- C27 as stated fails: on the scenario `:-5`, `:,` and `@3,-` are evaluated to masks,
the last one a partial selection (particle 3), not to the failure. -/
theorem C27_numeric_list_error_not_propagated_counterexample :
    parseMaskString scenario (none : Option Unit) 'd' (fun _ _ _ => Outcome.fail)
        [':', '-', '5'] = Outcome.ok ['F', 'F', 'F', 'F', 'F', 'F', 'F', 'F', 'F'] ∧
      parseMaskString scenario (none : Option Unit) 'd' (fun _ _ _ => Outcome.fail)
        [':', ','] = Outcome.ok ['F', 'F', 'F', 'F', 'F', 'F', 'F', 'F', 'F'] ∧
      parseMaskString scenario (none : Option Unit) 'd' (fun _ _ _ => Outcome.fail)
        ['@', '3', ',', '-'] = Outcome.ok ['F', 'F', 'T', 'F', 'F', 'F', 'F', 'F', 'F'] := by
  decide

/-! ## De Morgan -/

theorem flipTF_eq_T (c : Char) : flipTF c = 'T' ↔ c ≠ 'T' := by
  unfold flipTF
  split <;> simp_all

theorem flipTF_TF (c : Char) : flipTF c = 'T' ∨ flipTF c = 'F' := by
  unfold flipTF
  split <;> simp

/-- An entry among the first `atoms` of a negated mask is `'T'` exactly when the entry of
the mask is not. -/
theorem neg_getElem? (m : List Char) (atoms : Nat) (hl : atoms ≤ m.length) :
    ∃ n, neg m atoms = Outcome.ok n ∧ atoms ≤ n.length ∧
      ∀ k : Nat, k < atoms → (n[k]? = some 'T' ↔ ¬ m[k]? = some 'T') := by
  have hlen : ((List.range atoms).foldl
      (fun m i => m.set i (if m.getD i NUL = 'T' then 'F' else 'T')) m).length = m.length :=
    foldl_length _ (fun m i => by simp) _ _
  refine ⟨(List.range atoms).foldl
      (fun m i => m.set i (if m.getD i NUL = 'T' then 'F' else 'T')) m,
    by unfold neg; rw [if_pos hl], by rw [hlen]; exact hl, fun k hk => ?_⟩
  rw [negFold_getElem?, if_pos hk, List.getElem?_eq_getElem (by omega : k < m.length)]
  simp only [Option.map_some', Option.some.injEq]
  exact flipTF_eq_T _

/-- De Morgan on masks: the negation of the AND of two masks is the OR of their
negations. -/
theorem de_morgan_masks (m1 m2 : List Char) (atoms : Nat) (h1 : atoms ≤ m1.length)
    (h2 : atoms ≤ m2.length) :
    ∃ a n1 n2 r, binop '&' m1 m2 atoms = Outcome.ok a ∧ neg a atoms = Outcome.ok r ∧
      neg m1 atoms = Outcome.ok n1 ∧ neg m2 atoms = Outcome.ok n2 ∧
      binop '|' n1 n2 atoms = Outcome.ok r ∧ r.length = atoms ∧
      ∀ k : Nat, k < atoms →
        (r[k]? = some 'T' ↔ ¬ (m1[k]? = some 'T' ∧ m2[k]? = some 'T')) := by
  obtain ⟨a, ha, -, hal, hak⟩ := binop_comm '&' (Or.inl rfl) m1 m2 atoms h1 h2
  obtain ⟨n1, hn1, hl1, hk1⟩ := neg_getElem? m1 atoms h1
  obtain ⟨n2, hn2, hl2, hk2⟩ := neg_getElem? m2 atoms h2
  obtain ⟨r, hr, -, hrl, hrk⟩ := binop_comm '|' (Or.inr rfl) n1 n2 atoms hl1 hl2
  have htf : IsTF r := binop_TF '|' n1 n2 atoms r hr
  have hra : a.map flipTF = r := by
    apply List.ext_getElem?
    intro k
    by_cases hk : k < atoms
    · have e1 : (a.map flipTF)[k]? = some (flipTF a[k]) := by
        rw [List.getElem?_map, List.getElem?_eq_getElem (by omega : k < a.length)]
        rfl
      have e2 : r[k]? = some r[k] := List.getElem?_eq_getElem (by omega)
      have hx := hrk k hk
      have hy := hak k hk
      simp only [if_true, Char.reduceEq, if_false] at hx hy
      rw [hk1 k hk, hk2 k hk] at hx
      rw [List.getElem?_eq_getElem (by omega : k < a.length)] at hy
      rw [e2] at hx
      simp only [Option.some.injEq] at hx hy
      rw [e1, e2]
      congr 1
      have hT : flipTF a[k] = 'T' ↔ r[k] = 'T' := by
        rw [flipTF_eq_T, hx, Ne, hy]
        tauto
      rcases flipTF_TF a[k] with f | f <;> rcases htf r[k] (List.getElem_mem _) with g | g
      · rw [f, g]
      · exact absurd (hT.1 f) (by rw [g]; decide)
      · exact absurd (hT.2 g) (by rw [f]; decide)
      · rw [f, g]
    · rw [List.getElem?_eq_none (by simp; omega), List.getElem?_eq_none (by omega)]
  refine ⟨a, n1, n2, r, ha, ?_, hn1, hn2, hr, hrl, fun k hk => ?_⟩
  · rw [neg_full a atoms hal, hra]
  · have hx := hrk k hk
    simp only [Char.reduceEq, if_false] at hx
    rw [hx, hk1 k hk, hk2 k hk]
    tauto

/-- For enclosed `E1`, `E2` that evaluate to `m1`, `m2`, the expressions `!(E1&E2)` and
`(!E1)|(!E2)` evaluate to the same mask, which has `'T'` exactly where `m1` and `m2` do
not both have it. -/
theorem de_morgan_enclosed {Coords : Type} (U : Universe) (X : Option Coords) (type : Char)
    (distd : Option (List Char) → Option (List Char) → Coords → Outcome (List Char × Coords))
    (E1 E2 : List Char) (h1 : Enclosed E1) (h2 : Enclosed E2) (m1 m2 : List Char)
    (hm1 : parseMaskString U X type distd E1 = Outcome.ok m1)
    (hm2 : parseMaskString U X type distd E2 = Outcome.ok m2) :
    ∃ r, parseMaskString U X type distd ('!' :: '(' :: (E1 ++ '&' :: (E2 ++ [')']))) =
        Outcome.ok r ∧
      parseMaskString U X type distd
        ('(' :: '!' :: (E1 ++ ')' :: '|' :: '(' :: '!' :: (E2 ++ [')']))) = Outcome.ok r ∧
      r.length = U.atoms ∧
      ∀ k : Nat, k < U.atoms →
        (r[k]? = some 'T' ↔ ¬ (m1[k]? = some 'T' ∧ m2[k]? = some 'T')) := by
  obtain ⟨T1, P1, hrun1, htor1, hl1, -, hframe1⟩ :=
    enclosed_pipeline U X type distd E1 h1 m1 hm1
  obtain ⟨T2, P2, hrun2, htor2, hl2, -, hframe2⟩ :=
    enclosed_pipeline U X type distd E2 h2 m2 hm2
  obtain ⟨a, n1, n2, r, ha, hna, hn1, hn2, hr, hrl, hrk⟩ :=
    de_morgan_masks m1 m2 U.atoms hl1 hl2
  refine ⟨r, ?_, ?_, hrl, hrk⟩
  · -- `!(E1&E2)`
    have htok : tokenize ('!' :: '(' :: (E1 ++ '&' :: (E2 ++ [')']))) =
        some ('!' :: '(' :: '(' :: (T1 ++ ')' :: '&' :: '(' :: (T2 ++ [')', ')', '_']))) := by
      rw [tokenize_eq_finish, tokenizeLoop_plain_between '!' (by decide),
        tokenizeLoop_plain_between '(' (by decide),
        hrun1 _ ('&' :: (E2 ++ [')'])) (Or.inr ⟨'&', rfl, Or.inl (by decide)⟩),
        tokenizeLoop_plain_between '&' (by decide),
        hrun2 _ [')'] (Or.inr ⟨')', rfl, Or.inr (Or.inr rfl)⟩),
        tokenizeLoop_plain_between ')' (by decide), tokenizeLoop_nil_flushed]
      simp only [flushed, Nat.lt_irrefl, if_false, Option.map_some', gt_iff_lt]
      rw [finish_concat]
      simp
    have hrpn : torpn ('!' :: '(' :: '(' :: (T1 ++ ')' :: '&' :: '(' ::
        (T2 ++ [')', ')', '_']))) = Outcome.ok (P1 ++ P2 ++ ['&', '!']) := by
      unfold torpn
      rw [torpnLoop_op_push '!' (by decide) _ '_' [] [] (by decide) (by decide),
        torpnLoop_open, htor1 _ ['(', '!', '_'] [],
        torpnLoop_op_push '&' (by decide) _ '(' ['!', '_'] _ (by decide) (by decide),
        htor2 [')', '_'] ['&', '(', '!', '_'] _,
        torpnLoop_close _ _ _ ['!', '_'] ([] ++ P1 ++ P2 ++ ['&']) (by simp [popToParen]),
        torpnLoop_finish1 '!' (by decide) (by decide)]
      simp
    have hev : eval U X type distd (P1 ++ P2 ++ ['&', '!']) = Outcome.ok r := by
      obtain ⟨b4, hb4⟩ := hframe1 (P2 ++ ['&', '!']) [] [] X
      obtain ⟨b5, hb5⟩ := hframe2 ['&', '!'] b4 [some m1] X
      refine eval_of_stack U X type distd _ r X ?_ (by omega)
      rw [List.append_assoc, hb4, hb5,
        evalLoop_binop U type distd '&' (Or.inl rfl) ['!'] b5 [] X m2 m1 a ha,
        evalLoop_neg U type distd [] b5 [] X a r hna, evalLoop_nil]
    simp only [parseMaskString, htok, hrpn]
    exact hev
  · -- `(!E1)|(!E2)`
    have htok : tokenize ('(' :: '!' :: (E1 ++ ')' :: '|' :: '(' :: '!' :: (E2 ++ [')']))) =
        some ('(' :: '!' :: '(' :: (T1 ++ ')' :: ')' :: '|' :: '(' :: '!' :: '(' ::
          (T2 ++ [')', ')', '_']))) := by
      rw [tokenize_eq_finish, tokenizeLoop_plain_between '(' (by decide),
        tokenizeLoop_plain_between '!' (by decide),
        hrun1 _ (')' :: '|' :: '(' :: '!' :: (E2 ++ [')']))
          (Or.inr ⟨')', rfl, Or.inr (Or.inr rfl)⟩),
        tokenizeLoop_plain_between ')' (by decide),
        tokenizeLoop_plain_between '|' (by decide),
        tokenizeLoop_plain_between '(' (by decide),
        tokenizeLoop_plain_between '!' (by decide),
        hrun2 _ [')'] (Or.inr ⟨')', rfl, Or.inr (Or.inr rfl)⟩),
        tokenizeLoop_plain_between ')' (by decide), tokenizeLoop_nil_flushed]
      simp only [flushed, Nat.lt_irrefl, if_false, Option.map_some', gt_iff_lt]
      rw [finish_concat]
      simp
    have hrpn : torpn ('(' :: '!' :: '(' :: (T1 ++ ')' :: ')' :: '|' :: '(' :: '!' :: '(' ::
        (T2 ++ [')', ')', '_']))) = Outcome.ok (P1 ++ '!' :: (P2 ++ ['!', '|'])) := by
      unfold torpn
      rw [torpnLoop_open,
        torpnLoop_op_push '!' (by decide) _ '(' ['_'] [] (by decide) (by decide),
        htor1 _ ['!', '(', '_'] [],
        torpnLoop_close _ _ _ ['_'] ([] ++ P1 ++ ['!']) (by simp [popToParen]),
        torpnLoop_op_push '|' (by decide) _ '_' [] _ (by decide) (by decide),
        torpnLoop_open,
        torpnLoop_op_push '!' (by decide) _ '(' ['|', '_'] _ (by decide) (by decide),
        htor2 [')', '_'] ['!', '(', '|', '_'] _,
        torpnLoop_close _ _ _ ['|', '_'] ([] ++ P1 ++ ['!'] ++ P2 ++ ['!'])
          (by simp [popToParen]),
        torpnLoop_finish1 '|' (by decide) (by decide)]
      simp
    have hev : eval U X type distd (P1 ++ '!' :: (P2 ++ ['!', '|'])) = Outcome.ok r := by
      obtain ⟨b4, hb4⟩ := hframe1 ('!' :: (P2 ++ ['!', '|'])) [] [] X
      obtain ⟨b5, hb5⟩ := hframe2 ['!', '|'] b4 [some n1] X
      refine eval_of_stack U X type distd _ r X ?_ (by omega)
      rw [hb4, evalLoop_neg U type distd _ b4 [] X m1 n1 hn1, hb5,
        evalLoop_neg U type distd ['|'] b5 [some n1] X m2 n2 hn2,
        evalLoop_binop U type distd '|' (Or.inr rfl) [] b5 [] X n2 n1 r hr, evalLoop_nil]
    simp only [parseMaskString, htok, hrpn]
    exact hev

/-- C21: for every universe and all `E1`, `E2` that are elementary terms or parenthesised
expressions without `<` and `>` and evaluate to masks `m1`, `m2`, the expressions
`!(E1 & E2)` and `(!E1) | (!E2)`, written with any whitespace, evaluate to the same mask;
it has `'T'` at a particle exactly when `m1` and `m2` do not both have it. -/
theorem C21_de_morgan {Coords : Type} (U : Universe) (X : Option Coords) (type : Char)
    (distd : Option (List Char) → Option (List Char) → Coords → Outcome (List Char × Coords))
    (E1 E2 : List Char) (h1 : Enclosed E1) (h2 : Enclosed E2) (m1 m2 : List Char)
    (hm1 : parseMaskString U X type distd E1 = Outcome.ok m1)
    (hm2 : parseMaskString U X type distd E2 = Outcome.ok m2)
    (s1 s2 : List Char)
    (hs1 : dropSpaces s1 = '!' :: '(' :: (dropSpaces E1 ++ '&' :: (dropSpaces E2 ++ [')'])))
    (hs2 : dropSpaces s2 =
      '(' :: '!' :: (dropSpaces E1 ++ ')' :: '|' :: '(' :: '!' :: (dropSpaces E2 ++ [')']))) :
    ∃ r, parseMaskString U X type distd s1 = Outcome.ok r ∧
      parseMaskString U X type distd s2 = Outcome.ok r ∧ r.length = U.atoms ∧
      ∀ k : Nat, k < U.atoms →
        (r[k]? = some 'T' ↔ ¬ (m1[k]? = some 'T' ∧ m2[k]? = some 'T')) := by
  have hd1 : parseMaskString U X type distd (dropSpaces E1) = Outcome.ok m1 := by
    rw [← parseMaskString_dropSpaces U X type distd E1 h1.noDist]; exact hm1
  have hd2 : parseMaskString U X type distd (dropSpaces E2) = Outcome.ok m2 := by
    rw [← parseMaskString_dropSpaces U X type distd E2 h2.noDist]; exact hm2
  obtain ⟨r, hr1, hr2, hl, hk⟩ := de_morgan_enclosed U X type distd _ _ h1.dropSpaces
    h2.dropSpaces m1 m2 hd1 hd2
  have hn1 := noDist_dropSpaces h1.noDist
  have hn2 := noDist_dropSpaces h2.noDist
  have hnd1 : noDist s1 := by
    refine spaced_no_distance s1 _ hs1 (fun c hc => ?_)
    simp only [List.mem_cons, List.mem_append, List.not_mem_nil, or_false] at hc
    rcases hc with e | e | hc | e | hc | e
    · subst e; decide
    · subst e; decide
    · exact hn1 c hc
    · subst e; decide
    · exact hn2 c hc
    · subst e; decide
  have hnd2 : noDist s2 := by
    refine spaced_no_distance s2 _ hs2 (fun c hc => ?_)
    simp only [List.mem_cons, List.mem_append, List.not_mem_nil, or_false] at hc
    rcases hc with e | e | hc | e | e | e | e | hc | e
    · subst e; decide
    · subst e; decide
    · exact hn1 c hc
    · subst e; decide
    · subst e; decide
    · subst e; decide
    · subst e; decide
    · exact hn2 c hc
    · subst e; decide
  refine ⟨r, ?_, ?_, hl, hk⟩
  · rw [parseMaskString_dropSpaces U X type distd s1 hnd1, hs1]; exact hr1
  · rw [parseMaskString_dropSpaces U X type distd s2 hnd2, hs2]; exact hr2

/-- C21 on the scenario with `E1 = :1` and `E2 = (@CA|@CB)`: `!(:1 & (@CA|@CB))` and
`(!:1) | (!(@CA|@CB))` both select every particle except 0 and 1. -/
theorem C21_de_morgan_witness :
    (∃ r, parseMaskString scenario (none : Option Unit) 'd' (fun _ _ _ => Outcome.fail)
        ['!', '(', ':', '1', ' ', '&', ' ', '(', '@', 'C', 'A', '|', '@', 'C', 'B', ')', ')']
          = Outcome.ok r ∧
      parseMaskString scenario (none : Option Unit) 'd' (fun _ _ _ => Outcome.fail)
        ['(', '!', ':', '1', ')', ' ', '|', ' ', '(', '!', '(', '@', 'C', 'A', '|', '@', 'C',
          'B', ')', ')'] = Outcome.ok r ∧
      r.length = scenario.atoms ∧
      ∀ k : Nat, k < scenario.atoms →
        (r[k]? = some 'T' ↔ ¬ (['T', 'T', 'T', 'F', 'F', 'F', 'F', 'F', 'F'][k]? = some 'T' ∧
          ['T', 'T', 'F', 'T', 'T', 'F', 'T', 'T', 'F'][k]? = some 'T'))) ∧
    parseMaskString scenario (none : Option Unit) 'd' (fun _ _ _ => Outcome.fail)
        ['!', '(', ':', '1', ' ', '&', ' ', '(', '@', 'C', 'A', '|', '@', 'C', 'B', ')', ')']
      = Outcome.ok ['F', 'F', 'T', 'T', 'T', 'T', 'T', 'T', 'T'] ∧
    parseMaskString scenario (none : Option Unit) 'd' (fun _ _ _ => Outcome.fail)
        ['(', '!', ':', '1', ')', ' ', '|', ' ', '(', '!', '(', '@', 'C', 'A', '|', '@', 'C',
          'B', ')', ')'] = Outcome.ok ['F', 'F', 'T', 'T', 'T', 'T', 'T', 'T', 'T'] :=
  ⟨C21_de_morgan scenario (none : Option Unit) 'd' (fun _ _ _ => Outcome.fail)
      [':', '1'] ['(', '@', 'C', 'A', '|', '@', 'C', 'B', ')']
      (Or.inl ⟨⟨':', ['1']⟩, by decide, rfl⟩)
      (Or.inr (Or.inr ⟨['@', 'C', 'A', '|', '@', 'C', 'B'], rfl, by decide, by decide⟩))
      ['T', 'T', 'T', 'F', 'F', 'F', 'F', 'F', 'F'] ['T', 'T', 'F', 'T', 'T', 'F', 'T', 'T', 'F']
      (by decide) (by decide) _ _ (by decide) (by decide),
    by decide, by decide⟩

/-! ## C29: the threshold of a distance criterion -/

/-- A threshold text that `sscanf` does not read makes `selectDistd` return NULL, before
any loop is run. -/
theorem selectDistd_unreadable {F : Type} (ops : FloatOps F) (fuel : Nat) (cmp g : Char)
    (txt : List Char) (hscan : ops.scan txt = none) (center : Option (List Char))
    (atoms residues : Nat) (ipres : List Nat) (X : List F) :
    selectDistd ops fuel (some (cmp :: g :: txt)) center atoms residues ipres X =
      some Outcome.fail := by
  simp only [selectDistd, List.length_cons, List.drop_succ_cons, List.drop_zero, hscan]
  rw [if_neg (by omega)]

/-- C29 (amended): when the threshold text of a distance criterion (as `tokenize` passes
it on) is not read as a number by `sscanf`, as for the empty text of `:1 <:` and for `abc`,
then with coordinates supplied `selectDistd` returns the failure, whatever the center, and
`parseMaskString` fails in the `double` variant for every center expression `C` that is an
elementary term or a parenthesised expression without `<` and `>` and evaluates
successfully. -/
theorem C29_unreadable_threshold_fails {F : Type} (ops : FloatOps F) (U : Universe)
    (X : List F) (fuel : Nat) (cmp g : Char) (hcmp : cmp = '<' ∨ cmp = '>')
    (hg : g = ':' ∨ g = '@') (txt : List Char) (htxt : ∀ c ∈ txt, isOperand c = true)
    (hscan : ops.scan (txt.map eqStar) = none) :
    (∀ center : Option (List Char),
      selectDistd ops fuel (some (cmp :: g :: txt.map eqStar)) center U.atoms U.residues
        U.ipres X = some Outcome.fail) ∧
    ∀ (C : List Char), Enclosed C → ∀ m : List Char,
      parseMaskString U (some X) 'd' (distdOf ops fuel U) C = Outcome.ok m →
      ∀ sp1 sp2 : List Char, (∀ c ∈ sp1, isspace c = true) → (∀ c ∈ sp2, isspace c = true) →
        parseMaskString U (some X) 'd' (distdOf ops fuel U)
          (C ++ sp1 ++ cmp :: g :: (sp2 ++ txt)) = Outcome.fail := by
  have hsel := fun center => selectDistd_unreadable ops fuel cmp g (txt.map eqStar) hscan
    center U.atoms U.residues U.ipres X
  refine ⟨hsel, fun C hC m hm sp1 sp2 hsp1 hsp2 => ?_⟩
  obtain ⟨-, hp⟩ := distance_enclosed U (some X) 'd' (distdOf ops fuel U) cmp g hcmp hg
    C hC m hm sp1 sp2 hsp1 hsp2 txt htxt
  rw [hp]
  simp [selectDist, distdOf, hsel]

/-- C29 on three particles in exact integer arithmetic: `:1 <:` and `:1 <:abc` fail. -/
theorem C29_unreadable_threshold_fails_witness :
    intOps.scan (List.map eqStar ['a', 'b', 'c']) = none ∧
    parseMaskString ⟨3, 2, List.replicate 3 ['C', 'A'], List.replicate 2 ['A'], [1, 3, 4]⟩
      (some [0, 0, 0, 1, 0, 0, 5, 0, 0]) 'd'
      (distdOf intOps 12 ⟨3, 2, List.replicate 3 ['C', 'A'], List.replicate 2 ['A'], [1, 3, 4]⟩)
      ([':', '1'] ++ [' '] ++ '<' :: ':' :: ([] ++ ['a', 'b', 'c'])) = Outcome.fail ∧
    parseMaskString ⟨3, 2, List.replicate 3 ['C', 'A'], List.replicate 2 ['A'], [1, 3, 4]⟩
      (some [0, 0, 0, 1, 0, 0, 5, 0, 0]) 'd'
      (distdOf intOps 12 ⟨3, 2, List.replicate 3 ['C', 'A'], List.replicate 2 ['A'], [1, 3, 4]⟩)
      [':', '1', ' ', '<', ':'] = Outcome.fail :=
  ⟨by decide,
    (C29_unreadable_threshold_fails intOps
      ⟨3, 2, List.replicate 3 ['C', 'A'], List.replicate 2 ['A'], [1, 3, 4]⟩
      [0, 0, 0, 1, 0, 0, 5, 0, 0] 12 '<' ':' (Or.inl rfl) (Or.inl rfl) ['a', 'b', 'c']
      (by decide) (by decide)).2 [':', '1'] (Or.inl ⟨⟨':', ['1']⟩, by decide, rfl⟩)
      ['T', 'T', 'F'] (by decide) [' '] [] (by decide) (by decide),
    by decide⟩

/-- C29 as stated fails: a negative threshold is read and accepted. On three particles in
exact integer arithmetic `:1 <:-5` evaluates to the mask that selects nothing, and
`:1 >:-5` to the mask that selects everything. -/
theorem C29_unreadable_threshold_fails_counterexample :
    intOps.scan ['-', '5'] = some (-5) ∧
    parseMaskString ⟨3, 2, List.replicate 3 ['C', 'A'], List.replicate 2 ['A'], [1, 3, 4]⟩
      (some [0, 0, 0, 1, 0, 0, 5, 0, 0]) 'd'
      (distdOf intOps 12 ⟨3, 2, List.replicate 3 ['C', 'A'], List.replicate 2 ['A'], [1, 3, 4]⟩)
      [':', '1', ' ', '<', ':', '-', '5'] = Outcome.ok ['F', 'F', 'F'] ∧
    parseMaskString ⟨3, 2, List.replicate 3 ['C', 'A'], List.replicate 2 ['A'], [1, 3, 4]⟩
      (some [0, 0, 0, 1, 0, 0, 5, 0, 0]) 'd'
      (distdOf intOps 12 ⟨3, 2, List.replicate 3 ['C', 'A'], List.replicate 2 ['A'], [1, 3, 4]⟩)
      [':', '1', ' ', '>', ':', '-', '5'] = Outcome.ok ['T', 'T', 'T'] := by
  decide

/-! ## Unbalanced parentheses -/

/-- Pushing an operator on a stack of operators and open parentheses above the terminal
symbol succeeds and keeps the parentheses. -/
theorem pushOperator_term (c : Char) (hc : isOperator c = true) (W : List Char)
    (hW : ∀ x ∈ W, isOperator x = true ∨ x = '(') (out : List Char) :
    ∃ W2 out2, W2.count '(' = W.count '(' ∧ (∀ x ∈ W2, isOperator x = true ∨ x = '(') ∧
      pushOperator c (W ++ ['_']) out = Outcome.ok (W2 ++ ['_'], out2) := by
  have hpc := priority_operator hc
  have hc0 : priority c ≠ 0 := by omega
  induction W generalizing out with
  | nil =>
    refine ⟨[c], out, ?_, ?_, ?_⟩
    · simp [List.count_cons_of_ne (Ne.symm (isOperator_ne_paren hc).1)]
    · intro x hx; rw [List.mem_singleton.1 hx]; exact Or.inl hc
    · have h1 : priority '_' = 1 := by decide
      simp only [List.nil_append, pushOperator, h1]
      rw [if_neg (by omega), if_pos (by omega)]
      rfl
  | cons top W ih =>
    have hWt := fun x hx => hW x (List.mem_cons_of_mem _ hx)
    have htop : priority top ≠ 0 := by
      rcases hW top (List.mem_cons_self _ _) with h | h
      · have := priority_operator h; omega
      · subst h; decide
    by_cases hgt : priority c > priority top
    · refine ⟨c :: top :: W, out, ?_, ?_, ?_⟩
      · rw [List.count_cons_of_ne (Ne.symm (isOperator_ne_paren hc).1)]
      · intro x hx
        rcases List.mem_cons.1 hx with e | hx
        · rw [e]; exact Or.inl hc
        · exact hW x hx
      · rw [List.cons_append, pushOperator, if_neg (by simp [hc0, htop]), if_pos hgt]
        rfl
    · have hop : isOperator top = true := by
        rcases hW top (List.mem_cons_self _ _) with h | h
        · exact h
        · subst h
          have : priority '(' = 2 := by decide
          omega
      obtain ⟨W2, out2, ha, hb, hcc⟩ := ih hWt (out ++ [top])
      refine ⟨W2, out2, ?_, hb, ?_⟩
      · rw [ha, List.count_cons_of_ne (Ne.symm (isOperator_ne_paren hop).1)]
      · rw [List.cons_append, pushOperator, if_neg (by simp [hc0, htop]), if_neg hgt]
        exact hcc

/-- A closing parenthesis on a stack that holds no open one above the terminal symbol is
the unbalanced-parenthesis error. -/
theorem popToParen_unbalanced (W : List Char) (hW : ∀ x ∈ W, isOperator x = true)
    (out : List Char) : popToParen (W ++ ['_']) out = Outcome.fail := by
  induction W generalizing out with
  | nil => simp [popToParen]
  | cons top W ih =>
    have h := isOperator_ne_paren (hW top (List.mem_cons_self _ _))
    rw [List.cons_append, popToParen]
    simp only [h.1, h.2.2.1, if_false]
    exact ih (fun x hx => hW x (List.mem_cons_of_mem _ hx)) _

/-- The terminal symbol on a stack that still holds an open parenthesis is the
unbalanced-parenthesis error. -/
theorem popToTerm_unbalanced (W : List Char) (hW : ∀ x ∈ W, isOperator x = true ∨ x = '(')
    (hcount : 0 < W.count '(') (B out : List Char) :
    popToTerm (W ++ B) out = Outcome.fail := by
  induction W generalizing out with
  | nil => simp at hcount
  | cons top W ih =>
    rw [List.cons_append, popToTerm]
    rcases hW top (List.mem_cons_self _ _) with h | h
    · have hn := isOperator_ne_paren h
      simp only [hn.1, hn.2.2.1, if_false]
      exact ih (fun x hx => hW x (List.mem_cons_of_mem _ hx))
        (by rwa [List.count_cons_of_ne (Ne.symm hn.1)] at hcount) _
    · subst h
      simp

theorem count_zero_operators (W : List Char) (hW : ∀ x ∈ W, isOperator x = true ∨ x = '(')
    (hcount : W.count '(' = 0) : ∀ x ∈ W, isOperator x = true := by
  intro x hx
  rcases hW x hx with h | h
  · exact h
  · subst h
    have := List.count_pos_iff.2 hx
    omega

/-- What `torpn` does on a piece of the stream without the terminal symbol, on a stack of
operators and `d` open parentheses above the terminal symbol: when the scan of the piece
fails (a closing parenthesis without an open one, or a character outside brackets that
is no operator) the conversion fails; otherwise it goes on behind the piece with a stack
of the same kind. -/
theorem torpnLoop_scan (T : List Char) (hT : ∀ c ∈ T, c ≠ '_') (fl : Bool) (d : Nat)
    (W : List Char) (hW : ∀ x ∈ W, isOperator x = true ∨ x = '(') (hcount : W.count '(' = d)
    (out : List Char) :
    match streamScan T fl d with
    | some (d2, fl2) =>
      ∃ W2 out2, W2.count '(' = d2 ∧ (∀ x ∈ W2, isOperator x = true ∨ x = '(') ∧
        ∀ rest, torpnLoop (T ++ rest) (W ++ ['_']) fl out =
          torpnLoop rest (W2 ++ ['_']) fl2 out2
    | none => ∀ rest, torpnLoop (T ++ rest) (W ++ ['_']) fl out = Outcome.fail := by
  induction T generalizing fl d W out with
  | nil =>
    simp only [streamScan]
    exact ⟨W, out, hcount, hW, fun rest => rfl⟩
  | cons c T ih =>
    have hTt : ∀ x ∈ T, x ≠ '_' := fun x hx => hT x (List.mem_cons_of_mem _ hx)
    have hcu : c ≠ '_' := hT c (List.mem_cons_self _ _)
    -- one step of `torpn` that leaves a stack of the same kind carries the claim over
    have carry : ∀ (fl1 : Bool) (d1 : Nat) (W1 out1 : List Char),
        (∀ x ∈ W1, isOperator x = true ∨ x = '(') → W1.count '(' = d1 →
        streamScan (c :: T) fl d = streamScan T fl1 d1 →
        (∀ rest, torpnLoop (c :: (T ++ rest)) (W ++ ['_']) fl out =
          torpnLoop (T ++ rest) (W1 ++ ['_']) fl1 out1) →
        match streamScan (c :: T) fl d with
        | some (d2, fl2) =>
          ∃ W2 out2, W2.count '(' = d2 ∧ (∀ x ∈ W2, isOperator x = true ∨ x = '(') ∧
            ∀ rest, torpnLoop (c :: T ++ rest) (W ++ ['_']) fl out =
              torpnLoop rest (W2 ++ ['_']) fl2 out2
        | none => ∀ rest, torpnLoop (c :: T ++ rest) (W ++ ['_']) fl out = Outcome.fail := by
      intro fl1 d1 W1 out1 hW1 hc1 hscan hstep
      have := ih hTt fl1 d1 W1 hW1 hc1 out1
      rw [hscan]
      cases hs : streamScan T fl1 d1 with
      | none =>
        rw [hs] at this
        intro rest
        rw [List.cons_append, hstep]
        exact this rest
      | some p =>
        obtain ⟨d2, fl2⟩ := p
        rw [hs] at this
        obtain ⟨W2, out2, ha, hb, hcc⟩ := this
        exact ⟨W2, out2, ha, hb, fun rest => by rw [List.cons_append, hstep]; exact hcc rest⟩
    by_cases h1 : c = '['
    · exact carry true d W (out ++ [c]) hW hcount (by rw [streamScan]; simp [h1])
        (fun rest => by rw [torpnLoop]; simp [h1])
    by_cases h2 : c = ']'
    · exact carry false d W (out ++ [c]) hW hcount (by rw [streamScan]; simp [h2])
        (fun rest => by rw [torpnLoop]; simp [h2])
    by_cases h3 : fl = true
    · exact carry true d W (out ++ [c]) hW hcount (by rw [streamScan]; simp [h1, h2, h3])
        (fun rest => by rw [torpnLoop]; simp [h1, h2, h3])
    have h3 : fl = false := by simpa using h3
    subst h3
    by_cases h4 : c = '('
    · exact carry false (d + 1) ('(' :: W) out
        (by
          intro x hx
          rcases List.mem_cons.1 hx with e | hx
          · exact Or.inr e
          · exact hW x hx)
        (by simp [hcount]) (by rw [streamScan]; simp [h4])
        (fun rest => by rw [h4, torpnLoop_open]; rfl)
    by_cases h5 : c = ')'
    · by_cases hd : d = 0
      · have hs : streamScan (c :: T) false d = none := by
          rw [streamScan]; simp [h5, hd]
        rw [hs]
        intro rest
        have hops := count_zero_operators W hW (by omega)
        rw [List.cons_append, torpnLoop]
        simp [h5, popToParen_unbalanced W hops]
      · obtain ⟨W1, out1, ha1, hb1, hc1⟩ := popToParen_frame W hW (by omega) out
        exact carry false (d - 1) W1 out1 hb1 (by omega)
          (by rw [streamScan]; simp [h5, hd])
          (fun rest => by rw [h5, torpnLoop_close _ _ _ _ _ (hc1 ['_'])])
    by_cases h6 : isOperator c = true
    · obtain ⟨W1, out1, ha1, hb1, hc1⟩ := pushOperator_term c h6 W hW out
      exact carry false d W1 out1 hb1 (by omega)
        (by rw [streamScan]; simp [h1, h2, h4, h5, h6])
        (fun rest => by rw [torpnLoop_op c h6 _ _ _ _ _ hc1])
    · have hs : streamScan (c :: T) false d = none := by
        rw [streamScan]; simp [h1, h2, h4, h5, h6]
      rw [hs]
      intro rest
      rw [List.cons_append, torpnLoop]
      simp [h1, h2, h4, h5, h6, hcu]

/-- A stream whose parentheses are not balanced is refused by `torpn`. -/
theorem torpn_unbalanced (T : List Char) (hT : ∀ c ∈ T, c ≠ '_')
    (h : streamScan T false 0 = none ∨ ∃ d, 0 < d ∧ streamScan T false 0 = some (d, false)) :
    torpn (T ++ ['_']) = Outcome.fail := by
  have key := torpnLoop_scan T hT false 0 [] (by simp) rfl []
  unfold torpn
  rcases h with h | ⟨d, hd, h⟩
  · rw [h] at key
    exact key ['_']
  · rw [h] at key
    obtain ⟨W2, out2, ha, hb, hcc⟩ := key
    have := hcc ['_']
    rw [List.nil_append] at this
    rw [this, torpnLoop]
    simp [popToTerm_unbalanced W2 hb (by omega) ['_'] out2]

theorem parenDepth_cons_bind (c : Char) (s : List Char) (D : Nat) :
    parenDepth (c :: s) D = (parenDepth [c] D).bind (fun D2 => parenDepth s D2) := by
  simp only [parenDepth]
  split_ifs <;> simp

theorem eqStar_not_marker {c : Char} (h : isOperand c = true) :
    eqStar c ≠ '[' ∧ eqStar c ≠ ']' ∧ eqStar c ≠ '_' := by
  obtain ⟨-, -, -, h4, h5, -, -, h8⟩ := isOperand_not_special h
  unfold eqStar
  split
  · decide
  · exact ⟨h4, h5, h8⟩

/-- One step of the scanner on a character other than `<` and `>`: the characters it
adds to the stream hold no terminal symbol and keep the parentheses of the stream in step
with those of the text, a pending term counting as one open parenthesis and an open
bracket; a closing parenthesis that the text cannot match is one that the stream cannot
match. -/
theorem stepPiece_stream (c : Char) (f f2 : Nat) (hf : f ≤ 3) (A : List Char)
    (h : stepPiece c f = some (f2, A)) (D : Nat) :
    f2 ≤ 3 ∧ (∀ x ∈ A, x ≠ '_') ∧
      streamScan A (decide (f ≠ 0)) (D + (if f = 0 then 0 else 1)) =
        (parenDepth [c] D).map
          (fun D2 => (D2 + (if f2 = 0 then 0 else 1), decide (f2 ≠ 0))) := by
  unfold stepPiece at h
  by_cases hs : isspace c = true
  · simp only [hs, if_true, Option.some.injEq, Prod.mk.injEq] at h
    obtain ⟨rfl, rfl⟩ := h
    have hp : parenDepth [c] D = some D := by
      rcases isspace_cases hs with e | e | e | e | e | e <;> subst e <;> simp [parenDepth]
    refine ⟨hf, by simp, ?_⟩
    rw [hp]
    simp [streamScan]
  simp only [hs, if_false] at h
  by_cases hp : isPlainOp c = true
  · simp only [hp, if_true, Option.some.injEq, Prod.mk.injEq] at h
    obtain ⟨rfl, rfl⟩ := h
    refine ⟨by omega, ?_, ?_⟩
    · intro x hx
      simp only [List.mem_append, List.mem_singleton] at hx
      rcases hx with hx | hx
      · split at hx
        · simp only [List.mem_cons, List.mem_singleton, List.not_mem_nil, or_false] at hx
          rcases hx with e | e <;> subst e <;> decide
        · simp at hx
      · subst hx
        rcases isPlainOp_cases hp with e | e | e | e | e <;> subst e <;> decide
    · rcases isPlainOp_cases hp with e | e | e | e | e <;> subst e <;>
        interval_cases f <;> simp [streamScan, parenDepth, isOperator, strchr] <;>
        (by_cases hD : D = 0 <;> simp [hD])
  simp only [hp, if_false] at h
  by_cases ho : isOperand c = true
  · simp only [ho, if_true] at h
    obtain ⟨-, hc1, hc2, -, -, -, -, -⟩ := isOperand_not_special ho
    obtain ⟨he1, he2, he3⟩ := eqStar_not_marker ho
    have hpd : parenDepth [c] D = some D := by simp [parenDepth, hc1, hc2]
    by_cases h0 : f = 0 ∧ c ≠ '*'
    · simp [h0] at h
    · simp only [h0, if_false, Option.some.injEq, Prod.mk.injEq] at h
      obtain ⟨rfl, rfl⟩ := h
      rw [hpd]
      by_cases hf0 : f = 0
      · subst hf0
        refine ⟨by simp, ?_, ?_⟩
        · intro x hx
          simp only [if_true, List.cons_append, List.nil_append, List.mem_cons,
            List.mem_singleton, List.not_mem_nil, or_false] at hx
          rcases hx with e | e | e
          · subst e; decide
          · subst e; decide
          · rw [e]; exact he3
        · simp [streamScan, he1, he2]
      · refine ⟨by simp [hf0]; exact hf, ?_, ?_⟩
        · intro x hx
          simp only [hf0, if_false, List.nil_append, List.mem_singleton] at hx
          rw [hx]; exact he3
        · simp [hf0, streamScan, he1, he2]
  simp only [ho, Bool.false_eq_true, if_false] at h
  by_cases h1 : c = ':'
  · subst h1
    simp only [if_true, Option.some.injEq, Prod.mk.injEq] at h
    obtain ⟨rfl, rfl⟩ := h
    refine ⟨by omega, ?_, ?_⟩
    · intro x hx
      split at hx
      · simp only [List.mem_cons, List.mem_singleton, List.not_mem_nil, or_false] at hx
        rcases hx with e | e | e <;> subst e <;> decide
      · simp only [List.mem_cons, List.mem_singleton, List.not_mem_nil, or_false] at hx
        rcases hx with e | e | e | e | e | e <;> subst e <;> decide
    · interval_cases f <;> simp [streamScan, parenDepth, isOperator, strchr]
  simp only [h1, if_false] at h
  by_cases h2 : c = '@'
  · subst h2
    simp only [if_true] at h
    have hpd : parenDepth ['@'] D = some D := by simp [parenDepth]
    rw [hpd]
    interval_cases f <;> simp only [Nat.reduceEqDiff, if_true, if_false, Option.some.injEq,
      Prod.mk.injEq, OfNat.ofNat_ne_zero, OfNat.zero_ne_ofNat, OfNat.ofNat_ne_one,
      OfNat.one_ne_ofNat, one_ne_zero] at h <;>
      obtain ⟨rfl, rfl⟩ := h <;>
      refine ⟨by omega, by decide, ?_⟩ <;>
      simp [streamScan, isOperator, strchr]
  simp [h2] at h

/-- Closing a pending term closes its bracket and its parenthesis. -/
theorem flushed_stream (D f : Nat) (o : List Char) :
    ∃ A, flushed f [] o = o ++ A ∧ (∀ x ∈ A, x ≠ '_') ∧
      streamScan A (decide (f ≠ 0)) (D + (if f = 0 then 0 else 1)) = some (D, false) := by
  by_cases hf : f = 0
  · subst hf
    exact ⟨[], by simp [flushed], by simp, by simp [streamScan]⟩
  · refine ⟨[']', ')'], by simp [flushed, Nat.pos_of_ne_zero hf], by decide, ?_⟩
    simp [hf, streamScan]

/-- The stream that the scanner of `tokenize` writes for a text, from any state: its
parentheses are in step with those of the text. With `D` parentheses open before the
text, the scan of the added piece ends at the depth at which the text ends, and it fails
exactly when the text closes a parenthesis that is not open. -/
theorem tokenizeLoop_stream (n : Nat) :
    ∀ s : List Char, s.length ≤ n → ∀ (D f : Nat) (o r : List Char), f ≤ 3 →
      tokenizeLoop s f [] o = some r →
      ∃ A, finish r = o ++ A ++ ['_'] ∧ (∀ x ∈ A, x ≠ '_') ∧
        streamScan A (decide (f ≠ 0)) (D + (if f = 0 then 0 else 1)) =
          (parenDepth s D).map (fun D2 => (D2, false)) := by
  induction n with
  | zero =>
    intro s hs D f o r hf h
    have : s = [] := List.length_eq_zero.1 (by omega)
    subst this
    rw [tokenizeLoop_nil_flushed] at h
    injection h with h
    obtain ⟨A, hA, hu, hscan⟩ := flushed_stream D f o
    refine ⟨A, ?_, hu, ?_⟩
    · rw [← h, finish_concat, hA]
    · rw [hscan]; rfl
  | succ n ih =>
    intro s hs D f o r hf h
    cases s with
    | nil =>
      rw [tokenizeLoop_nil_flushed] at h
      injection h with h
      obtain ⟨A, hA, hu, hscan⟩ := flushed_stream D f o
      refine ⟨A, ?_, hu, ?_⟩
      · rw [← h, finish_concat, hA]
      · rw [hscan]; rfl
    | cons c rest =>
      have hlen : rest.length ≤ n := by simpa using hs
      by_cases hcd : c = '<' ∨ c = '>'
      · have hcop : isOperator c = true := by
          rcases hcd with e | e <;> subst e <;> decide
        have hcc : c = '>' ∨ c = '<' := by
          rcases hcd with e | e
          · exact Or.inr e
          · exact Or.inl e
        have hcn : c ≠ '[' ∧ c ≠ ']' ∧ c ≠ '(' ∧ c ≠ ')' ∧ c ≠ '_' := by
          rcases hcd with e | e <;> subst e <;> decide
        obtain ⟨F, hF, hFu, hFscan⟩ := flushed_stream D f o
        rw [tokenizeLoop_opchar (Or.inl hcop)] at h
        simp only [hcc, if_true] at h
        cases rest with
        | nil =>
          simp only [Option.some.injEq] at h
          refine ⟨F, ?_, hFu, ?_⟩
          · rw [← h, finish_concat, hF]
          · rw [hFscan]
            simp [parenDepth, hcn.2.2.1, hcn.2.2.2.1]
        | cons d rest2 =>
          simp only [] at h
          by_cases hd : d = ':' ∨ d = '@'
          · simp only [hd, if_true] at h
            have hdn : d ≠ '[' ∧ d ≠ ']' ∧ d ≠ '(' ∧ d ≠ ')' ∧ d ≠ '_' := by
              rcases hd with e | e <;> subst e <;> decide
            rw [tokenizeLoop_norm rest2 3 (by decide)] at h
            obtain ⟨A2, hA2, hu2, hscan2⟩ := ih rest2 (by simp at hlen; omega) D 3 _ r
              (by omega) h
            refine ⟨F ++ c :: '(' :: '[' :: c :: d :: A2, ?_, ?_, ?_⟩
            · rw [hA2, hF]; simp
            · intro x hx
              simp only [List.mem_append, List.mem_cons] at hx
              rcases hx with hx | e | e | e | e | e | hx
              · exact hFu x hx
              · rw [e]; exact hcn.2.2.2.2
              · rw [e]; decide
              · rw [e]; decide
              · rw [e]; exact hcn.2.2.2.2
              · rw [e]; exact hdn.2.2.2.2
              · exact hu2 x hx
            · rw [streamScan_append, hFscan]
              simp only [Option.some_bind]
              have hs2 : streamScan A2 true (D + 1) =
                  (parenDepth rest2 D).map (fun D2 => (D2, false)) := by
                simpa using hscan2
              have hp : parenDepth (c :: d :: rest2) D = parenDepth rest2 D := by
                simp [parenDepth, hcn.2.2.1, hcn.2.2.2.1, hdn.2.2.1, hdn.2.2.2.1]
              rw [hp, ← hs2]
              simp [streamScan, hcn.1, hcn.2.1, hcn.2.2.1, hcn.2.2.2.1, hcop, hdn.1, hdn.2.1]
          · simp [hd] at h
      · have h1 : c ≠ '<' := fun e => hcd (Or.inl e)
        have h2 : c ≠ '>' := fun e => hcd (Or.inr e)
        cases hst : stepPiece c f with
        | none =>
          rw [tokenizeLoop_stepPiece_none c h1 h2 f hst] at h
          exact absurd h (by simp)
        | some p =>
          obtain ⟨f2, A1⟩ := p
          rw [tokenizeLoop_stepPiece_some c h1 h2 f f2 A1 hst] at h
          obtain ⟨hf2, hu1, hscan1⟩ := stepPiece_stream c f f2 hf A1 hst D
          cases hpd : parenDepth [c] D with
          | none =>
            obtain ⟨A2, hA2, hu2, -⟩ := ih rest hlen 0 f2 _ r hf2 h
            refine ⟨A1 ++ A2, ?_, ?_, ?_⟩
            · rw [hA2]; simp
            · intro x hx
              rcases List.mem_append.1 hx with hx | hx
              · exact hu1 x hx
              · exact hu2 x hx
            · rw [parenDepth_cons_bind c rest D, streamScan_append, hscan1, hpd]
              rfl
          | some D2 =>
            obtain ⟨A2, hA2, hu2, hscan2⟩ := ih rest hlen D2 f2 _ r hf2 h
            refine ⟨A1 ++ A2, ?_, ?_, ?_⟩
            · rw [hA2]; simp
            · intro x hx
              rcases List.mem_append.1 hx with hx | hx
              · exact hu1 x hx
              · exact hu2 x hx
            · rw [parenDepth_cons_bind c rest D, streamScan_append, hscan1, hpd]
              simpa using hscan2

/-- The stream of an expression that `tokenize` accepts ends with the terminal symbol,
holds no other one, and has its parentheses in step with those typed. -/
theorem tokenize_stream (s t : List Char) (h : tokenize s = some t) :
    ∃ T, t = T ++ ['_'] ∧ (∀ x ∈ T, x ≠ '_') ∧
      streamScan T false 0 = (parenDepth s 0).map (fun D2 => (D2, false)) := by
  rw [tokenize_eq_finish] at h
  cases hr : tokenizeLoop s 0 [] [] with
  | none => simp [hr] at h
  | some r =>
    simp only [hr, Option.map_some', Option.some.injEq] at h
    obtain ⟨A, hA, hu, hscan⟩ := tokenizeLoop_stream s.length s (Nat.le_refl _) 0 0 [] r
      (by omega) hr
    refine ⟨A, ?_, hu, ?_⟩
    · rw [← h, hA]; simp
    · simpa using hscan

/-- C22: an expression that `tokenize` accepts and whose typed parentheses are not
balanced (some `)` has no `(` before it to match, or some `(` is never closed) is refused
by `torpn`, and `parseMaskString` returns the failure. -/
theorem C22_unbalanced_parentheses_fail {Coords : Type} (U : Universe) (X : Option Coords)
    (type : Char)
    (distd : Option (List Char) → Option (List Char) → Coords → Outcome (List Char × Coords))
    (s t : List Char) (ht : tokenize s = some t) (hunb : parenDepth s 0 ≠ some 0) :
    torpn t = Outcome.fail ∧ parseMaskString U X type distd s = Outcome.fail := by
  obtain ⟨T, rfl, hu, hscan⟩ := tokenize_stream s t ht
  have key : torpn (T ++ ['_']) = Outcome.fail := by
    apply torpn_unbalanced T hu
    cases hp : parenDepth s 0 with
    | none =>
      left
      rw [hscan, hp]; rfl
    | some d =>
      right
      refine ⟨d, ?_, by rw [hscan, hp]; rfl⟩
      rcases Nat.eq_zero_or_pos d with e | e
      · subst e; exact absurd hp hunb
      · exact e
  refine ⟨key, ?_⟩
  simp only [parseMaskString, ht, key]

/-- C22 on `(:1` and `:1)`. -/
theorem C22_unbalanced_parentheses_fail_witness :
    (torpn ['(', '(', '[', ':', '1', ']', ')', '_'] = Outcome.fail ∧
      parseMaskString scenario (none : Option Unit) 'd' (fun _ _ _ => Outcome.fail)
        ['(', ':', '1'] = Outcome.fail) ∧
    tokenize [':', '1', ')'] = some ['(', '[', ':', '1', ']', ')', ')', '_'] ∧
    parseMaskString scenario (none : Option Unit) 'd' (fun _ _ _ => Outcome.fail)
      [':', '1', ')'] = Outcome.fail :=
  ⟨C22_unbalanced_parentheses_fail scenario (none : Option Unit) 'd'
      (fun _ _ _ => Outcome.fail) ['(', ':', '1'] ['(', '(', '[', ':', '1', ']', ')', '_']
      (by decide) (by decide),
    by decide, by decide⟩

/-! ## C31, C32, C39: pops that are not checked, and the coordinates after a distance selection -/

/-- An operator that is undefined on the stack left by the text before it makes `eval`
undefined. -/
theorem eval_ub_after {Coords : Type} (U : Universe) (X : Option Coords) (type : Char)
    (distd : Option (List Char) → Option (List Char) → Coords → Outcome (List Char × Coords))
    (A : List Char) (c : Char) (rest : List Char) (hc : c ≠ ':' ∧ c ≠ '@')
    (S : List (Option (List Char))) (X2 : Option Coords)
    (hA : evalLoop U type distd A [] [] X = Outcome.ok (S, X2))
    (hstep : ∀ b, evalLoop U type distd (c :: rest) b S X2 = Outcome.ub) :
    eval U X type distd (A ++ c :: rest) = Outcome.ub := by
  have h := evalLoop_append U type distd A (c :: rest)
    (by simp [hc.1, hc.2]) [] [] X
  rw [hA] at h
  obtain ⟨b2, h2⟩ := h
  unfold eval
  rw [h2, hstep]

/-- With a NULL center, a readable criterion and at least one particle, `selectDistd`
reads `center[0]` through the NULL pointer. -/
theorem selectDistd_null_center {F : Type} (ops : FloatOps F) (fuel : Nat) (hf : 0 < fuel)
    (crit : List Char) (d : F) (hd : ops.scan (crit.drop 2) = some d) (atoms residues : Nat)
    (ha : 0 < atoms) (ipres : List Nat) (X : List F) :
    selectDistd ops fuel (some crit) none atoms residues ipres X = some Outcome.ub := by
  obtain ⟨k, rfl⟩ : ∃ k, fuel = k + 1 := ⟨fuel - 1, by omega⟩
  obtain ⟨n, rfl⟩ : ∃ n, atoms = n + 1 := ⟨atoms - 1, by omega⟩
  unfold selectDistd
  by_cases hl : crit.length < 2
  · simp [hl]
  · simp only [hl, if_false, hd, Option.getD_none]
    rw [distdOuter]
    have h1 : ¬ (n + 1 ≤ 0) := by omega
    have h2 : (List.replicate (n + 1) 'F').getD 0 'F' ≠ 'T' := by
      simp [List.replicate_succ]
    have h3 : List.range (n + 1) = 0 :: (List.range n).map Nat.succ := by
      rw [List.range_succ_eq_map]
    simp only [h1, if_false, h2, h3, distdInner, List.get?_nil]

/-- C31 (defect of the code): when the postfix text before a distance operator is
evaluated normally and leaves fewer than two entries on the stack (none, or only a
criterion whose threshold is readable), coordinates are supplied in the `double` variant
and the universe has at least one particle, `eval` does not return the failure: the pops
are not checked, `selectDist` is called with a NULL pointer, and `selectDistd` reads
through it (`criteria[0]` when the stack was empty, `center[0]` when it held one entry).
The result is undefined behaviour. -/
theorem C31_distance_operator_pops_unchecked {F : Type} (ops : FloatOps F) (fuel : Nat)
    (hf : 0 < fuel) (U : Universe) (ha : 0 < U.atoms) (X : Option (List F))
    (A : List Char) (c : Char) (rest : List Char) (hc : c = '<' ∨ c = '>')
    (hrest : rest.head? ≠ some ':' ∧ rest.head? ≠ some '@')
    (S : List (Option (List Char))) (x : List F)
    (hA : evalLoop U 'd' (distdOf ops fuel U) A [] [] X = Outcome.ok (S, some x))
    (hS : S = [] ∨ ∃ crit d, S = [some crit] ∧ ops.scan (crit.drop 2) = some d) :
    eval U X 'd' (distdOf ops fuel U) (A ++ c :: rest) = Outcome.ub := by
  have hne : c ≠ ':' ∧ c ≠ '@' := by
    rcases hc with e | e <;> subst e <;> decide
  refine eval_ub_after U X 'd' (distdOf ops fuel U) A c rest hne S (some x) hA (fun b => ?_)
  have h1 : c ≠ '[' ∧ c ≠ ']' ∧ ¬ (isOperand c = true ∨ strchr [':', '@'] c = true) ∧
      ¬ (c = '&' ∨ c = '|') ∧ strchr ['<', '>'] c = true := by
    rcases hc with e | e <;> subst e <;> decide
  obtain ⟨k, rfl⟩ : ∃ k, fuel = k + 1 := ⟨fuel - 1, by omega⟩
  rw [evalLoop]
  simp only [h1.1, h1.2.1, h1.2.2.1, h1.2.2.2.1, h1.2.2.2.2, if_false, if_true, hrest.1,
    hrest.2, or_self, selectDist]
  rcases hS with e | ⟨crit, d, e, hd⟩
  · subst e
    simp [popStack, distdOf, selectDistd]
  · subst e
    simp [popStack, distdOf, selectDistd_null_center ops (k + 1) (by omega) crit d hd
      U.atoms U.residues ha U.ipres x]

/-- C31 on the scenario with all coordinates `0`: the expression `<:5` has the postfix
text `[<:5]<`; at the operator the stack holds the criterion only, and the evaluation is
undefined instead of failing. -/
theorem C31_distance_operator_pops_unchecked_witness :
    eval scenario (some (List.replicate 27 (0 : Int))) 'd' (distdOf intOps 10 scenario)
      (['[', '<', ':', '5', ']'] ++ '<' :: []) = Outcome.ub ∧
    rpnOf ['<', ':', '5'] = Outcome.ok ['[', '<', ':', '5', ']', '<'] ∧
    parseMaskString scenario (some (List.replicate 27 (0 : Int))) 'd'
      (distdOf intOps 10 scenario) ['<', ':', '5'] = Outcome.ub :=
  ⟨C31_distance_operator_pops_unchecked intOps 10 (by decide) scenario (by decide)
      (some (List.replicate 27 (0 : Int))) ['[', '<', ':', '5', ']'] '<' [] (Or.inl rfl)
      (by decide) [some ['<', ':', '5']] (List.replicate 27 (0 : Int)) (by decide)
      (Or.inr ⟨['<', ':', '5'], 5, rfl, by decide⟩),
    by decide, by decide⟩

/-- C32 (defect of the code): in a universe with at least one particle, a postfix text
that is scanned normally and leaves the stack empty makes `eval` read the result through
the NULL pointer that `popStack` returns (undefined behaviour, not the failure); the empty
expression and `()` are such texts. A stack of two or more entries gives the failure. -/
theorem C32_empty_stack_read_through_null {Coords : Type} (U : Universe)
    (ha : 0 < U.atoms) (X : Option Coords) (type : Char)
    (distd : Option (List Char) → Option (List Char) → Coords → Outcome (List Char × Coords)) :
    parseMaskString U X type distd [] = Outcome.ub ∧
    parseMaskString U X type distd ['(', ')'] = Outcome.ub ∧
    ∀ (rpn : List Char) (S : List (Option (List Char))) (X2 : Option Coords),
      evalLoop U type distd rpn [] [] X = Outcome.ok (S, X2) →
        (S = [] → eval U X type distd rpn = Outcome.ub) ∧
        (2 ≤ S.length → eval U X type distd rpn = Outcome.fail) := by
  have h0 : U.atoms ≠ 0 := by omega
  have t1 : tokenize [] = some ['_'] := by decide
  have t2 : tokenize ['(', ')'] = some ['(', ')', '_'] := by decide
  have r1 : torpn ['_'] = Outcome.ok [] := by decide
  have r2 : torpn ['(', ')', '_'] = Outcome.ok [] := by decide
  have e0 : eval U X type distd [] = Outcome.ub := by
    simp [eval, evalLoop, popStack, h0]
  refine ⟨by simp only [parseMaskString, t1, r1, e0],
    by simp only [parseMaskString, t2, r2, e0], fun rpn S X2 h => ⟨fun hS => ?_, fun hS => ?_⟩⟩
  · subst hS
    simp [eval, h, popStack, h0]
  · match S, hS with
    | a :: b :: S2, _ => simp [eval, h, popStack]

/-- C32 on the scenario: the empty expression and `()` are undefined, and the postfix
text `[:1][:2]` of `(:1)(:2)` leaves two entries and fails. -/
theorem C32_empty_stack_read_through_null_witness :
    parseMaskString scenario (none : Option Unit) 'd' (fun _ _ _ => Outcome.fail) [] =
      Outcome.ub ∧
    parseMaskString scenario (none : Option Unit) 'd' (fun _ _ _ => Outcome.fail)
      ['(', ')'] = Outcome.ub ∧
    eval scenario (none : Option Unit) 'd' (fun _ _ _ => Outcome.fail)
      ['[', ':', '1', ']', '[', ':', '2', ']'] = Outcome.fail ∧
    parseMaskString scenario (none : Option Unit) 'd' (fun _ _ _ => Outcome.fail)
      ['(', ':', '1', ')', '(', ':', '2', ')'] = Outcome.fail :=
  have h := C32_empty_stack_read_through_null scenario (by decide) (none : Option Unit) 'd'
    (fun _ _ _ => Outcome.fail)
  ⟨h.1, h.2.1,
    (h.2.2 ['[', ':', '1', ']', '[', ':', '2', ']']
      [some ['F', 'F', 'F', 'T', 'T', 'T', 'F', 'F', 'F'],
        some ['T', 'T', 'T', 'F', 'F', 'F', 'F', 'F', 'F']] none (by decide)).2 (by decide),
    by decide⟩

set_option maxRecDepth 100000 in
/-- C39 (defect of the code): `selectDistd` changes the coordinates. Three particles at
`(0,0,0)`, `(10,0,0)` and `(0,0,5)`, center the second and third, criterion `<@4`, exact
integer arithmetic: the call returns the mask `FTT` and leaves the array as
`(0,0,5), (10,0,0), (0,0,0)`, the assignment `dz = X[i3+2] = X[j3+2]` having overwritten
two `z` coordinates; the same call on the array as it was left returns `TTT`. The same
holds for the expression `@2,3<@4` evaluated by `parseMaskString` on the two arrays. -/
theorem C39_coordinates_are_overwritten :
    selectDistd intOps 4 (some ['<', '@', '4']) (some ['F', 'T', 'T']) 3 1 [1, 4]
        [0, 0, 0, 10, 0, 0, 0, 0, 5] =
      some (Outcome.ok (['F', 'T', 'T'], [0, 0, 5, 10, 0, 0, 0, 0, 0])) ∧
    selectDistd intOps 4 (some ['<', '@', '4']) (some ['F', 'T', 'T']) 3 1 [1, 4]
        [0, 0, 5, 10, 0, 0, 0, 0, 0] =
      some (Outcome.ok (['T', 'T', 'T'], [0, 0, 0, 10, 0, 0, 0, 0, 0])) ∧
    parseMaskString ⟨3, 1, List.replicate 3 ['C', 'A'], [['A']], [1, 4]⟩
        (some [0, 0, 0, 10, 0, 0, 0, 0, 5]) 'd'
        (distdOf intOps 4 ⟨3, 1, List.replicate 3 ['C', 'A'], [['A']], [1, 4]⟩)
        ['@', '2', ',', '3', '<', '@', '4'] = Outcome.ok ['F', 'T', 'T'] ∧
    parseMaskString ⟨3, 1, List.replicate 3 ['C', 'A'], [['A']], [1, 4]⟩
        (some [0, 0, 5, 10, 0, 0, 0, 0, 0]) 'd'
        (distdOf intOps 4 ⟨3, 1, List.replicate 3 ['C', 'A'], [['A']], [1, 4]⟩)
        ['@', '2', ',', '3', '<', '@', '4'] = Outcome.ok ['T', 'T', 'T'] := by
  refine ⟨by decide, by decide, by decide, by decide⟩

/-! ## C40: the wildcard matcher terminates -/

theorem starLoop_eq (call : List Char → List Char → Option Bool) (r : List Char)
    (k : List Char → Bool) (s1 : List Char)
    (h : ∀ p, p ∈ s1.tails → call p r = some (k p)) :
    starLoop call r s1 = some (s1.tails.any k) := by
  induction s1 with
  | nil =>
    have := h [] (by simp)
    simp [starLoop, this]
  | cons c p ih =>
    have h1 := h (c :: p) (by simp)
    have h2 := ih (fun q hq => h q (by simp [hq]))
    rw [starLoop, h1]
    cases hk : k (c :: p) with
    | true => simp [hk]
    | false => simp [hk, h2]

/-- The loop of the source agrees with the matcher `nameMatch`, given that the recursive
calls on the suffixes of the candidate and the strictly shorter patterns do. -/
theorem nameLoop_eq (call : List Char → List Char → Option Bool) (pat s1 : List Char)
    (h : ∀ (p r : List Char), p ∈ s1.tails → r.length < pat.length →
      call p r = some (nameMatch r p)) :
    nameLoop call s1 pat = some (nameMatch pat s1) := by
  induction s1 generalizing pat with
  | nil =>
    cases pat with
    | nil => simp [nameLoop, nameMatch_nil]
    | cons d r =>
      rw [nameLoop, nameMatch_cons]
      by_cases hd : d = '*'
      · simp only [hd, if_true]
        rw [h [] r (by simp) (by simp)]
        simp
      · by_cases hq : d = '?'
        · simp [hd, hq]
        · simp [hd, hq, litLoop]
  | cons c p ih =>
    cases pat with
    | nil =>
      rw [nameLoop, nameMatch_nil]
      by_cases hc : c = ' '
      · simp only [hc, if_true]
        rw [ih [] (fun q r _ hr => by simp at hr)]
        simp [nameMatch_nil]
      · simp [hc]
    | cons d r =>
      rw [nameLoop, nameMatch_cons]
      by_cases hd : d = '*'
      · simp only [hd, if_true]
        exact starLoop_eq call r (nameMatch r) (c :: p)
          (fun q hq => h q r hq (by simp))
      simp only [hd, if_false]
      by_cases hq : d = '?'
      · simp only [hq, if_true]
        exact ih r (fun q r2 hq2 hr => h q r2 (by simp [hq2])
          (by simp only [List.length_cons]; omega))
      simp only [hq, if_false]
      rw [litLoop]
      by_cases hc : c = ' '
      · simp only [hc, if_true]
        have := ih (d :: r) (fun q r2 hq2 hr => h q r2 (by simp [hq2]) hr)
        rw [this, nameMatch_cons]
        simp [hd, hq]
      simp only [hc, if_false]
      by_cases hcd : c = d
      · simp only [hcd, ne_eq, not_true_eq_false, if_false]
        exact ih r (fun q r2 hq2 hr => h q r2 (by simp [hq2])
          (by simp only [List.length_cons]; omega))
      · simp [hcd]

/-- C40: `isNameMatch` returns on every candidate `s1` and every pattern `s2`: run with
a bound on the depth of its recursion above the length of the pattern, the routine as
written in the source (two loops over the candidate, recursive calls on a suffix of the
candidate and the pattern after a `*`) returns `0` or `1`, and the value is that of the
matcher `isNameMatch` used throughout; a larger bound changes nothing. -/
theorem C40_name_matcher_terminates (s1 s2 : List Char) (fuel : Nat)
    (hf : s2.length < fuel) :
    isNameMatchRun fuel s1 s2 = some (isNameMatch s1 s2) := by
  induction fuel generalizing s1 s2 with
  | zero => omega
  | succ n ih =>
    rw [isNameMatchRun]
    exact nameLoop_eq (isNameMatchRun n) s2 s1 (fun p r _ hr => ih p r (by omega))

/-- C40 on the padded name `CA  ` and the patterns `C*`, `*A`, `?B` and `*?*A*`. -/
theorem C40_name_matcher_terminates_witness :
    isNameMatchRun 3 ['C', 'A', ' ', ' '] ['C', '*'] =
      some (isNameMatch ['C', 'A', ' ', ' '] ['C', '*']) ∧
    isNameMatchRun 3 ['C', 'A', ' ', ' '] ['C', '*'] = some true ∧
    isNameMatchRun 3 ['C', 'A', ' ', ' '] ['*', 'A'] = some true ∧
    isNameMatchRun 3 ['C', 'A', ' ', ' '] ['?', 'B'] = some false ∧
    isNameMatchRun 6 ['C', 'A', ' ', ' '] ['*', '?', '*', 'A', '*'] = some true ∧
    isNameMatchRun 2 ['C', 'A', ' ', ' '] ['*', '?', '*', 'A', '*'] = none :=
  ⟨C40_name_matcher_terminates ['C', 'A', ' ', ' '] ['C', '*'] 3 (by decide),
    by decide, by decide, by decide, by decide, by decide⟩

/-! ## C34: whitespace is stripped -/

theorem spaceAfterDist_cons (c : Char) (rest : List Char) :
    spaceAfterDist (c :: rest) =
      ((decide (c = '<' ∨ c = '>') &&
        (match rest with
         | [] => false
         | d :: _ => isspace d)) || spaceAfterDist rest) := by
  cases rest <;> rfl

theorem tokenizeLoop_strip_spaces (n : Nat) :
    ∀ (s : List Char), s.length ≤ n → spaceAfterDist s = false → ∀ (f : Nat) (b o : List Char),
      tokenizeLoop (dropSpaces s) f b o = tokenizeLoop s f b o := by
  induction n with
  | zero =>
    intro s hs _ f b o
    have : s = [] := List.length_eq_zero.mp (by omega)
    subst this; rfl
  | succ n ih =>
    intro s hs hsp f b o
    cases s with
    | nil => rfl
    | cons c rest =>
      rw [spaceAfterDist_cons, Bool.or_eq_false_iff] at hsp
      obtain ⟨hc, hrest⟩ := hsp
      have hlen : rest.length ≤ n := by simp only [List.length_cons] at hs; omega
      by_cases hs1 : isspace c = true
      · rw [tokenizeLoop_space hs1]
        have e : dropSpaces (c :: rest) = dropSpaces rest := by simp [dropSpaces, hs1]
        rw [e]
        exact ih rest hlen hrest f b o
      · have hs1 : isspace c = false := by simpa using hs1
        rw [dropSpaces_cons_other hs1]
        by_cases hd : c = '<' ∨ c = '>'
        · have hop : isOperator c = true ∨ c = '(' ∨ c = ')' := by
            rcases hd with e | e <;> subst e <;> exact Or.inl (by decide)
          have hd2 : c = '>' ∨ c = '<' := hd.symm
          rw [tokenizeLoop_opchar hop, tokenizeLoop_opchar hop]
          simp only [hd2, if_true]
          cases rest with
          | nil => rfl
          | cons d rest2 =>
            have hds : isspace d = false := by
              simpa [hd] using hc
            rw [dropSpaces_cons_other hds]
            simp only []
            by_cases hdd : d = ':' ∨ d = '@'
            · simp only [hdd, if_true]
              rw [spaceAfterDist_cons, Bool.or_eq_false_iff] at hrest
              exact ih rest2 (by simp only [List.length_cons] at hlen; omega) hrest.2 _ _ _
            · simp only [hdd, if_false]
        · have h1 : c ≠ '<' := fun e => hd (Or.inl e)
          have h2 : c ≠ '>' := fun e => hd (Or.inr e)
          rcases tokenizeLoop_step c h1 h2 f b o with hn | ⟨f2, b2, o2, hstep, -, -⟩
          · rw [hn, hn]
          · rw [hstep, hstep]
            exact ih rest hlen hrest f2 b2 o2

/-- C34: for every text in which no whitespace character directly follows a `<` or `>`,
`tokenize` gives the same outcome (the same normalized stream, or the syntax error in
both cases) on the text and on the text with all whitespace characters removed. -/
theorem C34_whitespace_is_stripped (s : List Char) (h : spaceAfterDist s = false) :
    tokenize (dropSpaces s) = tokenize s := by
  rw [tokenize_eq_finish, tokenize_eq_finish,
    tokenizeLoop_strip_spaces s.length s (Nat.le_refl _) h]

/-- C34 on ` :1 @ CA <:2 . 5 `: the stream is that of `:1@CA<:2.5`. -/
theorem C34_whitespace_is_stripped_witness :
    spaceAfterDist [' ', ':', '1', ' ', '@', ' ', 'C', 'A', ' ', '<', ':', '2', ' ', '.',
      ' ', '5', ' '] = false ∧
    tokenize (dropSpaces [' ', ':', '1', ' ', '@', ' ', 'C', 'A', ' ', '<', ':', '2', ' ',
      '.', ' ', '5', ' ']) =
      tokenize [' ', ':', '1', ' ', '@', ' ', 'C', 'A', ' ', '<', ':', '2', ' ', '.', ' ',
        '5', ' '] ∧
    tokenize [' ', ':', '1', ' ', '@', ' ', 'C', 'A', ' ', '<', ':', '2', ' ', '.', ' ',
        '5', ' '] =
      some ['(', '[', ':', '1', ']', '&', '[', '@', 'C', 'A', ']', ')', '<', '(', '[', '<',
        ':', '2', '.', '5', ']', ')', '_'] :=
  ⟨by decide,
    C34_whitespace_is_stripped [' ', ':', '1', ' ', '@', ' ', 'C', 'A', ' ', '<', ':', '2',
      ' ', '.', ' ', '5', ' '] (by decide),
    by decide⟩

/-! ## C35: `=` is a synonym of `*` inside a selector -/

theorem eqStar_of_ne {c : Char} (h : c ≠ '=') : eqStar c = c := by
  simp [eqStar, h]

theorem tokenizeLoop_eqStar (n : Nat) :
    ∀ (s : List Char), s.length ≤ n → ∀ (inTerm : Bool) (f : Nat) (b o : List Char),
      (inTerm = true → 0 < f) → eqInTerm s inTerm = true →
      tokenizeLoop (s.map eqStar) f b o = tokenizeLoop s f b o := by
  induction n with
  | zero =>
    intro s hs _ f b o _ _
    have : s = [] := List.length_eq_zero.mp (by omega)
    subst this; rfl
  | succ n ih =>
    intro s hs inTerm f b o hf he
    cases s with
    | nil => rfl
    | cons c rest =>
      have hlen : rest.length ≤ n := by simp only [List.length_cons] at hs; omega
      rw [eqInTerm] at he
      rw [List.map_cons]
      by_cases hc : c = '='
      · subst hc
        simp only [if_true, Bool.and_eq_true] at he
        have hf1 : 0 < f := hf he.1
        have e1 : eqStar '=' = '*' := by decide
        rw [e1, tokenizeLoop_operand (by decide) _ _ hf1,
          tokenizeLoop_operand (by decide) _ _ hf1]
        have e2 : eqStar '*' = eqStar '=' := by decide
        rw [e2]
        exact ih rest hlen inTerm f _ _ hf he.2
      · simp only [hc, if_false] at he
        rw [eqStar_of_ne hc]
        by_cases hs1 : isspace c = true
        · have h3 : ¬ (c = ':' ∨ c = '@') := by
            rintro (e | e) <;> subst e <;> revert hs1 <;> decide
          simp only [h3, if_false, hs1, or_true, if_true] at he
          rw [tokenizeLoop_space hs1, tokenizeLoop_space hs1]
          exact ih rest hlen inTerm f b o hf he
        have hs1 : isspace c = false := by simpa using hs1
        by_cases hd : c = '<' ∨ c = '>'
        · have hop : isOperator c = true ∨ c = '(' ∨ c = ')' := by
            rcases hd with e | e <;> subst e <;> exact Or.inl (by decide)
          have hd2 : c = '>' ∨ c = '<' := hd.symm
          have h3 : ¬ (c = ':' ∨ c = '@') ∧ ¬ (isOperand c = true ∨ isspace c = true) := by
            rcases hd with e | e <;> subst e <;> decide
          simp only [h3.1, h3.2, if_false] at he
          rw [tokenizeLoop_opchar hop, tokenizeLoop_opchar hop]
          simp only [hd2, if_true]
          cases rest with
          | nil => rfl
          | cons d rest2 =>
            rw [List.map_cons]
            simp only []
            have hdd : (eqStar d = ':' ∨ eqStar d = '@') ↔ (d = ':' ∨ d = '@') := by
              by_cases e : d = '='
              · subst e; decide
              · rw [eqStar_of_ne e]
            by_cases hd3 : d = ':' ∨ d = '@'
            · have e : d ≠ '=' := by rcases hd3 with e | e <;> subst e <;> decide
              rw [eqInTerm] at he
              simp only [e, if_false, hd3, if_true] at he
              simp only [eqStar_of_ne e, hd3, if_true]
              exact ih rest2 (by simp only [List.length_cons] at hlen; omega) true 3 _ _
                (fun _ => by omega) he
            · simp only [hdd, hd3, if_false]
        have h1 : c ≠ '<' := fun e => hd (Or.inl e)
        have h2 : c ≠ '>' := fun e => hd (Or.inr e)
        by_cases hp : isPlainOp c = true
        · rw [tokenizeLoop_plainOp hp, tokenizeLoop_plainOp hp]
          have h3 : ¬ (c = ':' ∨ c = '@') ∧ ¬ (isOperand c = true ∨ isspace c = true) := by
            rcases isPlainOp_cases hp with e | e | e | e | e <;> subst e <;> decide
          simp only [h3.1, h3.2, if_false] at he
          exact ih rest hlen false 0 _ _ (fun h => by simp at h) he
        have hno := not_plainOp_not_opchar h1 h2 hp
        rw [tokenizeLoop_other hs1 hno, tokenizeLoop_other hs1 hno]
        by_cases ho : isOperand c = true
        · have h3 : ¬ (c = ':' ∨ c = '@') := by
            obtain ⟨-, -, -, -, -, e1, e2, -⟩ := isOperand_not_special ho
            rintro (e | e)
            · exact e1 e
            · exact e2 e
          simp only [h3, if_false, ho, true_or, if_true] at he
          simp only [ho, if_true]
          by_cases h0 : f = 0 ∧ c ≠ '*'
          · rw [if_pos h0, if_pos h0]
          · rw [if_neg h0, if_neg h0]
            exact ih rest hlen inTerm _ _ _ (fun _ => by split <;> omega) he
        simp only [ho, Bool.false_eq_true, if_false]
        by_cases h4 : c = ':'
        · subst h4
          simp only [true_or, if_true] at he
          simp only [if_true]
          by_cases h0 : f = 0
          · simp only [h0, if_true]
            exact ih rest hlen true 1 _ _ (fun _ => by omega) he
          · simp only [h0, if_false]
            exact ih rest hlen true 1 _ _ (fun _ => by omega) he
        simp only [h4, if_false]
        by_cases h5 : c = '@'
        · subst h5
          simp only [or_true, if_true] at he
          simp only [if_true]
          by_cases h0 : f = 0
          · simp only [h0, if_true]
            exact ih rest hlen true 2 _ _ (fun _ => by omega) he
          simp only [h0, if_false]
          by_cases h01 : f = 1
          · simp only [h01, if_true]
            exact ih rest hlen true 2 _ _ (fun _ => by omega) he
          simp only [h01, if_false]
          by_cases h02 : f = 2
          · simp only [h02, if_true]
            exact ih rest hlen true 2 _ _ (fun _ => by omega) he
          simp only [h02, if_false]
          exact ih rest hlen true f _ _ (fun _ => by omega) he
        simp only [h5, if_false]

/-- C35: for every text in which every `=` stands inside an elementary term opened by
`:` or `@`, `tokenize` gives the same result as for the text with each `=` replaced by
`*`, and so does `parseMaskString`, in every universe. -/
theorem C35_equals_is_star_in_selector (s : List Char) (h : eqInTerm s false = true) :
    tokenize (s.map eqStar) = tokenize s ∧
    ∀ {Coords : Type} (U : Universe) (X : Option Coords) (type : Char)
      (distd : Option (List Char) → Option (List Char) → Coords →
        Outcome (List Char × Coords)),
      parseMaskString U X type distd (s.map eqStar) = parseMaskString U X type distd s := by
  have key : tokenize (s.map eqStar) = tokenize s := by
    rw [tokenize_eq_finish, tokenize_eq_finish,
      tokenizeLoop_eqStar s.length s (Nat.le_refl _) false 0 [] [] (fun h => by simp at h) h]
  refine ⟨key, fun U X type distd => ?_⟩
  unfold parseMaskString
  rw [key]

/-- C35 on the scenario: `@C=` has the stream of `@C*` and selects the particles `CA`
and `CB` of every residue; a bare `=` is not inside a term. -/
theorem C35_equals_is_star_in_selector_witness :
    eqInTerm ['@', 'C', '='] false = true ∧
    tokenize (['@', 'C', '='].map eqStar) = tokenize ['@', 'C', '='] ∧
    ['@', 'C', '='].map eqStar = ['@', 'C', '*'] ∧
    parseMaskString scenario (none : Option Unit) 'd' (fun _ _ _ => Outcome.fail)
      ['@', 'C', '='] = Outcome.ok ['T', 'T', 'F', 'T', 'T', 'F', 'T', 'T', 'F'] ∧
    eqInTerm ['='] false = false :=
  ⟨by decide, (C35_equals_is_star_in_selector ['@', 'C', '='] (by decide)).1, by decide,
    by decide, by decide⟩

/-! ## C36: a term cannot start with an operand character other than `*` -/

theorem dropSpaces_getLast_cons {a : Char} (ha : isspace a = false) (A : List Char)
    (h : dropSpaces A ≠ []) : (dropSpaces (a :: A)).getLast? = (dropSpaces A).getLast? := by
  rw [dropSpaces_cons_other ha]
  cases hA : dropSpaces A with
  | nil => exact absurd hA h
  | cons x l => simp [List.getLast?_cons_cons]

theorem tokenizeLoop_term_start (c : Char) (hc : isOperand c = true) (hstar : c ≠ '*')
    (B : List Char) (n : Nat) :
    ∀ (A : List Char), A.length ≤ n → termStart A → ∀ (f : Nat) (b o : List Char),
      (dropSpaces A = [] → f = 0) → tokenizeLoop (A ++ c :: B) f b o = none := by
  have hcs := isOperand_not_space hc
  obtain ⟨hco, hc1, hc2, -, -, hc3, hc4, -⟩ := isOperand_not_special hc
  have hcno : ¬ (isOperator c = true ∨ c = '(' ∨ c = ')') := by
    simp [hco, hc1, hc2]
  have base : ∀ (b o : List Char), tokenizeLoop (c :: B) 0 b o = none := by
    intro b o
    rw [tokenizeLoop_other hcs hcno]
    simp [hc, hstar]
  induction n with
  | zero =>
    intro A hA _ f b o hf
    have : A = [] := List.length_eq_zero.mp (by omega)
    subst this
    rw [hf rfl]
    exact base b o
  | succ n ih =>
    intro A hA hts f b o hf
    cases A with
    | nil => rw [hf rfl]; exact base b o
    | cons a A1 =>
      have hlen : A1.length ≤ n := by simp only [List.length_cons] at hA; omega
      rw [List.cons_append]
      by_cases hs1 : isspace a = true
      · have e : dropSpaces (a :: A1) = dropSpaces A1 := by simp [dropSpaces, hs1]
        rw [tokenizeLoop_space hs1]
        exact ih A1 hlen (by unfold termStart at hts ⊢; rwa [e] at hts) f b o
          (by rwa [e] at hf)
      have hs1 : isspace a = false := by simpa using hs1
      have hlast : dropSpaces A1 = [] → isOperator a = true ∨ a = '(' ∨ a = ')' := by
        intro e
        apply hts a
        rw [dropSpaces_cons_other hs1, e]
        rfl
      have hts1 : dropSpaces A1 ≠ [] → termStart A1 := by
        intro e x hx
        apply hts x
        rw [dropSpaces_getLast_cons hs1 A1 e]
        exact hx
      by_cases hd : a = '<' ∨ a = '>'
      · have hop : isOperator a = true ∨ a = '(' ∨ a = ')' := by
          rcases hd with e | e <;> subst e <;> exact Or.inl (by decide)
        have hd2 : a = '>' ∨ a = '<' := hd.symm
        rw [tokenizeLoop_opchar hop]
        simp only [hd2, if_true]
        cases A1 with
        | nil =>
          have h3 : ¬ (c = ':' ∨ c = '@') := by
            rintro (e | e)
            · exact hc3 e
            · exact hc4 e
          simp [h3]
        | cons d A2 =>
          simp only [List.cons_append]
          by_cases hdd : d = ':' ∨ d = '@'
          · simp only [hdd, if_true]
            have hds : isspace d = false := by
              rcases hdd with e | e <;> subst e <;> decide
            have hne : dropSpaces A2 ≠ [] := by
              intro e
              have := hts d (by
                rw [dropSpaces_cons_other hs1, dropSpaces_cons_other hds, e]
                rfl)
              rcases hdd with e | e <;> subst e <;> revert this <;> decide
            have hts2 : termStart A2 := by
              intro x hx
              apply hts x
              rw [dropSpaces_cons_other hs1, dropSpaces_cons_other hds]
              cases hA2 : dropSpaces A2 with
              | nil => exact absurd hA2 hne
              | cons y l =>
                rw [hA2] at hx
                simpa [List.getLast?_cons_cons] using hx
            exact ih A2 (by simp only [List.length_cons] at hlen; omega) hts2 3 _ _
              (fun e => absurd e hne)
          · simp only [hdd, if_false]
      have h1 : a ≠ '<' := fun e => hd (Or.inl e)
      have h2 : a ≠ '>' := fun e => hd (Or.inr e)
      by_cases hp : isPlainOp a = true
      · rw [tokenizeLoop_plainOp hp]
        by_cases e : dropSpaces A1 = []
        · exact ih A1 hlen (by intro x hx; rw [e] at hx; simp at hx) 0 _ _ (fun _ => rfl)
        · exact ih A1 hlen (hts1 e) 0 _ _ (fun _ => rfl)
      · have hne : dropSpaces A1 ≠ [] := fun e =>
          not_plainOp_not_opchar h1 h2 hp (hlast e)
        rcases tokenizeLoop_step a h1 h2 f b o with hn | ⟨f2, b2, o2, hstep, -, -⟩
        · exact hn _
        · rw [hstep]
          exact ih A1 hlen (hts1 hne) f2 b2 o2 (fun e => absurd e hne)

/-- C36: when an operand character other than `*` stands where a new term must start
(the text before it, whitespace aside, is empty or ends with an operator or a
parenthesis), `tokenize` returns the syntax error, whatever follows. -/
theorem C36_term_must_start_with_marker (A : List Char) (c : Char) (B : List Char)
    (hc : isOperand c = true) (hstar : c ≠ '*') (hA : termStart A) :
    tokenize (A ++ c :: B) = none := by
  rw [tokenize_eq_finish,
    tokenizeLoop_term_start c hc hstar B A.length A (Nat.le_refl _) hA 0 [] [] (fun _ => rfl)]
  rfl

/-- C36 on `:1 & CA`, and the texts `CA`, `5`, `=`, `(-1)` and `:1<5`. -/
theorem C36_term_must_start_with_marker_witness :
    tokenize ([':', '1', ' ', '&', ' '] ++ 'C' :: ['A']) = none ∧
    tokenize ['C', 'A'] = none ∧ tokenize ['5'] = none ∧ tokenize ['='] = none ∧
    tokenize ['(', '-', '1', ')'] = none ∧ tokenize [':', '1', '<', '5'] = none :=
  ⟨C36_term_must_start_with_marker [':', '1', ' ', '&', ' '] 'C' ['A'] (by decide)
      (by decide) (by decide),
    by decide, by decide, by decide, by decide, by decide⟩

/-! ## `torpn` with the reason of a failure kept -/

theorem popToParen_erase (stack out : List Char) :
    popToParen stack out = (popToParenTraced stack out).erase := by
  induction stack generalizing out with
  | nil => rfl
  | cons pp stack ih =>
    rw [popToParen, popToParenTraced]
    split_ifs
    · rfl
    · rfl
    · exact ih _

theorem popToTerm_erase (stack out : List Char) :
    popToTerm stack out = (popToTermTraced stack out).erase := by
  induction stack generalizing out with
  | nil => rfl
  | cons pp stack ih =>
    rw [popToTerm, popToTermTraced]
    split_ifs
    · rfl
    · rfl
    · exact ih _

theorem pushOperator_erase (c : Char) (stack out : List Char) :
    pushOperator c stack out = (pushOperatorTraced c stack out).erase := by
  induction stack generalizing out with
  | nil => rfl
  | cons pp stack ih =>
    rw [pushOperator, pushOperatorTraced]
    split_ifs
    · rfl
    · rfl
    · exact ih _

/-- The conversion `torpn` of the embedding is the traced one with the reason forgotten. -/
theorem torpnLoop_erase (s stack : List Char) (flag : Bool) (out : List Char) :
    torpnLoop s stack flag out = (torpnLoopTraced s stack flag out).erase := by
  induction s generalizing stack flag out with
  | nil => rfl
  | cons c rest ih =>
    rw [torpnLoop, torpnLoopTraced]
    by_cases h1 : c = '['
    · simp only [h1, if_true]; exact ih _ _ _
    simp only [h1, if_false]
    by_cases h2 : c = ']'
    · simp only [h2, if_true]; exact ih _ _ _
    simp only [h2, if_false]
    by_cases h3 : flag = true
    · simp only [h3, if_true]; exact ih _ _ _
    simp only [h3, if_false]
    by_cases h4 : c = '('
    · simp only [h4, if_true]; exact ih _ _ _
    simp only [h4, if_false]
    by_cases h5 : c = ')'
    · simp only [h5, if_true]
      rw [popToParen_erase]
      cases popToParenTraced stack out with
      | done a => exact ih _ _ _
      | stopped why => cases why <;> rfl
    simp only [h5, if_false]
    by_cases h6 : c = '_'
    · simp only [h6, if_true]
      rw [popToTerm_erase]
      cases popToTermTraced stack out with
      | done a => exact ih _ _ _
      | stopped why => cases why <;> rfl
    simp only [h6, if_false]
    by_cases h7 : isOperator c = true
    · simp only [h7, if_true]
      rw [pushOperator_erase]
      cases pushOperatorTraced c stack out with
      | done a => exact ih _ _ _
      | stopped why => cases why <;> rfl
    · simp only [h7, if_false]
      rfl

theorem torpn_erase (t : List Char) : torpn t = (torpnTraced t).erase :=
  torpnLoop_erase t ['_'] false []

/-! ## Characters inside and outside the brackets -/

theorem outsideOf_append (x y : List Char) (fl : Bool) :
    outsideOf (x ++ y) fl = outsideOf x fl ++ outsideOf y (bracketOpen x fl) := by
  induction x generalizing fl with
  | nil => rfl
  | cons c x ih =>
    simp only [List.cons_append, outsideOf, bracketOpen]
    split_ifs <;> simp_all

theorem insideOf_append (x y : List Char) (fl : Bool) :
    insideOf (x ++ y) fl = insideOf x fl ++ insideOf y (bracketOpen x fl) := by
  induction x generalizing fl with
  | nil => rfl
  | cons c x ih =>
    simp only [List.cons_append, insideOf, bracketOpen]
    split_ifs <;> simp_all

theorem outside_operators (E : List Char) (hE : ∀ x ∈ E, isOperator x = true) :
    outsideOf E false = E ∧ insideOf E false = [] ∧ bracketOpen E false = false := by
  induction E with
  | nil => exact ⟨rfl, rfl, rfl⟩
  | cons c E ih =>
    have h := isOperator_ne_paren (hE c (List.mem_cons_self _ _))
    obtain ⟨i1, i2, i3⟩ := ih (fun x hx => hE x (List.mem_cons_of_mem _ hx))
    simp [outsideOf, insideOf, bracketOpen, h.2.2.2.1, h.2.2.2.2, i1, i2, i3]

theorem mem_inside_or_outside (r : List Char) (fl : Bool) (c : Char) (h : c ∈ r) :
    c ∈ insideOf r fl ∨ c ∈ outsideOf r fl := by
  induction r generalizing fl with
  | nil => simp at h
  | cons a r ih =>
    simp only [insideOf, outsideOf]
    rcases List.mem_cons.1 h with e | h
    · subst e
      split_ifs <;> simp
    · split_ifs
      · rcases ih true h with h | h
        · exact Or.inl (List.mem_cons_of_mem _ h)
        · exact Or.inr h
      · rcases ih false h with h | h
        · exact Or.inl (List.mem_cons_of_mem _ h)
        · exact Or.inr h
      · rcases ih true h with h | h
        · exact Or.inl (List.mem_cons_of_mem _ h)
        · exact Or.inr h
      · rcases ih false h with h | h
        · exact Or.inl h
        · exact Or.inr (List.mem_cons_of_mem _ h)

theorem termsOf_insideOf (s : List Char) (fl : Bool) (cur : List Char) :
    termsOf (insideOf s fl) fl cur = termsOf s fl cur := by
  induction s generalizing fl cur with
  | nil => rfl
  | cons c s ih =>
    by_cases h1 : c = '['
    · simp only [insideOf, termsOf, h1, if_true]; exact ih _ _
    by_cases h2 : c = ']'
    · simp only [insideOf, termsOf, h2, h1, if_true, if_false]
      rw [ih]
      simp
    by_cases h3 : fl = true
    · subst h3
      simp only [insideOf, termsOf, h1, h2, if_true, if_false]; exact ih _ _
    · have h3 : fl = false := by simpa using h3
      subst h3
      simp only [insideOf, termsOf, h1, h2, if_false, Bool.false_eq_true]; exact ih _ _

theorem operatorsOf_append (x y : List Char) :
    operatorsOf (x ++ y) = operatorsOf x ++ operatorsOf y := by
  simp [operatorsOf]

theorem operatorsOf_cons_op {c : Char} (h : isOperator c = true) (l : List Char) :
    operatorsOf (c :: l) = c :: operatorsOf l := by
  simp [operatorsOf, h]

theorem operatorsOf_cons_other {c : Char} (h : isOperator c = false) (l : List Char) :
    operatorsOf (c :: l) = operatorsOf l := by
  simp [operatorsOf, h]

theorem operatorsOf_of_operators (l : List Char) (h : ∀ x ∈ l, isOperator x = true) :
    operatorsOf l = l := by
  unfold operatorsOf
  exact List.filter_eq_self.2 (fun x hx => h x hx)

/-! ## What `torpn` emits -/

/-- Pushing an operator on a stack of operators and open parentheses above the terminal
symbol never stops: it emits operators of the stack and keeps the others. -/
theorem pushOperatorTraced_emit (c : Char) (hc : isOperator c = true) (W : List Char)
    (hW : ∀ x ∈ W, isOperator x = true ∨ x = '(') (out : List Char) :
    ∃ W2 E, (∀ x ∈ W2, isOperator x = true ∨ x = '(') ∧ (∀ x ∈ E, isOperator x = true) ∧
      pushOperatorTraced c (W ++ ['_']) out = Traced.done (W2 ++ ['_'], out ++ E) ∧
      (E ++ operatorsOf W2).Perm (c :: operatorsOf W) := by
  have hpc := priority_operator hc
  have hc0 : priority c ≠ 0 := by omega
  induction W generalizing out with
  | nil =>
    refine ⟨[c], [], ?_, by simp, ?_, ?_⟩
    · intro x hx; rw [List.mem_singleton.1 hx]; exact Or.inl hc
    · have h1 : priority '_' = 1 := by decide
      simp only [List.nil_append, pushOperatorTraced, h1, List.append_nil]
      rw [if_neg (by omega), if_pos (by omega)]
      rfl
    · simp [operatorsOf, hc]
  | cons top W ih =>
    have hWt := fun x hx => hW x (List.mem_cons_of_mem _ hx)
    have htop : priority top ≠ 0 := by
      rcases hW top (List.mem_cons_self _ _) with h | h
      · have := priority_operator h; omega
      · subst h; decide
    by_cases hgt : priority c > priority top
    · refine ⟨c :: top :: W, [], ?_, by simp, ?_, ?_⟩
      · intro x hx
        rcases List.mem_cons.1 hx with e | hx
        · rw [e]; exact Or.inl hc
        · exact hW x hx
      · rw [List.cons_append, pushOperatorTraced, if_neg (by simp [hc0, htop]), if_pos hgt]
        simp
      · rw [List.nil_append, operatorsOf_cons_op hc]
    · have hop : isOperator top = true := by
        rcases hW top (List.mem_cons_self _ _) with h | h
        · exact h
        · subst h
          have : priority '(' = 2 := by decide
          omega
      obtain ⟨W2, E, ha, hb, hcc, hd⟩ := ih hWt (out ++ [top])
      refine ⟨W2, top :: E, ha, ?_, ?_, ?_⟩
      · intro x hx
        rcases List.mem_cons.1 hx with e | hx
        · rw [e]; exact hop
        · exact hb x hx
      · rw [List.cons_append, pushOperatorTraced, if_neg (by simp [hc0, htop]), if_neg hgt,
          hcc]
        simp
      · rw [operatorsOf_cons_op hop, List.cons_append]
        exact (List.Perm.cons top hd).trans (List.Perm.swap c top _)

/-- A closing parenthesis on such a stack emits the operators above the nearest open
parenthesis, or stops at the terminal symbol with the unbalanced-parenthesis error. -/
theorem popToParenTraced_emit (W : List Char) (hW : ∀ x ∈ W, isOperator x = true ∨ x = '(')
    (out : List Char) :
    popToParenTraced (W ++ ['_']) out = Traced.stopped TorpnError.unbalanced ∨
    ∃ W2 E, (∀ x ∈ W2, isOperator x = true ∨ x = '(') ∧ (∀ x ∈ E, isOperator x = true) ∧
      popToParenTraced (W ++ ['_']) out = Traced.done (W2 ++ ['_'], out ++ E) ∧
      (E ++ operatorsOf W2).Perm (operatorsOf W) := by
  induction W generalizing out with
  | nil => left; simp [popToParenTraced]
  | cons top W ih =>
    have hWt := fun x hx => hW x (List.mem_cons_of_mem _ hx)
    by_cases hp : top = '('
    · subst hp
      right
      refine ⟨W, [], hWt, by simp, by simp [popToParenTraced], ?_⟩
      rw [List.nil_append, operatorsOf_cons_other (by decide)]
    · have hop : isOperator top = true := by
        rcases hW top (List.mem_cons_self _ _) with h | h
        · exact h
        · exact absurd h hp
      have hne := isOperator_ne_paren hop
      have hstep : popToParenTraced (top :: W ++ ['_']) out =
          popToParenTraced (W ++ ['_']) (out ++ [top]) := by
        rw [List.cons_append, popToParenTraced, if_neg hp, if_neg hne.2.2.1]
      rcases ih hWt (out ++ [top]) with h | ⟨W2, E, ha, hb, hcc, hd⟩
      · left; rw [hstep, h]
      · right
        refine ⟨W2, top :: E, ha, ?_, ?_, ?_⟩
        · intro x hx
          rcases List.mem_cons.1 hx with e | hx
          · rw [e]; exact hop
          · exact hb x hx
        · rw [hstep, hcc]; simp
        · rw [operatorsOf_cons_op hop, List.cons_append]
          exact List.Perm.cons top hd

/-- The terminal symbol on such a stack emits the whole stack when it holds operators
only, or stops at an open parenthesis with the unbalanced-parenthesis error. -/
theorem popToTermTraced_emit (W : List Char) (hW : ∀ x ∈ W, isOperator x = true ∨ x = '(')
    (out : List Char) :
    popToTermTraced (W ++ ['_']) out = Traced.stopped TorpnError.unbalanced ∨
    ((∀ x ∈ W, isOperator x = true) ∧
      popToTermTraced (W ++ ['_']) out = Traced.done ([], out ++ W)) := by
  induction W generalizing out with
  | nil => right; simp [popToTermTraced]
  | cons top W ih =>
    have hWt := fun x hx => hW x (List.mem_cons_of_mem _ hx)
    by_cases hp : top = '('
    · subst hp
      left
      simp [popToTermTraced]
    · have hop : isOperator top = true := by
        rcases hW top (List.mem_cons_self _ _) with h | h
        · exact h
        · exact absurd h hp
      have hne := isOperator_ne_paren hop
      have hstep : popToTermTraced (top :: W ++ ['_']) out =
          popToTermTraced (W ++ ['_']) (out ++ [top]) := by
        rw [List.cons_append, popToTermTraced, if_neg hne.2.2.1, if_neg hp]
      rcases ih hWt (out ++ [top]) with h | ⟨ha, hb⟩
      · left; rw [hstep, h]
      · right
        refine ⟨?_, ?_⟩
        · intro x hx
          rcases List.mem_cons.1 hx with e | hx
          · rw [e]; exact hop
          · exact ha x hx
        · rw [hstep, hb]; simp

/-- What `torpn` does on a piece of the stream whose characters outside brackets are
operators and parentheses, on a stack of operators and open parentheses above the
terminal symbol: it stops with the unbalanced-parenthesis error, or it goes on behind the
piece with a stack of the same kind, having copied the bracketed terms as they are and
emitted operators only; the operators emitted and those left on the stack are the
operators of the piece and those that were on the stack. -/
theorem torpnLoopTraced_emit (T : List Char) (fl : Bool)
    (hT : ∀ c ∈ outsideOf T fl, isOperator c = true ∨ c = '(' ∨ c = ')')
    (W : List Char) (hW : ∀ x ∈ W, isOperator x = true ∨ x = '(') (out : List Char) :
    (∀ rest, torpnLoopTraced (T ++ rest) (W ++ ['_']) fl out =
      Traced.stopped TorpnError.unbalanced) ∨
    ∃ W2 E, (∀ x ∈ W2, isOperator x = true ∨ x = '(') ∧
      (∀ rest, torpnLoopTraced (T ++ rest) (W ++ ['_']) fl out =
        torpnLoopTraced rest (W2 ++ ['_']) (bracketOpen T fl) (out ++ E)) ∧
      insideOf E fl = insideOf T fl ∧ bracketOpen E fl = bracketOpen T fl ∧
      (∀ c ∈ outsideOf E fl, isOperator c = true) ∧
      (outsideOf E fl ++ operatorsOf W2).Perm
        (operatorsOf (outsideOf T fl) ++ operatorsOf W) := by
  induction T generalizing fl W out with
  | nil =>
    right
    exact ⟨W, [], hW, fun rest => by simp [bracketOpen], rfl, rfl, by simp [outsideOf],
      by simp [outsideOf, operatorsOf]⟩
  | cons c T ih =>
    -- a step that copies the character `c` to the output
    have copy : ∀ (fl1 : Bool),
        (∀ rest, torpnLoopTraced (c :: (T ++ rest)) (W ++ ['_']) fl out =
          torpnLoopTraced (T ++ rest) (W ++ ['_']) fl1 (out ++ [c])) →
        outsideOf (c :: T) fl = outsideOf T fl1 → bracketOpen (c :: T) fl = bracketOpen T fl1 →
        (∀ E, insideOf (c :: E) fl = c :: insideOf E fl1 ∧
          outsideOf (c :: E) fl = outsideOf E fl1 ∧
          bracketOpen (c :: E) fl = bracketOpen E fl1) →
        insideOf (c :: T) fl = c :: insideOf T fl1 →
        ((∀ rest, torpnLoopTraced (c :: T ++ rest) (W ++ ['_']) fl out =
          Traced.stopped TorpnError.unbalanced) ∨
        ∃ W2 E, (∀ x ∈ W2, isOperator x = true ∨ x = '(') ∧
          (∀ rest, torpnLoopTraced (c :: T ++ rest) (W ++ ['_']) fl out =
            torpnLoopTraced rest (W2 ++ ['_']) (bracketOpen (c :: T) fl) (out ++ E)) ∧
          insideOf E fl = insideOf (c :: T) fl ∧ bracketOpen E fl = bracketOpen (c :: T) fl ∧
          (∀ c ∈ outsideOf E fl, isOperator c = true) ∧
          (outsideOf E fl ++ operatorsOf W2).Perm
            (operatorsOf (outsideOf (c :: T) fl) ++ operatorsOf W)) := by
      intro fl1 hstep ho hb hE hi
      rcases ih fl1 (by rw [← ho]; exact hT) W hW (out ++ [c]) with h | ⟨W2, E, ha, hb2, hc2, hd2, he2, hf2⟩
      · left
        intro rest
        rw [List.cons_append, hstep, h]
      · right
        refine ⟨W2, c :: E, ha, ?_, ?_, ?_, ?_, ?_⟩
        · intro rest
          rw [List.cons_append, hstep, hb2, hb]
          simp
        · rw [(hE E).1, hi, hc2]
        · rw [(hE E).2.2, hb, hd2]
        · rw [(hE E).2.1]; exact he2
        · rw [(hE E).2.1, ho]; exact hf2
    by_cases h1 : c = '['
    · exact copy true (fun rest => by rw [torpnLoopTraced]; simp [h1])
        (by simp [outsideOf, h1]) (by simp [bracketOpen, h1])
        (fun E => by simp [insideOf, outsideOf, bracketOpen, h1])
        (by simp [insideOf, h1])
    by_cases h2 : c = ']'
    · exact copy false (fun rest => by rw [torpnLoopTraced]; simp [h2])
        (by simp [outsideOf, h2]) (by simp [bracketOpen, h2])
        (fun E => by simp [insideOf, outsideOf, bracketOpen, h2])
        (by simp [insideOf, h2])
    by_cases h3 : fl = true
    · subst h3
      exact copy true (fun rest => by rw [torpnLoopTraced]; simp [h1, h2])
        (by simp [outsideOf, h1, h2]) (by simp [bracketOpen, h1, h2])
        (fun E => by simp [insideOf, outsideOf, bracketOpen, h1, h2])
        (by simp [insideOf, h1, h2])
    have h3 : fl = false := by simpa using h3
    subst h3
    have hout : outsideOf (c :: T) false = c :: outsideOf T false := by
      simp [outsideOf, h1, h2]
    have hin : insideOf (c :: T) false = insideOf T false := by
      simp [insideOf, h1, h2]
    have hbo : bracketOpen (c :: T) false = bracketOpen T false := by
      simp [bracketOpen, h1, h2]
    have hTt : ∀ x ∈ outsideOf T false, isOperator x = true ∨ x = '(' ∨ x = ')' := by
      intro x hx
      exact hT x (by rw [hout]; exact List.mem_cons_of_mem _ hx)
    have hc := hT c (by rw [hout]; exact List.mem_cons_self _ _)
    -- a step that changes the stack to `W1` and emits the operators `E1`
    have move : ∀ (W1 E1 : List Char), (∀ x ∈ W1, isOperator x = true ∨ x = '(') →
        (∀ x ∈ E1, isOperator x = true) →
        (∀ rest, torpnLoopTraced (c :: (T ++ rest)) (W ++ ['_']) false out =
          torpnLoopTraced (T ++ rest) (W1 ++ ['_']) false (out ++ E1)) →
        (E1 ++ operatorsOf W1).Perm (operatorsOf [c] ++ operatorsOf W) →
        ((∀ rest, torpnLoopTraced (c :: T ++ rest) (W ++ ['_']) false out =
          Traced.stopped TorpnError.unbalanced) ∨
        ∃ W2 E, (∀ x ∈ W2, isOperator x = true ∨ x = '(') ∧
          (∀ rest, torpnLoopTraced (c :: T ++ rest) (W ++ ['_']) false out =
            torpnLoopTraced rest (W2 ++ ['_']) (bracketOpen (c :: T) false) (out ++ E)) ∧
          insideOf E false = insideOf (c :: T) false ∧
          bracketOpen E false = bracketOpen (c :: T) false ∧
          (∀ c ∈ outsideOf E false, isOperator c = true) ∧
          (outsideOf E false ++ operatorsOf W2).Perm
            (operatorsOf (outsideOf (c :: T) false) ++ operatorsOf W)) := by
      intro W1 E1 hW1 hE1 hstep hperm
      obtain ⟨o1, o2, o3⟩ := outside_operators E1 hE1
      rcases ih false hTt W1 hW1 (out ++ E1) with h | ⟨W2, E, ha, hb2, hc2, hd2, he2, hf2⟩
      · left
        intro rest
        rw [List.cons_append, hstep, h]
      · right
        refine ⟨W2, E1 ++ E, ha, ?_, ?_, ?_, ?_, ?_⟩
        · intro rest
          rw [List.cons_append, hstep, hb2, hbo]
          simp
        · rw [insideOf_append, o2, o3, hin, hc2]; rfl
        · rw [bracketOpen_append, o3, hbo, hd2]
        · rw [outsideOf_append, o1, o3]
          intro x hx
          rcases List.mem_append.1 hx with hx | hx
          · exact hE1 x hx
          · exact he2 x hx
        · rw [outsideOf_append, o1, o3, hout]
          have e : operatorsOf (c :: outsideOf T false) =
              operatorsOf [c] ++ operatorsOf (outsideOf T false) := by
            rw [← operatorsOf_append]; rfl
          rw [e]
          -- E1 ++ out E ++ ops W2 ~ E1 ++ (ops T ++ ops W1) ~ ops T ++ (E1 ++ ops W1)
          have p1 : (E1 ++ outsideOf E false ++ operatorsOf W2).Perm
              (E1 ++ (operatorsOf (outsideOf T false) ++ operatorsOf W1)) := by
            rw [List.append_assoc]
            exact List.Perm.append_left E1 hf2
          have p2 : (E1 ++ (operatorsOf (outsideOf T false) ++ operatorsOf W1)).Perm
              (operatorsOf (outsideOf T false) ++ (E1 ++ operatorsOf W1)) := by
            rw [← List.append_assoc, ← List.append_assoc]
            exact List.Perm.append_right _ List.perm_append_comm
          have p3 : (operatorsOf (outsideOf T false) ++ (E1 ++ operatorsOf W1)).Perm
              (operatorsOf (outsideOf T false) ++ (operatorsOf [c] ++ operatorsOf W)) :=
            List.Perm.append_left _ hperm
          have p4 : (operatorsOf (outsideOf T false) ++ (operatorsOf [c] ++ operatorsOf W)).Perm
              (operatorsOf [c] ++ operatorsOf (outsideOf T false) ++ operatorsOf W) := by
            rw [← List.append_assoc]
            exact List.Perm.append_right _ List.perm_append_comm
          exact ((p1.trans p2).trans p3).trans p4
    by_cases h4 : c = '('
    · subst h4
      refine move ('(' :: W) [] ?_ (by simp) (fun rest => ?_) ?_
      · intro x hx
        rcases List.mem_cons.1 hx with e | hx
        · exact Or.inr e
        · exact hW x hx
      · rw [torpnLoopTraced]; simp
      · have e0 : operatorsOf ['('] = [] := by decide
        rw [operatorsOf_cons_other (by decide), e0]
    by_cases h5 : c = ')'
    · subst h5
      rcases popToParenTraced_emit W hW out with h | ⟨W1, E1, ha, hb, hcc, hd⟩
      · left
        intro rest
        rw [List.cons_append, torpnLoopTraced]
        simp [h]
      · refine move W1 E1 ha hb (fun rest => ?_) ?_
        · rw [torpnLoopTraced]; simp [hcc]
        · simpa [operatorsOf] using hd
    have h6 : isOperator c = true := by
      rcases hc with h | h | h
      · exact h
      · exact absurd h h4
      · exact absurd h h5
    have hne := isOperator_ne_paren h6
    obtain ⟨W1, E1, ha, hb, hcc, hd⟩ := pushOperatorTraced_emit c h6 W hW out
    refine move W1 E1 ha hb (fun rest => ?_) ?_
    · rw [torpnLoopTraced]; simp [h1, h2, h4, h5, hne.2.2.1, h6, hcc]
    · rw [operatorsOf_cons_op h6]
      simpa [operatorsOf] using hd

/-- On a stream whose brackets are closed at the end and whose characters outside
brackets are operators and parentheses, followed by the terminal symbol, `torpn` stops
only with the unbalanced-parenthesis error; otherwise it returns a postfix text with the
bracketed terms of the stream as they are and, outside brackets, the operators of the
stream, each once. -/
theorem torpnTraced_stream (T : List Char)
    (hT : ∀ c ∈ outsideOf T false, isOperator c = true ∨ c = '(' ∨ c = ')')
    (hb : bracketOpen T false = false) :
    torpnTraced (T ++ ['_']) = Traced.stopped TorpnError.unbalanced ∨
    ∃ r, torpnTraced (T ++ ['_']) = Traced.done r ∧ insideOf r false = insideOf T false ∧
      (∀ c ∈ outsideOf r false, isOperator c = true) ∧
      (outsideOf r false).Perm (operatorsOf (outsideOf T false)) := by
  unfold torpnTraced
  rcases torpnLoopTraced_emit T false hT [] (by simp) [] with h | ⟨W2, E, ha, hb2, hc2, hd2, he2, hf2⟩
  · left
    exact h ['_']
  · have hrun := hb2 ['_']
    rw [List.nil_append] at hrun
    rw [hb, List.nil_append] at hrun
    rw [hb] at hd2
    have hstep : ∀ p, popToTermTraced (W2 ++ ['_']) E = p →
        torpnLoopTraced ['_'] (W2 ++ ['_']) false E =
          match p with
          | Traced.done (stack2, out2) => torpnLoopTraced [] stack2 false out2
          | Traced.stopped why => Traced.stopped why := by
      intro p hp
      rw [torpnLoopTraced]
      simp [hp]
    rcases popToTermTraced_emit W2 ha E with h | ⟨hops, h⟩
    · left
      rw [hrun, hstep _ h]
    · right
      refine ⟨E ++ W2, ?_, ?_, ?_, ?_⟩
      · rw [hrun, hstep _ h]
        simp [torpnLoopTraced]
      · obtain ⟨o1, o2, o3⟩ := outside_operators W2 hops
        rw [insideOf_append, hd2, o2, List.append_nil, hc2]
      · obtain ⟨o1, o2, o3⟩ := outside_operators W2 hops
        rw [outsideOf_append, hd2, o1]
        intro x hx
        rcases List.mem_append.1 hx with hx | hx
        · exact he2 x hx
        · exact hops x hx
      · obtain ⟨o1, o2, o3⟩ := outside_operators W2 hops
        rw [outsideOf_append, hd2, o1]
        have := hf2
        rw [operatorsOf_of_operators W2 hops] at this
        simpa [operatorsOf] using this

/-! ## The shape of the normalized stream -/

theorem shapeScan_append (a b : List Char) (fl sd : Bool) :
    shapeScan (a ++ b) fl sd = (shapeScan a fl sd).bind (fun p => shapeScan b p.1 p.2) := by
  induction a generalizing fl sd with
  | nil => simp [shapeScan]
  | cons c a ih =>
    simp only [List.cons_append, shapeScan]
    split_ifs <;> simp [ih]

theorem isOperand_eqStar {c : Char} (h : isOperand c = true) : isOperand (eqStar c) = true := by
  unfold eqStar
  split
  · decide
  · exact h

theorem stepPiece_shape (c : Char) (f f2 : Nat) (hf : f ≤ 3) (A : List Char)
    (h : stepPiece c f = some (f2, A)) (sd : Bool) :
    shapeScan A (decide (f ≠ 0)) sd = some (decide (f2 ≠ 0), sd) := by
  unfold stepPiece at h
  by_cases hs : isspace c = true
  · simp only [hs, if_true, Option.some.injEq, Prod.mk.injEq] at h
    obtain ⟨rfl, rfl⟩ := h
    simp [shapeScan]
  simp only [hs, if_false] at h
  by_cases hp : isPlainOp c = true
  · simp only [hp, if_true, Option.some.injEq, Prod.mk.injEq] at h
    obtain ⟨rfl, rfl⟩ := h
    rcases isPlainOp_cases hp with e | e | e | e | e <;> subst e <;>
      interval_cases f <;> simp [shapeScan, isOperator, strchr]
  simp only [hp, if_false] at h
  by_cases ho : isOperand c = true
  · simp only [ho, if_true] at h
    obtain ⟨hop, hc1, hc2, hc3, hc4, -, -, hc5⟩ := isOperand_not_special (isOperand_eqStar ho)
    have hd : eqStar c ≠ '<' ∧ eqStar c ≠ '>' := by
      constructor <;> (intro e; rw [e] at hop; revert hop; decide)
    by_cases h0 : f = 0 ∧ c ≠ '*'
    · simp [h0] at h
    · simp only [h0, if_false, Option.some.injEq, Prod.mk.injEq] at h
      obtain ⟨rfl, rfl⟩ := h
      by_cases hf0 : f = 0
      · subst hf0
        simp [shapeScan, hc1, hc2, hc3, hc4, hc5, hd.1, hd.2]
      · simp [hf0, shapeScan, hc1, hc2, hc3, hc4, hc5, hd.1, hd.2]
  simp only [ho, Bool.false_eq_true, if_false] at h
  by_cases h1 : c = ':'
  · subst h1
    simp only [if_true, Option.some.injEq, Prod.mk.injEq] at h
    obtain ⟨rfl, rfl⟩ := h
    interval_cases f <;> simp [shapeScan, isOperator, strchr]
  simp only [h1, if_false] at h
  by_cases h2 : c = '@'
  · subst h2
    simp only [if_true] at h
    interval_cases f <;> simp only [Nat.reduceEqDiff, if_true, if_false, Option.some.injEq,
      Prod.mk.injEq, OfNat.ofNat_ne_zero, OfNat.zero_ne_ofNat, OfNat.ofNat_ne_one,
      OfNat.one_ne_ofNat, one_ne_zero] at h <;>
      obtain ⟨rfl, rfl⟩ := h <;>
      simp [shapeScan, isOperator, strchr]
  simp [h2] at h

theorem flushed_shape (f : Nat) (o : List Char) (sd : Bool) :
    ∃ A, flushed f [] o = o ++ A ∧ shapeScan A (decide (f ≠ 0)) sd = some (false, sd) := by
  by_cases hf : f = 0
  · subst hf
    exact ⟨[], by simp [flushed], by simp [shapeScan]⟩
  · refine ⟨[']', ')'], by simp [flushed, Nat.pos_of_ne_zero hf], ?_⟩
    simp [hf, shapeScan]

/-- The stream that the scanner of `tokenize` writes for a text, from any state, passes
the scan of its shape and ends outside brackets. -/
theorem tokenizeLoop_shape (n : Nat) :
    ∀ s : List Char, s.length ≤ n → ∀ (f : Nat) (o r : List Char) (sd : Bool), f ≤ 3 →
      tokenizeLoop s f [] o = some r →
      ∃ A sd2, finish r = o ++ A ++ ['_'] ∧
        shapeScan A (decide (f ≠ 0)) sd = some (false, sd2) := by
  induction n with
  | zero =>
    intro s hs f o r sd hf h
    have : s = [] := List.length_eq_zero.1 (by omega)
    subst this
    rw [tokenizeLoop_nil_flushed] at h
    injection h with h
    obtain ⟨A, hA, hscan⟩ := flushed_shape f o sd
    exact ⟨A, sd, by rw [← h, finish_concat, hA], hscan⟩
  | succ n ih =>
    intro s hs f o r sd hf h
    cases s with
    | nil =>
      rw [tokenizeLoop_nil_flushed] at h
      injection h with h
      obtain ⟨A, hA, hscan⟩ := flushed_shape f o sd
      exact ⟨A, sd, by rw [← h, finish_concat, hA], hscan⟩
    | cons c rest =>
      have hlen : rest.length ≤ n := by simpa using hs
      by_cases hcd : c = '<' ∨ c = '>'
      · have hcop : isOperator c = true := by
          rcases hcd with e | e <;> subst e <;> decide
        have hcc : c = '>' ∨ c = '<' := hcd.symm
        have hcn : c ≠ '[' ∧ c ≠ ']' ∧ c ≠ '(' ∧ c ≠ ')' ∧ c ≠ '_' := by
          rcases hcd with e | e <;> subst e <;> decide
        obtain ⟨F, hF, hFscan⟩ := flushed_shape f o sd
        rw [tokenizeLoop_opchar (Or.inl hcop)] at h
        simp only [hcc, if_true] at h
        cases rest with
        | nil =>
          simp only [Option.some.injEq] at h
          exact ⟨F, sd, by rw [← h, finish_concat, hF], hFscan⟩
        | cons d rest2 =>
          simp only [] at h
          by_cases hd : d = ':' ∨ d = '@'
          · simp only [hd, if_true] at h
            have hdn : d ≠ '[' ∧ d ≠ ']' ∧ d ≠ '(' ∧ d ≠ ')' ∧ d ≠ '_' ∧ d ≠ '<' ∧ d ≠ '>' := by
              rcases hd with e | e <;> subst e <;> decide
            rw [tokenizeLoop_norm rest2 3 (by decide)] at h
            obtain ⟨A2, sd2, hA2, hscan2⟩ := ih rest2 (by simp at hlen; omega) 3 _ r true
              (by omega) h
            refine ⟨F ++ c :: '(' :: '[' :: c :: d :: A2, sd2, ?_, ?_⟩
            · rw [hA2, hF]; simp
            · rw [shapeScan_append, hFscan]
              simp only [Option.some_bind]
              have hs2 : shapeScan A2 true true = some (false, sd2) := by
                simpa using hscan2
              simp [shapeScan, hcn.1, hcn.2.1, hcn.2.2.1, hcn.2.2.2.1, hcn.2.2.2.2, hcop,
                hdn.1, hdn.2.1, hdn.2.2.1, hdn.2.2.2.1, hdn.2.2.2.2.1, hdn.2.2.2.2.2.1,
                hdn.2.2.2.2.2.2, hcd, hs2]
          · simp [hd] at h
      · have h1 : c ≠ '<' := fun e => hcd (Or.inl e)
        have h2 : c ≠ '>' := fun e => hcd (Or.inr e)
        cases hst : stepPiece c f with
        | none =>
          rw [tokenizeLoop_stepPiece_none c h1 h2 f hst] at h
          exact absurd h (by simp)
        | some p =>
          obtain ⟨f2, A1⟩ := p
          rw [tokenizeLoop_stepPiece_some c h1 h2 f f2 A1 hst] at h
          have hf2 := (stepPiece_stream c f f2 hf A1 hst 0).1
          have hscan1 := stepPiece_shape c f f2 hf A1 hst sd
          obtain ⟨A2, sd2, hA2, hscan2⟩ := ih rest hlen f2 _ r sd hf2 h
          refine ⟨A1 ++ A2, sd2, by rw [hA2]; simp, ?_⟩
          rw [shapeScan_append, hscan1]
          exact hscan2

theorem shapeScan_facts (T : List Char) (fl sd fl2 sd2 : Bool)
    (h : shapeScan T fl sd = some (fl2, sd2)) :
    bracketOpen T fl = fl2 ∧
      (∀ c ∈ outsideOf T fl, isOperator c = true ∨ c = '(' ∨ c = ')') ∧
      (∀ c ∈ insideOf T fl, c ≠ '(' ∧ c ≠ ')' ∧ c ≠ '_') ∧
      ((∃ c ∈ insideOf T fl, c = '<' ∨ c = '>') →
        sd = true ∨ ∃ c ∈ outsideOf T fl, c = '<' ∨ c = '>') := by
  induction T generalizing fl sd with
  | nil =>
    simp only [shapeScan, Option.some.injEq, Prod.mk.injEq] at h
    exact ⟨h.1, by simp [outsideOf], by simp [insideOf], by simp [insideOf]⟩
  | cons c T ih =>
    rw [shapeScan] at h
    by_cases h1 : c = '['
    · simp only [h1, if_true] at h
      obtain ⟨a, b, c2, d⟩ := ih true sd h
      subst h1
      have hi : insideOf ('[' :: T) fl = '[' :: insideOf T true := by simp [insideOf]
      have ho : outsideOf ('[' :: T) fl = outsideOf T true := by simp [outsideOf]
      refine ⟨by simpa [bracketOpen] using a, by rw [ho]; exact b, ?_, ?_⟩
      · intro x hx
        rw [hi] at hx
        rcases List.mem_cons.1 hx with e | hx
        · subst e; decide
        · exact c2 x hx
      · rintro ⟨x, hx, hxd⟩
        rw [hi] at hx
        rw [ho]
        rcases List.mem_cons.1 hx with e | hx
        · subst e; exact absurd hxd (by decide)
        · exact d ⟨x, hx, hxd⟩
    simp only [h1, if_false] at h
    by_cases h2 : c = ']'
    · simp only [h2, if_true] at h
      obtain ⟨a, b, c2, d⟩ := ih false sd h
      subst h2
      have hi : insideOf (']' :: T) fl = ']' :: insideOf T false := by simp [insideOf]
      have ho : outsideOf (']' :: T) fl = outsideOf T false := by simp [outsideOf]
      refine ⟨by simpa [bracketOpen] using a, by rw [ho]; exact b, ?_, ?_⟩
      · intro x hx
        rw [hi] at hx
        rcases List.mem_cons.1 hx with e | hx
        · subst e; decide
        · exact c2 x hx
      · rintro ⟨x, hx, hxd⟩
        rw [hi] at hx
        rw [ho]
        rcases List.mem_cons.1 hx with e | hx
        · subst e; exact absurd hxd (by decide)
        · exact d ⟨x, hx, hxd⟩
    simp only [h2, if_false] at h
    by_cases h3 : fl = true
    · subst h3
      simp only [if_true] at h
      by_cases h4 : c = '(' ∨ c = ')' ∨ c = '_'
      · simp [h4] at h
      simp only [h4, if_false] at h
      by_cases h5 : (c = '<' ∨ c = '>') ∧ sd = false
      · simp [h5] at h
      simp only [h5, if_false] at h
      obtain ⟨a, b, c2, d⟩ := ih true sd h
      have hi : insideOf (c :: T) true = c :: insideOf T true := by simp [insideOf, h1, h2]
      have ho : outsideOf (c :: T) true = outsideOf T true := by simp [outsideOf, h1, h2]
      refine ⟨by simpa [bracketOpen, h1, h2] using a, by rw [ho]; exact b, ?_, ?_⟩
      · intro x hx
        rw [hi] at hx
        rcases List.mem_cons.1 hx with e | hx
        · subst e
          exact ⟨fun e => h4 (Or.inl e), fun e => h4 (Or.inr (Or.inl e)),
            fun e => h4 (Or.inr (Or.inr e))⟩
        · exact c2 x hx
      · rintro ⟨x, hx, hxd⟩
        rw [hi] at hx
        rw [ho]
        rcases List.mem_cons.1 hx with e | hx
        · subst e
          left
          by_contra hsd
          exact h5 ⟨hxd, by simpa using hsd⟩
        · exact d ⟨x, hx, hxd⟩
    have h3 : fl = false := by simpa using h3
    subst h3
    simp only [Bool.false_eq_true, if_false] at h
    have hi : insideOf (c :: T) false = insideOf T false := by simp [insideOf, h1, h2]
    have ho : outsideOf (c :: T) false = c :: outsideOf T false := by simp [outsideOf, h1, h2]
    have hb : bracketOpen (c :: T) false = bracketOpen T false := by
      simp [bracketOpen, h1, h2]
    by_cases h4 : c = '(' ∨ c = ')'
    · simp only [h4, if_true] at h
      obtain ⟨a, b, c2, d⟩ := ih false sd h
      refine ⟨by rw [hb]; exact a, ?_, by rw [hi]; exact c2, ?_⟩
      · intro x hx
        rw [ho] at hx
        rcases List.mem_cons.1 hx with e | hx
        · subst e; exact Or.inr h4
        · exact b x hx
      · rw [hi, ho]
        intro hx
        rcases d hx with e | ⟨y, hy, hyd⟩
        · exact Or.inl e
        · exact Or.inr ⟨y, List.mem_cons_of_mem _ hy, hyd⟩
    simp only [h4, if_false] at h
    by_cases h6 : isOperator c = true
    · simp only [h6, if_true] at h
      obtain ⟨a, b, c2, d⟩ := ih false _ h
      refine ⟨by rw [hb]; exact a, ?_, by rw [hi]; exact c2, ?_⟩
      · intro x hx
        rw [ho] at hx
        rcases List.mem_cons.1 hx with e | hx
        · subst e; exact Or.inl h6
        · exact b x hx
      · rw [hi, ho]
        intro hx
        rcases d hx with e | ⟨y, hy, hyd⟩
        · simp only [Bool.or_eq_true, decide_eq_true_eq] at e
          rcases e with e | e
          · exact Or.inl e
          · exact Or.inr ⟨c, List.mem_cons_self _ _, e⟩
        · exact Or.inr ⟨y, List.mem_cons_of_mem _ hy, hyd⟩
    · simp [h6] at h

/-- The stream of a text that `tokenize` accepts: it ends with the terminal symbol, its
brackets are closed, outside brackets it holds operators and parentheses only, inside
brackets no parenthesis and no terminal symbol, and a `<` or `>` inside brackets only
when a distance operator stands outside. -/
theorem tokenize_shape (s t : List Char) (h : tokenize s = some t) :
    ∃ T, t = T ++ ['_'] ∧ bracketOpen T false = false ∧
      (∀ c ∈ outsideOf T false, isOperator c = true ∨ c = '(' ∨ c = ')') ∧
      (∀ c ∈ insideOf T false, c ≠ '(' ∧ c ≠ ')' ∧ c ≠ '_') ∧
      ((∃ c ∈ insideOf T false, c = '<' ∨ c = '>') →
        ∃ c ∈ outsideOf T false, c = '<' ∨ c = '>') := by
  rw [tokenize_eq_finish] at h
  cases hr : tokenizeLoop s 0 [] [] with
  | none => simp [hr] at h
  | some r =>
    simp only [hr, Option.map_some', Option.some.injEq] at h
    obtain ⟨A, sd2, hA, hscan⟩ := tokenizeLoop_shape s.length s (Nat.le_refl _) 0 [] r false
      (by omega) hr
    have hscan : shapeScan A false false = some (false, sd2) := by simpa using hscan
    obtain ⟨a, b, c, d⟩ := shapeScan_facts A false false false sd2 hscan
    refine ⟨A, by rw [← h, hA]; simp, a, b, c, fun hx => ?_⟩
    rcases d hx with e | e
    · exact absurd e (by simp)
    · exact e

theorem stream_with_terminal (T : List Char) (hb : bracketOpen T false = false) :
    insideOf (T ++ ['_']) false = insideOf T false ∧
      operatorsOf (outsideOf (T ++ ['_']) false) = operatorsOf (outsideOf T false) ∧
      termsOf (T ++ ['_']) false [] = termsOf T false [] := by
  have e1 : insideOf (T ++ ['_']) false = insideOf T false := by
    rw [insideOf_append, hb]; simp [insideOf]
  refine ⟨e1, ?_, ?_⟩
  · rw [outsideOf_append, hb, operatorsOf_append]
    have : operatorsOf (outsideOf ['_'] false) = [] := by decide
    rw [this, List.append_nil]
  · rw [← termsOf_insideOf, e1, termsOf_insideOf]

/-! ## C37, C38: the conversion to postfix on the streams of `tokenize` -/

/-- C38: for every text that `tokenize` accepts, `torpn` on the resulting stream either
returns a postfix text or stops with the unbalanced-parenthesis error: it never stops
with the priority error or the unknown-symbol error and never reads the top of an empty
stack (`torpnTraced` is `torpn` with the reason of a stop kept); and it returns a postfix
text exactly when the typed parentheses are balanced. -/
theorem C38_torpn_stops_only_on_parentheses (s t : List Char) (ht : tokenize s = some t) :
    (torpnTraced t = Traced.stopped TorpnError.unbalanced ∨ ∃ r, torpnTraced t = Traced.done r) ∧
    torpn t = (torpnTraced t).erase ∧
    ((∃ r, torpn t = Outcome.ok r) ↔ parenDepth s 0 = some 0) := by
  obtain ⟨T, hT, hb, ho, -, -⟩ := tokenize_shape s t ht
  obtain ⟨T2, hT2, hu, hscan⟩ := tokenize_stream s t ht
  have hTT : T2 = T := by
    have := hT.symm.trans hT2
    exact (List.append_cancel_right this).symm
  subst hTT
  subst hT
  refine ⟨?_, torpn_erase _, ?_, ?_⟩
  · rcases torpnTraced_stream T2 ho hb with h | ⟨r, h, -⟩
    · exact Or.inl h
    · exact Or.inr ⟨r, h⟩
  · rintro ⟨r, hr⟩
    by_contra hunb
    have key : torpn (T2 ++ ['_']) = Outcome.fail := by
      apply torpn_unbalanced T2 hu
      cases hp : parenDepth s 0 with
      | none =>
        left
        rw [hscan, hp]; rfl
      | some d =>
        right
        refine ⟨d, ?_, by rw [hscan, hp]; rfl⟩
        rcases Nat.eq_zero_or_pos d with e | e
        · subst e; exact absurd hp hunb
        · exact e
    rw [key] at hr
    exact absurd hr (by simp)
  · intro hp
    have key := torpnLoop_scan T2 hu false 0 [] (by simp) rfl []
    rw [hscan, hp] at key
    obtain ⟨W2, out2, ha, hbb, hcc⟩ := key
    have hops := count_zero_operators W2 hbb ha
    refine ⟨out2 ++ W2, ?_⟩
    unfold torpn
    have := hcc ['_']
    rw [List.nil_append] at this
    rw [this, torpnLoop_end _ _ _ [] (out2 ++ W2), torpnLoop_nil]
    rw [popToTerm_operators W2 hops]
    simp [popToTerm]

/-- C38 on `:1&(@CA|!:2)`, which is converted, and on `(:1`, where `torpn` stops with
the unbalanced-parenthesis error. -/
theorem C38_torpn_stops_only_on_parentheses_witness :
    ((torpnTraced ['(', '[', ':', '1', ']', ')', '&', '(', '(', '[', '@', 'C', 'A', ']', ')',
        '|', '!', '(', '[', ':', '2', ']', ')', ')', '_'] =
          Traced.stopped TorpnError.unbalanced ∨
        ∃ r, torpnTraced ['(', '[', ':', '1', ']', ')', '&', '(', '(', '[', '@', 'C', 'A', ']',
          ')', '|', '!', '(', '[', ':', '2', ']', ')', ')', '_'] = Traced.done r) ∧
      torpn ['(', '[', ':', '1', ']', ')', '&', '(', '(', '[', '@', 'C', 'A', ']', ')',
        '|', '!', '(', '[', ':', '2', ']', ')', ')', '_'] =
        (torpnTraced ['(', '[', ':', '1', ']', ')', '&', '(', '(', '[', '@', 'C', 'A', ']',
          ')', '|', '!', '(', '[', ':', '2', ']', ')', ')', '_']).erase ∧
      ((∃ r, torpn ['(', '[', ':', '1', ']', ')', '&', '(', '(', '[', '@', 'C', 'A', ']', ')',
        '|', '!', '(', '[', ':', '2', ']', ')', ')', '_'] = Outcome.ok r) ↔
        parenDepth [':', '1', '&', '(', '@', 'C', 'A', '|', '!', ':', '2', ')'] 0 = some 0)) ∧
    torpnTraced ['(', '[', ':', '1', ']', ')', '&', '(', '(', '[', '@', 'C', 'A', ']', ')',
        '|', '!', '(', '[', ':', '2', ']', ')', ')', '_'] =
      Traced.done ['[', ':', '1', ']', '[', '@', 'C', 'A', ']', '[', ':', '2', ']', '!', '|',
        '&'] ∧
    tokenize ['(', ':', '1'] = some ['(', '(', '[', ':', '1', ']', ')', '_'] ∧
    torpnTraced ['(', '(', '[', ':', '1', ']', ')', '_'] =
      Traced.stopped TorpnError.unbalanced :=
  ⟨C38_torpn_stops_only_on_parentheses
      [':', '1', '&', '(', '@', 'C', 'A', '|', '!', ':', '2', ')']
      ['(', '[', ':', '1', ']', ')', '&', '(', '(', '[', '@', 'C', 'A', ']', ')',
        '|', '!', '(', '[', ':', '2', ']', ')', ')', '_'] (by decide),
    by decide, by decide, by decide⟩

/-- C37: for every stream `t` that `tokenize` produces and on which `torpn` succeeds
with the postfix text `r`: `r` holds no parenthesis and no terminal symbol; the bracketed
terms of `r` are those of `t`, in content and in order; and the characters of `r` outside
brackets are operators, namely the operators that stand outside brackets in `t`, each as
often as there. -/
theorem C37_rpn_keeps_terms_and_operators (s t r : List Char)
    (ht : tokenize s = some t) (hr : torpn t = Outcome.ok r) :
    (∀ c ∈ r, c ≠ '(' ∧ c ≠ ')' ∧ c ≠ '_') ∧
    termsOf r false [] = termsOf t false [] ∧ insideOf r false = insideOf t false ∧
    (∀ c ∈ outsideOf r false, isOperator c = true) ∧
    (outsideOf r false).Perm (operatorsOf (outsideOf t false)) := by
  obtain ⟨T, hT, hb, ho, hi, -⟩ := tokenize_shape s t ht
  subst hT
  obtain ⟨e1, e2, e3⟩ := stream_with_terminal T hb
  rw [torpn_erase] at hr
  rcases torpnTraced_stream T ho hb with h | ⟨r2, h, hin, hout, hperm⟩
  · rw [h] at hr
    exact absurd hr (by simp [Traced.erase])
  · rw [h] at hr
    simp only [Traced.erase, Outcome.ok.injEq] at hr
    subst hr
    refine ⟨?_, ?_, by rw [hin, e1], hout, by rw [e2]; exact hperm⟩
    · intro c hc
      rcases mem_inside_or_outside r2 false c hc with h1 | h1
      · rw [hin] at h1
        exact hi c h1
      · have := isOperator_ne_paren (hout c h1)
        exact ⟨this.1, this.2.1, this.2.2.1⟩
    · rw [e3, ← termsOf_insideOf r2, hin, termsOf_insideOf]

/-- C37 on `:1&(@CA|!:2)<:3.5`: the postfix text `[:1][@CA][:2]!|[<:3.5]<&` holds the
four terms of the stream in their order and its five operators. -/
theorem C37_rpn_keeps_terms_and_operators_witness :
    ((∀ c ∈ ['[', ':', '1', ']', '[', '@', 'C', 'A', ']', '[', ':', '2', ']', '!', '|', '[',
        '<', ':', '3', '.', '5', ']', '<', '&'], c ≠ '(' ∧ c ≠ ')' ∧ c ≠ '_') ∧
      termsOf ['[', ':', '1', ']', '[', '@', 'C', 'A', ']', '[', ':', '2', ']', '!', '|', '[',
        '<', ':', '3', '.', '5', ']', '<', '&'] false [] =
        termsOf ['(', '[', ':', '1', ']', ')', '&', '(', '(', '[', '@', 'C', 'A', ']', ')',
          '|', '!', '(', '[', ':', '2', ']', ')', ')', '<', '(', '[', '<', ':', '3', '.', '5',
          ']', ')', '_'] false [] ∧
      insideOf ['[', ':', '1', ']', '[', '@', 'C', 'A', ']', '[', ':', '2', ']', '!', '|', '[',
        '<', ':', '3', '.', '5', ']', '<', '&'] false =
        insideOf ['(', '[', ':', '1', ']', ')', '&', '(', '(', '[', '@', 'C', 'A', ']', ')',
          '|', '!', '(', '[', ':', '2', ']', ')', ')', '<', '(', '[', '<', ':', '3', '.', '5',
          ']', ')', '_'] false ∧
      (∀ c ∈ outsideOf ['[', ':', '1', ']', '[', '@', 'C', 'A', ']', '[', ':', '2', ']', '!',
        '|', '[', '<', ':', '3', '.', '5', ']', '<', '&'] false, isOperator c = true) ∧
      (outsideOf ['[', ':', '1', ']', '[', '@', 'C', 'A', ']', '[', ':', '2', ']', '!', '|',
        '[', '<', ':', '3', '.', '5', ']', '<', '&'] false).Perm
        (operatorsOf (outsideOf ['(', '[', ':', '1', ']', ')', '&', '(', '(', '[', '@', 'C',
          'A', ']', ')', '|', '!', '(', '[', ':', '2', ']', ')', ')', '<', '(', '[', '<', ':',
          '3', '.', '5', ']', ')', '_'] false))) ∧
    termsOf ['[', ':', '1', ']', '[', '@', 'C', 'A', ']', '[', ':', '2', ']', '!', '|', '[',
        '<', ':', '3', '.', '5', ']', '<', '&'] false [] =
      [[':', '1'], ['@', 'C', 'A'], [':', '2'], ['<', ':', '3', '.', '5']] ∧
    outsideOf ['[', ':', '1', ']', '[', '@', 'C', 'A', ']', '[', ':', '2', ']', '!', '|',
        '[', '<', ':', '3', '.', '5', ']', '<', '&'] false = ['!', '|', '<', '&'] ∧
    operatorsOf (outsideOf ['(', '[', ':', '1', ']', ')', '&', '(', '(', '[', '@', 'C',
        'A', ']', ')', '|', '!', '(', '[', ':', '2', ']', ')', ')', '<', '(', '[', '<', ':',
        '3', '.', '5', ']', ')', '_'] false) = ['&', '|', '!', '<'] :=
  ⟨C37_rpn_keeps_terms_and_operators
      [':', '1', '&', '(', '@', 'C', 'A', '|', '!', ':', '2', ')', '<', ':', '3', '.', '5']
      ['(', '[', ':', '1', ']', ')', '&', '(', '(', '[', '@', 'C', 'A', ']', ')',
        '|', '!', '(', '[', ':', '2', ']', ')', ')', '<', '(', '[', '<', ':', '3', '.', '5',
        ']', ')', '_']
      ['[', ':', '1', ']', '[', '@', 'C', 'A', ']', '[', ':', '2', ']', '!', '|', '[',
        '<', ':', '3', '.', '5', ']', '<', '&'] (by decide) (by decide),
    by decide, by decide, by decide⟩

/-! ## The result of `selectDistd` is a mask -/

theorem distdOuter_mask {F : Type} (ops : FloatOps F) (comp type : Char) (dist : F)
    (center : List Char) (atoms : Nat) (ipres : List Nat) (fuel : Nat) :
    ∀ (i curres : Nat) (pMask : List Char) (X : List F) (m : List Char) (X2 : List F),
      distdOuter ops comp type dist center atoms ipres fuel i curres pMask X =
        some (Outcome.ok (m, X2)) →
      m.length = pMask.length ∧ (IsTF pMask → IsTF m) := by
  induction fuel with
  | zero =>
    intro i curres pMask X m X2 h
    simp [distdOuter] at h
  | succ fuel ih =>
    intro i curres pMask X m X2 h
    rw [distdOuter] at h
    by_cases h1 : atoms ≤ i
    · simp only [h1, if_true, Option.some.injEq, Outcome.ok.injEq, Prod.mk.injEq] at h
      obtain ⟨rfl, -⟩ := h
      exact ⟨rfl, id⟩
    simp only [h1, if_false] at h
    by_cases h2 : pMask.getD i 'F' = 'T'
    · simp only [h2, if_true] at h
      exact ih _ _ _ _ _ _ h
    simp only [h2, if_false] at h
    split at h
    · rename_i brk p2 X3 hin
      obtain ⟨e1, e2⟩ := ih _ _ _ _ _ _ h
      obtain ⟨-, hsp⟩ := distdInner_spec ops comp type dist center ipres _ i _ pMask X brk p2
        X3 hin
      rcases hsp with ⟨-, rfl⟩ | ⟨-, ⟨-, rfl⟩ | ⟨-, rfl⟩⟩
      · exact ⟨e1, e2⟩
      · exact ⟨by rw [e1, setRange_length], fun hp => e2 (setRange_TF _ _ _ hp)⟩
      · exact ⟨by rw [e1]; simp, fun hp => e2 (hp.set_T _)⟩
    · simp at h
    · simp at h

/-- Whatever the floating-point operations and the fuel, a mask returned by `selectDistd`
has `atoms` entries, each `'T'` or `'F'`. -/
theorem distdOf_mask {F : Type} (ops : FloatOps F) (fuel : Nat) (U : Universe)
    (criteria center : Option (List Char)) (X : List F) (m : List Char) (X2 : List F)
    (h : distdOf ops fuel U criteria center X = Outcome.ok (m, X2)) :
    m.length = U.atoms ∧ IsTF m := by
  unfold distdOf at h
  cases hs : selectDistd ops fuel criteria center U.atoms U.residues U.ipres X with
  | none => simp [hs] at h
  | some r =>
    simp only [hs] at h
    subst h
    unfold selectDistd at hs
    cases criteria with
    | none => simp at hs
    | some crit =>
      simp only at hs
      by_cases hl : crit.length < 2
      · simp [hl] at hs
      simp only [hl, if_false] at hs
      cases hd : ops.scan (crit.drop 2) with
      | none => simp [hd] at hs
      | some dist =>
        simp only [hd] at hs
        obtain ⟨e1, e2⟩ := distdOuter_mask ops _ _ dist _ U.atoms U.ipres fuel 0 0 _ X m X2 hs
        exact ⟨by rw [e1]; simp, e2 (IsTF.of_replicate _)⟩

/-! ## The entries of the stack of `eval` -/

theorem buildMask_length (f : Nat → Outcome Char) (n : Nat) (l : List Char)
    (h : buildMask f n = Outcome.ok l) : l.length = n := by
  induction n generalizing l with
  | zero =>
    simp only [buildMask, Outcome.ok.injEq] at h
    subst h; rfl
  | succ n ih =>
    rw [buildMask] at h
    cases h1 : buildMask f n with
    | ok l1 =>
      cases h2 : f n with
      | ok c =>
        simp only [h1, h2, Outcome.ok.injEq] at h
        subst h
        simp [ih l1 h1]
      | fail => simp [h1, h2] at h
      | ub => simp [h1, h2] at h
    | fail =>
      cases h2 : f n <;> simp [h1, h2] at h
    | ub => simp [h1] at h

theorem binop_mask (c : Char) (m2 m1 : List Char) (atoms : Nat) (m : List Char)
    (h : binop c m2 m1 atoms = Outcome.ok m) : m.length = atoms ∧ IsTF m := by
  refine ⟨?_, binop_TF c m2 m1 atoms m h⟩
  unfold binop at h
  split_ifs at h
  · exact buildMask_length _ _ _ h
  · exact buildMask_length _ _ _ h

theorem neg_mask (U : Universe) (p1 m : List Char) (hp : Readable U (some p1))
    (h : neg p1 U.atoms = Outcome.ok m) : m.length = U.atoms ∧ IsTF m := by
  have hl : U.atoms ≤ p1.length := by
    unfold neg at h
    by_contra hl
    simp [hl] at h
  obtain ⟨e1, e2⟩ := hp p1 rfl hl
  refine ⟨?_, neg_TF p1 U.atoms m e2 h⟩
  unfold neg at h
  rw [if_pos hl] at h
  simp only [Outcome.ok.injEq] at h
  rw [← h, foldl_length _ (fun m i => by simp), e1]

theorem Readable.of_mask {U : Universe} {m : List Char} (h : m.length = U.atoms ∧ IsTF m) :
    Readable U (some m) := by
  intro m2 e _
  injection e with e
  subst e
  exact h

theorem selectElemMask_readable (U : Universe) (buffer : List Char)
    (hb : buffer.head? ≠ some '<' ∧ buffer.head? ≠ some '>') :
    Readable U (selectElemMask U buffer) := by
  intro m hm hl
  refine ⟨?_, selectElemMask_TF U buffer m hb hm⟩
  cases buffer with
  | nil =>
    simp only [selectElemMask, Option.some.injEq] at hm
    subst hm
    simp only [List.length_nil] at hl ⊢
    omega
  | cons c s =>
    simp only [List.head?_cons, ne_eq, Option.some.injEq] at hb
    simp only [selectElemMask] at hm
    split_ifs at hm with h1 h2 h3 h4
    · rw [← Option.some.inj hm]; simp [resMaskLoop_length]
    · rw [← Option.some.inj hm]; simp [atomMaskLoop_length]
    · rw [← Option.some.inj hm]; simp [all_select_length]
    · exfalso
      have : c = '<' ∨ c = '>' := by simpa [strchr] using h4
      exact this.elim hb.1 hb.2

theorem popStack_cases (S : List (Option (List Char))) :
    (S = [] ∧ popStack S = (none, [])) ∨ ∃ e S2, S = e :: S2 ∧ popStack S = (e, S2) := by
  cases S with
  | nil => exact Or.inl ⟨rfl, rfl⟩
  | cons e S2 => exact Or.inr ⟨e, S2, rfl, rfl⟩

/-- Once the stack of `eval` is not empty and its single entry, if it has only one, is a
mask, it stays so: an operator leaves a mask, and an entry pushed on a stack that is not
empty is not alone. -/
theorem evalLoop_settled {Coords : Type} (U : Universe) (type : Char)
    (distd : Option (List Char) → Option (List Char) → Coords → Outcome (List Char × Coords))
    (hdistd : ∀ criteria center x m x2, distd criteria center x = Outcome.ok (m, x2) →
      m.length = U.atoms ∧ IsTF m)
    (Q b : List Char) (S S2 : List (Option (List Char))) (X X2 : Option Coords)
    (hS : Settled U S) (h : evalLoop U type distd Q b S X = Outcome.ok (S2, X2)) :
    Settled U S2 := by
  induction Q generalizing b S X with
  | nil =>
    rw [evalLoop_nil] at h
    simp only [Outcome.ok.injEq, Prod.mk.injEq] at h
    rw [← h.1]; exact hS
  | cons c Q ih =>
    have single : ∀ (m : List Char) (R : List (Option (List Char))),
        m.length = U.atoms ∧ IsTF m → Settled U (some m :: R) := by
      intro m R hm
      refine ⟨by simp, fun e he => ?_⟩
      simp only [List.cons.injEq] at he
      rw [← he.1]
      exact Readable.of_mask hm
    rw [evalLoop] at h
    by_cases h1 : c = '['
    · simp only [h1, if_true] at h; exact ih _ _ _ hS h
    simp only [h1, if_false] at h
    by_cases h2 : c = ']'
    · simp only [h2, if_true] at h
      refine ih _ _ _ ⟨by simp, fun e he => ?_⟩ h
      simp only [List.cons.injEq] at he
      exact absurd he.2 hS.1
    simp only [h2, if_false] at h
    by_cases h3 : isOperand c = true ∨ strchr [':', '@'] c = true
    · simp only [h3, if_true] at h; exact ih _ _ _ hS h
    simp only [h3, if_false] at h
    by_cases h4 : c = '&' ∨ c = '|'
    · simp only [h4, if_true] at h
      cases e1 : (popStack S).1 with
      | none => simp [e1] at h
      | some p1 =>
        cases e2 : (popStack (popStack S).2).1 with
        | none => simp [e1, e2] at h
        | some p2 =>
          simp only [e1, e2] at h
          cases e3 : binop c p2 p1 U.atoms with
          | ok m =>
            simp only [e3] at h
            exact ih _ _ _ (single m _ (binop_mask c p2 p1 U.atoms m e3)) h
          | fail => simp [e3] at h
          | ub => simp [e3] at h
    simp only [h4, if_false] at h
    by_cases h5 : strchr ['<', '>'] c = true
    · simp only [h5, if_true] at h
      by_cases h6 : Q.head? = some ':' ∨ Q.head? = some '@'
      · simp only [h6, if_true] at h; exact ih _ _ _ hS h
      · simp only [h6, if_false] at h
        cases e3 : selectDist distd (popStack S).1 (popStack (popStack S).2).1 X type with
        | ok r =>
          obtain ⟨m, x2⟩ := r
          simp only [e3] at h
          have hm : m.length = U.atoms ∧ IsTF m := by
            unfold selectDist at e3
            cases X with
            | none => simp at e3
            | some x =>
              simp only at e3
              split_ifs at e3
              exact hdistd _ _ _ _ _ e3
          exact ih _ _ _ (single m _ hm) h
        | fail => simp [e3] at h
        | ub => simp [e3] at h
    simp only [h5, if_false] at h
    by_cases h7 : c = '!'
    · simp only [h7, if_true] at h
      cases e1 : (popStack S).1 with
      | none => simp [e1] at h
      | some p1 =>
        simp only [e1] at h
        cases e3 : neg p1 U.atoms with
        | ok m =>
          simp only [e3] at h
          refine ih _ _ _ ⟨by simp, fun e he => ?_⟩ h
          simp only [List.cons.injEq] at he
          rw [← he.1]
          rcases popStack_cases S with ⟨hn, -⟩ | ⟨e0, S0, hS0, hp⟩
          · exact absurd hn hS.1
          · rw [hp] at e1 he
            simp only at e1 he
            rw [he.2, e1] at hS0
            exact Readable.of_mask (neg_mask U p1 m (hS.2 _ hS0) e3)
        | fail => simp [e3] at h
        | ub => simp [e3] at h
    simp [h7] at h

/-- On postfix text without `<` and `>`, every entry of the stack of `eval` is a mask if
it can be read as one. -/
theorem evalLoop_readable {Coords : Type} (U : Universe) (type : Char)
    (distd : Option (List Char) → Option (List Char) → Coords → Outcome (List Char × Coords))
    (Q b : List Char) (hQ : noDist Q) (hb : noDist b)
    (S S2 : List (Option (List Char))) (X X2 : Option Coords)
    (hS : ∀ e ∈ S, Readable U e) (h : evalLoop U type distd Q b S X = Outcome.ok (S2, X2)) :
    ∀ e ∈ S2, Readable U e := by
  induction Q generalizing b S X with
  | nil =>
    rw [evalLoop_nil] at h
    simp only [Outcome.ok.injEq, Prod.mk.injEq] at h
    rw [← h.1]; exact hS
  | cons c Q ih =>
    have hQt : noDist Q := fun x hx => hQ x (List.mem_cons_of_mem _ hx)
    have hc := hQ c (List.mem_cons_self _ _)
    have tail1 : ∀ e ∈ (popStack S).2, Readable U e := by
      intro e he
      rcases popStack_cases S with ⟨-, hp⟩ | ⟨e0, S0, hS0, hp⟩
      · rw [hp] at he; simp at he
      · rw [hp] at he
        exact hS e (by rw [hS0]; exact List.mem_cons_of_mem _ he)
    have tail2 : ∀ e ∈ (popStack (popStack S).2).2, Readable U e := by
      intro e he
      rcases popStack_cases (popStack S).2 with ⟨-, hp⟩ | ⟨e0, S0, hS0, hp⟩
      · rw [hp] at he; simp at he
      · rw [hp] at he
        exact tail1 e (by rw [hS0]; exact List.mem_cons_of_mem _ he)
    have top1 : ∀ p1, (popStack S).1 = some p1 → Readable U (some p1) := by
      intro p1 hp1
      rcases popStack_cases S with ⟨-, hp⟩ | ⟨e0, S0, hS0, hp⟩
      · rw [hp] at hp1; simp at hp1
      · rw [hp] at hp1
        simp only at hp1
        exact hS _ (by rw [hS0, hp1]; exact List.mem_cons_self _ _)
    have push : ∀ (e : Option (List Char)) (R : List (Option (List Char))),
        Readable U e → (∀ x ∈ R, Readable U x) → ∀ x ∈ e :: R, Readable U x := by
      intro e R he hR x hx
      rcases List.mem_cons.1 hx with hx | hx
      · rw [hx]; exact he
      · exact hR x hx
    rw [evalLoop] at h
    by_cases h1 : c = '['
    · simp only [h1, if_true] at h
      exact ih _ hQt (by intro x hx; simp at hx) _ _ hS h
    simp only [h1, if_false] at h
    by_cases h2 : c = ']'
    · simp only [h2, if_true] at h
      exact ih _ hQt hb _ _ (push _ _ (selectElemMask_readable U b (noDist_head hb)) hS) h
    simp only [h2, if_false] at h
    by_cases h3 : isOperand c = true ∨ strchr [':', '@'] c = true
    · simp only [h3, if_true] at h
      exact ih _ hQt (noDist_snoc hb hc.1 hc.2) _ _ hS h
    simp only [h3, if_false] at h
    by_cases h4 : c = '&' ∨ c = '|'
    · simp only [h4, if_true] at h
      cases e1 : (popStack S).1 with
      | none => simp [e1] at h
      | some p1 =>
        cases e2 : (popStack (popStack S).2).1 with
        | none => simp [e1, e2] at h
        | some p2 =>
          simp only [e1, e2] at h
          cases e3 : binop c p2 p1 U.atoms with
          | ok m =>
            simp only [e3] at h
            exact ih _ hQt hb _ _
              (push _ _ (Readable.of_mask (binop_mask c p2 p1 U.atoms m e3)) tail2) h
          | fail => simp [e3] at h
          | ub => simp [e3] at h
    simp only [h4, if_false] at h
    by_cases h5 : strchr ['<', '>'] c = true
    · exfalso
      have : c = '<' ∨ c = '>' := by simpa [strchr] using h5
      exact this.elim hc.1 hc.2
    simp only [h5, if_false] at h
    by_cases h7 : c = '!'
    · simp only [h7, if_true] at h
      cases e1 : (popStack S).1 with
      | none => simp [e1] at h
      | some p1 =>
        simp only [e1] at h
        cases e3 : neg p1 U.atoms with
        | ok m =>
          simp only [e3] at h
          exact ih _ hQt hb _ _
            (push _ _ (Readable.of_mask (neg_mask U p1 m (top1 p1 e1) e3)) tail1) h
        | fail => simp [e3] at h
        | ub => simp [e3] at h
    simp [h7] at h

/-- A postfix text without `<` and `>` evaluates to a mask. -/
theorem eval_plain_mask {Coords : Type} (U : Universe) (X : Option Coords) (type : Char)
    (distd : Option (List Char) → Option (List Char) → Coords → Outcome (List Char × Coords))
    (r m : List Char) (hr : noDist r) (h : eval U X type distd r = Outcome.ok m) :
    m.length = U.atoms ∧ IsTF m := by
  obtain ⟨X2, hrun, hl⟩ := eval_ok_stack U X type distd r m h
  have := evalLoop_readable U type distd r [] hr (by intro x hx; simp at hx) [] _ X X2
    (by intro e he; simp at he) hrun
  exact this (some m) (List.mem_singleton.2 rfl) m rfl hl

/-- A postfix text that reaches a distance operator evaluates to a mask, given that the
distance selection returns masks. -/
theorem eval_dist_mask {Coords : Type} (U : Universe) (X : Option Coords) (type : Char)
    (distd : Option (List Char) → Option (List Char) → Coords → Outcome (List Char × Coords))
    (hdistd : ∀ criteria center x m x2, distd criteria center x = Outcome.ok (m, x2) →
      m.length = U.atoms ∧ IsTF m)
    (A : List Char) (c : Char) (Q : List Char) (hc : c = '<' ∨ c = '>')
    (hQ : Q.head? ≠ some ':' ∧ Q.head? ≠ some '@') (m : List Char)
    (h : eval U X type distd (A ++ c :: Q) = Outcome.ok m) :
    m.length = U.atoms ∧ IsTF m := by
  obtain ⟨X2, hrun, hl⟩ := eval_ok_stack U X type distd _ m h
  have hne : c ≠ ':' ∧ c ≠ '@' := by
    rcases hc with e | e <;> subst e <;> decide
  have happ := evalLoop_append U type distd A (c :: Q) (by simp [hne.1, hne.2]) [] [] X
  cases hA : evalLoop U type distd A [] [] X with
  | fail => rw [hA] at happ; simp only at happ; rw [happ] at hrun; simp at hrun
  | ub => rw [hA] at happ; simp only at happ; rw [happ] at hrun; simp at hrun
  | ok p =>
    obtain ⟨S1, X1⟩ := p
    rw [hA] at happ
    obtain ⟨b2, hb2⟩ := happ
    rw [hb2] at hrun
    have h1 : c ≠ '[' ∧ c ≠ ']' ∧ ¬ (isOperand c = true ∨ strchr [':', '@'] c = true) ∧
        ¬ (c = '&' ∨ c = '|') ∧ strchr ['<', '>'] c = true := by
      rcases hc with e | e <;> subst e <;> decide
    rw [evalLoop] at hrun
    simp only [h1.1, h1.2.1, h1.2.2.1, h1.2.2.2.1, h1.2.2.2.2, if_false, if_true, hQ.1,
      hQ.2, or_self] at hrun
    cases e3 : selectDist distd (popStack S1).1 (popStack (popStack S1).2).1 X1 type with
    | fail => simp [e3] at hrun
    | ub => simp [e3] at hrun
    | ok r =>
      obtain ⟨pm, x2⟩ := r
      simp only [e3] at hrun
      have hm : pm.length = U.atoms ∧ IsTF pm := by
        unfold selectDist at e3
        cases X1 with
        | none => simp at e3
        | some x =>
          simp only at e3
          split_ifs at e3
          exact hdistd _ _ _ _ _ e3
      have hset : Settled U (some pm :: (popStack (popStack S1).2).2) := by
        refine ⟨by simp, fun e he => ?_⟩
        simp only [List.cons.injEq] at he
        rw [← he.1]
        exact Readable.of_mask hm
      have := evalLoop_settled U type distd hdistd Q b2 _ _ _ X2 hset hrun
      exact this.2 (some m) rfl m rfl hl

/-! ## Where a distance operator stands in the postfix text -/

theorem outside_split (r : List Char) (fl : Bool) (c : Char) (h : c ∈ outsideOf r fl) :
    ∃ A Q, r = A ++ c :: Q ∧
      ∀ d, Q.head? = some d → d = '[' ∨ d = ']' ∨ d ∈ outsideOf r fl := by
  induction r generalizing fl with
  | nil => simp [outsideOf] at h
  | cons a r ih =>
    have lift : ∀ fl1, outsideOf (a :: r) fl = outsideOf r fl1 → c ∈ outsideOf r fl1 →
        ∃ A Q, a :: r = A ++ c :: Q ∧
          ∀ d, Q.head? = some d → d = '[' ∨ d = ']' ∨ d ∈ outsideOf (a :: r) fl := by
      intro fl1 ho hc
      obtain ⟨A, Q, e, hd⟩ := ih fl1 hc
      exact ⟨a :: A, Q, by rw [e]; rfl, fun d hdq => by rw [ho]; exact hd d hdq⟩
    by_cases h1 : a = '['
    · have ho : outsideOf (a :: r) fl = outsideOf r true := by simp [outsideOf, h1]
      exact lift true ho (by rw [← ho]; exact h)
    by_cases h2 : a = ']'
    · have ho : outsideOf (a :: r) fl = outsideOf r false := by simp [outsideOf, h1, h2]
      exact lift false ho (by rw [← ho]; exact h)
    by_cases h3 : fl = true
    · subst h3
      have ho : outsideOf (a :: r) true = outsideOf r true := by simp [outsideOf, h1, h2]
      exact lift true ho (by rw [← ho]; exact h)
    have h3 : fl = false := by simpa using h3
    subst h3
    have ho : outsideOf (a :: r) false = a :: outsideOf r false := by
      simp [outsideOf, h1, h2]
    rw [ho] at h
    rcases List.mem_cons.1 h with e | h
    · subst e
      refine ⟨[], r, rfl, fun d hd => ?_⟩
      cases r with
      | nil => simp at hd
      | cons x r2 =>
        simp only [List.head?_cons, Option.some.injEq] at hd
        subst hd
        by_cases e1 : x = '['
        · exact Or.inl e1
        by_cases e2 : x = ']'
        · exact Or.inr (Or.inl e2)
        right; right
        rw [ho]
        have : outsideOf (x :: r2) false = x :: outsideOf r2 false := by
          simp [outsideOf, e1, e2]
        rw [this]
        simp
    · obtain ⟨A, Q, e, hd⟩ := ih false h
      refine ⟨a :: A, Q, by rw [e]; rfl, fun d hdq => ?_⟩
      rcases hd d hdq with e1 | e1 | e1
      · exact Or.inl e1
      · exact Or.inr (Or.inl e1)
      · right; right
        rw [ho]
        exact List.mem_cons_of_mem _ e1

/-- In the postfix text of an accepted expression, a `<` or `>` anywhere means that one
stands in operator position: outside brackets and followed by neither `:` nor `@`. -/
theorem rpn_distance_operator (s t r : List Char) (ht : tokenize s = some t)
    (hr : torpn t = Outcome.ok r) (h : ¬ noDist r) :
    ∃ A c Q, r = A ++ c :: Q ∧ (c = '<' ∨ c = '>') ∧
      Q.head? ≠ some ':' ∧ Q.head? ≠ some '@' := by
  obtain ⟨T, hT, hb, ho, hi, hdist⟩ := tokenize_shape s t ht
  subst hT
  rw [torpn_erase] at hr
  rcases torpnTraced_stream T ho hb with h2 | ⟨r2, h2, hin, hout, hperm⟩
  · rw [h2] at hr
    exact absurd hr (by simp [Traced.erase])
  rw [h2] at hr
  simp only [Traced.erase, Outcome.ok.injEq] at hr
  subst hr
  have hex : ∃ c ∈ r2, c = '<' ∨ c = '>' := by
    unfold noDist at h
    push_neg at h
    obtain ⟨c, hc, hcd⟩ := h
    refine ⟨c, hc, ?_⟩
    by_cases e : c = '<'
    · exact Or.inl e
    · exact Or.inr (hcd e)
  obtain ⟨c, hc, hcd⟩ := hex
  have hexo : ∃ c ∈ outsideOf r2 false, c = '<' ∨ c = '>' := by
    rcases mem_inside_or_outside r2 false c hc with h1 | h1
    · rw [hin] at h1
      obtain ⟨c2, hc2, hcd2⟩ := hdist ⟨c, h1, hcd⟩
      have hop : isOperator c2 = true := by
        rcases hcd2 with e | e <;> subst e <;> decide
      have : c2 ∈ operatorsOf (outsideOf T false) := by
        unfold operatorsOf
        exact List.mem_filter.2 ⟨hc2, hop⟩
      exact ⟨c2, hperm.symm.subset this, hcd2⟩
    · exact ⟨c, h1, hcd⟩
  obtain ⟨c2, hc2, hcd2⟩ := hexo
  obtain ⟨A, Q, e, hd⟩ := outside_split r2 false c2 hc2
  refine ⟨A, c2, Q, e, hcd2, ?_, ?_⟩
  · intro hq
    rcases hd ':' hq with e1 | e1 | e1
    · exact absurd e1 (by decide)
    · exact absurd e1 (by decide)
    · exact absurd (hout ':' e1) (by decide)
  · intro hq
    rcases hd '@' hq with e1 | e1 | e1
    · exact absurd e1 (by decide)
    · exact absurd e1 (by decide)
    · exact absurd (hout '@' e1) (by decide)

/-- Whenever `parseMaskString` succeeds, with a distance selection that returns masks,
the result is a mask of the universe. -/
theorem parseMaskString_mask {Coords : Type} (U : Universe) (X : Option Coords) (type : Char)
    (distd : Option (List Char) → Option (List Char) → Coords → Outcome (List Char × Coords))
    (hdistd : ∀ criteria center x m x2, distd criteria center x = Outcome.ok (m, x2) →
      m.length = U.atoms ∧ IsTF m)
    (s m : List Char) (h : parseMaskString U X type distd s = Outcome.ok m) :
    m.length = U.atoms ∧ IsTF m := by
  unfold parseMaskString at h
  cases ht : tokenize s with
  | none => simp [ht] at h
  | some t =>
    simp only [ht] at h
    cases hr : torpn t with
    | fail => simp [hr] at h
    | ub => simp [hr] at h
    | ok r =>
      simp only [hr] at h
      by_cases hn : noDist r
      · exact eval_plain_mask U X type distd r m hn h
      · obtain ⟨A, c, Q, e, hc, hQ1, hQ2⟩ := rpn_distance_operator s t r ht hr hn
        subst e
        exact eval_dist_mask U X type distd hdistd A c Q hc ⟨hQ1, hQ2⟩ m h

/-! ## C33: the result is a selection vector -/

/-- C33: whenever `parseMaskString` succeeds (any expression, any universe, with or
without coordinates, `selectDistd` run with any floating-point operations and any fuel),
the vector returned has exactly `atoms` entries and each entry is `'T'` or `'F'`; in
particular it is not the text of a distance criterion, which starts with `<` or `>`. -/
theorem C33_result_is_selection_vector {F : Type} (ops : FloatOps F) (fuel : Nat)
    (U : Universe) (X : Option (List F)) (type : Char) (s m : List Char)
    (h : parseMaskString U X type (distdOf ops fuel U) s = Outcome.ok m) :
    m.length = U.atoms ∧ IsTF m ∧ m.head? ≠ some '<' ∧ m.head? ≠ some '>' := by
  obtain ⟨h1, h2⟩ := parseMaskString_mask U X type (distdOf ops fuel U)
    (fun criteria center x m x2 hd => distdOf_mask ops fuel U criteria center x m x2 hd) s m h
  refine ⟨h1, h2, ?_, ?_⟩
  · intro e
    cases m with
    | nil => simp at e
    | cons a m =>
      simp only [List.head?_cons, Option.some.injEq] at e
      have := h2 a (List.mem_cons_self _ _)
      rw [e] at this
      revert this; decide
  · intro e
    cases m with
    | nil => simp at e
    | cons a m =>
      simp only [List.head?_cons, Option.some.injEq] at e
      have := h2 a (List.mem_cons_self _ _)
      rw [e] at this
      revert this; decide

set_option maxRecDepth 100000 in
/-- C33 on three particles at `(0,0,0)`, `(10,0,0)`, `(0,0,5)` and the expression
`@2,3<@4` in exact integer arithmetic: the result `FTT` has three entries `'T'`/`'F'`. -/
theorem C33_result_is_selection_vector_witness :
    ['F', 'T', 'T'].length =
        (⟨3, 1, List.replicate 3 ['C', 'A'], [['A']], [1, 4]⟩ : Universe).atoms ∧
      IsTF ['F', 'T', 'T'] ∧ ['F', 'T', 'T'].head? ≠ some '<' ∧
      ['F', 'T', 'T'].head? ≠ some '>' :=
  C33_result_is_selection_vector intOps 4
    ⟨3, 1, List.replicate 3 ['C', 'A'], [['A']], [1, 4]⟩
    (some [0, 0, 0, 10, 0, 0, 0, 0, 5]) 'd' ['@', '2', ',', '3', '<', '@', '4']
    ['F', 'T', 'T'] (by decide)

end Ptrajmask
